import Mathlib

/-!
# Othello board rules and search (`inc/Board.hpp`, `inc/OthelloBot.hpp`, `inc/SearchTree.hpp`)

A shallow embedding of the board engine of the Othello program: the 8x8 grid,
the legality test `isValidMove` with its three directional checks, `resolve`,
`updateScore`, the legal-move cache `updatePossibleStates`, `place` and
`isGameOver`; and of the move search built on it: the two `minimax` overloads
of `OthelloBot`, `getBestMove`, and the `SearchNode` tree they build.

Conventions of the embedding.

* C `int` values are `Int`.  Every arithmetic step of the board code is
  `±1` on a coordinate that a bounds test has put in `-1..8`, or `+1` on a
  counter that is at most 64, so no machine operation can overflow.  The
  search subtracts two counters and compares with `INT_MIN` / `INT_MAX`.
* C `char` values are `Char`.
* `char board[8][8]` is a function on `Fin 8 × Fin 8`.  The code indexes it with
  `int`s; `Grid.get` is that indexed read.
* Every `while` loop of the source walks a ray on the board.  It is modelled
  by recursion on a step budget; the budget given at each call site is 8, and
  `rayLoop_fuel` / `collectLoop_fuel` show that a larger budget never changes
  the result, i.e. the loop has always exited by itself.
* `std::unordered_map<std::string, State>` is an association list holding each
  key once, in insertion order.  A range-based `for` over the map visits its
  entries in an order that the language does not fix; the search takes that
  order as the parameter `IterOrder`, and what is proved for every `IterOrder`
  holds whatever the standard library does.  The order is not a function of
  the entries alone: `possibleStates.clear()` keeps the bucket array, so two
  states with the same grid and turn may have their caches visited in
  different orders.  Two such calls are therefore given two `IterOrder`s;
  `bucketOrder` is the order that libstdc++ takes on three particular keys
  with 13 and with 29 buckets.
* The recursion of `minimax` is modelled by recursion on a call budget;
  `minimax_fuel` / `minimaxAB_fuel` show that every budget above the number
  of moves still playable gives the same result, and `searchFuel_enough` that
  the budget passed by `getBestMove` is such a budget.
* `shared_ptr<SearchNode>` children are owned values: a node is the subtree
  under it, as it is when the call that builds it returns.  No child is null:
  the only code that appends to `children` pushes a `make_shared` node.  The
  functions of `SearchTree` recurse on the tree itself; their `for` loops over
  `children` are the `...Loop` functions.
* The visitor of `traverse` is a change of some state at each call.
* For the claims on array bounds `isValidMove` and `resolve` are translated a
  second time, with every access to `board` checked (`...Checked`): the result
  is `none` as soon as an index is outside `0..7`.
-/

namespace Board

/-- The array `char board[8][8]`. -/
abbrev Grid := Fin 8 → Fin 8 → Char

/-- The character of an empty cell, `' '`. -/
def EMPTY : Char := Char.ofNat 32

/-- The read `board[r][c]` with `int` indices.  Inside the board it is the
stored character.  A read outside the array is undefined in C; the model
answers the NUL character, which is none of the characters the code compares
a cell with. -/
def Grid.get (g : Grid) (r c : Int) : Char :=
  if h : 0 ≤ r ∧ r < 8 ∧ 0 ≤ c ∧ c < 8 then
    g ⟨r.toNat, by omega⟩ ⟨c.toNat, by omega⟩
  else Char.ofNat 0

/-- The write `board[r][c] = v` with `int` indices. -/
def Grid.set (g : Grid) (r c : Int) (v : Char) : Grid :=
  fun i j => if (i.val : Int) = r ∧ (j.val : Int) = c then v else g i j

/-- `struct State`. -/
structure State where
  board : Grid
  turn : Char
  white : Int
  black : Int
  possibleStates : List (String × State)

/-- `std::to_string(row) + ":" + std::to_string(col)`. -/
def key (row col : Int) : String := toString row ++ ":" ++ toString col

/-- `map.find(k) != map.end()`. -/
def mapContains (m : List (String × State)) (k : String) : Bool :=
  m.any (fun e => e.1 == k)

/-- The value stored under `k`, if any. -/
def mapFind (m : List (String × State)) (k : String) : Option State :=
  (m.find? (fun e => e.1 == k)).map Prod.snd

/-- The assignment `map[k] = v`: overwrite the entry of `k`, or add one. -/
def mapInsert : List (String × State) → String → State → List (String × State)
  | [], k, v => [(k, v)]
  | e :: m, k, v => if e.1 == k then (k, v) :: m else e :: mapInsert m k v

/-- The 64 cells in the order of `for row in 0..7: for col in 0..7`. -/
def cells : List (Int × Int) :=
  (List.range 8).flatMap (fun (row : Nat) =>
    (List.range 8).map (fun (col : Nat) => ((row : Int), (col : Int))))

/-- The opponent colour as every function of the source computes it:
`(currentPlayer == 'b') ? 'w' : 'b'`. -/
def opponentOf (currentPlayer : Char) : Char :=
  if currentPlayer = 'b' then 'w' else 'b'

/-- The loop
`while (guard && board[tempRow][tempCol] == opponent)
   { hasOpponentBetween = true; tempRow += rowDir; tempCol += colDir; }`
shared by the three directional checks; `guard` is the bounds part of the loop
condition, which differs between them.  Returns the final `tempRow`, `tempCol`
and `hasOpponentBetween`. -/
def rayLoop (guard : Int → Int → Bool) (g : Grid) (opponent : Char) (rowDir colDir : Int) :
    Nat → Int → Int → Bool → Int × Int × Bool
  | 0, tempRow, tempCol, hasOpponentBetween => (tempRow, tempCol, hasOpponentBetween)
  | fuel + 1, tempRow, tempCol, hasOpponentBetween =>
    if guard tempRow tempCol && g.get tempRow tempCol == opponent then
      rayLoop guard g opponent rowDir colDir fuel (tempRow + rowDir) (tempCol + colDir) true
    else (tempRow, tempCol, hasOpponentBetween)

/-- `checkVertical`. -/
def checkVertical (row col : Int) (state : State) : Bool :=
  if state.board.get row col ≠ EMPTY then false else
  let currentPlayer := state.turn
  let opponent := opponentOf currentPlayer
  let up := rayLoop (fun r _ => decide (r ≥ 0)) state.board opponent (-1) 0 8 (row - 1) col false
  let foundUp := up.2.2 && decide (up.1 ≥ 0) && state.board.get up.1 col == currentPlayer
  let down := rayLoop (fun r _ => decide (r < 8)) state.board opponent 1 0 8 (row + 1) col false
  let foundDown := down.2.2 && decide (down.1 < 8) && state.board.get down.1 col == currentPlayer
  foundUp || foundDown

/-- `checkHorizontal`. -/
def checkHorizontal (row col : Int) (state : State) : Bool :=
  if state.board.get row col ≠ EMPTY then false else
  let currentPlayer := state.turn
  let opponent := opponentOf currentPlayer
  let left := rayLoop (fun _ c => decide (c ≥ 0)) state.board opponent 0 (-1) 8 row (col - 1) false
  let foundLeft := left.2.2 && decide (left.2.1 ≥ 0) && state.board.get row left.2.1 == currentPlayer
  let right := rayLoop (fun _ c => decide (c < 8)) state.board opponent 0 1 8 row (col + 1) false
  let foundRight :=
    right.2.2 && decide (right.2.1 < 8) && state.board.get row right.2.1 == currentPlayer
  foundLeft || foundRight

/-- The bounds test `tempRow >= 0 && tempRow < 8 && tempCol >= 0 && tempCol < 8`. -/
def inBoard (r c : Int) : Bool :=
  decide (r ≥ 0) && decide (r < 8) && decide (c ≥ 0) && decide (c < 8)

/-- The array `directions[4][2]` of `checkDiagonal`. -/
def diagonalDirections : List (Int × Int) := [(-1, -1), (-1, 1), (1, -1), (1, 1)]

/-- `checkDiagonal`: the `for` loop over the four directions stops at the first
direction that captures (`foundCapture = true; break;`). -/
def checkDiagonal (row col : Int) (state : State) : Bool :=
  if state.board.get row col ≠ EMPTY then false else
  let currentPlayer := state.turn
  let opponent := opponentOf currentPlayer
  diagonalDirections.any (fun d =>
    let r := rayLoop inBoard state.board opponent d.1 d.2 8 (row + d.1) (col + d.2) false
    r.2.2 && inBoard r.1 r.2.1 && state.board.get r.1 r.2.1 == currentPlayer)

/-- `isValidMove`. -/
def isValidMove (row col : Int) (state : State) : Bool :=
  if row < 0 ∨ row ≥ 8 ∨ col < 0 ∨ col ≥ 8 then false
  else if state.board.get row col ≠ EMPTY then false
  else checkVertical row col state || checkHorizontal row col state || checkDiagonal row col state

/-- The array `directions[8][2]` of `resolve`. -/
def directions : List (Int × Int) :=
  [(-1, -1), (-1, 0), (-1, 1), (0, -1), (0, 1), (1, -1), (1, 0), (1, 1)]

/-- The loop of `resolve` that walks a ray and pushes the opponent cells on
`toFlip`.  Returns the final `tempRow`, `tempCol` and `toFlip`. -/
def collectLoop (g : Grid) (opponent : Char) (rowDir colDir : Int) :
    Nat → Int → Int → List (Int × Int) → Int × Int × List (Int × Int)
  | 0, tempRow, tempCol, toFlip => (tempRow, tempCol, toFlip)
  | fuel + 1, tempRow, tempCol, toFlip =>
    if inBoard tempRow tempCol && g.get tempRow tempCol == opponent then
      collectLoop g opponent rowDir colDir fuel (tempRow + rowDir) (tempCol + colDir)
        (toFlip ++ [(tempRow, tempCol)])
    else (tempRow, tempCol, toFlip)

/-- The loop `for (auto& pos : toFlip) board[pos.first][pos.second] = currentPlayer`. -/
def flipAll (g : Grid) (toFlip : List (Int × Int)) (currentPlayer : Char) : Grid :=
  toFlip.foldl (fun b pos => b.set pos.1 pos.2 currentPlayer) g

/-- The body of the `for (dir ...)` loop of `resolve`, on the grid of
`newState` as the earlier directions have left it. -/
def resolveDir (row col : Int) (currentPlayer opponent : Char) (g : Grid) (d : Int × Int) :
    Grid :=
  let r := collectLoop g opponent d.1 d.2 8 (row + d.1) (col + d.2) []
  if !r.2.2.isEmpty && inBoard r.1 r.2.1 && g.get r.1 r.2.1 == currentPlayer then
    flipAll g r.2.2 currentPlayer
  else g

/-- `resolve`. -/
def resolve (row col : Int) (state : State) : State :=
  if !isValidMove row col state then state
  else
    let currentPlayer := state.turn
    let opponent := opponentOf currentPlayer
    { board := directions.foldl (resolveDir row col currentPlayer opponent)
        (state.board.set row col state.turn)
      turn := opponent
      white := state.white
      black := state.black
      possibleStates := [] }

/-- `updateScore`: the counters are reset and every cell is visited once. -/
def updateScore (state : State) : State :=
  cells.foldl
    (fun st rc =>
      if st.board.get rc.1 rc.2 = 'w' then { st with white := st.white + 1 }
      else if st.board.get rc.1 rc.2 = 'b' then { st with black := st.black + 1 }
      else st)
    { state with white := 0, black := 0 }

/-- The body of the double loop of `State::updatePossibleStates`, run on
`*this` for the cell `rc`. -/
def updateStep (this : State) (rc : Int × Int) : State :=
  if isValidMove rc.1 rc.2 this then
    let newState := resolve rc.1 rc.2 this
    let newState := { newState with turn := if this.turn = 'b' then 'w' else 'b' }
    let newState := updateScore newState
    { this with possibleStates := mapInsert this.possibleStates (key rc.1 rc.2) newState }
  else this

/-- `State::updatePossibleStates`. -/
def State.updatePossibleStates (this : State) : State :=
  cells.foldl updateStep { this with possibleStates := [] }

/-- `State::place`. -/
def State.place (this : State) (row col : Int) : State :=
  match mapFind this.possibleStates (key row col) with
  | some s => s
  | none => this

/-- `State::clear`: only the grid and the turn are assigned. -/
def State.clear (this : State) : State :=
  { this with
    board := ((((cells.foldl (fun b rc => b.set rc.1 rc.2 EMPTY) this.board).set 3 3 'w').set
      3 4 'b').set 4 3 'b').set 4 4 'w'
    turn := 'b' }

/-- The constructor `State() { clear(); }` with the default member initialisers
`turn = 'b'`, `white = 2`, `black = 2`.  The array is not initialised before
`clear` runs; `clear` overwrites all of it. -/
def State.new : State :=
  State.clear
    { board := fun _ _ => Char.ofNat 0, turn := 'b', white := 2, black := 2, possibleStates := [] }

/-- `isGameOver`, with the state it leaves behind (the function takes
`State&` and refreshes its cache). -/
def isGameOver (state : State) : Bool × State :=
  let state := state.updatePossibleStates
  if !state.possibleStates.isEmpty then (false, state)
  else
    let tempState := { state with turn := if state.turn = 'b' then 'w' else 'b' }
    let tempState := tempState.updatePossibleStates
    (tempState.possibleStates.isEmpty, state)

/-! ## Specification-side notions -/

/-- Number of contiguous cells holding `opponent` met when walking from
`(r, c)` in steps of `(rowDir, colDir)`, looking at no more than `n` cells. -/
def runLen (g : Grid) (opponent : Char) (rowDir colDir : Int) : Nat → Int → Int → Nat
  | 0, _, _ => 0
  | n + 1, r, c =>
    if inBoard r c && g.get r c == opponent then
      runLen g opponent rowDir colDir n (r + rowDir) (c + colDir) + 1
    else 0

/-- The cells `(r + i*dr, c + i*dc)` for `i < n`, in walking order. -/
def rayCells (dr dc : Int) (r c : Int) (n : Nat) : List (Int × Int) :=
  (List.range n).map (fun (i : Nat) => (r + (i : Int) * dr, c + (i : Int) * dc))

/-- Specification: `c` is a disc of the colour that is not to move. -/
def IsOpponentDisc (turn c : Char) : Prop := (c = 'b' ∨ c = 'w') ∧ c ≠ turn

/-- Specification of a capture from `(row, col)` along `d`: the first `k ≥ 1`
cells walked are inside the board and hold opponent discs, and the next cell is
still inside the board and holds a disc of the mover `me`. -/
def Bracket (g : Grid) (me : Char) (isOpp : Char → Prop) (row col : Int) (d : Int × Int)
    (k : Nat) : Prop :=
  1 ≤ k ∧
  (∀ i : Nat, i < k →
    inBoard (row + ((i : Int) + 1) * d.1) (col + ((i : Int) + 1) * d.2) = true ∧
    isOpp (g.get (row + ((i : Int) + 1) * d.1) (col + ((i : Int) + 1) * d.2))) ∧
  inBoard (row + ((k : Int) + 1) * d.1) (col + ((k : Int) + 1) * d.2) = true ∧
  g.get (row + ((k : Int) + 1) * d.1) (col + ((k : Int) + 1) * d.2) = me

/-- Number of discs captured from `(row, col)` along `d`: the length of the run
of opponent discs that starts next to `(row, col)` when that run is followed,
inside the board, by a disc of the mover `me`; zero otherwise. -/
def capturedIn (g : Grid) (me opp : Char) (row col : Int) (d : Int × Int) : Nat :=
  let n := runLen g opp d.1 d.2 8 (row + d.1) (col + d.2)
  if inBoard (row + ((n : Int) + 1) * d.1) (col + ((n : Int) + 1) * d.2) &&
      g.get (row + ((n : Int) + 1) * d.1) (col + ((n : Int) + 1) * d.2) == me then n
  else 0

/-- Specification: `d` is one of the eight compass directions. -/
def IsCompass (d : Int × Int) : Prop :=
  -1 ≤ d.1 ∧ d.1 ≤ 1 ∧ -1 ≤ d.2 ∧ d.2 ≤ 1 ∧ d ≠ (0, 0)

/-- The cell `(r, c)` is flipped by a capture along `d`: it is one of the
`capturedIn` cells next to `(row, col)` in that direction. -/
def FlippedAlong (g : Grid) (me opp : Char) (row col : Int) (d : Int × Int) (r c : Int) : Prop :=
  ∃ i : Nat, i < capturedIn g me opp row col d ∧
    r = row + ((i : Int) + 1) * d.1 ∧ c = col + ((i : Int) + 1) * d.2

instance (g : Grid) (me opp : Char) (row col : Int) (d : Int × Int) (r c : Int) :
    Decidable (FlippedAlong g me opp row col d r c) := by
  unfold FlippedAlong; infer_instance

/-- Specification: the cell `(r, c)` lies on a run of contiguous opponent discs
that starts next to `(row, col)` in one of the eight directions and ends, on the
grid `g`, at a disc of the mover inside the board. -/
def OnCapturedRun (g : Grid) (me opp : Char) (row col r c : Int) : Prop :=
  ∃ d, IsCompass d ∧ ∃ k i : Nat, Bracket g me (fun x => x = opp) row col d k ∧ i < k ∧
    r = row + ((i : Int) + 1) * d.1 ∧ c = col + ((i : Int) + 1) * d.2

/-- Number of cells of the grid that hold the character `ch`. -/
def tally (g : Grid) (ch : Char) : Nat :=
  cells.countP (fun rc => g.get rc.1 rc.2 == ch)

/-- Specification: the total `F` of a move, the sum over the eight directions
of the lengths of the opponent runs that start next to the move and are
followed by a mover's disc. -/
def flipTotal (g : Grid) (me opp : Char) (row col : Int) : Nat :=
  (directions.map (capturedIn g me opp row col)).sum

/-- Number of cells that hold `opp` in `g` and `me` in `g2`. -/
def changedCount (g g2 : Grid) (opp me : Char) : Nat :=
  cells.countP (fun rc => g.get rc.1 rc.2 == opp && g2.get rc.1 rc.2 == me)

/-- The state that `updatePossibleStates` stores for the legal cell `rc` of
`s`: `resolve`, then the turn assignment, then `updateScore`. -/
def successor (s : State) (rc : Int × Int) : State :=
  updateScore { resolve rc.1 rc.2 s with turn := if s.turn = 'b' then 'w' else 'b' }

/-- The states reached from a freshly constructed `State` by finitely many
calls of `updatePossibleStates`, `place` and `isGameOver`. -/
inductive Reachable : State → Prop
  | fresh : Reachable State.new
  | update (s : State) : Reachable s → Reachable s.updatePossibleStates
  | place (s : State) (row col : Int) : Reachable s → Reachable (s.place row col)
  | gameOver (s : State) : Reachable s → Reachable (isGameOver s).2

/-- The counters of the state are the tallies of its grid. -/
def CountsOk (s : State) : Prop :=
  s.white = (tally s.board 'w' : Nat) ∧ s.black = (tally s.board 'b' : Nat)

/-! ## The search (`inc/SearchTree.hpp`, `inc/OthelloBot.hpp`) -/

/-- `struct SearchNode`.  The `shared_ptr` children are owned values. -/
structure SearchNode where
  row : Int
  col : Int
  heuristic : Int
  depth : Int
  maximizing : Bool
  turn : Char
  whiteScore : Int
  blackScore : Int
  moveSequence : String
  children : List SearchNode

/-- A default-constructed node, `std::make_shared<SearchNode>()`. -/
def SearchNode.new : SearchNode :=
  { row := -1, col := -1, heuristic := 0, depth := 0, maximizing := false, turn := EMPTY,
    whiteScore := 0, blackScore := 0, moveSequence := "", children := [] }

/-- `class SearchTree`: the root pointer (null is `none`) and the node count. -/
structure SearchTree where
  m_root : Option SearchNode
  m_nodeCount : Nat

/-- The data members of `class OthelloBot`. -/
structure OthelloBot where
  m_depth : Int
  m_alphaBetaOn : Bool
  m_searchTree : SearchTree
  m_statesExamined : Nat

/-- `INT_MIN` of a 32-bit `int`. -/
def INT_MIN : Int := -2147483648

/-- `INT_MAX` of a 32-bit `int`. -/
def INT_MAX : Int := 2147483647

/-- The order in which a range-based `for` visits the entries of a
`std::unordered_map`.  The C++ standard does not fix it: it is some
enumeration of the entries, each once, determined by the map.  The map is given
by its entries in insertion order. -/
structure IterOrder where
  enum : List (String × State) → List (String × State)
  perm : ∀ m, (enum m).Perm m

/-- The enumeration that visits the entries in the order of their insertion. -/
def IterOrder.insertion : IterOrder :=
  { enum := fun m => m, perm := fun m => List.Perm.refl m }

/-- The enumeration that visits the most recently inserted entry first. -/
def IterOrder.reversed : IterOrder :=
  { enum := fun m => m.reverse, perm := fun m => List.reverse_perm m }

/-- The value of a run of decimal digits. -/
def digitsValue (ds : List Char) : Nat :=
  (ds.takeWhile Char.isDigit).foldl (fun acc ch => 10 * acc + (ch.toNat - 48)) 0

/-- `std::stoi` on the text of a key part: an optional `-` and decimal digits,
as `std::to_string` writes an `int`. -/
def stoi (s : List Char) : Int :=
  match s with
  | '-' :: ds => -(digitsValue ds : Int)
  | ds => (digitsValue ds : Int)

/-- `std::stoi(key.substr(0, colonPos))` with `colonPos = key.find(':')`. -/
def keyRow (key : String) : Int :=
  stoi (key.data.takeWhile (fun ch => ch != ':'))

/-- `std::stoi(key.substr(colonPos + 1))` with `colonPos = key.find(':')`.
Every key of the cache contains a colon. -/
def keyCol (key : String) : Int :=
  stoi ((key.data.dropWhile (fun ch => ch != ':')).drop 1)

/-- The child node that each of the three child loops builds for the entry
`(key, nextState)` before it calls `minimax`; the loops differ in the `depth`,
`maximizing` and `moveSequence` they write. -/
def makeChild (key : String) (nextState : State) (depth : Int) (maximizing : Bool)
    (moveSequence : String) : SearchNode :=
  { row := keyRow key, col := keyCol key, heuristic := 0, depth := depth,
    maximizing := maximizing, turn := nextState.turn, whiteScore := nextState.white,
    blackScore := nextState.black, moveSequence := moveSequence, children := [] }

/-- What a call of `minimax` leaves: the returned value, the node it was given
(with its heuristic and children written), and `m_statesExamined`. -/
abbrev SearchResult := Int × SearchNode × Nat

/-- The child loop of `minimax` without pruning, over the entries still to
visit.  `eval` is the recursive call `minimax(nextState, childNode, depth - 1,
!maximizing)`.  The two branches of the source (`if (maximizing)` / `else`) are
the same loop with `std::max` / `std::min` and with `false` / `true` written to
the child. -/
def childLoop (eval : State → SearchNode → Nat → SearchResult) (maximizing : Bool)
    (depth : Int) :
    List (String × State) → SearchNode → Int → Nat → SearchResult
  | [], node, best, n => (best, node, n)
  | (key, nextState) :: rest, node, best, n =>
    let childNode :=
      makeChild key nextState depth (!maximizing) (node.moveSequence ++ " -> " ++ key)
    let r := eval nextState childNode n
    let childNode := { r.2.1 with heuristic := r.1 }
    let node := { node with children := node.children ++ [childNode] }
    childLoop eval maximizing depth rest node
      (if maximizing then max best r.1 else min best r.1) r.2.2

/-- `OthelloBot::minimax` without pruning.  The recursion is on a call budget;
`minimax_fuel` shows that a budget above the number of empty cells is never
used up. -/
def minimax (ord : IterOrder) :
    Nat → State → SearchNode → Int → Bool → Nat → SearchResult
  | 0, state, node, _, _, n =>
    (state.white - state.black, { node with heuristic := state.white - state.black }, n)
  | fuel + 1, state, node, depth, maximizing, n =>
    let n := n + 1
    if depth = 0 then
      (state.white - state.black, { node with heuristic := state.white - state.black }, n)
    else
      let state := state.updatePossibleStates
      if state.possibleStates.isEmpty then
        (state.white - state.black, { node with heuristic := state.white - state.black }, n)
      else
        let r := childLoop (fun s c k => minimax ord fuel s c (depth - 1) (!maximizing) k)
          maximizing depth (ord.enum state.possibleStates) node
          (if maximizing then INT_MIN else INT_MAX) n
        (r.1, { r.2.1 with heuristic := r.1 }, r.2.2)

/-- The child loop of `minimax` with alpha-beta pruning.  `eval` is the
recursive call with the current `alpha` and `beta`.  The maximizing branch
updates `alpha`, the minimizing branch `beta`; both `break` on
`beta <= alpha`. -/
def childLoopAB (eval : State → SearchNode → Int → Int → Nat → SearchResult)
    (maximizing : Bool) (depth : Int) :
    List (String × State) → SearchNode → Int → Int → Int → Nat → SearchResult
  | [], node, best, _, _, n => (best, node, n)
  | (key, nextState) :: rest, node, best, alpha, beta, n =>
    let childNode :=
      makeChild key nextState depth (!maximizing) (node.moveSequence ++ " -> " ++ key)
    let r := eval nextState childNode alpha beta n
    let childNode := { r.2.1 with heuristic := r.1 }
    let node := { node with children := node.children ++ [childNode] }
    let best := if maximizing then max best r.1 else min best r.1
    let alpha := if maximizing then max alpha r.1 else alpha
    let beta := if maximizing then beta else min beta r.1
    if beta ≤ alpha then (best, node, r.2.2)
    else childLoopAB eval maximizing depth rest node best alpha beta r.2.2

/-- `OthelloBot::minimax` with alpha-beta pruning. -/
def minimaxAB (ord : IterOrder) :
    Nat → State → SearchNode → Int → Bool → Int → Int → Nat → SearchResult
  | 0, state, node, _, _, _, _, n =>
    (state.white - state.black, { node with heuristic := state.white - state.black }, n)
  | fuel + 1, state, node, depth, maximizing, alpha, beta, n =>
    let n := n + 1
    if depth = 0 then
      (state.white - state.black, { node with heuristic := state.white - state.black }, n)
    else
      let state := state.updatePossibleStates
      if state.possibleStates.isEmpty then
        (state.white - state.black, { node with heuristic := state.white - state.black }, n)
      else
        let r := childLoopAB
          (fun s c a b k => minimaxAB ord fuel s c (depth - 1) (!maximizing) a b k)
          maximizing depth (ord.enum state.possibleStates) node
          (if maximizing then INT_MIN else INT_MAX) alpha beta n
        (r.1, { r.2.1 with heuristic := r.1 }, r.2.2)

/-- The call budget that `getBestMove` gives to `minimax`: more than any state
can use (`searchFuel_enough`). -/
def searchFuel : Nat := 66

/-- The loop of `getBestMove` over the legal moves of the root.  `eval` is the
call of the `minimax` overload that the pruning switch selects.  Carries the
root node, `bestValue`, `bestMove` and `m_statesExamined`. -/
def rootLoop (eval : State → SearchNode → Nat → SearchResult) (maximizing : Bool)
    (m_depth : Int) :
    List (String × State) → SearchNode → Int → Int × Int → Nat →
      SearchNode × Int × (Int × Int) × Nat
  | [], searchRoot, bestValue, bestMove, n => (searchRoot, bestValue, bestMove, n)
  | (key, nextState) :: rest, searchRoot, bestValue, bestMove, n =>
    let childNode := makeChild key nextState (m_depth - 1) (!maximizing) key
    let r := eval nextState childNode n
    let childNode := { r.2.1 with heuristic := r.1 }
    let searchRoot := { searchRoot with children := searchRoot.children ++ [childNode] }
    if (maximizing && decide (r.1 > bestValue)) || (!maximizing && decide (r.1 < bestValue)) then
      rootLoop eval maximizing m_depth rest searchRoot r.1 (childNode.row, childNode.col) r.2.2
    else
      rootLoop eval maximizing m_depth rest searchRoot bestValue bestMove r.2.2

/-- `OthelloBot::getBestMove`: the returned pair, the bot and the state (passed
by reference) after the call. -/
def OthelloBot.getBestMove (ord : IterOrder) (bot : OthelloBot) (state : State) :
    (Int × Int) × OthelloBot × State :=
  let state := state.updatePossibleStates
  if state.possibleStates.isEmpty then ((-1, -1), bot, state)
  else
    let searchRoot : SearchNode :=
      { SearchNode.new with
        turn := state.turn, whiteScore := state.white, blackScore := state.black,
        depth := bot.m_depth, maximizing := state.turn == 'w', moveSequence := "Root" }
    let maximizing := state.turn == 'w'
    let r := rootLoop
      (fun s c k =>
        if bot.m_alphaBetaOn then
          minimaxAB ord searchFuel s c (bot.m_depth - 1) (!maximizing) INT_MIN INT_MAX k
        else minimax ord searchFuel s c (bot.m_depth - 1) (!maximizing) k)
      maximizing bot.m_depth (ord.enum state.possibleStates) searchRoot
      (if maximizing then INT_MIN else INT_MAX) (-1, -1) 1
    ((r.2.2.1),
      { bot with
        m_searchTree := { m_root := some { r.1 with heuristic := r.2.1 }, m_nodeCount := r.2.2.2 }
        m_statesExamined := r.2.2.2 },
      state)

/-- The legal cells of a state, in the order of the scan of
`updatePossibleStates`. -/
def legalCells (s : State) : List (Int × Int) :=
  cells.filter (fun rc => isValidMove rc.1 rc.2 s)

/-- A bound on the number of moves that can still be played from a state: the
number of empty cells (65 for a state whose turn is the empty marker, whose
first move does not fill a cell). -/
def depthBound (s : State) : Nat :=
  if s.turn = EMPTY then 65 else tally s.board EMPTY

/-- The child node as its parent's loop leaves it: the node that `minimax` has
worked on, with `childNode->heuristic = eval` written. -/
def finish (r : SearchResult) : SearchNode := { r.2.1 with heuristic := r.1 }

/-- Two nodes agree on every field that `minimax` does not write. -/
def SameHeader (a b : SearchNode) : Prop :=
  a.row = b.row ∧ a.col = b.col ∧ a.depth = b.depth ∧ a.maximizing = b.maximizing ∧
  a.turn = b.turn ∧ a.whiteScore = b.whiteScore ∧ a.blackScore = b.blackScore ∧
  a.moveSequence = b.moveSequence

/-- `std::max` or `std::min`, as the polarity selects. -/
def pick (maximizing : Bool) (a b : Int) : Int := if maximizing then max a b else min a b

/-- The initial `maxEval = INT_MIN` or `minEval = INT_MAX`. -/
def worst (maximizing : Bool) : Int := if maximizing then INT_MIN else INT_MAX

/-- The value returned by `minimax` without pruning; it depends neither on the
node nor on the counter that the call is given (`minimax_value`). -/
def mmValue (ord : IterOrder) (fuel : Nat) (s : State) (d : Int) (flag : Bool) : Int :=
  (minimax ord fuel s SearchNode.new d flag 0).1

/-- The value returned by `minimax` with pruning (`minimaxAB_value`). -/
def abValue (ord : IterOrder) (fuel : Nat) (s : State) (d : Int) (flag : Bool)
    (alpha beta : Int) : Int :=
  (minimaxAB ord fuel s SearchNode.new d flag alpha beta 0).1

/-- The value computed by the pruning loop, as a function of the values `val`
of the children. -/
def abFold (val : State → Int → Int → Int) (flag : Bool) :
    List (String × State) → Int → Int → Int → Int
  | [], best, _, _ => best
  | e :: rest, best, alpha, beta =>
    if (if flag then beta else min beta (val e.2 alpha beta)) ≤
        (if flag then max alpha (val e.2 alpha beta) else alpha) then
      pick flag best (val e.2 alpha beta)
    else
      abFold val flag rest (pick flag best (val e.2 alpha beta))
        (if flag then max alpha (val e.2 alpha beta) else alpha)
        (if flag then beta else min beta (val e.2 alpha beta))

/-- The guarantee of a search with the window `(a, b)` whose value is `v`,
about the value `m` of the full search: exact inside the window, a bound
outside. -/
def Window (v m a b : Int) : Prop :=
  (v ≤ a → m ≤ v) ∧ (a < v → v < b → v = m) ∧ (b ≤ v → v ≤ m)

/-- The call that `getBestMove` makes for each legal move of the root: the
`minimax` overload selected by the pruning switch, on the depth `m_depth - 1`
and the polarity opposite to the root's. -/
def rootEval (ord : IterOrder) (bot : OthelloBot) (maximizing : Bool) :
    State → SearchNode → Nat → SearchResult :=
  fun s c k =>
    if bot.m_alphaBetaOn then
      minimaxAB ord searchFuel s c (bot.m_depth - 1) (!maximizing) INT_MIN INT_MAX k
    else minimax ord searchFuel s c (bot.m_depth - 1) (!maximizing) k

/-- The run of the loop of `getBestMove` on a state with a legal move. -/
def rootRun (ord : IterOrder) (bot : OthelloBot) (s : State) :
    SearchNode × Int × (Int × Int) × Nat :=
  rootLoop (rootEval ord bot (s.turn == 'w')) (s.turn == 'w') bot.m_depth
    (ord.enum s.updatePossibleStates.possibleStates)
    { SearchNode.new with
      turn := s.turn, whiteScore := s.white, blackScore := s.black,
      depth := bot.m_depth, maximizing := s.turn == 'w', moveSequence := "Root" }
    (worst (s.turn == 'w')) (-1, -1) 1

/-- The root node that `getBestMove` leaves in the search tree of a state with
a legal move. -/
def builtRoot (ord : IterOrder) (bot : OthelloBot) (s : State) : SearchNode :=
  { (rootRun ord bot s).1 with heuristic := (rootRun ord bot s).2.1 }

/-- The largest element of a list of integers (0 for the empty list). -/
def maxOf : List Int → Int
  | [] => 0
  | x :: xs => xs.foldl max x

/-- The smallest element of a list of integers (0 for the empty list). -/
def minOf : List Int → Int
  | [] => 0
  | x :: xs => xs.foldl min x

/-- The reference game value `V` of the specification: the disc difference at
depth 0 and at a state without a legal move, otherwise the maximum (for the
maximizing polarity) or the minimum over the legal successors of their value
one ply less deep with the other polarity. -/
def gameValue : Nat → State → Bool → Int
  | 0, s, _ => s.white - s.black
  | d + 1, s, maximizing =>
    if legalCells s = [] then s.white - s.black
    else if maximizing then
      maxOf ((legalCells s).map (fun rc => gameValue d (successor s rc) false))
    else
      minOf ((legalCells s).map (fun rc => gameValue d (successor s rc) true))

/-- A default-constructed bot, `OthelloBot()`: the member initialisers. -/
def OthelloBot.new : OthelloBot :=
  { m_depth := 4, m_alphaBetaOn := false, m_searchTree := { m_root := none, m_nodeCount := 0 },
    m_statesExamined := 0 }

/-- The constructor `OthelloBot(int depth)`. -/
def OthelloBot.ofDepth (depth : Int) : OthelloBot := { OthelloBot.new with m_depth := depth }

/-- `OthelloBot::toggleAlphaBeta`. -/
def OthelloBot.toggleAlphaBeta (bot : OthelloBot) : OthelloBot :=
  { bot with m_alphaBetaOn := !bot.m_alphaBetaOn }

/-- The nodes of the tree under `root`, `root` included. -/
inductive InTree (root : SearchNode) : SearchNode → Prop
  | root : InTree root root
  | child (n c : SearchNode) : InTree root n → c ∈ n.children → InTree root c

/-- The state that belongs to a node of the tree built for the state `s`: `s`
for the root, and for a child the successor of its parent's state by the
child's coordinates. -/
inductive StateOf (root : SearchNode) (s : State) : SearchNode → State → Prop
  | root : StateOf root s root s
  | child (n c : SearchNode) (t : State) :
      StateOf root s n t → c ∈ n.children → StateOf root s c (successor t (c.row, c.col))

/-- The node `c` carries what the loops write on the child for the entry `e`
of the cache of a node of polarity `flag`. -/
def ChildOf (flag : Bool) (e : String × State) (c : SearchNode) : Prop :=
  c.row = keyRow e.1 ∧ c.col = keyCol e.1 ∧ c.turn = e.2.turn ∧ c.whiteScore = e.2.white ∧
  c.blackScore = e.2.black ∧ c.maximizing = !flag

/-- The node `n` carries the turn and the counters of the state `t` and the
polarity `flag`. -/
def NodeFor (n : SearchNode) (t : State) (flag : Bool) : Prop :=
  n.turn = t.turn ∧ n.whiteScore = t.white ∧ n.blackScore = t.black ∧ n.maximizing = flag

/-- The shape of the subtree that a search of the state `s` with polarity
`flag` leaves in a node: a leaf valued with the disc difference, or one child
per entry of a non-empty initial part `pre` of the cache in iteration order
(all of it when `pruning` is off), each explored in turn, valued with the
`max` / `min` of its children. -/
inductive Explored (ord : IterOrder) (pruning : Bool) : State → Bool → SearchNode → Prop
  | leaf (s : State) (flag : Bool) (k : SearchNode) :
      k.children = [] → k.heuristic = s.white - s.black → Explored ord pruning s flag k
  | inner (s : State) (flag : Bool) (k : SearchNode) (pre : List (String × State)) :
      pre <+: ord.enum s.updatePossibleStates.possibleStates → pre ≠ [] →
      (pruning = false → pre = ord.enum s.updatePossibleStates.possibleStates) →
      k.children.length = pre.length →
      (∀ p, p ∈ pre.zip k.children → ChildOf flag p.1 p.2) →
      (∀ p, p ∈ pre.zip k.children → Explored ord pruning p.1.2 (!flag) p.2) →
      k.heuristic = k.children.foldl (fun b c => pick flag b c.heuristic) (worst flag) →
      Explored ord pruning s flag k

/-- Row-major order of cells: smaller row first, then smaller column. -/
def rowMajorLt (a b : Int × Int) : Prop := a.1 < b.1 ∨ (a.1 = b.1 ∧ a.2 < b.2)

instance (a b : Int × Int) : Decidable (rowMajorLt a b) := by
  unfold rowMajorLt; infer_instance

/-- The list of cells is in row-major order. -/
def RowMajor (l : List (Int × Int)) : Prop := l.Pairwise rowMajorLt

instance (l : List (Int × Int)) : Decidable (RowMajor l) := by
  unfold RowMajor; infer_instance

/-- A position without a legal move: every cell holds a black disc; white is to
move. -/
def blackBoard : State :=
  { board := fun _ _ => 'b', turn := 'w', white := 0, black := 64, possibleStates := [] }

/-- Whether a search of the state `s` to depth `d` reaches a call of `minimax`
for which no call budget is left, when started with the budget `fuel`.  It
follows the calls of the search without pruning; the search with pruning makes
a part of these calls. -/
def budgetReached (ord : IterOrder) : Nat → State → Int → Bool
  | 0, _, _ => true
  | fuel + 1, s, d =>
    if d = 0 then false
    else if s.updatePossibleStates.possibleStates.isEmpty then false
    else (ord.enum s.updatePossibleStates.possibleStates).any
      (fun e => budgetReached ord fuel e.2 (d - 1))

/-- `OthelloBot::getTreeSize`. -/
def OthelloBot.getTreeSize (bot : OthelloBot) : Nat := bot.m_statesExamined

/-- `SearchTree::getSize`. -/
def SearchTree.getSize (tree : SearchTree) : Nat := tree.m_nodeCount

mutual
/-- `SearchTree::countNodes` for a node that is not null. -/
def countNodes : SearchNode → Nat
  | SearchNode.mk _ _ _ _ _ _ _ _ _ children => countNodesLoop children 1
/-- The loop `for (auto& child : node->children) count += countNodes(child);`. -/
def countNodesLoop : List SearchNode → Nat → Nat
  | [], count => count
  | child :: rest, count => countNodesLoop rest (count + countNodes child)
end

mutual
/-- `SearchTree::traverseHelper` for a node that is not null.  The visitor is a
`std::function<void(shared_ptr<SearchNode>)>`; what it does is a change of some
state `σ` at each call. -/
def traverseHelper {σ : Type} (visitor : σ → SearchNode → σ) : SearchNode → σ → σ
  | SearchNode.mk row col heuristic depth maximizing turn whiteScore blackScore moveSequence
      children, st =>
    traverseLoop visitor children
      (visitor st (SearchNode.mk row col heuristic depth maximizing turn whiteScore blackScore
        moveSequence children))
/-- The loop `for (auto& child : node->children) traverseHelper(child, visitor);`. -/
def traverseLoop {σ : Type} (visitor : σ → SearchNode → σ) : List SearchNode → σ → σ
  | [], st => st
  | child :: rest, st => traverseLoop visitor rest (traverseHelper visitor child st)
end

/-- `SearchTree::traverse`. -/
def SearchTree.traverse {σ : Type} (tree : SearchTree) (visitor : σ → SearchNode → σ)
    (st : σ) : σ :=
  match tree.m_root with
  | none => st
  | some root => traverseHelper visitor root st

mutual
/-- `SearchTree::findPath` for a node that is not null: the returned flag and
the vector `path` after the call. -/
def findPath : SearchNode → Int → Int → List SearchNode → Bool × List SearchNode
  | SearchNode.mk row col heuristic depth maximizing turn whiteScore blackScore moveSequence
      children, targetRow, targetCol, path =>
    let path := path ++ [SearchNode.mk row col heuristic depth maximizing turn whiteScore
      blackScore moveSequence children]
    if row = targetRow ∧ col = targetCol then (true, path)
    else
      let r := findPathLoop children targetRow targetCol path
      if r.1 then (true, r.2) else (false, r.2.dropLast)
/-- The loop `for (auto& child : node->children) if (findPath(child, ...)) return true;`:
whether it returned, and the vector `path`. -/
def findPathLoop : List SearchNode → Int → Int → List SearchNode → Bool × List SearchNode
  | [], _, _, path => (false, path)
  | child :: rest, targetRow, targetCol, path =>
    let r := findPath child targetRow targetCol path
    if r.1 then (true, r.2) else findPathLoop rest targetRow targetCol r.2
end

/-- `SearchTree::getPath`. -/
def SearchTree.getPath (tree : SearchTree) (targetRow targetCol : Int) : List SearchNode :=
  match tree.m_root with
  | none => []
  | some root => (findPath root targetRow targetCol []).2

mutual
/-- `SearchTree::calculateMaxDepth` for a node that is not null. -/
def calculateMaxDepth : SearchNode → Int → Int
  | SearchNode.mk _ _ _ _ _ _ _ _ _ children, currentDepth =>
    calculateMaxDepthLoop children currentDepth currentDepth
/-- The loop of `calculateMaxDepth` over the children, carrying
`maxChildDepth`. -/
def calculateMaxDepthLoop : List SearchNode → Int → Int → Int
  | [], _, maxChildDepth => maxChildDepth
  | child :: rest, currentDepth, maxChildDepth =>
    calculateMaxDepthLoop rest currentDepth
      (max maxChildDepth (calculateMaxDepth child (currentDepth + 1)))
end

/-- `SearchTree::getMaxDepth`. -/
def SearchTree.getMaxDepth (tree : SearchTree) : Int :=
  match tree.m_root with
  | none => 0
  | some root => calculateMaxDepth root 0

mutual
/-- The nodes of the tree under a node in pre-order: the node, then the nodes
under its children, child by child in stored order. -/
def preorder : SearchNode → List SearchNode
  | SearchNode.mk row col heuristic depth maximizing turn whiteScore blackScore moveSequence
      children =>
    SearchNode.mk row col heuristic depth maximizing turn whiteScore blackScore moveSequence
      children :: preorderAll children
/-- The pre-order lists of the nodes of a list, one after the other. -/
def preorderAll : List SearchNode → List SearchNode
  | [] => []
  | child :: rest => preorder child ++ preorderAll rest
end

mutual
/-- The positions of the nodes under a node: a position is the list of child
indices on the way from the node down; the node itself is at `[]`. -/
def positions : SearchNode → List (List Nat)
  | SearchNode.mk _ _ _ _ _ _ _ _ _ children => [] :: positionsFrom children 0
/-- The positions under the children `rest`, which are the children from index
`i` on. -/
def positionsFrom : List SearchNode → Nat → List (List Nat)
  | [], _ => []
  | child :: rest, i => (positions child).map (fun p => i :: p) ++ positionsFrom rest (i + 1)
end

/-- The node at a position, if the position exists. -/
def nodeAt : SearchNode → List Nat → Option SearchNode
  | n, [] => some n
  | n, i :: p =>
    match n.children[i]? with
    | none => none
    | some c => nodeAt c p

/-- The order of positions in which a node comes before the nodes under it and
the subtree of a child before that of a later child. -/
def pathLt : List Nat → List Nat → Prop
  | [], [] => False
  | [], _ :: _ => True
  | _ :: _, [] => False
  | i :: p, j :: q => i < j ∨ (i = j ∧ pathLt p q)

/-- `PathLen n k m`: there is a path of `k` edges from the node `n` down to the
node `m`. -/
inductive PathLen : SearchNode → Nat → SearchNode → Prop
  | stay (n : SearchNode) : PathLen n 0 n
  | step (n c m : SearchNode) (k : Nat) : c ∈ n.children → PathLen c k m → PathLen n (k + 1) m

/-- The read `board[r][c]` with the access checked: `none` is a read outside
`board[0..7][0..7]`. -/
def Grid.read (g : Grid) (r c : Int) : Option Char :=
  if inBoard r c then some (g.get r c) else none

/-- The write `board[r][c] = v` with the access checked: `none` is a write
outside `board[0..7][0..7]`. -/
def Grid.write (g : Grid) (r c : Int) (v : Char) : Option Grid :=
  if inBoard r c then some (g.set r c v) else none

/-- The condition `cond && test(board[r][c])` with the short-circuit of `&&`:
the cell is read only when `cond` holds. -/
def andRead (cond : Bool) (g : Grid) (r c : Int) (test : Char → Bool) : Option Bool :=
  if cond then (g.read r c).map test else some false

/-- The loop `rayLoop` with every array access checked. -/
def rayLoopChecked (guard : Int → Int → Bool) (g : Grid) (opponent : Char)
    (rowDir colDir : Int) : Nat → Int → Int → Bool → Option (Int × Int × Bool)
  | 0, tempRow, tempCol, hasOpponentBetween => some (tempRow, tempCol, hasOpponentBetween)
  | fuel + 1, tempRow, tempCol, hasOpponentBetween =>
    (andRead (guard tempRow tempCol) g tempRow tempCol (fun ch => ch == opponent)).bind
      fun go =>
        if go then
          rayLoopChecked guard g opponent rowDir colDir fuel (tempRow + rowDir)
            (tempCol + colDir) true
        else some (tempRow, tempCol, hasOpponentBetween)

/-- `checkVertical` with every array access checked. -/
def checkVerticalChecked (row col : Int) (state : State) : Option Bool :=
  (state.board.read row col).bind fun here =>
  if here ≠ EMPTY then some false else
  let currentPlayer := state.turn
  let opponent := opponentOf currentPlayer
  (rayLoopChecked (fun r _ => decide (r ≥ 0)) state.board opponent (-1) 0 8 (row - 1) col
    false).bind fun up =>
  (andRead (up.2.2 && decide (up.1 ≥ 0)) state.board up.1 col
    (fun ch => ch == currentPlayer)).bind fun foundUp =>
  (rayLoopChecked (fun r _ => decide (r < 8)) state.board opponent 1 0 8 (row + 1) col
    false).bind fun down =>
  (andRead (down.2.2 && decide (down.1 < 8)) state.board down.1 col
    (fun ch => ch == currentPlayer)).bind fun foundDown =>
  some (foundUp || foundDown)

/-- `checkHorizontal` with every array access checked. -/
def checkHorizontalChecked (row col : Int) (state : State) : Option Bool :=
  (state.board.read row col).bind fun here =>
  if here ≠ EMPTY then some false else
  let currentPlayer := state.turn
  let opponent := opponentOf currentPlayer
  (rayLoopChecked (fun _ c => decide (c ≥ 0)) state.board opponent 0 (-1) 8 row (col - 1)
    false).bind fun left =>
  (andRead (left.2.2 && decide (left.2.1 ≥ 0)) state.board row left.2.1
    (fun ch => ch == currentPlayer)).bind fun foundLeft =>
  (rayLoopChecked (fun _ c => decide (c < 8)) state.board opponent 0 1 8 row (col + 1)
    false).bind fun right =>
  (andRead (right.2.2 && decide (right.2.1 < 8)) state.board row right.2.1
    (fun ch => ch == currentPlayer)).bind fun foundRight =>
  some (foundLeft || foundRight)

/-- The `for` loop of `checkDiagonal` over the directions still to try, with
every array access checked; it stops at the first direction that captures. -/
def diagonalLoopChecked (row col : Int) (g : Grid) (currentPlayer opponent : Char) :
    List (Int × Int) → Option Bool
  | [] => some false
  | d :: rest =>
    (rayLoopChecked inBoard g opponent d.1 d.2 8 (row + d.1) (col + d.2) false).bind fun r =>
    (andRead (r.2.2 && inBoard r.1 r.2.1) g r.1 r.2.1 (fun ch => ch == currentPlayer)).bind
      fun found =>
        if found then some true
        else diagonalLoopChecked row col g currentPlayer opponent rest

/-- `checkDiagonal` with every array access checked. -/
def checkDiagonalChecked (row col : Int) (state : State) : Option Bool :=
  (state.board.read row col).bind fun here =>
  if here ≠ EMPTY then some false else
  diagonalLoopChecked row col state.board state.turn (opponentOf state.turn) diagonalDirections

/-- `isValidMove` with every array access checked; `||` evaluates its right
operand only when the left one is false. -/
def isValidMoveChecked (row col : Int) (state : State) : Option Bool :=
  if row < 0 ∨ row ≥ 8 ∨ col < 0 ∨ col ≥ 8 then some false
  else
    (state.board.read row col).bind fun here =>
    if here ≠ EMPTY then some false
    else
      (checkVerticalChecked row col state).bind fun v =>
      if v then some true
      else
        (checkHorizontalChecked row col state).bind fun h =>
        if h then some true else checkDiagonalChecked row col state

/-- The loop `collectLoop` with every array access checked. -/
def collectLoopChecked (g : Grid) (opponent : Char) (rowDir colDir : Int) :
    Nat → Int → Int → List (Int × Int) → Option (Int × Int × List (Int × Int))
  | 0, tempRow, tempCol, toFlip => some (tempRow, tempCol, toFlip)
  | fuel + 1, tempRow, tempCol, toFlip =>
    (andRead (inBoard tempRow tempCol) g tempRow tempCol (fun ch => ch == opponent)).bind
      fun go =>
        if go then
          collectLoopChecked g opponent rowDir colDir fuel (tempRow + rowDir)
            (tempCol + colDir) (toFlip ++ [(tempRow, tempCol)])
        else some (tempRow, tempCol, toFlip)

/-- The loop `flipAll` with every array access checked. -/
def flipAllChecked : Grid → List (Int × Int) → Char → Option Grid
  | g, [], _ => some g
  | g, pos :: rest, currentPlayer =>
    (g.write pos.1 pos.2 currentPlayer).bind fun g2 => flipAllChecked g2 rest currentPlayer

/-- The body `resolveDir` with every array access checked. -/
def resolveDirChecked (row col : Int) (currentPlayer opponent : Char) (g : Grid)
    (d : Int × Int) : Option Grid :=
  (collectLoopChecked g opponent d.1 d.2 8 (row + d.1) (col + d.2) []).bind fun r =>
  (andRead (!r.2.2.isEmpty && inBoard r.1 r.2.1) g r.1 r.2.1
    (fun ch => ch == currentPlayer)).bind fun ok =>
  if ok then flipAllChecked g r.2.2 currentPlayer else some g

/-- The `for (dir ...)` loop of `resolve` over the directions still to do, with
every array access checked. -/
def resolveLoopChecked (row col : Int) (currentPlayer opponent : Char) :
    Grid → List (Int × Int) → Option Grid
  | g, [] => some g
  | g, d :: rest =>
    (resolveDirChecked row col currentPlayer opponent g d).bind fun g2 =>
      resolveLoopChecked row col currentPlayer opponent g2 rest

/-- `resolve` with every array access checked. -/
def resolveChecked (row col : Int) (state : State) : Option State :=
  (isValidMoveChecked row col state).bind fun valid =>
  if !valid then some state
  else
    let currentPlayer := state.turn
    let opponent := opponentOf currentPlayer
    (state.board.write row col state.turn).bind fun g0 =>
    (resolveLoopChecked row col currentPlayer opponent g0 directions).bind fun g =>
    some { board := g, turn := opponent, white := state.white, black := state.black,
           possibleStates := [] }

/-- The moves on the way from the root down to a node of the tree. -/
inductive MovesTo (root : SearchNode) : SearchNode → List (Int × Int) → Prop
  | root : MovesTo root root []
  | child (n c : SearchNode) (p : List (Int × Int)) :
      MovesTo root n p → c ∈ n.children → MovesTo root c (p ++ [(c.row, c.col)])

/-- The texts `keys` joined by `" -> "`. -/
def joinKeys : List String → String
  | [] => ""
  | k :: rest => rest.foldl (fun acc k2 => acc ++ " -> " ++ k2) k

/-- Below the node, every child's `moveSequence` is its parent's followed by
`" -> "` and the key of the child's move. -/
inductive Trails : SearchNode → Prop
  | mk (n : SearchNode) :
      (∀ c, c ∈ n.children → c.moveSequence = n.moveSequence ++ " -> " ++ key c.row c.col) →
      (∀ c, c ∈ n.children → Trails c) → Trails n

/-- A position in which the side to move, white, has no legal move and black
has one: a black disc at `(0, 0)`, a white disc at `(0, 1)`, nothing else. -/
def passPosition : State :=
  { board := Grid.set (Grid.set (fun _ _ => EMPTY) 0 0 'b') 0 1 'w', turn := 'w', white := 1,
    black := 1, possibleStates := [] }

/-- A line of play of `k` moves from a state: each move is a legal move of the
state it is played in and leads to the successor that `updatePossibleStates`
caches for it and `place` installs. -/
inductive Line : State → Nat → Prop
  | done (s : State) : Line s 0
  | move (s t : State) (rc : Int × Int) (k : Nat) :
      isValidMove rc.1 rc.2 s = true → t = successor s rc → Line t k → Line s (k + 1)

/-- The number of buckets of a `std::unordered_map` that was filled from empty
with the entries `old` (not more than 29) and then cleared: libstdc++ gives the
map 13 buckets at the first insertion and 29 at the fourteenth, and `clear()`
keeps the bucket array.  The map of a fresh state has held nothing. -/
def bucketsAfter (old : List (String × State)) : Nat :=
  if old.length ≤ 13 then 13 else 29

/-- The place of the keys `0:0`, `0:2` and `0:5` in the iteration of a
libstdc++ `std::unordered_map<std::string, State>` into which they were
inserted in this order: `0:2`, `0:5`, `0:0` with 13 buckets and `0:5`, `0:2`,
`0:0` with 29 buckets (GCC 12).  Other keys are not ranked. -/
def bucketRank (buckets : Nat) (k : String) : Nat :=
  if buckets = 29 then (if k = "0:5" then 0 else if k = "0:2" then 1 else 2)
  else (if k = "0:2" then 0 else if k = "0:5" then 1 else 2)

/-- The iteration order of a map with the given number of buckets, on the keys
that `bucketRank` ranks. -/
def bucketOrder (buckets : Nat) : IterOrder :=
  { enum := fun m =>
      m.insertionSort (fun a b => bucketRank buckets a.1 ≤ bucketRank buckets b.1)
    perm := fun m => List.perm_insertionSort _ m }

/-- A position with black to move and exactly three legal moves, `(0, 0)`,
`(0, 2)` and `(0, 5)`, each of which flips one white disc: white discs at
`(1, 0)`, `(1, 2)`, `(1, 5)` and black discs at `(2, 0)`, `(2, 2)`, `(2, 5)`.
Its cache is that of a fresh state. -/
def tiePosition : State :=
  { board := Grid.set (Grid.set (Grid.set (Grid.set (Grid.set (Grid.set (fun _ _ => EMPTY)
      1 0 'w') 1 2 'w') 1 5 'w') 2 0 'b') 2 2 'b') 2 5 'b'
    turn := 'b', white := 3, black := 3, possibleStates := [] }

/-- The grid and the turn of `tiePosition` in a state whose cache still holds
sixteen entries of an earlier position. -/
def tieStale : State :=
  { board := tiePosition.board, turn := 'b', white := 3, black := 3,
    possibleStates :=
      (List.range 16).map (fun (i : Nat) => (key ((3 + i / 8 : Nat) : Int) ((i % 8 : Nat) : Int),
        State.new)) }

/-! ## Basic facts about the grid -/

theorem inBoard_iff (r c : Int) : inBoard r c = true ↔ 0 ≤ r ∧ r < 8 ∧ 0 ≤ c ∧ c < 8 := by
  simp [inBoard, and_assoc]

theorem get_of_not_inBoard (g : Grid) (r c : Int) (h : inBoard r c = false) :
    g.get r c = Char.ofNat 0 := by
  have h2 : ¬ (0 ≤ r ∧ r < 8 ∧ 0 ≤ c ∧ c < 8) := by
    rw [← inBoard_iff]; simp [h]
  simp [Grid.get, h2]

theorem get_of_inBoard (g : Grid) (r c : Int) (h : inBoard r c = true) :
    ∃ i j : Fin 8, (i.val : Int) = r ∧ (j.val : Int) = c ∧ g.get r c = g i j := by
  have h2 := (inBoard_iff r c).1 h
  refine ⟨⟨r.toNat, by omega⟩, ⟨c.toNat, by omega⟩, ?_, ?_, ?_⟩
  · simp; omega
  · simp; omega
  · simp [Grid.get, h2]

theorem get_coe (g : Grid) (i j : Fin 8) : g.get (i.val : Int) (j.val : Int) = g i j := by
  have h : (0:Int) ≤ (i.val : Int) ∧ (i.val : Int) < 8 ∧ (0:Int) ≤ (j.val : Int) ∧ (j.val : Int) < 8 := by
    have := i.isLt; have := j.isLt; omega
  simp [Grid.get, h]

theorem inBoard_coe (i j : Fin 8) : inBoard (i.val : Int) (j.val : Int) = true := by
  rw [inBoard_iff]; have := i.isLt; have := j.isLt; omega

theorem get_set (g : Grid) (r c : Int) (v : Char) (r' c' : Int) :
    (g.set r c v).get r' c' =
      if inBoard r' c' = true ∧ r' = r ∧ c' = c then v else g.get r' c' := by
  by_cases h : inBoard r' c' = true
  · obtain ⟨i, j, hi, hj, hg⟩ := get_of_inBoard g r' c' h
    subst hi; subst hj
    rw [get_coe, get_coe]
    simp [Grid.set, h]
  · simp only [Bool.not_eq_true] at h
    rw [get_of_not_inBoard _ _ _ h, get_of_not_inBoard _ _ _ h]
    simp [h]

theorem opponentOf_ne (t : Char) : opponentOf t ≠ t := by
  unfold opponentOf
  split
  · rename_i h; rw [h]; decide
  · rename_i h; exact fun h2 => h h2.symm

theorem opponentOf_ne_nul (t : Char) : opponentOf t ≠ Char.ofNat 0 := by
  unfold opponentOf
  split <;> decide

/-! ## The ray loops -/

/-- The loop condition of every ray loop does not depend on which bounds test
guards the read, as long as the guard holds inside the board. -/
theorem loopCond_eq (guard : Int → Int → Bool) (g : Grid) (opp : Char)
    (hg : ∀ r c, inBoard r c = true → guard r c = true) (hopp : opp ≠ Char.ofNat 0)
    (r c : Int) :
    (guard r c && g.get r c == opp) = (inBoard r c && g.get r c == opp) := by
  by_cases h : inBoard r c = true
  · rw [hg r c h, h]
  · simp only [Bool.not_eq_true] at h
    rw [h, get_of_not_inBoard g r c h]
    have : (Char.ofNat 0 == opp) = false := by
      simp only [beq_eq_false_iff_ne, ne_eq]
      exact fun e => hopp e.symm
    simp [this]

theorem rayLoop_eq (guard : Int → Int → Bool) (g : Grid) (opp : Char) (dr dc : Int)
    (hg : ∀ r c, inBoard r c = true → guard r c = true) (hopp : opp ≠ Char.ofNat 0) :
    ∀ (fuel : Nat) (r c : Int) (has : Bool),
      rayLoop guard g opp dr dc fuel r c has =
        (r + (runLen g opp dr dc fuel r c : Int) * dr,
         c + (runLen g opp dr dc fuel r c : Int) * dc,
         has || decide (0 < runLen g opp dr dc fuel r c)) := by
  intro fuel
  induction fuel with
  | zero => intro r c has; simp [rayLoop, runLen]
  | succ n ih =>
    intro r c has
    unfold rayLoop runLen
    rw [loopCond_eq guard g opp hg hopp]
    by_cases h : (inBoard r c && g.get r c == opp) = true
    · rw [if_pos h, if_pos h, ih]
      simp only [Prod.mk.injEq]
      refine ⟨?_, ?_, ?_⟩
      · push_cast; ring
      · push_cast; ring
      · simp
    · rw [if_neg h, if_neg h]; simp

theorem rayCells_succ (dr dc r c : Int) (n : Nat) :
    rayCells dr dc r c (n + 1) = (r, c) :: rayCells dr dc (r + dr) (c + dc) n := by
  unfold rayCells
  rw [List.range_succ_eq_map, List.map_cons, List.map_map]
  congr 1
  · simp
  · apply List.map_congr_left
    intro i _
    simp only [Function.comp, Prod.mk.injEq]
    constructor <;> (push_cast; ring)

theorem collectLoop_eq (g : Grid) (opp : Char) (dr dc : Int) :
    ∀ (fuel : Nat) (r c : Int) (acc : List (Int × Int)),
      collectLoop g opp dr dc fuel r c acc =
        (r + (runLen g opp dr dc fuel r c : Int) * dr,
         c + (runLen g opp dr dc fuel r c : Int) * dc,
         acc ++ rayCells dr dc r c (runLen g opp dr dc fuel r c)) := by
  intro fuel
  induction fuel with
  | zero => intro r c acc; simp [collectLoop, runLen, rayCells]
  | succ n ih =>
    intro r c acc
    unfold collectLoop runLen
    by_cases h : (inBoard r c && g.get r c == opp) = true
    · rw [if_pos h, if_pos h, ih, rayCells_succ]
      simp only [Prod.mk.injEq, List.append_assoc, List.singleton_append]
      refine ⟨?_, ?_, trivial⟩
      · push_cast; ring
      · push_cast; ring
    · rw [if_neg h, if_neg h]; simp [rayCells]

/-! ## Runs of opponent discs -/

theorem runLen_le (g : Grid) (opp : Char) (dr dc : Int) :
    ∀ (fuel : Nat) (r c : Int), runLen g opp dr dc fuel r c ≤ fuel := by
  intro fuel
  induction fuel with
  | zero => intro r c; simp [runLen]
  | succ n ih =>
    intro r c
    unfold runLen
    split
    · have := ih (r + dr) (c + dc); omega
    · omega

theorem runLen_cells (g : Grid) (opp : Char) (dr dc : Int) :
    ∀ (fuel : Nat) (r c : Int) (i : Nat), i < runLen g opp dr dc fuel r c →
      inBoard (r + (i : Int) * dr) (c + (i : Int) * dc) = true ∧
      g.get (r + (i : Int) * dr) (c + (i : Int) * dc) = opp := by
  intro fuel
  induction fuel with
  | zero => intro r c i h; simp [runLen] at h
  | succ n ih =>
    intro r c i h
    unfold runLen at h
    by_cases hc : (inBoard r c && g.get r c == opp) = true
    · rw [if_pos hc] at h
      cases i with
      | zero =>
        simp only [Bool.and_eq_true, beq_iff_eq] at hc
        simpa using hc
      | succ j =>
        have := ih (r + dr) (c + dc) j (by omega)
        have e1 : r + ((j + 1 : Nat) : Int) * dr = r + dr + (j : Int) * dr := by push_cast; ring
        have e2 : c + ((j + 1 : Nat) : Int) * dc = c + dc + (j : Int) * dc := by push_cast; ring
        rw [e1, e2]; exact this
    · rw [if_neg hc] at h; omega

theorem runLen_stop (g : Grid) (opp : Char) (dr dc : Int) :
    ∀ (fuel : Nat) (r c : Int), runLen g opp dr dc fuel r c < fuel →
      ¬ (inBoard (r + (runLen g opp dr dc fuel r c : Int) * dr)
            (c + (runLen g opp dr dc fuel r c : Int) * dc) = true ∧
         g.get (r + (runLen g opp dr dc fuel r c : Int) * dr)
            (c + (runLen g opp dr dc fuel r c : Int) * dc) = opp) := by
  intro fuel
  induction fuel with
  | zero => intro r c h; omega
  | succ n ih =>
    intro r c h
    unfold runLen at h ⊢
    by_cases hc : (inBoard r c && g.get r c == opp) = true
    · rw [if_pos hc] at h ⊢
      have := ih (r + dr) (c + dc) (by omega)
      have e1 : r + ((runLen g opp dr dc n (r + dr) (c + dc) + 1 : Nat) : Int) * dr
          = r + dr + (runLen g opp dr dc n (r + dr) (c + dc) : Int) * dr := by push_cast; ring
      have e2 : c + ((runLen g opp dr dc n (r + dr) (c + dc) + 1 : Nat) : Int) * dc
          = c + dc + (runLen g opp dr dc n (r + dr) (c + dc) : Int) * dc := by push_cast; ring
      rw [e1, e2]; exact this
    · rw [if_neg hc]
      simp only [Bool.and_eq_true, beq_iff_eq] at hc
      simpa using hc

theorem runLen_unique (g : Grid) (opp : Char) (dr dc : Int) :
    ∀ (fuel : Nat) (r c : Int) (k : Nat), k < fuel →
      (∀ i : Nat, i < k → inBoard (r + (i : Int) * dr) (c + (i : Int) * dc) = true ∧
        g.get (r + (i : Int) * dr) (c + (i : Int) * dc) = opp) →
      ¬ (inBoard (r + (k : Int) * dr) (c + (k : Int) * dc) = true ∧
        g.get (r + (k : Int) * dr) (c + (k : Int) * dc) = opp) →
      runLen g opp dr dc fuel r c = k := by
  intro fuel
  induction fuel with
  | zero => intro r c k h; omega
  | succ n ih =>
    intro r c k hk hall hstop
    unfold runLen
    cases k with
    | zero =>
      have : ¬ ((inBoard r c && g.get r c == opp) = true) := by
        simp only [Bool.and_eq_true, beq_iff_eq]
        simpa using hstop
      rw [if_neg this]
    | succ j =>
      have h0 := hall 0 (by omega)
      have hc : (inBoard r c && g.get r c == opp) = true := by
        simp only [Bool.and_eq_true, beq_iff_eq]
        simpa using h0
      rw [if_pos hc]
      congr 1
      apply ih (r + dr) (c + dc) j (by omega)
      · intro i hi
        have := hall (i + 1) (by omega)
        have e1 : r + ((i + 1 : Nat) : Int) * dr = r + dr + (i : Int) * dr := by push_cast; ring
        have e2 : c + ((i + 1 : Nat) : Int) * dc = c + dc + (i : Int) * dc := by push_cast; ring
        rw [e1, e2] at this; exact this
      · have e1 : r + ((j + 1 : Nat) : Int) * dr = r + dr + (j : Int) * dr := by push_cast; ring
        have e2 : c + ((j + 1 : Nat) : Int) * dc = c + dc + (j : Int) * dc := by push_cast; ring
        rw [e1, e2] at hstop; exact hstop

/-- Walking from a cell of the board along one of the eight directions, the
cell reached after `m` steps is outside the board as soon as `m ≥ 8`. -/
theorem steps_le_seven (row col : Int) (d : Int × Int) (m : Nat)
    (hd : d ∈ directions) (hrc : inBoard row col = true)
    (hm : inBoard (row + (m : Int) * d.1) (col + (m : Int) * d.2) = true) : m ≤ 7 := by
  rw [inBoard_iff] at hrc hm
  simp only [directions, List.mem_cons, List.mem_singleton, List.not_mem_nil, or_false] at hd
  rcases hd with h | h | h | h | h | h | h | h <;> subst h <;> simp only at hm <;> omega

/-- The budget of 8 steps is never used up by a walk that starts next to a
cell of the board. -/
theorem runLen_lt_eight (g : Grid) (opp : Char) (row col : Int) (d : Int × Int)
    (hd : d ∈ directions) (hrc : inBoard row col = true) :
    runLen g opp d.1 d.2 8 (row + d.1) (col + d.2) < 8 := by
  by_contra hcon
  have h7 : 7 < runLen g opp d.1 d.2 8 (row + d.1) (col + d.2) := by omega
  have h := (runLen_cells g opp d.1 d.2 8 (row + d.1) (col + d.2) 7 h7).1
  have e1 : row + d.1 + ((7 : Nat) : Int) * d.1 = row + ((8 : Nat) : Int) * d.1 := by
    push_cast; ring
  have e2 : col + d.2 + ((7 : Nat) : Int) * d.2 = col + ((8 : Nat) : Int) * d.2 := by
    push_cast; ring
  rw [e1, e2] at h
  have := steps_le_seven row col d 8 hd hrc h
  omega

/-- A larger step budget does not change the length of a run that has ended
within the budget. -/
theorem runLen_fuel (g : Grid) (opp : Char) (dr dc : Int) (fuel fuel2 : Nat) (r c : Int)
    (h : runLen g opp dr dc fuel r c < fuel) (h2 : fuel ≤ fuel2) :
    runLen g opp dr dc fuel2 r c = runLen g opp dr dc fuel r c :=
  runLen_unique g opp dr dc fuel2 r c _ (by omega)
    (fun i hi => runLen_cells g opp dr dc fuel r c i hi) (runLen_stop g opp dr dc fuel r c h)

/-- The ray loops of the directional checks have exited by themselves within
the budget of 8 steps: any larger budget gives the same result. -/
theorem rayLoop_fuel (guard : Int → Int → Bool) (g : Grid) (opp : Char) (row col : Int)
    (d : Int × Int) (has : Bool) (fuel : Nat)
    (hg : ∀ r c, inBoard r c = true → guard r c = true) (hopp : opp ≠ Char.ofNat 0)
    (hd : d ∈ directions) (hrc : inBoard row col = true) (hf : 8 ≤ fuel) :
    rayLoop guard g opp d.1 d.2 fuel (row + d.1) (col + d.2) has =
      rayLoop guard g opp d.1 d.2 8 (row + d.1) (col + d.2) has := by
  rw [rayLoop_eq guard g opp d.1 d.2 hg hopp, rayLoop_eq guard g opp d.1 d.2 hg hopp,
    runLen_fuel g opp d.1 d.2 8 fuel _ _ (runLen_lt_eight g opp row col d hd hrc) hf]

/-- The collecting loop of `resolve` has exited by itself within the budget of
8 steps: any larger budget gives the same result. -/
theorem collectLoop_fuel (g : Grid) (opp : Char) (row col : Int)
    (d : Int × Int) (acc : List (Int × Int)) (fuel : Nat)
    (hd : d ∈ directions) (hrc : inBoard row col = true) (hf : 8 ≤ fuel) :
    collectLoop g opp d.1 d.2 fuel (row + d.1) (col + d.2) acc =
      collectLoop g opp d.1 d.2 8 (row + d.1) (col + d.2) acc := by
  rw [collectLoop_eq, collectLoop_eq,
    runLen_fuel g opp d.1 d.2 8 fuel _ _ (runLen_lt_eight g opp row col d hd hrc) hf]

/-! ## The directional checks -/

theorem capturedIn_pos (g : Grid) (me opp : Char) (row col : Int) (d : Int × Int) :
    decide (1 ≤ capturedIn g me opp row col d) =
      (decide (0 < runLen g opp d.1 d.2 8 (row + d.1) (col + d.2)) &&
        inBoard (row + ((runLen g opp d.1 d.2 8 (row + d.1) (col + d.2) : Int) + 1) * d.1)
          (col + ((runLen g opp d.1 d.2 8 (row + d.1) (col + d.2) : Int) + 1) * d.2) &&
        g.get (row + ((runLen g opp d.1 d.2 8 (row + d.1) (col + d.2) : Int) + 1) * d.1)
          (col + ((runLen g opp d.1 d.2 8 (row + d.1) (col + d.2) : Int) + 1) * d.2) == me) := by
  unfold capturedIn
  simp only []
  split
  · rename_i h
    rw [Bool.and_assoc, h]
    simp [Nat.succ_le_iff]
  · rename_i h
    simp only [Bool.not_eq_true] at h
    rw [Bool.and_assoc, h]
    simp

/-- The test made after a ray loop, `hasOpponentBetween && guard && board[..] == currentPlayer`,
is true exactly when the direction captures. -/
theorem rayCheck_eq (guard : Int → Int → Bool) (g : Grid) (me opp : Char) (row col : Int)
    (d : Int × Int) (hopp : opp ≠ Char.ofNat 0)
    (hg : ∀ r c, inBoard r c = true → guard r c = true)
    (hg2 : ∀ m : Nat, guard (row + (m : Int) * d.1) (col + (m : Int) * d.2) =
      inBoard (row + (m : Int) * d.1) (col + (m : Int) * d.2)) :
    ((rayLoop guard g opp d.1 d.2 8 (row + d.1) (col + d.2) false).2.2 &&
      guard (rayLoop guard g opp d.1 d.2 8 (row + d.1) (col + d.2) false).1
        (rayLoop guard g opp d.1 d.2 8 (row + d.1) (col + d.2) false).2.1 &&
      g.get (rayLoop guard g opp d.1 d.2 8 (row + d.1) (col + d.2) false).1
        (rayLoop guard g opp d.1 d.2 8 (row + d.1) (col + d.2) false).2.1 == me) =
    decide (1 ≤ capturedIn g me opp row col d) := by
  rw [rayLoop_eq guard g opp d.1 d.2 hg hopp, capturedIn_pos]
  simp only [Bool.false_or]
  have e1 : row + d.1 + (runLen g opp d.1 d.2 8 (row + d.1) (col + d.2) : Int) * d.1 =
      row + ((runLen g opp d.1 d.2 8 (row + d.1) (col + d.2) + 1 : Nat) : Int) * d.1 := by
    push_cast; ring
  have e2 : col + d.2 + (runLen g opp d.1 d.2 8 (row + d.1) (col + d.2) : Int) * d.2 =
      col + ((runLen g opp d.1 d.2 8 (row + d.1) (col + d.2) + 1 : Nat) : Int) * d.2 := by
    push_cast; ring
  rw [e1, e2, hg2]
  push_cast
  rfl

theorem rayLoop_col (guard : Int → Int → Bool) (g : Grid) (opp : Char) (dr : Int) :
    ∀ (fuel : Nat) (r c : Int) (has : Bool),
      (rayLoop guard g opp dr 0 fuel r c has).2.1 = c := by
  intro fuel
  induction fuel with
  | zero => intro r c has; rfl
  | succ n ih =>
    intro r c has
    unfold rayLoop
    split
    · rw [add_zero]; exact ih _ _ _
    · rfl

theorem rayLoop_row (guard : Int → Int → Bool) (g : Grid) (opp : Char) (dc : Int) :
    ∀ (fuel : Nat) (r c : Int) (has : Bool),
      (rayLoop guard g opp 0 dc fuel r c has).1 = r := by
  intro fuel
  induction fuel with
  | zero => intro r c has; rfl
  | succ n ih =>
    intro r c has
    unfold rayLoop
    split
    · rw [add_zero]; exact ih _ _ _
    · rfl

theorem checkVertical_eq (row col : Int) (s : State) (hrc : inBoard row col = true)
    (he : s.board.get row col = EMPTY) :
    checkVertical row col s =
      (decide (1 ≤ capturedIn s.board s.turn (opponentOf s.turn) row col (-1, 0)) ||
       decide (1 ≤ capturedIn s.board s.turn (opponentOf s.turn) row col (1, 0))) := by
  have hb := (inBoard_iff row col).1 hrc
  rw [← rayCheck_eq (fun r _ => decide (r ≥ 0)) s.board s.turn (opponentOf s.turn) row col (-1, 0)
      (opponentOf_ne_nul _) (fun r c h => by rw [inBoard_iff] at h; simp; omega)
      (fun m => by
        simp only [inBoard, mul_zero, add_zero]
        have h1 : decide (row + (m : Int) * -1 < 8) = true := by simp; omega
        have h2 : decide (col ≥ 0) = true := by simp; omega
        have h3 : decide (col < 8) = true := by simp; omega
        rw [h1, h2, h3]; simp),
    ← rayCheck_eq (fun r _ => decide (r < 8)) s.board s.turn (opponentOf s.turn) row col (1, 0)
      (opponentOf_ne_nul _) (fun r c h => by rw [inBoard_iff] at h; simp; omega)
      (fun m => by
        simp only [inBoard, mul_zero, add_zero]
        have h1 : decide (row + (m : Int) * 1 ≥ 0) = true := by simp; omega
        have h2 : decide (col ≥ 0) = true := by simp; omega
        have h3 : decide (col < 8) = true := by simp; omega
        rw [h1, h2, h3]; simp)]
  unfold checkVertical
  rw [if_neg (by simp [he])]
  simp only [add_zero, Int.sub_eq_add_neg]
  rw [rayLoop_col, rayLoop_col]

theorem checkHorizontal_eq (row col : Int) (s : State) (hrc : inBoard row col = true)
    (he : s.board.get row col = EMPTY) :
    checkHorizontal row col s =
      (decide (1 ≤ capturedIn s.board s.turn (opponentOf s.turn) row col (0, -1)) ||
       decide (1 ≤ capturedIn s.board s.turn (opponentOf s.turn) row col (0, 1))) := by
  have hb := (inBoard_iff row col).1 hrc
  rw [← rayCheck_eq (fun _ c => decide (c ≥ 0)) s.board s.turn (opponentOf s.turn) row col (0, -1)
      (opponentOf_ne_nul _) (fun r c h => by rw [inBoard_iff] at h; simp; omega)
      (fun m => by
        simp only [inBoard, mul_zero, add_zero]
        have h1 : decide (col + (m : Int) * -1 < 8) = true := by simp; omega
        have h2 : decide (row ≥ 0) = true := by simp; omega
        have h3 : decide (row < 8) = true := by simp; omega
        rw [h1, h2, h3]; simp),
    ← rayCheck_eq (fun _ c => decide (c < 8)) s.board s.turn (opponentOf s.turn) row col (0, 1)
      (opponentOf_ne_nul _) (fun r c h => by rw [inBoard_iff] at h; simp; omega)
      (fun m => by
        simp only [inBoard, mul_zero, add_zero]
        have h1 : decide (col + (m : Int) * 1 ≥ 0) = true := by simp; omega
        have h2 : decide (row ≥ 0) = true := by simp; omega
        have h3 : decide (row < 8) = true := by simp; omega
        rw [h1, h2, h3]; simp)]
  unfold checkHorizontal
  rw [if_neg (by simp [he])]
  simp only [add_zero, Int.sub_eq_add_neg]
  rw [rayLoop_row, rayLoop_row]

theorem checkDiagonal_eq (row col : Int) (s : State)
    (he : s.board.get row col = EMPTY) :
    checkDiagonal row col s =
      diagonalDirections.any (fun d =>
        decide (1 ≤ capturedIn s.board s.turn (opponentOf s.turn) row col d)) := by
  unfold checkDiagonal
  rw [if_neg (by simp [he])]
  simp only []
  congr 1
  funext d
  exact rayCheck_eq inBoard s.board s.turn (opponentOf s.turn) row col d
    (opponentOf_ne_nul _) (fun _ _ h => h) (fun _ => rfl)

/-- `isValidMove` is the bounds test, the emptiness test, and a capture in one
of the eight directions. -/
theorem isValidMove_eq (row col : Int) (s : State) :
    isValidMove row col s =
      (inBoard row col && (s.board.get row col == EMPTY) &&
        directions.any (fun d =>
          decide (1 ≤ capturedIn s.board s.turn (opponentOf s.turn) row col d))) := by
  unfold isValidMove
  by_cases hrc : inBoard row col = true
  · have hb := (inBoard_iff row col).1 hrc
    rw [if_neg (by omega), hrc]
    by_cases he : s.board.get row col = EMPTY
    · rw [if_neg (by simp [he]), checkVertical_eq row col s hrc he,
        checkHorizontal_eq row col s hrc he, checkDiagonal_eq row col s he]
      simp only [he, beq_self_eq_true, Bool.and_self, Bool.true_and, directions,
        diagonalDirections, List.any_cons, List.any_nil, Bool.or_false]
      generalize decide (1 ≤ capturedIn s.board s.turn (opponentOf s.turn) row col (-1, 0)) = a1
      generalize decide (1 ≤ capturedIn s.board s.turn (opponentOf s.turn) row col (1, 0)) = a2
      generalize decide (1 ≤ capturedIn s.board s.turn (opponentOf s.turn) row col (0, -1)) = a3
      generalize decide (1 ≤ capturedIn s.board s.turn (opponentOf s.turn) row col (0, 1)) = a4
      generalize decide (1 ≤ capturedIn s.board s.turn (opponentOf s.turn) row col (-1, -1)) = a5
      generalize decide (1 ≤ capturedIn s.board s.turn (opponentOf s.turn) row col (-1, 1)) = a6
      generalize decide (1 ≤ capturedIn s.board s.turn (opponentOf s.turn) row col (1, -1)) = a7
      generalize decide (1 ≤ capturedIn s.board s.turn (opponentOf s.turn) row col (1, 1)) = a8
      cases a1 <;> cases a2 <;> cases a3 <;> cases a4 <;> cases a5 <;> cases a6 <;>
        cases a7 <;> cases a8 <;> rfl
    · rw [if_pos (by simp [he])]
      have : (s.board.get row col == EMPTY) = false := by simp [he]
      simp [this]
  · have hb : ¬ (0 ≤ row ∧ row < 8 ∧ 0 ≤ col ∧ col < 8) := by rw [← inBoard_iff]; exact hrc
    rw [if_pos (by omega)]
    simp only [Bool.not_eq_true] at hrc
    simp [hrc]

/-! ## Captures -/

theorem mem_directions_iff (d : Int × Int) : d ∈ directions ↔ IsCompass d := by
  obtain ⟨a, b⟩ := d
  simp only [directions, List.mem_cons, List.mem_singleton, List.not_mem_nil, or_false,
    Prod.mk.injEq, IsCompass, ne_eq, not_and]
  constructor
  · intro h
    rcases h with ⟨h1, h2⟩ | ⟨h1, h2⟩ | ⟨h1, h2⟩ | ⟨h1, h2⟩ | ⟨h1, h2⟩ | ⟨h1, h2⟩ | ⟨h1, h2⟩ |
      ⟨h1, h2⟩ <;> subst h1 <;> subst h2 <;> simp
  · intro h
    omega

theorem isOpponentDisc_iff (turn c : Char) (hturn : turn = 'b' ∨ turn = 'w') :
    IsOpponentDisc turn c ↔ c = opponentOf turn := by
  unfold IsOpponentDisc opponentOf
  rcases hturn with h | h <;> subst h
  · simp only [if_true]
    constructor
    · rintro ⟨h1 | h1, h2⟩
      · exact absurd h1 h2
      · exact h1
    · intro h; subst h; exact ⟨Or.inr rfl, by decide⟩
  · rw [if_neg (by decide)]
    constructor
    · rintro ⟨h1 | h1, h2⟩
      · exact h1
      · exact absurd h1 h2
    · intro h; subst h; exact ⟨Or.inl rfl, by decide⟩

/-- A capture of `k` discs along `d`, as the specification words it, is the
statement that the captured count along `d` is `k`. -/
theorem bracket_iff (g : Grid) (me opp : Char) (row col : Int) (d : Int × Int) (k : Nat)
    (hd : d ∈ directions) (hrc : inBoard row col = true) (hne : me ≠ opp) :
    Bracket g me (fun c => c = opp) row col d k ↔
      1 ≤ k ∧ capturedIn g me opp row col d = k := by
  have shift1 : ∀ i : Nat, row + ((i : Int) + 1) * d.1 = row + d.1 + (i : Int) * d.1 := by
    intro i; ring
  have shift2 : ∀ i : Nat, col + ((i : Int) + 1) * d.2 = col + d.2 + (i : Int) * d.2 := by
    intro i; ring
  constructor
  · rintro ⟨hk, hall, hin, hme⟩
    refine ⟨hk, ?_⟩
    have hk7 : k + 1 ≤ 7 := by
      apply steps_le_seven row col d (k + 1) hd hrc
      push_cast; exact hin
    have hn : runLen g opp d.1 d.2 8 (row + d.1) (col + d.2) = k := by
      apply runLen_unique g opp d.1 d.2 8 _ _ k (by omega)
      · intro i hi
        rw [← shift1, ← shift2]; exact hall i hi
      · rw [← shift1, ← shift2]
        rintro ⟨_, h2⟩
        rw [hme] at h2; exact hne h2
    unfold capturedIn
    simp only [hn]
    rw [if_pos (by simp [hin, hme])]
  · rintro ⟨hk, hc⟩
    unfold capturedIn at hc
    simp only [] at hc
    split at hc
    · rename_i hif
      simp only [Bool.and_eq_true, beq_iff_eq] at hif
      rw [hc] at hif
      refine ⟨hk, ?_, hif.1, hif.2⟩
      intro i hi
      have := runLen_cells g opp d.1 d.2 8 (row + d.1) (col + d.2) i (by omega)
      rw [shift1, shift2]; exact this
    · omega

/-- A move is accepted by `isValidMove` exactly when it is on the board, on an
empty cell, and captures along one of the eight directions. -/
theorem isValidMove_iff (row col : Int) (s : State) :
    isValidMove row col s = true ↔
      inBoard row col = true ∧ s.board.get row col = EMPTY ∧
      ∃ d, d ∈ directions ∧ ∃ k,
        Bracket s.board s.turn (fun c => c = opponentOf s.turn) row col d k := by
  rw [isValidMove_eq]
  simp only [Bool.and_eq_true, beq_iff_eq, List.any_eq_true, decide_eq_true_eq, and_assoc]
  constructor
  · rintro ⟨h1, h2, d, hd, hk⟩
    exact ⟨h1, h2, d, hd, _,
      (bracket_iff s.board s.turn _ row col d _ hd h1 (opponentOf_ne _).symm).2 ⟨hk, rfl⟩⟩
  · rintro ⟨h1, h2, d, hd, k, hb⟩
    have := (bracket_iff s.board s.turn _ row col d k hd h1 (opponentOf_ne _).symm).1 hb
    exact ⟨h1, h2, d, hd, by omega⟩

/-! ## C1 -/

/-- C1. For a state whose turn is `'b'` or `'w'` and any integers `row`, `col`:
`isValidMove` is false when `row` or `col` is outside `0..7`, false when the
cell is not empty, and otherwise true exactly when, along one of the eight
compass directions, the cells walked outward from `(row, col)` are one or more
opponent discs followed, still inside the board, by a disc of the mover. -/
theorem isValidMove_spec (s : State) (row col : Int) (hturn : s.turn = 'b' ∨ s.turn = 'w') :
    ((row < 0 ∨ 7 < row ∨ col < 0 ∨ 7 < col) → isValidMove row col s = false) ∧
    (s.board.get row col ≠ EMPTY → isValidMove row col s = false) ∧
    ((0 ≤ row ∧ row ≤ 7 ∧ 0 ≤ col ∧ col ≤ 7) → s.board.get row col = EMPTY →
      (isValidMove row col s = true ↔
        ∃ d, IsCompass d ∧ ∃ k, Bracket s.board s.turn (IsOpponentDisc s.turn) row col d k)) := by
  have hfun : IsOpponentDisc s.turn = (fun c => c = opponentOf s.turn) := by
    funext c; exact propext (isOpponentDisc_iff s.turn c hturn)
  refine ⟨?_, ?_, ?_⟩
  · intro h
    rw [← Bool.not_eq_true, isValidMove_iff, inBoard_iff]
    omega
  · intro h
    rw [← Bool.not_eq_true, isValidMove_iff]
    exact fun h2 => h h2.2.1
  · intro hb he
    rw [isValidMove_iff, hfun]
    have hin : inBoard row col = true := by rw [inBoard_iff]; omega
    constructor
    · rintro ⟨_, _, d, hd, hk⟩
      exact ⟨d, (mem_directions_iff d).1 hd, hk⟩
    · rintro ⟨d, hd, hk⟩
      exact ⟨hin, he, d, (mem_directions_iff d).2 hd, hk⟩

/-- In the opening position black may play `(2, 3)`: some compass direction
captures. -/
theorem isValidMove_spec_witness :
    (State.new.turn = 'b' ∨ State.new.turn = 'w') ∧
    ∃ d, IsCompass d ∧ ∃ k,
      Bracket State.new.board State.new.turn (IsOpponentDisc State.new.turn) 2 3 d k :=
  ⟨Or.inl rfl,
    ((isValidMove_spec State.new 2 3 (Or.inl rfl)).2.2 (by decide) (by decide)).1 (by decide)⟩

/-! ## C2 -/

theorem resolve_of_illegal (s : State) (row col : Int) (h : isValidMove row col s = false) :
    resolve row col s = s := by
  unfold resolve
  rw [h]; rfl

/-- C2. When `isValidMove` is false (out of bounds, occupied, or capturing
nothing), `resolve` returns the input state: same grid, turn, counts and cached
`possibleStates`. -/
theorem resolve_illegal (s : State) (row col : Int) (h : isValidMove row col s = false) :
    resolve row col s = s ∧
    (resolve row col s).board = s.board ∧ (resolve row col s).turn = s.turn ∧
    (resolve row col s).white = s.white ∧ (resolve row col s).black = s.black ∧
    (resolve row col s).possibleStates = s.possibleStates := by
  rw [resolve_of_illegal s row col h]
  exact ⟨rfl, rfl, rfl, rfl, rfl, rfl⟩

/-- In the opening position `(0, 0)` captures nothing; `resolve` gives the
opening position back. -/
theorem resolve_illegal_witness :
    isValidMove 0 0 State.new = false ∧ resolve 0 0 State.new = State.new :=
  ⟨by decide, (resolve_illegal State.new 0 0 (by decide)).1⟩

/-! ## The flips of `resolve` -/

theorem mem_rayCells (dr dc r c : Int) (n : Nat) (p : Int × Int) :
    p ∈ rayCells dr dc r c n ↔
      ∃ i : Nat, i < n ∧ p.1 = r + (i : Int) * dr ∧ p.2 = c + (i : Int) * dc := by
  unfold rayCells
  simp only [List.mem_map, List.mem_range]
  constructor
  · rintro ⟨i, hi, rfl⟩; exact ⟨i, hi, rfl, rfl⟩
  · rintro ⟨i, hi, h1, h2⟩; exact ⟨i, hi, by ext <;> simp [h1, h2]⟩

theorem flipAll_get (me : Char) :
    ∀ (l : List (Int × Int)) (g : Grid) (r c : Int),
      (flipAll g l me).get r c = if inBoard r c = true ∧ (r, c) ∈ l then me else g.get r c := by
  intro l
  induction l with
  | nil => intro g r c; simp [flipAll]
  | cons p l ih =>
    intro g r c
    have e : flipAll g (p :: l) me = flipAll (g.set p.1 p.2 me) l me := rfl
    rw [e, ih, get_set]
    by_cases hb : inBoard r c = true
    · by_cases hl : (r, c) ∈ l
      · simp [hb, hl]
      · by_cases hp : (r, c) = p
        · subst hp; simp [hb]
        · have hp2 : ¬ (r = p.1 ∧ c = p.2) := fun h => hp (by ext <;> simp [h.1, h.2])
          simp [hb, hl, hp, hp2]
    · simp [hb]

theorem resolveDir_eq (row col : Int) (me opp : Char) (g : Grid) (d : Int × Int) :
    resolveDir row col me opp g d =
      if 1 ≤ capturedIn g me opp row col d then
        flipAll g (rayCells d.1 d.2 (row + d.1) (col + d.2)
          (runLen g opp d.1 d.2 8 (row + d.1) (col + d.2))) me
      else g := by
  unfold resolveDir
  simp only [collectLoop_eq, List.nil_append]
  have hc := capturedIn_pos g me opp row col d
  have e1 : row + d.1 + (runLen g opp d.1 d.2 8 (row + d.1) (col + d.2) : Int) * d.1 =
      row + ((runLen g opp d.1 d.2 8 (row + d.1) (col + d.2) : Int) + 1) * d.1 := by ring
  have e2 : col + d.2 + (runLen g opp d.1 d.2 8 (row + d.1) (col + d.2) : Int) * d.2 =
      col + ((runLen g opp d.1 d.2 8 (row + d.1) (col + d.2) : Int) + 1) * d.2 := by ring
  rw [e1, e2]
  have e3 : (!(rayCells d.1 d.2 (row + d.1) (col + d.2)
      (runLen g opp d.1 d.2 8 (row + d.1) (col + d.2))).isEmpty) =
      decide (0 < runLen g opp d.1 d.2 8 (row + d.1) (col + d.2)) := by
    unfold rayCells
    cases runLen g opp d.1 d.2 8 (row + d.1) (col + d.2) with
    | zero => simp
    | succ n => simp [List.range_succ]
  rw [e3, ← hc]
  simp only [decide_eq_true_eq]

theorem resolveDir_get (row col : Int) (me opp : Char) (g : Grid) (d : Int × Int) (r c : Int) :
    (resolveDir row col me opp g d).get r c =
      if FlippedAlong g me opp row col d r c then me else g.get r c := by
  have shift1 : ∀ i : Nat, row + ((i : Int) + 1) * d.1 = row + d.1 + (i : Int) * d.1 := by
    intro i; ring
  have shift2 : ∀ i : Nat, col + ((i : Int) + 1) * d.2 = col + d.2 + (i : Int) * d.2 := by
    intro i; ring
  rw [resolveDir_eq]
  by_cases hcap : 1 ≤ capturedIn g me opp row col d
  · rw [if_pos hcap, flipAll_get]
    have hn : capturedIn g me opp row col d = runLen g opp d.1 d.2 8 (row + d.1) (col + d.2) := by
      unfold capturedIn at hcap ⊢
      simp only [] at hcap ⊢
      split
      · rfl
      · rename_i h; rw [if_neg h] at hcap; omega
    have hiff : (inBoard r c = true ∧
        (r, c) ∈ rayCells d.1 d.2 (row + d.1) (col + d.2)
          (runLen g opp d.1 d.2 8 (row + d.1) (col + d.2))) ↔
        FlippedAlong g me opp row col d r c := by
      unfold FlippedAlong
      rw [mem_rayCells, hn]
      constructor
      · rintro ⟨_, i, hi, h1, h2⟩
        exact ⟨i, hi, by rw [shift1]; exact h1, by rw [shift2]; exact h2⟩
      · rintro ⟨i, hi, h1, h2⟩
        have hcell := (runLen_cells g opp d.1 d.2 8 (row + d.1) (col + d.2) i hi).1
        rw [← shift1, ← shift2, ← h1, ← h2] at hcell
        exact ⟨hcell, i, hi, by rw [← shift1]; exact h1, by rw [← shift2]; exact h2⟩
    by_cases hf : FlippedAlong g me opp row col d r c
    · rw [if_pos (hiff.2 hf), if_pos hf]
    · rw [if_neg (fun h => hf (hiff.1 h)), if_neg hf]
  · rw [if_neg hcap]
    have hf : ¬ FlippedAlong g me opp row col d r c := by
      rintro ⟨i, hi, _⟩; omega
    rw [if_neg hf]

theorem runLen_congr (g g2 : Grid) (opp : Char) (dr dc : Int) :
    ∀ (fuel : Nat) (r c : Int),
      (∀ i : Nat, g.get (r + (i : Int) * dr) (c + (i : Int) * dc) =
        g2.get (r + (i : Int) * dr) (c + (i : Int) * dc)) →
      runLen g opp dr dc fuel r c = runLen g2 opp dr dc fuel r c := by
  intro fuel
  induction fuel with
  | zero => intro r c _; rfl
  | succ n ih =>
    intro r c h
    unfold runLen
    have h0 := h 0
    simp only [Nat.cast_zero, zero_mul, add_zero] at h0
    rw [h0, ih (r + dr) (c + dc)]
    intro i
    have := h (i + 1)
    have e1 : r + ((i + 1 : Nat) : Int) * dr = r + dr + (i : Int) * dr := by push_cast; ring
    have e2 : c + ((i + 1 : Nat) : Int) * dc = c + dc + (i : Int) * dc := by push_cast; ring
    rw [e1, e2] at this; exact this

/-- The captured count along `d` depends only on the cells of the ray that
leaves `(row, col)` along `d`. -/
theorem capturedIn_congr (g g2 : Grid) (me opp : Char) (row col : Int) (d : Int × Int)
    (h : ∀ i : Nat, g.get (row + ((i : Int) + 1) * d.1) (col + ((i : Int) + 1) * d.2) =
      g2.get (row + ((i : Int) + 1) * d.1) (col + ((i : Int) + 1) * d.2)) :
    capturedIn g me opp row col d = capturedIn g2 me opp row col d := by
  have hn : runLen g opp d.1 d.2 8 (row + d.1) (col + d.2) =
      runLen g2 opp d.1 d.2 8 (row + d.1) (col + d.2) := by
    apply runLen_congr
    intro i
    have := h i
    have e1 : row + ((i : Int) + 1) * d.1 = row + d.1 + (i : Int) * d.1 := by ring
    have e2 : col + ((i : Int) + 1) * d.2 = col + d.2 + (i : Int) * d.2 := by ring
    rw [e1, e2] at this; exact this
  unfold capturedIn
  simp only []
  rw [hn]
  have := h (runLen g2 opp d.1 d.2 8 (row + d.1) (col + d.2))
  rw [this]

/-- Rays that leave a cell along two different directions share no cell. -/
theorem ray_disjoint (row col : Int) (d d2 : Int × Int) (i j : Nat)
    (hd : d ∈ directions) (hd2 : d2 ∈ directions)
    (h1 : row + ((i : Int) + 1) * d.1 = row + ((j : Int) + 1) * d2.1)
    (h2 : col + ((i : Int) + 1) * d.2 = col + ((j : Int) + 1) * d2.2) : d = d2 := by
  simp only [directions, List.mem_cons, List.mem_singleton, List.not_mem_nil, or_false] at hd hd2
  rcases hd with h | h | h | h | h | h | h | h <;> subst h <;>
    rcases hd2 with h | h | h | h | h | h | h | h <;> subst h <;>
    first
      | rfl
      | (exfalso; simp only at h1 h2; omega)

/-- The ray cells are never the cell they leave. -/
theorem ray_ne_origin (row col : Int) (d : Int × Int) (i : Nat) (hd : d ∈ directions)
    (h1 : row + ((i : Int) + 1) * d.1 = row) (h2 : col + ((i : Int) + 1) * d.2 = col) :
    False := by
  simp only [directions, List.mem_cons, List.mem_singleton, List.not_mem_nil, or_false] at hd
  rcases hd with h | h | h | h | h | h | h | h <;> subst h <;> simp only at h1 h2 <;> omega

theorem flippedAlong_congr (g g2 : Grid) (me opp : Char) (row col : Int) (d : Int × Int)
    (r c : Int)
    (h : ∀ i : Nat, g.get (row + ((i : Int) + 1) * d.1) (col + ((i : Int) + 1) * d.2) =
      g2.get (row + ((i : Int) + 1) * d.1) (col + ((i : Int) + 1) * d.2)) :
    FlippedAlong g me opp row col d r c ↔ FlippedAlong g2 me opp row col d r c := by
  unfold FlippedAlong
  rw [capturedIn_congr g g2 me opp row col d h]

/-- The `for (dir ...)` loop of `resolve`, run over pairwise different
directions on a grid that still agrees with `g0` on their rays, turns into
the mover exactly the cells that `g0` captures along those directions. -/
theorem foldl_resolveDir_get (g0 : Grid) (me opp : Char) (row col : Int) :
    ∀ (ds : List (Int × Int)) (g : Grid),
      (∀ d, d ∈ ds → d ∈ directions) → ds.Nodup →
      (∀ d, d ∈ ds → ∀ i : Nat,
        g.get (row + ((i : Int) + 1) * d.1) (col + ((i : Int) + 1) * d.2) =
        g0.get (row + ((i : Int) + 1) * d.1) (col + ((i : Int) + 1) * d.2)) →
      ∀ r c : Int, (ds.foldl (resolveDir row col me opp) g).get r c =
        if ∃ d, d ∈ ds ∧ FlippedAlong g0 me opp row col d r c then me else g.get r c := by
  intro ds
  induction ds with
  | nil => intro g _ _ _ r c; simp
  | cons d rest ih =>
    intro g hsub hnd hag r c
    rw [List.foldl_cons]
    have hd : d ∈ directions := hsub d (List.mem_cons_self _ _)
    have hnd2 := List.nodup_cons.1 hnd
    have hfl : ∀ r c, FlippedAlong g me opp row col d r c ↔
        FlippedAlong g0 me opp row col d r c :=
      fun r c => flippedAlong_congr g g0 me opp row col d r c (hag d (List.mem_cons_self _ _))
    have hag2 : ∀ d2, d2 ∈ rest → ∀ i : Nat,
        (resolveDir row col me opp g d).get (row + ((i : Int) + 1) * d2.1)
          (col + ((i : Int) + 1) * d2.2) =
        g0.get (row + ((i : Int) + 1) * d2.1) (col + ((i : Int) + 1) * d2.2) := by
      intro d2 hd2 i
      rw [resolveDir_get, if_neg, hag d2 (List.mem_cons_of_mem _ hd2)]
      rintro ⟨j, _, h1, h2⟩
      have := ray_disjoint row col d2 d i j (hsub d2 (List.mem_cons_of_mem _ hd2)) hd h1 h2
      exact hnd2.1 (this ▸ hd2)
    rw [ih (resolveDir row col me opp g d) (fun d2 h => hsub d2 (List.mem_cons_of_mem _ h))
      hnd2.2 hag2 r c, resolveDir_get]
    by_cases h1 : ∃ d2, d2 ∈ rest ∧ FlippedAlong g0 me opp row col d2 r c
    · obtain ⟨d2, hd2, hf⟩ := h1
      rw [if_pos ⟨d2, hd2, hf⟩, if_pos ⟨d2, List.mem_cons_of_mem _ hd2, hf⟩]
    · rw [if_neg h1]
      by_cases h2 : FlippedAlong g0 me opp row col d r c
      · rw [if_pos ((hfl r c).2 h2), if_pos ⟨d, List.mem_cons_self _ _, h2⟩]
      · rw [if_neg (fun h => h2 ((hfl r c).1 h)), if_neg]
        rintro ⟨d2, hd2, hf⟩
        rcases List.mem_cons.1 hd2 with e | e
        · subst e; exact h2 hf
        · exact h1 ⟨d2, e, hf⟩

theorem opponentOf_ne_empty (t : Char) : opponentOf t ≠ EMPTY := by
  unfold opponentOf
  split <;> decide

theorem directions_nodup : directions.Nodup := by decide

/-- The grid returned by `resolve` for a legal move, cell by cell, in terms of
the input grid. -/
theorem resolve_board_get (s : State) (row col : Int) (h : isValidMove row col s = true)
    (r c : Int) :
    (resolve row col s).board.get r c =
      if r = row ∧ c = col then s.turn
      else if ∃ d, d ∈ directions ∧
          FlippedAlong s.board s.turn (opponentOf s.turn) row col d r c then s.turn
      else s.board.get r c := by
  have hin : inBoard row col = true := ((isValidMove_iff row col s).1 h).1
  unfold resolve
  rw [h]
  simp only [Bool.not_true, Bool.false_eq_true, if_false]
  rw [foldl_resolveDir_get s.board s.turn (opponentOf s.turn) row col directions
    (s.board.set row col s.turn) (fun _ hd => hd) directions_nodup]
  · by_cases ho : r = row ∧ c = col
    · obtain ⟨rfl, rfl⟩ := ho
      rw [if_neg, get_set, if_pos ⟨hin, rfl, rfl⟩]
      · simp
      · rintro ⟨d, hd, i, _, h1, h2⟩
        exact ray_ne_origin r c d i hd h1.symm h2.symm
    · rw [if_neg ho, get_set,
        if_neg (show ¬ (inBoard r c = true ∧ r = row ∧ c = col) from fun hh => ho hh.2)]
  · intro d hd i
    rw [get_set, if_neg]
    rintro ⟨_, h1, h2⟩
    exact ray_ne_origin row col d i hd h1 h2

theorem onCapturedRun_iff (g : Grid) (me opp : Char) (row col r c : Int)
    (hrc : inBoard row col = true) (hne : me ≠ opp) :
    OnCapturedRun g me opp row col r c ↔
      ∃ d, d ∈ directions ∧ FlippedAlong g me opp row col d r c := by
  constructor
  · rintro ⟨d, hd, k, i, hb, hi, h1, h2⟩
    have hd2 := (mem_directions_iff d).2 hd
    have := (bracket_iff g me opp row col d k hd2 hrc hne).1 hb
    exact ⟨d, hd2, i, by omega, h1, h2⟩
  · rintro ⟨d, hd, i, hi, h1, h2⟩
    refine ⟨d, (mem_directions_iff d).1 hd, capturedIn g me opp row col d, i, ?_, hi, h1, h2⟩
    exact (bracket_iff g me opp row col d _ hd hrc hne).2 ⟨by omega, rfl⟩

/-- The cells of a captured run hold opponent discs on the input grid. -/
theorem onCapturedRun_opp (g : Grid) (me opp : Char) (row col r c : Int)
    (h : OnCapturedRun g me opp row col r c) : g.get r c = opp := by
  obtain ⟨d, _, k, i, hb, hi, h1, h2⟩ := h
  rw [h1, h2]
  exact (hb.2.1 i hi).2

/-! ## C3 -/

/-- C3. For a legal move `(row, col)`, the grid returned by `resolve` has the
mover's disc at `(row, col)`; a cell was an opponent disc and is now a mover's
disc exactly when it lies on a run of contiguous opponent discs that starts
next to `(row, col)` in one of the eight directions and ends, on the input
grid, at a mover's disc inside the board; every other cell is as in the input;
and the returned turn is the opponent.  The captured runs are those of the
input grid, although the code computes each of them on the grid already
updated for the earlier directions. -/
theorem resolve_spec (s : State) (row col : Int) (h : isValidMove row col s = true) :
    (resolve row col s).board.get row col = s.turn ∧
    (∀ r c : Int,
      (s.board.get r c = opponentOf s.turn ∧ (resolve row col s).board.get r c = s.turn) ↔
        OnCapturedRun s.board s.turn (opponentOf s.turn) row col r c) ∧
    (∀ r c : Int, ¬ (r = row ∧ c = col) →
      ¬ OnCapturedRun s.board s.turn (opponentOf s.turn) row col r c →
      (resolve row col s).board.get r c = s.board.get r c) ∧
    (resolve row col s).turn = opponentOf s.turn ∧
    (s.turn = 'b' → (resolve row col s).turn = 'w') ∧
    (s.turn = 'w' → (resolve row col s).turn = 'b') := by
  have hv := (isValidMove_iff row col s).1 h
  have hin : inBoard row col = true := hv.1
  have hne : s.turn ≠ opponentOf s.turn := (opponentOf_ne _).symm
  have hturn : (resolve row col s).turn = opponentOf s.turn := by
    unfold resolve; rw [h]; rfl
  refine ⟨?_, ?_, ?_, hturn, ?_, ?_⟩
  · rw [resolve_board_get s row col h, if_pos ⟨rfl, rfl⟩]
  · intro r c
    rw [resolve_board_get s row col h, onCapturedRun_iff _ _ _ _ _ _ _ hin hne]
    constructor
    · rintro ⟨h1, h2⟩
      by_cases ho : r = row ∧ c = col
      · obtain ⟨rfl, rfl⟩ := ho
        rw [hv.2.1] at h1
        exact absurd h1.symm (opponentOf_ne_empty _)
      · rw [if_neg ho] at h2
        by_cases hf : ∃ d, d ∈ directions ∧
            FlippedAlong s.board s.turn (opponentOf s.turn) row col d r c
        · exact hf
        · rw [if_neg hf, h1] at h2
          exact absurd h2.symm hne
    · intro hf
      refine ⟨onCapturedRun_opp _ _ _ _ _ _ _
        ((onCapturedRun_iff _ _ _ _ _ _ _ hin hne).2 hf), ?_⟩
      by_cases ho : r = row ∧ c = col
      · rw [if_pos ho]
      · rw [if_neg ho, if_pos hf]
  · intro r c ho hn
    rw [resolve_board_get s row col h, if_neg ho, if_neg]
    exact fun hf => hn ((onCapturedRun_iff _ _ _ _ _ _ _ hin hne).2 hf)
  · intro hb; rw [hturn, hb]; rfl
  · intro hw; rw [hturn, hw]; rfl

set_option maxRecDepth 100000 in
/-- In the opening position black plays `(2, 3)`: the disc lands there, the
white disc at `(3, 3)` is the only cell on a captured run, and white is to
move. -/
theorem resolve_spec_witness :
    isValidMove 2 3 State.new = true ∧
    (resolve 2 3 State.new).board.get 2 3 = 'b' ∧
    OnCapturedRun State.new.board 'b' 'w' 2 3 3 3 ∧
    (resolve 2 3 State.new).turn = 'w' :=
  ⟨by decide, (resolve_spec State.new 2 3 (by decide)).1,
    ((resolve_spec State.new 2 3 (by decide)).2.1 3 3).1 ⟨by decide, by decide⟩,
    (resolve_spec State.new 2 3 (by decide)).2.2.2.2.1 rfl⟩

/-! ## Disc tallies -/

theorem cells_nodup : cells.Nodup := by decide

theorem mem_cells_iff (p : Int × Int) : p ∈ cells ↔ inBoard p.1 p.2 = true := by
  obtain ⟨r, c⟩ := p
  rw [inBoard_iff]
  constructor
  · intro h
    simp only [cells, List.mem_flatMap, List.mem_map, List.mem_range, Prod.mk.injEq] at h
    obtain ⟨a, ha, b, hb, h1, h2⟩ := h
    omega
  · intro h
    simp only [cells, List.mem_flatMap, List.mem_map, List.mem_range, Prod.mk.injEq]
    exact ⟨r.toNat, by omega, c.toNat, by omega, by omega, by omega⟩

/-- Changing a predicate at one element of a duplicate-free list moves its
count by that element alone. -/
theorem countP_update {α : Type} (p q : α → Bool) (a : α) :
    ∀ (l : List α), l.Nodup → a ∈ l → (∀ x, x ∈ l → x ≠ a → q x = p x) →
      l.countP q + (if p a = true then 1 else 0) = l.countP p + (if q a = true then 1 else 0) := by
  intro l
  induction l with
  | nil => intro _ h; simp at h
  | cons x l ih =>
    intro hnd hmem hpq
    have hnd2 := List.nodup_cons.1 hnd
    by_cases hxa : x = a
    · subst hxa
      have hrest : l.countP q = l.countP p := by
        apply List.countP_congr
        intro y hy
        have hne : y ≠ x := fun e => hnd2.1 (e ▸ hy)
        rw [hpq y (List.mem_cons_of_mem _ hy) hne]
      rw [List.countP_cons, List.countP_cons, hrest]
      omega
    · have hmem2 : a ∈ l := by
        rcases List.mem_cons.1 hmem with e | e
        · exact absurd e.symm hxa
        · exact e
      have := ih hnd2.2 hmem2 (fun y hy hne => hpq y (List.mem_cons_of_mem _ hy) hne)
      rw [List.countP_cons, List.countP_cons, hpq x (List.mem_cons_self _ _) hxa]
      omega

/-- The effect of one write on a tally. -/
theorem tally_set (g : Grid) (r c : Int) (v x : Char) (hin : inBoard r c = true) :
    tally (g.set r c v) x + (if g.get r c = x then 1 else 0) =
      tally g x + (if v = x then 1 else 0) := by
  have := countP_update (fun rc : Int × Int => g.get rc.1 rc.2 == x)
    (fun rc : Int × Int => (g.set r c v).get rc.1 rc.2 == x) (r, c) cells cells_nodup
    ((mem_cells_iff (r, c)).2 hin)
    (fun p _ hne => by
      simp only
      rw [get_set, if_neg]
      rintro ⟨_, h1, h2⟩
      exact hne (by ext <;> simp [h1, h2]))
  simp only [get_set, hin, true_and, and_self, if_true, beq_iff_eq] at this
  unfold tally
  simp only [get_set]
  exact this

/-- Flipping a duplicate-free list of cells that all hold `opp` moves that many
discs from the tally of `opp` to the tally of `me`. -/
theorem tally_flipAll (me opp : Char) (hne : me ≠ opp) :
    ∀ (l : List (Int × Int)) (g : Grid), l.Nodup →
      (∀ p, p ∈ l → inBoard p.1 p.2 = true ∧ g.get p.1 p.2 = opp) →
      tally (flipAll g l me) me = tally g me + l.length ∧
      tally (flipAll g l me) opp + l.length = tally g opp := by
  intro l
  induction l with
  | nil => intro g _ _; simp [flipAll]
  | cons p l ih =>
    intro g hnd hall
    have hnd2 := List.nodup_cons.1 hnd
    have hp := hall p (List.mem_cons_self _ _)
    have e : flipAll g (p :: l) me = flipAll (g.set p.1 p.2 me) l me := rfl
    have hrest : ∀ q, q ∈ l →
        inBoard q.1 q.2 = true ∧ (g.set p.1 p.2 me).get q.1 q.2 = opp := by
      intro q hq
      have hq2 := hall q (List.mem_cons_of_mem _ hq)
      refine ⟨hq2.1, ?_⟩
      rw [get_set, if_neg, hq2.2]
      rintro ⟨_, h1, h2⟩
      exact hnd2.1 ((show q = p by ext <;> simp [h1, h2]) ▸ hq)
    have ih2 := ih (g.set p.1 p.2 me) hnd2.2 hrest
    have t1 := tally_set g p.1 p.2 me me hp.1
    have t2 := tally_set g p.1 p.2 me opp hp.1
    rw [hp.2, if_neg hne.symm, if_pos rfl] at t1
    rw [hp.2, if_pos rfl, if_neg hne] at t2
    rw [e, List.length_cons]
    omega

theorem capturedIn_eq_runLen (g : Grid) (me opp : Char) (row col : Int) (d : Int × Int)
    (h : 1 ≤ capturedIn g me opp row col d) :
    capturedIn g me opp row col d = runLen g opp d.1 d.2 8 (row + d.1) (col + d.2) := by
  unfold capturedIn at h ⊢
  simp only [] at h ⊢
  split
  · rfl
  · rename_i hh; rw [if_neg hh] at h; omega

theorem rayCells_length (dr dc r c : Int) (n : Nat) : (rayCells dr dc r c n).length = n := by
  simp [rayCells]

theorem rayCells_nodup (d : Int × Int) (r c : Int) (n : Nat) (hd : d ∈ directions) :
    (rayCells d.1 d.2 r c n).Nodup := by
  unfold rayCells
  apply List.Nodup.map_on _ (List.nodup_range n)
  intro i _ j _ hij
  simp only [Prod.mk.injEq] at hij
  simp only [directions, List.mem_cons, List.mem_singleton, List.not_mem_nil, or_false] at hd
  rcases hd with h | h | h | h | h | h | h | h <;> subst h <;> simp only at hij <;> omega

theorem tally_resolveDir (row col : Int) (me opp : Char) (g : Grid) (d : Int × Int)
    (hd : d ∈ directions) (hne : me ≠ opp) :
    tally (resolveDir row col me opp g d) me = tally g me + capturedIn g me opp row col d ∧
    tally (resolveDir row col me opp g d) opp + capturedIn g me opp row col d = tally g opp := by
  rw [resolveDir_eq]
  by_cases hcap : 1 ≤ capturedIn g me opp row col d
  · rw [if_pos hcap]
    have hn := capturedIn_eq_runLen g me opp row col d hcap
    have := tally_flipAll me opp hne
      (rayCells d.1 d.2 (row + d.1) (col + d.2) (runLen g opp d.1 d.2 8 (row + d.1) (col + d.2)))
      g (rayCells_nodup d _ _ _ hd)
      (fun p hp => by
        obtain ⟨i, hi, h1, h2⟩ := (mem_rayCells _ _ _ _ _ p).1 hp
        rw [h1, h2]
        exact runLen_cells g opp d.1 d.2 8 (row + d.1) (col + d.2) i hi)
    rw [rayCells_length] at this
    rw [hn]
    exact this
  · rw [if_neg hcap]
    have : capturedIn g me opp row col d = 0 := by omega
    rw [this]; simp

theorem resolveDir_agree (row col : Int) (me opp : Char) (g : Grid) (d d2 : Int × Int)
    (hd : d ∈ directions) (hd2 : d2 ∈ directions) (hne : d2 ≠ d) (i : Nat) :
    (resolveDir row col me opp g d).get (row + ((i : Int) + 1) * d2.1)
        (col + ((i : Int) + 1) * d2.2) =
      g.get (row + ((i : Int) + 1) * d2.1) (col + ((i : Int) + 1) * d2.2) := by
  rw [resolveDir_get, if_neg]
  rintro ⟨j, _, h1, h2⟩
  exact hne (ray_disjoint row col d2 d i j hd2 hd h1 h2)

/-- The `for (dir ...)` loop of `resolve` moves, for each direction, the
count captured on `g0` from the tally of `opp` to the tally of `me`. -/
theorem tally_foldl_resolveDir (g0 : Grid) (me opp : Char) (row col : Int) (hne : me ≠ opp) :
    ∀ (ds : List (Int × Int)) (g : Grid),
      (∀ d, d ∈ ds → d ∈ directions) → ds.Nodup →
      (∀ d, d ∈ ds → ∀ i : Nat,
        g.get (row + ((i : Int) + 1) * d.1) (col + ((i : Int) + 1) * d.2) =
        g0.get (row + ((i : Int) + 1) * d.1) (col + ((i : Int) + 1) * d.2)) →
      tally (ds.foldl (resolveDir row col me opp) g) me =
        tally g me + (ds.map (capturedIn g0 me opp row col)).sum ∧
      tally (ds.foldl (resolveDir row col me opp) g) opp +
        (ds.map (capturedIn g0 me opp row col)).sum = tally g opp := by
  intro ds
  induction ds with
  | nil => intro g _ _ _; simp
  | cons d rest ih =>
    intro g hsub hnd hag
    have hd : d ∈ directions := hsub d (List.mem_cons_self _ _)
    have hnd2 := List.nodup_cons.1 hnd
    have hcap : capturedIn g me opp row col d = capturedIn g0 me opp row col d :=
      capturedIn_congr g g0 me opp row col d (hag d (List.mem_cons_self _ _))
    have hstep := tally_resolveDir row col me opp g d hd hne
    have ih2 := ih (resolveDir row col me opp g d)
      (fun d2 h => hsub d2 (List.mem_cons_of_mem _ h)) hnd2.2
      (fun d2 hd2 i => by
        rw [resolveDir_agree row col me opp g d d2 hd (hsub d2 (List.mem_cons_of_mem _ hd2))
          (fun e => hnd2.1 (e ▸ hd2)) i]
        exact hag d2 (List.mem_cons_of_mem _ hd2) i)
    rw [List.foldl_cons, List.map_cons, List.sum_cons]
    rw [hcap] at hstep
    omega

/-- The tallies of the mover and of the opponent after a legal move. -/
theorem tally_resolve (s : State) (row col : Int) (h : isValidMove row col s = true)
    (hturn : s.turn ≠ EMPTY) :
    tally (resolve row col s).board s.turn =
      tally s.board s.turn + 1 + flipTotal s.board s.turn (opponentOf s.turn) row col ∧
    tally (resolve row col s).board (opponentOf s.turn) +
      flipTotal s.board s.turn (opponentOf s.turn) row col = tally s.board (opponentOf s.turn) := by
  have hv := (isValidMove_iff row col s).1 h
  have hne : s.turn ≠ opponentOf s.turn := (opponentOf_ne _).symm
  have hb : (resolve row col s).board =
      directions.foldl (resolveDir row col s.turn (opponentOf s.turn))
        (s.board.set row col s.turn) := by
    unfold resolve; rw [h]; rfl
  have hf := tally_foldl_resolveDir s.board s.turn (opponentOf s.turn) row col hne directions
    (s.board.set row col s.turn) (fun _ hd => hd) directions_nodup
    (fun d hd i => by
      rw [get_set, if_neg]
      rintro ⟨_, h1, h2⟩
      exact ray_ne_origin row col d i hd h1 h2)
  have t1 := tally_set s.board row col s.turn s.turn hv.1
  have t2 := tally_set s.board row col s.turn (opponentOf s.turn) hv.1
  rw [hv.2.1, if_neg (fun e => hturn e.symm), if_pos rfl] at t1
  rw [hv.2.1, if_neg (fun e => opponentOf_ne_empty _ e.symm), if_neg hne] at t2
  rw [hb]
  unfold flipTotal
  omega

theorem countP_split {α : Type} (p q r : α → Bool) :
    ∀ (l : List α),
      (∀ x, x ∈ l → (if p x = true then 1 else 0) =
        (if q x = true then 1 else 0) + (if r x = true then (1 : Nat) else 0)) →
      l.countP p = l.countP q + l.countP r := by
  intro l
  induction l with
  | nil => intro _; rfl
  | cons x l ih =>
    intro h
    have hx := h x (List.mem_cons_self _ _)
    have := ih (fun y hy => h y (List.mem_cons_of_mem _ hy))
    rw [List.countP_cons, List.countP_cons, List.countP_cons]
    omega

theorem flipTotal_pos (s : State) (row col : Int) (h : isValidMove row col s = true) :
    1 ≤ flipTotal s.board s.turn (opponentOf s.turn) row col := by
  rw [isValidMove_eq] at h
  simp only [Bool.and_eq_true, List.any_eq_true, decide_eq_true_eq] at h
  obtain ⟨_, d, hd, hk⟩ := h
  unfold flipTotal
  have := List.single_le_sum (fun _ _ => Nat.zero_le _) _
    (List.mem_map_of_mem (capturedIn s.board s.turn (opponentOf s.turn) row col) hd)
  omega

theorem changedCount_resolve (s : State) (row col : Int) (h : isValidMove row col s = true) :
    changedCount s.board (resolve row col s).board (opponentOf s.turn) s.turn +
      tally (resolve row col s).board (opponentOf s.turn) = tally s.board (opponentOf s.turn) := by
  have hv := (isValidMove_iff row col s).1 h
  have hne : s.turn ≠ opponentOf s.turn := (opponentOf_ne _).symm
  unfold changedCount tally
  symm
  apply countP_split
  intro p _
  simp only [Bool.and_eq_true, beq_iff_eq]
  rw [resolve_board_get s row col h]
  by_cases ho : p.1 = row ∧ p.2 = col
  · rw [if_pos ho, ho.1, ho.2, hv.2.1]
    rw [if_neg (fun e => opponentOf_ne_empty _ e.symm),
      if_neg (fun e => opponentOf_ne_empty _ e.1.symm), if_neg hne]
  · rw [if_neg ho]
    by_cases hf : ∃ d, d ∈ directions ∧
        FlippedAlong s.board s.turn (opponentOf s.turn) row col d p.1 p.2
    · have hopp := onCapturedRun_opp _ _ _ _ _ _ _
        ((onCapturedRun_iff _ _ _ _ _ _ _ hv.1 hne).2 hf)
      rw [if_pos hf, hopp, if_pos rfl, if_pos ⟨rfl, rfl⟩, if_neg hne]
    · rw [if_neg hf]
      by_cases hc : s.board.get p.1 p.2 = opponentOf s.turn
      · rw [if_pos hc, if_neg]
        rintro ⟨_, e⟩
        rw [hc] at e
        exact hne e.symm
      · rw [if_neg hc, if_neg (fun e => hc e.1)]

/-! ## C4 -/

/-- C4. For a legal move by a mover whose colour is not the empty marker (in
particular `'b'` or `'w'`), let `F = flipTotal` be the sum over the eight
directions of the lengths of the opponent runs that start next to the move and
are followed by a mover's disc (the first conjunct says that `capturedIn`
along `d` is that length).  Then `F ≥ 1`, exactly `F` cells change from
opponent to mover, the mover's tally grows by `1 + F` and the opponent's tally
shrinks by `F`. -/
theorem resolve_flip_count (s : State) (row col : Int) (h : isValidMove row col s = true)
    (hturn : s.turn ≠ EMPTY) :
    (∀ d k, IsCompass d →
      (Bracket s.board s.turn (fun x => x = opponentOf s.turn) row col d k ↔
        1 ≤ k ∧ capturedIn s.board s.turn (opponentOf s.turn) row col d = k)) ∧
    1 ≤ flipTotal s.board s.turn (opponentOf s.turn) row col ∧
    changedCount s.board (resolve row col s).board (opponentOf s.turn) s.turn =
      flipTotal s.board s.turn (opponentOf s.turn) row col ∧
    tally (resolve row col s).board s.turn =
      tally s.board s.turn + 1 + flipTotal s.board s.turn (opponentOf s.turn) row col ∧
    tally (resolve row col s).board (opponentOf s.turn) +
      flipTotal s.board s.turn (opponentOf s.turn) row col =
      tally s.board (opponentOf s.turn) := by
  have hv := (isValidMove_iff row col s).1 h
  have ht := tally_resolve s row col h hturn
  have hc := changedCount_resolve s row col h
  refine ⟨?_, flipTotal_pos s row col h, by omega, ht.1, ht.2⟩
  intro d k hd
  exact bracket_iff s.board s.turn _ row col d k ((mem_directions_iff d).2 hd) hv.1
    (opponentOf_ne _).symm

set_option maxRecDepth 100000 in
/-- In the opening position black plays `(2, 3)`: one disc is flipped, black
goes from 2 to 4 discs. -/
theorem resolve_flip_count_witness :
    isValidMove 2 3 State.new = true ∧ State.new.turn ≠ EMPTY ∧
    flipTotal State.new.board 'b' 'w' 2 3 = 1 ∧
    tally (resolve 2 3 State.new).board 'b' = tally State.new.board 'b' + 1 + 1 :=
  ⟨by decide, by decide, by decide,
    (resolve_flip_count State.new 2 3 (by decide) (by decide)).2.2.2.1⟩

/-! ## The keys of the legal-move cache -/

theorem toDigitsCore_length_ge :
    ∀ (fuel n : Nat) (ds : List Char), ds.length ≤ (Nat.toDigitsCore 10 fuel n ds).length := by
  intro fuel
  induction fuel with
  | zero => intro n ds; simp [Nat.toDigitsCore]
  | succ f ih =>
    intro n ds
    unfold Nat.toDigitsCore
    simp only []
    split
    · simp
    · have := ih (n / 10) (Nat.digitChar (n % 10) :: ds)
      simp only [List.length_cons] at this
      omega

theorem repr_length_pos (n : Nat) : 1 ≤ (Nat.repr n).length := by
  unfold Nat.repr Nat.toDigits
  simp only [List.asString, String.length]
  unfold Nat.toDigitsCore
  simp only []
  split
  · simp
  · have := toDigitsCore_length_ge n (n / 10) [Nat.digitChar (n % 10)]
    simpa using this

theorem repr_length_two (n : Nat) (h : 10 ≤ n) : 2 ≤ (Nat.repr n).length := by
  unfold Nat.repr Nat.toDigits
  simp only [List.asString, String.length]
  unfold Nat.toDigitsCore
  simp only []
  rw [if_neg (by omega)]
  obtain ⟨m, rfl⟩ : ∃ m, n = m + 1 := ⟨n - 1, by omega⟩
  unfold Nat.toDigitsCore
  simp only []
  split
  · simp
  · have := toDigitsCore_length_ge m ((m + 1) / 10 / 10)
      [Nat.digitChar ((m + 1) / 10 % 10), Nat.digitChar ((m + 1) % 10)]
    simpa using this

/-- The decimal text of an `int` has one character only for `0..9`. -/
theorem toString_length_one (r : Int) (h : (toString r).length ≤ 1) : 0 ≤ r ∧ r ≤ 9 := by
  cases r with
  | ofNat m =>
    have e : toString (Int.ofNat m) = Nat.repr m := rfl
    rw [e] at h
    by_cases hm : 10 ≤ m
    · have := repr_length_two m hm; omega
    · simp only [Int.ofNat_eq_coe]; omega
  | negSucc m =>
    have e : toString (Int.negSucc m) = "-" ++ Nat.repr (m + 1) := rfl
    rw [e, String.length_append] at h
    have := repr_length_pos (m + 1)
    have e2 : "-".length = 1 := rfl
    omega

theorem toString_length_pos (r : Int) : 1 ≤ (toString r).length := by
  cases r with
  | ofNat m => exact repr_length_pos m
  | negSucc m =>
    have e : toString (Int.negSucc m) = "-" ++ Nat.repr (m + 1) := rfl
    rw [e, String.length_append]
    have e2 : "-".length = 1 := rfl
    omega

theorem key_length (r c : Int) :
    (key r c).length = (toString r).length + 1 + (toString c).length := by
  unfold key
  rw [String.length_append, String.length_append]
  rfl

theorem key_digits (r c : Int) (hr : 0 ≤ r ∧ r ≤ 9) (hc : 0 ≤ c ∧ c ≤ 9) :
    key r c = String.mk [Nat.digitChar r.toNat, ':', Nat.digitChar c.toNat] := by
  obtain ⟨hr1, hr2⟩ := hr
  obtain ⟨hc1, hc2⟩ := hc
  interval_cases r <;> interval_cases c <;> rfl

theorem digitChar_inj (a b : Nat) (ha : a ≤ 9) (hb : b ≤ 9)
    (h : Nat.digitChar a = Nat.digitChar b) : a = b := by
  interval_cases a <;> interval_cases b <;> first | rfl | (exfalso; revert h; decide)

/-- The key of a cell of the board is the key of no other pair of integers. -/
theorem key_inj (r c r2 c2 : Int) (h2 : inBoard r2 c2 = true) (h : key r c = key r2 c2) :
    r = r2 ∧ c = c2 := by
  rw [inBoard_iff] at h2
  have hk2 := key_digits r2 c2 (by omega) (by omega)
  have hlen : (key r c).length = 3 := by rw [h, hk2]; rfl
  rw [key_length] at hlen
  have p1 := toString_length_pos r
  have p2 := toString_length_pos c
  have hr := toString_length_one r (by omega)
  have hc := toString_length_one c (by omega)
  rw [key_digits r c hr hc, hk2] at h
  injection h with h
  simp only [List.cons.injEq, and_true, true_and] at h
  have e1 := digitChar_inj r.toNat r2.toNat (by omega) (by omega) h.1
  have e2 := digitChar_inj c.toNat c2.toNat (by omega) (by omega) h.2
  omega

/-! ## `updateScore` -/

theorem updateScore_foldl :
    ∀ (l : List (Int × Int)) (st : State),
      l.foldl
        (fun st rc =>
          if st.board.get rc.1 rc.2 = 'w' then { st with white := st.white + 1 }
          else if st.board.get rc.1 rc.2 = 'b' then { st with black := st.black + 1 }
          else st) st =
      { st with
        white := st.white + (l.countP (fun rc => st.board.get rc.1 rc.2 == 'w') : Nat)
        black := st.black + (l.countP (fun rc => st.board.get rc.1 rc.2 == 'b') : Nat) } := by
  intro l
  induction l with
  | nil => intro st; cases st; simp
  | cons x l ih =>
    intro st
    rw [List.foldl_cons, ih, List.countP_cons, List.countP_cons]
    by_cases hw : st.board.get x.1 x.2 = 'w'
    · have hb : ¬ st.board.get x.1 x.2 = 'b' := by rw [hw]; decide
      simp only [hw, hb, if_true, if_false, beq_self_eq_true]
      have : ('w' == 'b') = false := by decide
      simp only [this, Bool.false_eq_true, if_false, Nat.add_zero]
      congr 1
      push_cast; ring
    · by_cases hb : st.board.get x.1 x.2 = 'b'
      · simp only [hb, if_true, beq_self_eq_true]
        have : ('b' == 'w') = false := by decide
        have hbw : ¬ ('b' = 'w') := by decide
        simp only [this, hbw, Bool.false_eq_true, if_false, Nat.add_zero]
        congr 1
        push_cast; ring
      · have e1 : (st.board.get x.1 x.2 == 'w') = false := by simp [hw]
        have e2 : (st.board.get x.1 x.2 == 'b') = false := by simp [hb]
        simp only [hw, hb, if_false, e1, e2, Bool.false_eq_true, Nat.add_zero]

/-- `updateScore` leaves the grid, the turn and the cache alone and sets the
two counters to the tallies of the grid. -/
theorem updateScore_eq (s : State) :
    updateScore s =
      { s with white := (tally s.board 'w' : Nat), black := (tally s.board 'b' : Nat) } := by
  unfold updateScore
  rw [updateScore_foldl]
  simp [tally]

/-! ## The legal-move cache -/

theorem mapFind_insert (k : String) (v : State) (k2 : String) :
    ∀ (m : List (String × State)),
      mapFind (mapInsert m k v) k2 = if k = k2 then some v else mapFind m k2 := by
  intro m
  induction m with
  | nil =>
    by_cases h : k = k2
    · simp [mapFind, mapInsert, h]
    · simp [mapFind, mapInsert, h]
  | cons e m ih =>
    unfold mapInsert
    by_cases he : e.1 = k
    · rw [if_pos (by simp [he])]
      by_cases h : k = k2
      · simp [mapFind, h]
      · have : ¬ e.1 = k2 := by rw [he]; exact h
        simp [mapFind, h, this]
    · rw [if_neg (by simp [he])]
      by_cases h2 : e.1 = k2
      · have : ¬ k = k2 := by rw [← h2]; exact fun e2 => he e2.symm
        simp [mapFind, h2, this]
      · have ih2 := ih
        unfold mapFind at ih2 ⊢
        rw [List.find?_cons_of_neg _ (by simp [h2]), ih2,
          List.find?_cons_of_neg _ (by simp [h2])]

theorem mapContains_iff (m : List (String × State)) (k : String) :
    mapContains m k = true ↔ ∃ v, mapFind m k = some v := by
  induction m with
  | nil => simp [mapContains, mapFind]
  | cons e m ih =>
    by_cases h : e.1 = k
    · simp [mapContains, mapFind, h]
    · unfold mapContains mapFind at ih ⊢
      rw [List.any_cons, List.find?_cons_of_neg _ (by simp [h])]
      simp only [Bool.or_eq_true, beq_iff_eq, h, false_or]
      exact ih

theorem isValidMove_congr (row col : Int) (s t : State) (hb : t.board = s.board)
    (ht : t.turn = s.turn) : isValidMove row col t = isValidMove row col s := by
  rw [isValidMove_eq, isValidMove_eq, hb, ht]

theorem updateStep_eq (s acc : State) (rc : Int × Int) (hb : acc.board = s.board)
    (ht : acc.turn = s.turn) (hw : acc.white = s.white) (hk : acc.black = s.black) :
    updateStep acc rc =
      if isValidMove rc.1 rc.2 s = true then
        { acc with
          possibleStates := mapInsert acc.possibleStates (key rc.1 rc.2) (successor s rc) }
      else acc := by
  unfold updateStep
  rw [isValidMove_congr rc.1 rc.2 s acc hb ht]
  by_cases hv : isValidMove rc.1 rc.2 s = true
  · rw [if_pos hv, if_pos hv]
    have hv2 : isValidMove rc.1 rc.2 acc = true := by
      rw [isValidMove_congr rc.1 rc.2 s acc hb ht]; exact hv
    have hres : resolve rc.1 rc.2 acc = resolve rc.1 rc.2 s := by
      unfold resolve
      rw [hv, hv2]
      simp only [Bool.not_true, Bool.false_eq_true, if_false]
      rw [hb, ht, hw, hk]
    simp only [successor, hres, ht]
  · rw [if_neg hv, if_neg hv]

/-- What the double loop of `updatePossibleStates` leaves in the cache, for a
list of cells `l` scanned from the accumulated state `acc`. -/
theorem foldl_updateStep (s : State) :
    ∀ (l : List (Int × Int)) (acc : State),
      acc.board = s.board → acc.turn = s.turn → acc.white = s.white → acc.black = s.black →
      ((l.foldl updateStep acc).board = s.board ∧ (l.foldl updateStep acc).turn = s.turn ∧
        (l.foldl updateStep acc).white = s.white ∧ (l.foldl updateStep acc).black = s.black) ∧
      (∀ k, (∀ rc, rc ∈ l → isValidMove rc.1 rc.2 s = true → key rc.1 rc.2 ≠ k) →
        mapFind (l.foldl updateStep acc).possibleStates k = mapFind acc.possibleStates k) ∧
      (∀ rc, rc ∈ l → isValidMove rc.1 rc.2 s = true →
        (∀ rc2, rc2 ∈ l → isValidMove rc2.1 rc2.2 s = true →
          key rc2.1 rc2.2 = key rc.1 rc.2 → rc2 = rc) →
        mapFind (l.foldl updateStep acc).possibleStates (key rc.1 rc.2) =
          some (successor s rc)) := by
  intro l
  induction l with
  | nil =>
    intro acc hb ht hw hk
    exact ⟨⟨hb, ht, hw, hk⟩, fun _ _ => rfl, fun rc h => by simp at h⟩
  | cons x l ih =>
    intro acc hb ht hw hk
    rw [List.foldl_cons]
    have hstep := updateStep_eq s acc x hb ht hw hk
    have hb2 : (updateStep acc x).board = s.board := by rw [hstep]; split <;> exact hb
    have ht2 : (updateStep acc x).turn = s.turn := by rw [hstep]; split <;> exact ht
    have hw2 : (updateStep acc x).white = s.white := by rw [hstep]; split <;> exact hw
    have hk2 : (updateStep acc x).black = s.black := by rw [hstep]; split <;> exact hk
    obtain ⟨i1, i2, i3⟩ := ih (updateStep acc x) hb2 ht2 hw2 hk2
    refine ⟨i1, ?_, ?_⟩
    · intro k hk
      rw [i2 k (fun rc hrc => hk rc (List.mem_cons_of_mem _ hrc)), hstep]
      by_cases hv : isValidMove x.1 x.2 s = true
      · rw [if_pos hv]
        simp only
        rw [mapFind_insert, if_neg (hk x (List.mem_cons_self _ _) hv)]
      · rw [if_neg hv]
    · intro rc hrc hv huniq
      by_cases hin : rc ∈ l
      · exact i3 rc hin hv (fun rc2 h2 => huniq rc2 (List.mem_cons_of_mem _ h2))
      · have hx : rc = x := by
          rcases List.mem_cons.1 hrc with e | e
          · exact e
          · exact absurd e hin
        subst hx
        rw [i2 (key rc.1 rc.2) (fun rc2 h2 hv2 e =>
          hin ((huniq rc2 (List.mem_cons_of_mem _ h2) hv2 e) ▸ h2)), hstep, if_pos hv]
        simp only
        rw [mapFind_insert, if_pos rfl]

/-- The cache after `updatePossibleStates`: the entry of a key, for every
string. -/
theorem updatePossibleStates_find (s : State) :
    (s.updatePossibleStates.board = s.board ∧ s.updatePossibleStates.turn = s.turn ∧
      s.updatePossibleStates.white = s.white ∧ s.updatePossibleStates.black = s.black) ∧
    (∀ r c : Int, isValidMove r c s = true →
      mapFind s.updatePossibleStates.possibleStates (key r c) = some (successor s (r, c))) ∧
    (∀ k, (∀ r c : Int, isValidMove r c s = true → key r c ≠ k) →
      mapFind s.updatePossibleStates.possibleStates k = none) := by
  obtain ⟨i1, i2, i3⟩ := foldl_updateStep s cells { s with possibleStates := [] } rfl rfl rfl rfl
  refine ⟨i1, ?_, ?_⟩
  · intro r c hv
    have hin : inBoard r c = true := ((isValidMove_iff r c s).1 hv).1
    exact i3 (r, c) ((mem_cells_iff (r, c)).2 hin) hv (fun rc2 _ _ e => by
      have := key_inj rc2.1 rc2.2 r c hin e
      ext
      · exact this.1
      · exact this.2)
  · intro k hk
    exact i2 k (fun rc _ hv => hk rc.1 rc.2 hv)

theorem successor_fields (s : State) (rc : Int × Int) :
    (successor s rc).board = (resolve rc.1 rc.2 s).board ∧
    (successor s rc).turn = opponentOf s.turn ∧
    (successor s rc).white = (tally (successor s rc).board 'w' : Nat) ∧
    (successor s rc).black = (tally (successor s rc).board 'b' : Nat) ∧
    (successor s rc).possibleStates = (resolve rc.1 rc.2 s).possibleStates := by
  unfold successor
  rw [updateScore_eq]
  exact ⟨rfl, rfl, rfl, rfl, rfl⟩

/-! ## C5 -/

set_option maxRecDepth 1000000 in
set_option maxHeartbeats 4000000 in
theorem opening_keys :
    State.new.updatePossibleStates.possibleStates.map Prod.fst =
      ["2:3", "3:2", "4:5", "5:4"] := by
  decide

set_option maxRecDepth 100000 in
/-- C5. A freshly constructed state is the opening position: every cell empty
except `(3,3) = 'w'`, `(3,4) = 'b'`, `(4,3) = 'b'`, `(4,4) = 'w'`; turn `'b'`;
`white = 2`, `black = 2`; and after `updatePossibleStates` the cache holds
exactly the four keys of `(2,3)`, `(3,2)`, `(4,5)` and `(5,4)`. -/
theorem opening_position :
    (∀ i j : Fin 8, State.new.board i j =
      if (i = 3 ∧ j = 3) ∨ (i = 4 ∧ j = 4) then 'w'
      else if (i = 3 ∧ j = 4) ∨ (i = 4 ∧ j = 3) then 'b'
      else EMPTY) ∧
    State.new.turn = 'b' ∧ State.new.white = 2 ∧ State.new.black = 2 ∧
    (∀ k : String, mapContains State.new.updatePossibleStates.possibleStates k = true ↔
      k = key 2 3 ∨ k = key 3 2 ∨ k = key 4 5 ∨ k = key 5 4) ∧
    key 2 3 = "2:3" ∧ key 3 2 = "3:2" ∧ key 4 5 = "4:5" ∧ key 5 4 = "5:4" := by
  refine ⟨by decide, rfl, rfl, rfl, ?_, by decide, by decide, by decide, by decide⟩
  intro k
  have hk : ∀ m : List (String × State), mapContains m k = true ↔ k ∈ m.map Prod.fst := by
    intro m
    simp only [mapContains, List.any_eq_true, beq_iff_eq, List.mem_map]
  have e1 : key 2 3 = "2:3" := by decide
  have e2 : key 3 2 = "3:2" := by decide
  have e3 : key 4 5 = "4:5" := by decide
  have e4 : key 5 4 = "5:4" := by decide
  rw [hk, opening_keys, e1, e2, e3, e4]
  simp

/-! ## C6 -/

/-- C6. After `updatePossibleStates` the cache contains the key `"r:c"` exactly
when `0 ≤ r, c ≤ 7` and `isValidMove(r, c, state)` holds; every key of the
cache is the key of an empty cell of the parent grid that captures along some
direction; and the state stored under the key of a legal cell has the grid of
`resolve(r, c, state)`, the opponent of the parent's turn as its turn, and
`white` / `black` equal to the tallies of that grid. -/
theorem updatePossibleStates_spec (s : State) :
    (∀ r c : Int, mapContains s.updatePossibleStates.possibleStates (key r c) = true ↔
      ((0 ≤ r ∧ r ≤ 7 ∧ 0 ≤ c ∧ c ≤ 7) ∧ isValidMove r c s = true)) ∧
    (∀ k : String, mapContains s.updatePossibleStates.possibleStates k = true →
      ∃ r c : Int, k = key r c ∧ (0 ≤ r ∧ r ≤ 7 ∧ 0 ≤ c ∧ c ≤ 7) ∧
        s.board.get r c = EMPTY ∧
        ∃ d, IsCompass d ∧ ∃ n,
          Bracket s.board s.turn (fun x => x = opponentOf s.turn) r c d n) ∧
    (∀ r c : Int, isValidMove r c s = true →
      ∃ v, mapFind s.updatePossibleStates.possibleStates (key r c) = some v ∧
        v.board = (resolve r c s).board ∧ v.turn = opponentOf s.turn ∧
        v.white = (tally (resolve r c s).board 'w' : Nat) ∧
        v.black = (tally (resolve r c s).board 'b' : Nat)) := by
  obtain ⟨_, hfind, hnone⟩ := updatePossibleStates_find s
  have hkeys : ∀ k : String, mapContains s.updatePossibleStates.possibleStates k = true →
      ∃ r c : Int, k = key r c ∧ isValidMove r c s = true := by
    intro k hk
    by_contra hcon
    have := hnone k (fun r c hv e => hcon ⟨r, c, e.symm, hv⟩)
    rw [mapContains_iff] at hk
    obtain ⟨v, hv⟩ := hk
    rw [this] at hv
    exact Option.noConfusion hv
  refine ⟨?_, ?_, ?_⟩
  · intro r c
    constructor
    · intro hk
      obtain ⟨r2, c2, e, hv⟩ := hkeys _ hk
      have hin := ((isValidMove_iff r2 c2 s).1 hv).1
      obtain ⟨rfl, rfl⟩ := key_inj r c r2 c2 hin e
      rw [inBoard_iff] at hin
      exact ⟨by omega, hv⟩
    · rintro ⟨_, hv⟩
      rw [mapContains_iff]
      exact ⟨_, hfind r c hv⟩
  · intro k hk
    obtain ⟨r, c, e, hv⟩ := hkeys k hk
    obtain ⟨hin, he, d, hd, n, hb⟩ := (isValidMove_iff r c s).1 hv
    rw [inBoard_iff] at hin
    exact ⟨r, c, e, by omega, he, d, (mem_directions_iff d).1 hd, n, hb⟩
  · intro r c hv
    obtain ⟨f1, f2, f3, f4, _⟩ := successor_fields s (r, c)
    refine ⟨successor s (r, c), hfind r c hv, f1, f2, ?_, ?_⟩
    · rw [f3, f1]
    · rw [f4, f1]

/-! ## C7 -/

theorem resolve_possibleStates (s : State) (row col : Int) (h : isValidMove row col s = true) :
    (resolve row col s).possibleStates = [] := by
  unfold resolve; rw [h]; rfl

/-- Every entry of the cache built by `updatePossibleStates` has counters equal
to its tallies and an empty cache of its own. -/
theorem updatePossibleStates_entries (s : State) (k : String) (v : State)
    (h : mapFind s.updatePossibleStates.possibleStates k = some v) :
    CountsOk v ∧ v.possibleStates = [] := by
  obtain ⟨_, hfind, hnone⟩ := updatePossibleStates_find s
  by_cases hex : ∃ r c : Int, isValidMove r c s = true ∧ key r c = k
  · obtain ⟨r, c, hv, rfl⟩ := hex
    rw [hfind r c hv] at h
    injection h with h
    subst h
    obtain ⟨_, _, f3, f4, f5⟩ := successor_fields s (r, c)
    exact ⟨⟨f3, f4⟩, by rw [f5]; exact resolve_possibleStates s r c hv⟩
  · rw [hnone k (fun r c hv e => hex ⟨r, c, hv, e⟩)] at h
    exact Option.noConfusion h

theorem isGameOver_state (s : State) : (isGameOver s).2 = s.updatePossibleStates := by
  unfold isGameOver
  by_cases h : (!s.updatePossibleStates.possibleStates.isEmpty) = true
  · simp only [h, if_true]
  · simp only [h, Bool.false_eq_true, if_false]

set_option maxRecDepth 100000 in
theorem countsOk_new : CountsOk State.new := by
  unfold CountsOk
  constructor <;> decide

/-- The invariant carried along a run: the counters are right, and so are those
of every cached successor. -/
theorem reachable_inv (s : State) (h : Reachable s) :
    CountsOk s ∧ ∀ k v, mapFind s.possibleStates k = some v →
      CountsOk v ∧ v.possibleStates = [] := by
  have hupd : ∀ t : State, CountsOk t →
      CountsOk t.updatePossibleStates ∧ ∀ k v,
        mapFind t.updatePossibleStates.possibleStates k = some v →
        CountsOk v ∧ v.possibleStates = [] := by
    intro t ht
    obtain ⟨⟨e1, _, e3, e4⟩, _, _⟩ := updatePossibleStates_find t
    refine ⟨?_, fun k v hk => updatePossibleStates_entries t k v hk⟩
    unfold CountsOk at ht ⊢
    rw [e1, e3, e4]; exact ht
  induction h with
  | fresh =>
    refine ⟨countsOk_new, fun k v hk => ?_⟩
    have e : State.new.possibleStates = [] := rfl
    rw [e] at hk
    simp [mapFind] at hk
  | update s _ ih => exact hupd s ih.1
  | place s row col _ ih =>
    unfold State.place
    cases hf : mapFind s.possibleStates (key row col) with
    | none => exact ih
    | some v =>
      obtain ⟨hv1, hv2⟩ := ih.2 _ v hf
      refine ⟨hv1, fun k w hk => ?_⟩
      simp only [] at hk
      rw [hv2] at hk
      simp [mapFind] at hk
  | gameOver s _ ih =>
    rw [isGameOver_state]
    exact hupd s ih.1

/-- C7. Disc-count invariant: every state reached from a freshly constructed
`State` by any finite sequence of `updatePossibleStates`, `place(row, col)` and
`isGameOver` calls has `white` equal to the number of `'w'` cells and `black`
equal to the number of `'b'` cells of its grid. -/
theorem reachable_counts (s : State) (h : Reachable s) :
    s.white = (tally s.board 'w' : Nat) ∧ s.black = (tally s.board 'b' : Nat) :=
  (reachable_inv s h).1

/-- After the opening move `(2, 3)` has been cached and placed, the counters
are those of the new grid: one white disc and four black ones. -/
theorem reachable_counts_witness :
    Reachable (State.new.updatePossibleStates.place 2 3) ∧
    (State.new.updatePossibleStates.place 2 3).white =
      (tally (State.new.updatePossibleStates.place 2 3).board 'w' : Nat) ∧
    (State.new.updatePossibleStates.place 2 3).black =
      (tally (State.new.updatePossibleStates.place 2 3).board 'b' : Nat) :=
  ⟨Reachable.place _ 2 3 (Reachable.update _ Reachable.fresh),
    reachable_counts _ (Reachable.place _ 2 3 (Reachable.update _ Reachable.fresh))⟩

/-! ## C8 -/

set_option maxRecDepth 100000 in
/-- C8, as stated, fails: in the opening position the counters are the
tallies (2 and 2) and `(2, 3)` is legal, but the state returned by `resolve`
still says `black = 2` while its grid holds four black discs. -/
theorem resolve_counts_counterexample :
    State.new.white = (tally State.new.board 'w' : Nat) ∧
    State.new.black = (tally State.new.board 'b' : Nat) ∧
    isValidMove 2 3 State.new = true ∧
    ¬ ((resolve 2 3 State.new).white = (tally (resolve 2 3 State.new).board 'w' : Nat) ∧
       (resolve 2 3 State.new).black = (tally (resolve 2 3 State.new).board 'b' : Nat)) := by
  decide

/-- C8, amended. For a state whose counters equal its tallies and a legal
move, the state returned by `resolve` still carries the input's `white` and
`black`: with `F ≥ 1` the number of flipped discs, the mover's counter is
`1 + F` below the mover's tally of the returned grid and the opponent's counter
is `F` above the opponent's tally.  The counters equal the tallies of the
returned grid once `updateScore` has been applied to the returned state. -/
theorem resolve_counts_stale (s : State) (row col : Int)
    (hc : s.white = (tally s.board 'w' : Nat) ∧ s.black = (tally s.board 'b' : Nat))
    (h : isValidMove row col s = true) :
    (resolve row col s).white = s.white ∧ (resolve row col s).black = s.black ∧
    1 ≤ flipTotal s.board s.turn (opponentOf s.turn) row col ∧
    (s.turn = 'b' →
      (resolve row col s).black + 1 + (flipTotal s.board 'b' 'w' row col : Nat) =
        (tally (resolve row col s).board 'b' : Nat) ∧
      (resolve row col s).white =
        (tally (resolve row col s).board 'w' : Nat) + (flipTotal s.board 'b' 'w' row col : Nat)) ∧
    (s.turn = 'w' →
      (resolve row col s).white + 1 + (flipTotal s.board 'w' 'b' row col : Nat) =
        (tally (resolve row col s).board 'w' : Nat) ∧
      (resolve row col s).black =
        (tally (resolve row col s).board 'b' : Nat) + (flipTotal s.board 'w' 'b' row col : Nat)) ∧
    (updateScore (resolve row col s)).board = (resolve row col s).board ∧
    (updateScore (resolve row col s)).white = (tally (resolve row col s).board 'w' : Nat) ∧
    (updateScore (resolve row col s)).black = (tally (resolve row col s).board 'b' : Nat) := by
  have hw : (resolve row col s).white = s.white := by unfold resolve; rw [h]; rfl
  have hb : (resolve row col s).black = s.black := by unfold resolve; rw [h]; rfl
  refine ⟨hw, hb, flipTotal_pos s row col h, ?_, ?_, ?_⟩
  · intro ht
    have := tally_resolve s row col h (by rw [ht]; decide)
    have ho : opponentOf s.turn = 'w' := by rw [ht]; rfl
    rw [ho, ht] at this
    rw [hw, hb, hc.1, hc.2]
    constructor
    · have := this.1; omega
    · have := this.2; omega
  · intro ht
    have := tally_resolve s row col h (by rw [ht]; decide)
    have ho : opponentOf s.turn = 'b' := by rw [ht]; rfl
    rw [ho, ht] at this
    rw [hw, hb, hc.1, hc.2]
    constructor
    · have := this.1; omega
    · have := this.2; omega
  · rw [updateScore_eq]
    exact ⟨rfl, rfl, rfl⟩

set_option maxRecDepth 100000 in
/-- In the opening position, after black plays `(2, 3)`, `resolve` still
reports two black discs, and `updateScore` corrects that to four. -/
theorem resolve_counts_stale_witness :
    (State.new.white = (tally State.new.board 'w' : Nat) ∧
      State.new.black = (tally State.new.board 'b' : Nat)) ∧
    isValidMove 2 3 State.new = true ∧
    (resolve 2 3 State.new).black = 2 ∧
    (updateScore (resolve 2 3 State.new)).black = 4 :=
  ⟨by decide, by decide,
    (resolve_counts_stale State.new 2 3 (by decide) (by decide)).2.1,
    by
      rw [(resolve_counts_stale State.new 2 3 (by decide) (by decide)).2.2.2.2.2.2.2]
      decide⟩

/-! ## C9 -/

theorem countP_three {α : Type} (p q r : α → Bool) :
    ∀ (l : List α),
      (∀ x, x ∈ l → (if p x = true then 1 else 0) + (if q x = true then 1 else 0) +
        (if r x = true then (1 : Nat) else 0) = 1) →
      l.countP p + l.countP q + l.countP r = l.length := by
  intro l
  induction l with
  | nil => intro _; rfl
  | cons x l ih =>
    intro h
    have hx := h x (List.mem_cons_self _ _)
    have := ih (fun y hy => h y (List.mem_cons_of_mem _ hy))
    rw [List.countP_cons, List.countP_cons, List.countP_cons, List.length_cons]
    omega

/-- On a grid whose cells are each empty, white or black, the three tallies
add up to the 64 cells. -/
theorem tally_total (g : Grid)
    (hg : ∀ i j : Fin 8, g i j = EMPTY ∨ g i j = 'w' ∨ g i j = 'b') :
    tally g 'w' + tally g 'b' + tally g EMPTY = 64 := by
  have hlen : cells.length = 64 := by decide
  unfold tally
  rw [← hlen]
  apply countP_three
  intro p hp
  obtain ⟨i, j, hi, hj, hget⟩ := get_of_inBoard g p.1 p.2 ((mem_cells_iff p).1 hp)
  simp only [beq_iff_eq]
  rw [hget]
  rcases hg i j with h | h | h <;> rw [h] <;> decide

/-- `resolve` keeps the grid over empty / white / black. -/
theorem resolve_alphabet (s : State) (row col : Int)
    (hg : ∀ i j : Fin 8, s.board i j = EMPTY ∨ s.board i j = 'w' ∨ s.board i j = 'b')
    (i j : Fin 8) :
    (resolve row col s).board i j = EMPTY ∨ (resolve row col s).board i j = 'w' ∨
      (resolve row col s).board i j = 'b' := by
  by_cases h : isValidMove row col s = true
  · obtain ⟨_, _, d, _, k, hb⟩ := (isValidMove_iff row col s).1 h
    obtain ⟨i2, j2, _, _, hget⟩ := get_of_inBoard s.board _ _ hb.2.2.1
    have hturn : s.turn = EMPTY ∨ s.turn = 'w' ∨ s.turn = 'b' := by
      rw [← hb.2.2.2, hget]; exact hg i2 j2
    rw [← get_coe (resolve row col s).board i j, resolve_board_get s row col h]
    split
    · exact hturn
    · split
      · exact hturn
      · rw [get_coe]; exact hg i j
  · simp only [Bool.not_eq_true] at h
    rw [resolve_of_illegal s row col h]
    exact hg i j

/-- C9. For a state whose cells are each empty, white or black and any
`(row, col)`: after `s' = resolve(row, col, state)` followed by
`updateScore(s')`, `white` is the number of `'w'` cells, `black` the number of
`'b'` cells, and `white + black +` the number of empty cells is 64. -/
theorem updateScore_resolve_total (s : State) (row col : Int)
    (hg : ∀ i j : Fin 8, s.board i j = EMPTY ∨ s.board i j = 'w' ∨ s.board i j = 'b') :
    (updateScore (resolve row col s)).white =
      (tally (updateScore (resolve row col s)).board 'w' : Nat) ∧
    (updateScore (resolve row col s)).black =
      (tally (updateScore (resolve row col s)).board 'b' : Nat) ∧
    (updateScore (resolve row col s)).white + (updateScore (resolve row col s)).black +
      (tally (updateScore (resolve row col s)).board EMPTY : Nat) = 64 := by
  have ht := tally_total (resolve row col s).board (resolve_alphabet s row col hg)
  rw [updateScore_eq]
  refine ⟨rfl, rfl, ?_⟩
  simp only []
  omega

set_option maxRecDepth 100000 in
/-- The opening position is a grid over empty / white / black; after black
plays `(2, 3)` and the score is updated the three numbers are 1, 4 and 59. -/
theorem updateScore_resolve_total_witness :
    (∀ i j : Fin 8, State.new.board i j = EMPTY ∨ State.new.board i j = 'w' ∨
      State.new.board i j = 'b') ∧
    (updateScore (resolve 2 3 State.new)).white + (updateScore (resolve 2 3 State.new)).black +
      (tally (updateScore (resolve 2 3 State.new)).board EMPTY : Nat) = 64 :=
  ⟨by decide, (updateScore_resolve_total State.new 2 3 (by decide)).2.2⟩

/-! ## C10 -/

/-- The cache built by `updatePossibleStates` is empty exactly when no cell is
a legal move. -/
theorem updatePossibleStates_isEmpty (s : State) :
    s.updatePossibleStates.possibleStates.isEmpty = true ↔
      ∀ r c : Int, isValidMove r c s = false := by
  obtain ⟨_, hfind, hnone⟩ := updatePossibleStates_find s
  constructor
  · intro he r c
    by_contra hv
    simp only [Bool.not_eq_false] at hv
    have := hfind r c hv
    rw [List.isEmpty_iff.1 he] at this
    simp [mapFind] at this
  · intro hall
    cases hps : s.updatePossibleStates.possibleStates with
    | nil => rfl
    | cons e m =>
      exfalso
      have := hnone e.1 (fun r c hv _ => by rw [hall r c] at hv; exact Bool.noConfusion hv)
      rw [hps] at this
      simp [mapFind] at this

/-- C10. For a state whose turn is `'b'` or `'w'`, `isGameOver` returns true
exactly when no cell is a legal move for the current turn and no cell is a
legal move for the same grid with the other colour `t` to move. -/
theorem isGameOver_spec (s : State) (t : Char) (hturn : s.turn = 'b' ∨ s.turn = 'w')
    (ht : (t = 'b' ∨ t = 'w') ∧ t ≠ s.turn) :
    (isGameOver s).1 = true ↔
      (∀ r c : Int, isValidMove r c s = false) ∧
      (∀ r c : Int, isValidMove r c { s with turn := t } = false) := by
  have hflip : (if s.turn = 'b' then 'w' else 'b') = t := by
    rcases hturn with h | h
    · rw [if_pos h]
      rcases ht.1 with e | e
      · exact absurd (e.trans h.symm) ht.2
      · exact e.symm
    · rw [if_neg (by rw [h]; decide)]
      rcases ht.1 with e | e
      · exact e.symm
      · exact absurd (e.trans h.symm) ht.2
  obtain ⟨⟨e1, e2, _, _⟩, _, _⟩ := updatePossibleStates_find s
  have hcongr : ∀ r c : Int,
      isValidMove r c { s.updatePossibleStates with
        turn := if s.updatePossibleStates.turn = 'b' then 'w' else 'b' } =
      isValidMove r c { s with turn := t } := by
    intro r c
    apply isValidMove_congr
    · simp only [e1]
    · simp only [e2, hflip]
  unfold isGameOver
  by_cases h : s.updatePossibleStates.possibleStates.isEmpty = true
  · simp only [h, Bool.not_true, Bool.false_eq_true, if_false]
    rw [updatePossibleStates_isEmpty]
    rw [updatePossibleStates_isEmpty] at h
    constructor
    · intro h2
      exact ⟨h, fun r c => by rw [← hcongr]; exact h2 r c⟩
    · rintro ⟨_, h2⟩ r c
      rw [hcongr]; exact h2 r c
  · have h3 : (!s.updatePossibleStates.possibleStates.isEmpty) = true := by simp [h]
    simp only [h3, if_true]
    constructor
    · intro hf; exact Bool.noConfusion hf
    · rintro ⟨h2, _⟩
      exact absurd ((updatePossibleStates_isEmpty s).2 h2) h

set_option maxRecDepth 100000 in
/-- In the opening position black is to move and the game is not over: black
has the legal move `(2, 3)`. -/
theorem isGameOver_spec_witness :
    (State.new.turn = 'b' ∨ State.new.turn = 'w') ∧
    (('w' = 'b' ∨ 'w' = 'w') ∧ 'w' ≠ State.new.turn) ∧
    (isGameOver State.new).1 = false := by
  refine ⟨Or.inl rfl, ⟨Or.inr rfl, by decide⟩, ?_⟩
  rw [← Bool.not_eq_true]
  intro h
  have := ((isGameOver_spec State.new 'w' (Or.inl rfl) ⟨Or.inr rfl, by decide⟩).1 h).1 2 3
  revert this
  decide

/-! ## The tally is the number of cells -/

/-- The list `cells` is the 64 cells of the grid, each once; `tally` is
therefore the number of cells `(i, j)` of the grid with `g i j = ch`. -/
theorem tally_eq_card (g : Grid) (ch : Char) :
    tally g ch = (Finset.univ.filter (fun p : Fin 8 × Fin 8 => g p.1 p.2 = ch)).card := by
  have hcells : cells =
      ((List.finRange 8).flatMap (fun i => (List.finRange 8).map (fun j => (i, j)))).map
        (fun p : Fin 8 × Fin 8 => ((p.1.val : Int), (p.2.val : Int))) := by decide
  have hnd : ((List.finRange 8).flatMap
      (fun i => (List.finRange 8).map (fun j => (i, j)))).Nodup := by decide
  have hall : ∀ p : Fin 8 × Fin 8,
      p ∈ (List.finRange 8).flatMap (fun i => (List.finRange 8).map (fun j => (i, j))) := by
    decide
  unfold tally
  rw [hcells, List.countP_map]
  have hfun : ((fun rc : Int × Int => g.get rc.1 rc.2 == ch) ∘
      fun p : Fin 8 × Fin 8 => ((p.1.val : Int), (p.2.val : Int))) =
      fun p : Fin 8 × Fin 8 => decide (g p.1 p.2 = ch) := by
    funext p
    simp only [Function.comp, get_coe]
    rfl
  rw [hfun, List.countP_eq_length_filter, ← List.toFinset_card_of_nodup (hnd.filter _)]
  congr 1
  ext p
  simp [hall p]

/-! ## The cache as a list -/

theorem mapInsert_fresh (k : String) (v : State) :
    ∀ (m : List (String × State)), (∀ e, e ∈ m → e.1 ≠ k) → mapInsert m k v = m ++ [(k, v)] := by
  intro m
  induction m with
  | nil => intro _; rfl
  | cons e m ih =>
    intro h
    unfold mapInsert
    rw [if_neg (by simpa using h e (List.mem_cons_self _ _)),
      ih (fun e2 h2 => h e2 (List.mem_cons_of_mem _ h2))]
    rfl

theorem foldl_updateStep_list (s : State) :
    ∀ (l : List (Int × Int)) (acc : State),
      acc.board = s.board → acc.turn = s.turn → acc.white = s.white → acc.black = s.black →
      (∀ rc, rc ∈ l → inBoard rc.1 rc.2 = true) → l.Nodup →
      (∀ e, e ∈ acc.possibleStates → ∀ rc, rc ∈ l → e.1 ≠ key rc.1 rc.2) →
      (l.foldl updateStep acc).possibleStates =
        acc.possibleStates ++
          (l.filter (fun rc => isValidMove rc.1 rc.2 s)).map
            (fun rc => (key rc.1 rc.2, successor s rc)) := by
  intro l
  induction l with
  | nil => intro acc _ _ _ _ _ _ _; simp
  | cons x l ih =>
    intro acc hb ht hw hk hin hnd hfresh
    have hnd2 := List.nodup_cons.1 hnd
    rw [List.foldl_cons, updateStep_eq s acc x hb ht hw hk]
    by_cases hv : isValidMove x.1 x.2 s = true
    · rw [if_pos hv, List.filter_cons_of_pos (by simpa using hv), List.map_cons]
      rw [ih { acc with
          possibleStates := mapInsert acc.possibleStates (key x.1 x.2) (successor s x) }
        hb ht hw hk (fun rc h => hin rc (List.mem_cons_of_mem _ h)) hnd2.2]
      · simp only
        rw [mapInsert_fresh _ _ _ (fun e he => hfresh e he x (List.mem_cons_self _ _))]
        simp
      · intro e he rc hrc
        simp only at he
        rw [mapInsert_fresh _ _ _ (fun e he => hfresh e he x (List.mem_cons_self _ _))] at he
        rcases List.mem_append.1 he with h1 | h1
        · exact hfresh e h1 rc (List.mem_cons_of_mem _ hrc)
        · simp only [List.mem_singleton] at h1
          subst h1
          intro e2
          have := key_inj x.1 x.2 rc.1 rc.2 (hin rc (List.mem_cons_of_mem _ hrc)) e2
          exact hnd2.1 ((show x = rc by ext <;> simp [this.1, this.2]) ▸ hrc)
    · rw [if_neg hv, List.filter_cons_of_neg (by simpa using hv)]
      exact ih acc hb ht hw hk (fun rc h => hin rc (List.mem_cons_of_mem _ h)) hnd2.2
        (fun e he rc hrc => hfresh e he rc (List.mem_cons_of_mem _ hrc))

/-- The cache built by `updatePossibleStates`, entry by entry in insertion
order: the legal cells in scan order, each with its key and successor. -/
theorem updatePossibleStates_list (s : State) :
    s.updatePossibleStates.possibleStates =
      (legalCells s).map (fun rc => (key rc.1 rc.2, successor s rc)) := by
  have := foldl_updateStep_list s cells { s with possibleStates := [] } rfl rfl rfl rfl
    (fun rc h => (mem_cells_iff rc).1 h) cells_nodup (fun e he => by simp at he)
  simpa [State.updatePossibleStates, legalCells] using this

theorem mem_legalCells (s : State) (rc : Int × Int) :
    rc ∈ legalCells s ↔ isValidMove rc.1 rc.2 s = true := by
  unfold legalCells
  rw [List.mem_filter, mem_cells_iff]
  constructor
  · intro h; exact h.2
  · intro h; exact ⟨((isValidMove_iff rc.1 rc.2 s).1 h).1, h⟩

/-- Every entry of the cache is the key and the successor of a legal cell. -/
theorem mem_possibleStates (s : State) (e : String × State)
    (h : e ∈ s.updatePossibleStates.possibleStates) :
    ∃ rc : Int × Int, isValidMove rc.1 rc.2 s = true ∧ e = (key rc.1 rc.2, successor s rc) := by
  rw [updatePossibleStates_list, List.mem_map] at h
  obtain ⟨rc, hrc, rfl⟩ := h
  exact ⟨rc, (mem_legalCells s rc).1 hrc, rfl⟩

theorem possibleStates_isEmpty_iff (s : State) :
    s.updatePossibleStates.possibleStates.isEmpty = true ↔ legalCells s = [] := by
  rw [updatePossibleStates_list, List.isEmpty_iff, List.map_eq_nil_iff]

/-! ## Successors -/

theorem successor_countsOk (s : State) (rc : Int × Int) : CountsOk (successor s rc) := by
  obtain ⟨_, _, f3, f4, _⟩ := successor_fields s rc
  exact ⟨f3, f4⟩

theorem tally_le (g : Grid) (ch : Char) : tally g ch ≤ 64 := by
  have hlen : cells.length = 64 := by decide
  unfold tally
  rw [← hlen]
  exact List.countP_le_length _

/-- A legal move by a mover that is not the empty marker fills one empty cell
and empties none. -/
theorem tally_resolve_empty (s : State) (row col : Int) (h : isValidMove row col s = true)
    (hturn : s.turn ≠ EMPTY) :
    tally (resolve row col s).board EMPTY + 1 = tally s.board EMPTY := by
  have hv := (isValidMove_iff row col s).1 h
  have hne : s.turn ≠ opponentOf s.turn := (opponentOf_ne _).symm
  have := countP_update (fun rc : Int × Int => s.board.get rc.1 rc.2 == EMPTY)
    (fun rc : Int × Int => (resolve row col s).board.get rc.1 rc.2 == EMPTY) (row, col) cells
    cells_nodup ((mem_cells_iff (row, col)).2 hv.1)
    (fun p _ hp => by
      simp only
      rw [resolve_board_get s row col h, if_neg (fun hh => hp (by ext <;> simp [hh.1, hh.2]))]
      by_cases hf : ∃ d, d ∈ directions ∧
          FlippedAlong s.board s.turn (opponentOf s.turn) row col d p.1 p.2
      · rw [if_pos hf, onCapturedRun_opp _ _ _ _ _ _ _
          ((onCapturedRun_iff _ _ _ _ _ _ _ hv.1 hne).2 hf)]
        have e1 : (s.turn == EMPTY) = false := by simpa using hturn
        have e2 : (opponentOf s.turn == EMPTY) = false := by simpa using opponentOf_ne_empty _
        rw [e1, e2]
      · rw [if_neg hf])
  have e1 : (s.turn == EMPTY) = false := by simpa using hturn
  have hq : ((resolve row col s).board.get row col == EMPTY) = false := by
    rw [resolve_board_get s row col h, if_pos ⟨rfl, rfl⟩]; exact e1
  have hp : (s.board.get row col == EMPTY) = true := by rw [hv.2.1]; exact beq_self_eq_true _
  simp only [hq, hp, Bool.false_eq_true, if_false, if_true] at this
  unfold tally
  omega

theorem depthBound_le (s : State) : depthBound s ≤ 65 := by
  unfold depthBound
  split
  · exact Nat.le_refl _
  · have := tally_le s.board EMPTY; omega

/-- Every legal successor has a smaller bound: the search below a state is at
most `depthBound` calls deep. -/
theorem successor_bound (s : State) (rc : Int × Int) (h : isValidMove rc.1 rc.2 s = true) :
    depthBound (successor s rc) < depthBound s := by
  obtain ⟨f1, f2, _, _, _⟩ := successor_fields s rc
  unfold depthBound
  rw [f2, if_neg (opponentOf_ne_empty _), f1]
  by_cases ht : s.turn = EMPTY
  · rw [if_pos ht]
    have := tally_le (resolve rc.1 rc.2 s).board EMPTY
    omega
  · rw [if_neg ht]
    have := tally_resolve_empty s rc.1 rc.2 h ht
    omega

/-! ## Reading a key back -/

theorem keyRow_key (r c : Int) (h : inBoard r c = true) : keyRow (key r c) = r := by
  rw [inBoard_iff] at h
  obtain ⟨h1, h2, h3, h4⟩ := h
  rw [key_digits r c (by omega) (by omega)]
  interval_cases r <;> interval_cases c <;> decide

theorem keyCol_key (r c : Int) (h : inBoard r c = true) : keyCol (key r c) = c := by
  rw [inBoard_iff] at h
  obtain ⟨h1, h2, h3, h4⟩ := h
  rw [key_digits r c (by omega) (by omega)]
  interval_cases r <;> interval_cases c <;> decide

/-! ## The shape of the child loops -/

theorem sameHeader_refl (a : SearchNode) : SameHeader a a :=
  ⟨rfl, rfl, rfl, rfl, rfl, rfl, rfl, rfl⟩

theorem sameHeader_trans (a b c : SearchNode) (h1 : SameHeader a b) (h2 : SameHeader b c) :
    SameHeader a c := by
  obtain ⟨a1, a2, a3, a4, a5, a6, a7, a8⟩ := h1
  obtain ⟨b1, b2, b3, b4, b5, b6, b7, b8⟩ := h2
  exact ⟨a1.trans b1, a2.trans b2, a3.trans b3, a4.trans b4, a5.trans b5, a6.trans b6,
    a7.trans b7, a8.trans b8⟩

theorem node_eta (t : SearchNode) :
    t = { row := t.row, col := t.col, heuristic := t.heuristic, depth := t.depth,
          maximizing := t.maximizing, turn := t.turn, whiteScore := t.whiteScore,
          blackScore := t.blackScore, moveSequence := t.moveSequence,
          children := t.children } := by
  cases t; rfl

/-- The loop without pruning visits every entry: it appends one finished child
per entry, in order, and returns the `max` / `min` of their values. -/
theorem childLoop_spec (eval : State → SearchNode → Nat → SearchResult) (flag : Bool)
    (depth : Int) :
    ∀ (l : List (String × State)) (node : SearchNode) (best : Int) (n : Nat),
      ∃ kids : List SearchNode,
        (childLoop eval flag depth l node best n).2.1 =
          { node with children := node.children ++ kids } ∧
        (childLoop eval flag depth l node best n).1 =
          kids.foldl (fun b k => pick flag b k.heuristic) best ∧
        kids.length = l.length ∧
        ∀ p, p ∈ l.zip kids → ∃ n2,
          p.2 = finish (eval p.1.2
            (makeChild p.1.1 p.1.2 depth (!flag) (node.moveSequence ++ " -> " ++ p.1.1)) n2) := by
  intro l
  induction l with
  | nil =>
    intro node best n
    refine ⟨[], ?_, rfl, rfl, fun p hp => by simp at hp⟩
    unfold childLoop
    simp only [List.append_nil]
    exact node_eta node
  | cons e l ih =>
    intro node best n
    obtain ⟨key, nextState⟩ := e
    unfold childLoop
    simp only []
    obtain ⟨kids, h1, h2, h3, h4⟩ := ih
      { node with children := node.children ++
          [{ (eval nextState (makeChild key nextState depth (!flag)
                (node.moveSequence ++ " -> " ++ key)) n).2.1 with
              heuristic := (eval nextState (makeChild key nextState depth (!flag)
                (node.moveSequence ++ " -> " ++ key)) n).1 }] }
      (if flag then max best (eval nextState (makeChild key nextState depth (!flag)
          (node.moveSequence ++ " -> " ++ key)) n).1
        else min best (eval nextState (makeChild key nextState depth (!flag)
          (node.moveSequence ++ " -> " ++ key)) n).1)
      (eval nextState (makeChild key nextState depth (!flag)
          (node.moveSequence ++ " -> " ++ key)) n).2.2
    refine ⟨finish (eval nextState (makeChild key nextState depth (!flag)
      (node.moveSequence ++ " -> " ++ key)) n) :: kids, ?_, ?_, ?_, ?_⟩
    · rw [h1]
      simp only [List.append_assoc, List.singleton_append, finish]
    · rw [h2]
      simp only [List.foldl_cons, pick, finish]
    · simp [h3]
    · intro p hp
      rw [List.zip_cons_cons, List.mem_cons] at hp
      rcases hp with rfl | hp
      · exact ⟨n, rfl⟩
      · exact h4 p hp

/-- The loop with pruning visits a prefix of the entries, the first one
included: it appends one finished child per visited entry, in order, and
returns the `max` / `min` of their values. -/
theorem childLoopAB_spec (eval : State → SearchNode → Int → Int → Nat → SearchResult)
    (flag : Bool) (depth : Int) :
    ∀ (l : List (String × State)) (node : SearchNode) (best alpha beta : Int) (n : Nat),
      ∃ (pre : List (String × State)) (kids : List SearchNode),
        pre <+: l ∧ (l ≠ [] → pre ≠ []) ∧
        (childLoopAB eval flag depth l node best alpha beta n).2.1 =
          { node with children := node.children ++ kids } ∧
        (childLoopAB eval flag depth l node best alpha beta n).1 =
          kids.foldl (fun b k => pick flag b k.heuristic) best ∧
        kids.length = pre.length ∧
        ∀ p, p ∈ pre.zip kids → ∃ a b n2,
          p.2 = finish (eval p.1.2
            (makeChild p.1.1 p.1.2 depth (!flag) (node.moveSequence ++ " -> " ++ p.1.1))
            a b n2) := by
  intro l
  induction l with
  | nil =>
    intro node best alpha beta n
    refine ⟨[], [], List.prefix_refl _, fun h => absurd rfl h, ?_, rfl, rfl,
      fun p hp => by simp at hp⟩
    unfold childLoopAB
    simp only [List.append_nil]
    exact node_eta node
  | cons e l ih =>
    intro node best alpha beta n
    obtain ⟨key, nextState⟩ := e
    unfold childLoopAB
    simp only []
    generalize hr : eval nextState (makeChild key nextState depth (!flag)
      (node.moveSequence ++ " -> " ++ key)) alpha beta n = r
    have hkid : finish r = finish (eval nextState (makeChild key nextState depth (!flag)
      (node.moveSequence ++ " -> " ++ key)) alpha beta n) := by rw [hr]
    by_cases hbrk : (if flag then beta else min beta r.1) ≤ (if flag then max alpha r.1 else alpha)
    · rw [if_pos hbrk]
      refine ⟨[(key, nextState)], [finish r], ?_, fun _ => by simp, ?_, ?_, rfl, ?_⟩
      · exact List.prefix_cons_inj _ |>.2 (List.nil_prefix)
      · simp only [finish]
      · simp only [List.foldl_cons, List.foldl_nil, pick, finish]
      · intro p hp
        simp only [List.zip_cons_cons, List.zip_nil_right, List.mem_singleton] at hp
        subst hp
        exact ⟨alpha, beta, n, hkid⟩
    · rw [if_neg hbrk]
      obtain ⟨pre, kids, h0, _, h1, h2, h3, h4⟩ := ih
        { node with children := node.children ++ [{ r.2.1 with heuristic := r.1 }] }
        (if flag then max best r.1 else min best r.1)
        (if flag then max alpha r.1 else alpha)
        (if flag then beta else min beta r.1) r.2.2
      refine ⟨(key, nextState) :: pre, finish r :: kids, ?_, fun _ => by simp, ?_, ?_, ?_, ?_⟩
      · exact (List.prefix_cons_inj _).2 h0
      · rw [h1]
        simp only [List.append_assoc, List.singleton_append, finish]
      · rw [h2]
        simp only [List.foldl_cons, pick, finish]
      · simp [h3]
      · intro p hp
        rw [List.zip_cons_cons, List.mem_cons] at hp
        rcases hp with rfl | hp
        · exact ⟨alpha, beta, n, hkid⟩
        · exact h4 p hp

theorem foldPick_none (flag : Bool) :
    ∀ (kids : List SearchNode) (b : Int),
      (∀ k, k ∈ kids → ¬ (if flag then b < k.heuristic else k.heuristic < b)) →
      kids.foldl (fun b k => pick flag b k.heuristic) b = b := by
  intro kids
  induction kids with
  | nil => intro b _; rfl
  | cons k kids ih =>
    intro b h
    have hk := h k (List.mem_cons_self _ _)
    have e : pick flag b k.heuristic = b := by
      unfold pick
      cases flag
      · simp only [Bool.false_eq_true, if_false] at hk ⊢; omega
      · simp only [if_true] at hk ⊢; omega
    rw [List.foldl_cons, e]
    exact ih b (fun k2 h2 => h k2 (List.mem_cons_of_mem _ h2))

theorem foldPick_mono (flag : Bool) :
    ∀ (kids : List SearchNode) (b : Int),
      (if flag then b ≤ kids.foldl (fun b k => pick flag b k.heuristic) b
        else kids.foldl (fun b k => pick flag b k.heuristic) b ≤ b) ∧
      ∀ k, k ∈ kids →
        (if flag then k.heuristic ≤ kids.foldl (fun b k => pick flag b k.heuristic) b
          else kids.foldl (fun b k => pick flag b k.heuristic) b ≤ k.heuristic) := by
  intro kids
  induction kids with
  | nil => intro b; exact ⟨by cases flag <;> simp, fun k hk => by simp at hk⟩
  | cons k kids ih =>
    intro b
    obtain ⟨i1, i2⟩ := ih (pick flag b k.heuristic)
    rw [List.foldl_cons]
    cases flag
    · simp only [Bool.false_eq_true, if_false, pick] at i1 i2 ⊢
      refine ⟨by omega, fun k2 hk2 => ?_⟩
      rcases List.mem_cons.1 hk2 with e | e
      · subst e; omega
      · exact i2 k2 e
    · simp only [if_true, pick] at i1 i2 ⊢
      refine ⟨by omega, fun k2 hk2 => ?_⟩
      rcases List.mem_cons.1 hk2 with e | e
      · subst e; omega
      · exact i2 k2 e

theorem foldPick_some (flag : Bool) (kids : List SearchNode) (b : Int)
    (h : ∃ k, k ∈ kids ∧ (if flag then b < k.heuristic else k.heuristic < b)) :
    if flag then b < kids.foldl (fun b k => pick flag b k.heuristic) b
      else kids.foldl (fun b k => pick flag b k.heuristic) b < b := by
  obtain ⟨k, hk, hb⟩ := h
  have := (foldPick_mono flag kids b).2 k hk
  cases flag
  · simp only [Bool.false_eq_true, if_false] at hb this ⊢; omega
  · simp only [if_true] at hb this ⊢; omega

/-- Whether `v` replaces `bestValue` in the loop of `getBestMove`. -/
theorem rootLoop_cond (flag : Bool) (v b : Int) :
    ((flag && decide (v > b)) || (!flag && decide (v < b))) = true ↔
      (if flag then b < v else v < b) := by
  cases flag <;> simp

/-- The loop of `getBestMove`: one finished child per entry, in order; the
final `bestValue` is the `max` / `min` of the initial one and the children's
values; and `bestMove` is the coordinate of the first child that reached the
final `bestValue`, or the initial one if no child improved on it. -/
theorem rootLoop_spec (eval : State → SearchNode → Nat → SearchResult) (flag : Bool)
    (m_depth : Int) :
    ∀ (l : List (String × State)) (root : SearchNode) (bestValue : Int) (bestMove : Int × Int)
      (n : Nat),
      ∃ kids : List SearchNode,
        (rootLoop eval flag m_depth l root bestValue bestMove n).1 =
          { root with children := root.children ++ kids } ∧
        (rootLoop eval flag m_depth l root bestValue bestMove n).2.1 =
          kids.foldl (fun b k => pick flag b k.heuristic) bestValue ∧
        kids.length = l.length ∧
        (∀ p, p ∈ l.zip kids → ∃ n2,
          p.2 = finish (eval p.1.2 (makeChild p.1.1 p.1.2 (m_depth - 1) (!flag) p.1.1) n2)) ∧
        ((∀ k, k ∈ kids → ¬ (if flag then bestValue < k.heuristic else k.heuristic < bestValue)) →
          (rootLoop eval flag m_depth l root bestValue bestMove n).2.2.1 = bestMove) ∧
        ((∃ k, k ∈ kids ∧ (if flag then bestValue < k.heuristic else k.heuristic < bestValue)) →
          ∃ front k back, kids = front ++ k :: back ∧
            (rootLoop eval flag m_depth l root bestValue bestMove n).2.2.1 = (k.row, k.col) ∧
            k.heuristic = (rootLoop eval flag m_depth l root bestValue bestMove n).2.1 ∧
            ∀ k2, k2 ∈ front →
              k2.heuristic ≠ (rootLoop eval flag m_depth l root bestValue bestMove n).2.1) := by
  intro l
  induction l with
  | nil =>
    intro root bestValue bestMove n
    refine ⟨[], ?_, rfl, rfl, fun p hp => by simp at hp, fun _ => rfl,
      fun h => by obtain ⟨k, hk, _⟩ := h; simp at hk⟩
    unfold rootLoop
    simp only [List.append_nil]
    exact node_eta root
  | cons e l ih =>
    intro root bestValue bestMove n
    obtain ⟨key, nextState⟩ := e
    unfold rootLoop
    simp only []
    generalize hr : eval nextState (makeChild key nextState (m_depth - 1) (!flag) key) n = r
    have hkid : finish r =
        finish (eval nextState (makeChild key nextState (m_depth - 1) (!flag) key) n) := by
      rw [hr]
    have hk0 : (finish r).heuristic = r.1 := rfl
    by_cases hc : ((flag && decide (r.1 > bestValue)) || (!flag && decide (r.1 < bestValue))) = true
    · rw [if_pos hc]
      rw [rootLoop_cond] at hc
      obtain ⟨kids, h1, h2, h3, h4, h5, h6⟩ := ih
        { root with children := root.children ++ [{ r.2.1 with heuristic := r.1 }] }
        r.1 (r.2.1.row, r.2.1.col) r.2.2
      have hpick : pick flag bestValue r.1 = r.1 := by
        unfold pick
        cases flag
        · simp only [Bool.false_eq_true, if_false] at hc ⊢; omega
        · simp only [if_true] at hc ⊢; omega
      refine ⟨finish r :: kids, ?_, ?_, by simp [h3], ?_, ?_, ?_⟩
      · rw [h1]
        simp only [List.append_assoc, List.singleton_append, finish]
      · rw [h2, List.foldl_cons, hk0, hpick]
      · intro p hp
        rw [List.zip_cons_cons, List.mem_cons] at hp
        rcases hp with rfl | hp
        · exact ⟨n, hkid⟩
        · exact h4 p hp
      · intro hall
        exact absurd (by rw [hk0]; exact hc) (hall (finish r) (List.mem_cons_self _ _))
      · intro _
        by_cases hex : ∃ k, k ∈ kids ∧ (if flag then r.1 < k.heuristic else k.heuristic < r.1)
        · obtain ⟨front, k, back, e1, e2, e3, e4⟩ := h6 hex
          refine ⟨finish r :: front, k, back, by rw [e1]; rfl, e2, e3, ?_⟩
          intro k2 hk2
          rcases List.mem_cons.1 hk2 with e | e
          · subst e
            have := foldPick_some flag kids r.1 hex
            rw [hk0, h2]
            cases flag
            · simp only [Bool.false_eq_true, if_false] at this; omega
            · simp only [if_true] at this; omega
          · exact e4 k2 e
        · have hno : ∀ k, k ∈ kids →
              ¬ (if flag then r.1 < k.heuristic else k.heuristic < r.1) :=
            fun k hk hb => hex ⟨k, hk, hb⟩
          refine ⟨[], finish r, kids, rfl, h5 hno, ?_, fun k2 hk2 => by simp at hk2⟩
          rw [h2, foldPick_none flag kids r.1 hno]
          exact hk0
    · rw [if_neg hc]
      rw [rootLoop_cond] at hc
      obtain ⟨kids, h1, h2, h3, h4, h5, h6⟩ := ih
        { root with children := root.children ++ [{ r.2.1 with heuristic := r.1 }] }
        bestValue bestMove r.2.2
      have hpick : pick flag bestValue r.1 = bestValue := by
        unfold pick
        cases flag
        · simp only [Bool.false_eq_true, if_false] at hc ⊢; omega
        · simp only [if_true] at hc ⊢; omega
      refine ⟨finish r :: kids, ?_, ?_, by simp [h3], ?_, ?_, ?_⟩
      · rw [h1]
        simp only [List.append_assoc, List.singleton_append, finish]
      · rw [h2, List.foldl_cons, hk0, hpick]
      · intro p hp
        rw [List.zip_cons_cons, List.mem_cons] at hp
        rcases hp with rfl | hp
        · exact ⟨n, hkid⟩
        · exact h4 p hp
      · intro hall
        exact h5 (fun k hk => hall k (List.mem_cons_of_mem _ hk))
      · rintro ⟨k, hk, hb⟩
        have hex : ∃ k, k ∈ kids ∧
            (if flag then bestValue < k.heuristic else k.heuristic < bestValue) := by
          rcases List.mem_cons.1 hk with e | e
          · subst e; rw [hk0] at hb; exact absurd hb hc
          · exact ⟨k, e, hb⟩
        obtain ⟨front, k, back, e1, e2, e3, e4⟩ := h6 hex
        refine ⟨finish r :: front, k, back, by rw [e1]; rfl, e2, e3, ?_⟩
        intro k2 hk2
        rcases List.mem_cons.1 hk2 with e | e
        · subst e
          have := foldPick_some flag kids bestValue hex
          rw [hk0, h2]
          cases flag
          · simp only [Bool.false_eq_true, if_false] at this hc; omega
          · simp only [if_true] at this hc; omega
        · exact e4 k2 e

/-! ## The values of the two searches -/

theorem updatePossibleStates_white (s : State) :
    s.updatePossibleStates.white = s.white ∧ s.updatePossibleStates.black = s.black ∧
    s.updatePossibleStates.turn = s.turn ∧ s.updatePossibleStates.board = s.board := by
  obtain ⟨⟨e1, e2, e3, e4⟩, _, _⟩ := updatePossibleStates_find s
  exact ⟨e3, e4, e2, e1⟩

theorem childLoop_value (eval : State → SearchNode → Nat → SearchResult) (flag : Bool)
    (depth : Int) (val : State → Int) :
    ∀ (l : List (String × State)) (node : SearchNode) (best : Int) (n : Nat),
      (∀ e, e ∈ l → ∀ c k, (eval e.2 c k).1 = val e.2) →
      (childLoop eval flag depth l node best n).1 =
        l.foldl (fun b e => pick flag b (val e.2)) best := by
  intro l
  induction l with
  | nil => intro node best n _; rfl
  | cons e l ih =>
    intro node best n h
    obtain ⟨key, nextState⟩ := e
    unfold childLoop
    simp only []
    rw [ih _ _ _ (fun e2 h2 => h e2 (List.mem_cons_of_mem _ h2)),
      h (key, nextState) (List.mem_cons_self _ _)]
    rfl

theorem childLoopAB_value (eval : State → SearchNode → Int → Int → Nat → SearchResult)
    (flag : Bool) (depth : Int) (val : State → Int → Int → Int) :
    ∀ (l : List (String × State)) (node : SearchNode) (best alpha beta : Int) (n : Nat),
      (∀ e, e ∈ l → ∀ c a b k, (eval e.2 c a b k).1 = val e.2 a b) →
      (childLoopAB eval flag depth l node best alpha beta n).1 =
        abFold val flag l best alpha beta := by
  intro l
  induction l with
  | nil => intro node best alpha beta n _; rfl
  | cons e l ih =>
    intro node best alpha beta n h
    obtain ⟨key, nextState⟩ := e
    unfold childLoopAB abFold
    simp only []
    generalize hr : eval nextState (makeChild key nextState depth (!flag)
      (node.moveSequence ++ " -> " ++ key)) alpha beta n = r
    have hv : r.1 = val nextState alpha beta := by
      rw [← hr]; exact h (key, nextState) (List.mem_cons_self _ _) _ _ _ _
    rw [hv]
    by_cases hbrk : (if flag then beta else min beta (val nextState alpha beta)) ≤
        (if flag then max alpha (val nextState alpha beta) else alpha)
    · rw [if_pos hbrk, if_pos hbrk]
      rfl
    · rw [if_neg hbrk, if_neg hbrk,
        ih _ _ _ _ _ (fun e2 h2 => h e2 (List.mem_cons_of_mem _ h2))]
      rfl

/-- The value that `minimax` returns does not depend on the node or the
counter it is given. -/
theorem minimax_value (ord : IterOrder) :
    ∀ (fuel : Nat) (s : State) (node : SearchNode) (d : Int) (flag : Bool) (n : Nat),
      (minimax ord fuel s node d flag n).1 = mmValue ord fuel s d flag := by
  intro fuel
  induction fuel with
  | zero => intro s node d flag n; rfl
  | succ f ih =>
    intro s node d flag n
    unfold mmValue minimax
    simp only []
    split
    · rfl
    · split
      · rfl
      · simp only []
        rw [childLoop_value _ flag d (fun t => mmValue ord f t (d - 1) (!flag)) _ _ _ _
            (fun e _ c k => ih e.2 c (d - 1) (!flag) k),
          childLoop_value _ flag d (fun t => mmValue ord f t (d - 1) (!flag)) _ _ _ _
            (fun e _ c k => ih e.2 c (d - 1) (!flag) k)]

theorem minimaxAB_value (ord : IterOrder) :
    ∀ (fuel : Nat) (s : State) (node : SearchNode) (d : Int) (flag : Bool) (alpha beta : Int)
      (n : Nat),
      (minimaxAB ord fuel s node d flag alpha beta n).1 =
        abValue ord fuel s d flag alpha beta := by
  intro fuel
  induction fuel with
  | zero => intro s node d flag alpha beta n; rfl
  | succ f ih =>
    intro s node d flag alpha beta n
    unfold abValue minimaxAB
    simp only []
    split
    · rfl
    · split
      · rfl
      · simp only []
        rw [childLoopAB_value _ flag d (fun t a b => abValue ord f t (d - 1) (!flag) a b)
            _ _ _ _ _ _ (fun e _ c a b k => ih e.2 c (d - 1) (!flag) a b k),
          childLoopAB_value _ flag d (fun t a b => abValue ord f t (d - 1) (!flag) a b)
            _ _ _ _ _ _ (fun e _ c a b k => ih e.2 c (d - 1) (!flag) a b k)]

theorem mmValue_zero (ord : IterOrder) (s : State) (d : Int) (flag : Bool) :
    mmValue ord 0 s d flag = s.white - s.black := rfl

/-- The recursion equation of the value of `minimax`. -/
theorem mmValue_succ (ord : IterOrder) (fuel : Nat) (s : State) (d : Int) (flag : Bool) :
    mmValue ord (fuel + 1) s d flag =
      if d = 0 then s.white - s.black
      else if legalCells s = [] then s.white - s.black
      else (ord.enum s.updatePossibleStates.possibleStates).foldl
        (fun b e => pick flag b (mmValue ord fuel e.2 (d - 1) (!flag))) (worst flag) := by
  obtain ⟨e1, e2, _, _⟩ := updatePossibleStates_white s
  have h0 : mmValue ord (fuel + 1) s d flag =
      (minimax ord (fuel + 1) s SearchNode.new d flag 0).1 := rfl
  rw [h0]
  unfold minimax
  simp only []
  by_cases hd : d = 0
  · rw [if_pos hd, if_pos hd]
  · rw [if_neg hd, if_neg hd]
    by_cases he : legalCells s = []
    · rw [if_pos ((possibleStates_isEmpty_iff s).2 he), if_pos he, e1, e2]
    · rw [if_neg (fun h => he ((possibleStates_isEmpty_iff s).1 h)), if_neg he]
      simp only []
      rw [childLoop_value _ flag d (fun t => mmValue ord fuel t (d - 1) (!flag)) _ _ _ _
        (fun e _ c k => minimax_value ord fuel e.2 c (d - 1) (!flag) k)]
      rfl

theorem abValue_zero (ord : IterOrder) (s : State) (d : Int) (flag : Bool) (alpha beta : Int) :
    abValue ord 0 s d flag alpha beta = s.white - s.black := rfl

/-- The recursion equation of the value of `minimax` with pruning. -/
theorem abValue_succ (ord : IterOrder) (fuel : Nat) (s : State) (d : Int) (flag : Bool)
    (alpha beta : Int) :
    abValue ord (fuel + 1) s d flag alpha beta =
      if d = 0 then s.white - s.black
      else if legalCells s = [] then s.white - s.black
      else abFold (fun t a b => abValue ord fuel t (d - 1) (!flag) a b) flag
        (ord.enum s.updatePossibleStates.possibleStates) (worst flag) alpha beta := by
  obtain ⟨e1, e2, _, _⟩ := updatePossibleStates_white s
  have h0 : abValue ord (fuel + 1) s d flag alpha beta =
      (minimaxAB ord (fuel + 1) s SearchNode.new d flag alpha beta 0).1 := rfl
  rw [h0]
  unfold minimaxAB
  simp only []
  by_cases hd : d = 0
  · rw [if_pos hd, if_pos hd]
  · rw [if_neg hd, if_neg hd]
    by_cases he : legalCells s = []
    · rw [if_pos ((possibleStates_isEmpty_iff s).2 he), if_pos he, e1, e2]
    · rw [if_neg (fun h => he ((possibleStates_isEmpty_iff s).1 h)), if_neg he]
      simp only []
      rw [childLoopAB_value _ flag d (fun t a b => abValue ord fuel t (d - 1) (!flag) a b)
        _ _ _ _ _ _ (fun e _ c a b k => minimaxAB_value ord fuel e.2 c (d - 1) (!flag) a b k)]
      rfl

/-! ## Values stay between -64 and 64 -/

theorem zip_mem_right {α β : Type} :
    ∀ (l : List α) (kids : List β) (k : β), kids.length ≤ l.length → k ∈ kids →
      ∃ e, (e, k) ∈ l.zip kids := by
  intro l
  induction l with
  | nil =>
    intro kids k h hk
    cases kids with
    | nil => simp at hk
    | cons a as => simp at h
  | cons x l ih =>
    intro kids k h hk
    cases kids with
    | nil => simp at hk
    | cons a as =>
      rcases List.mem_cons.1 hk with e | e
      · subst e; exact ⟨x, by simp⟩
      · obtain ⟨e2, h2⟩ := ih as k (by simpa using h) e
        exact ⟨e2, by simp [h2]⟩

theorem zip_mem_left {α β : Type} :
    ∀ (l : List α) (kids : List β) (e : α), l.length ≤ kids.length → e ∈ l →
      ∃ k, (e, k) ∈ l.zip kids := by
  intro l
  induction l with
  | nil => intro kids e _ he; simp at he
  | cons x l ih =>
    intro kids e h he
    cases kids with
    | nil => simp at h
    | cons a as =>
      rcases List.mem_cons.1 he with e1 | e1
      · subst e1; exact ⟨a, by simp⟩
      · obtain ⟨k, h2⟩ := ih as e (by simpa using h) e1
        exact ⟨k, by simp [h2]⟩

theorem foldPick_mem (flag : Bool) :
    ∀ (kids : List SearchNode) (b : Int),
      kids.foldl (fun b k => pick flag b k.heuristic) b = b ∨
      ∃ k, k ∈ kids ∧ k.heuristic = kids.foldl (fun b k => pick flag b k.heuristic) b := by
  intro kids
  induction kids with
  | nil => intro b; exact Or.inl rfl
  | cons k kids ih =>
    intro b
    rw [List.foldl_cons]
    rcases ih (pick flag b k.heuristic) with h | ⟨k2, hk2, h2⟩
    · rw [h]
      unfold pick
      cases flag
      · simp only [Bool.false_eq_true, if_false]
        by_cases hb : b ≤ k.heuristic
        · exact Or.inl (by omega)
        · exact Or.inr ⟨k, List.mem_cons_self _ _, by omega⟩
      · simp only [if_true]
        by_cases hb : k.heuristic ≤ b
        · exact Or.inl (by omega)
        · exact Or.inr ⟨k, List.mem_cons_self _ _, by omega⟩
    · exact Or.inr ⟨k2, List.mem_cons_of_mem _ hk2, h2⟩

/-- Started from the sentinel, the `max` / `min` of a non-empty list of
children whose values are above `INT_MIN` and below `INT_MAX` is the value of
one of them. -/
theorem foldPick_worst (flag : Bool) (kids : List SearchNode) (hne : kids ≠ [])
    (h : ∀ k, k ∈ kids → -64 ≤ k.heuristic ∧ k.heuristic ≤ 64) :
    ∃ k, k ∈ kids ∧ k.heuristic = kids.foldl (fun b k => pick flag b k.heuristic) (worst flag) := by
  rcases foldPick_mem flag kids (worst flag) with h1 | h1
  · exfalso
    obtain ⟨k, hk⟩ := List.exists_mem_of_ne_nil kids hne
    have hm := (foldPick_mono flag kids (worst flag)).2 k hk
    have hr := h k hk
    rw [h1] at hm
    unfold worst INT_MIN INT_MAX at hm
    cases flag
    · simp only [Bool.false_eq_true, if_false] at hm; omega
    · simp only [if_true] at hm; omega
  · exact h1

theorem counts_range (s : State) (h : CountsOk s) :
    -64 ≤ s.white - s.black ∧ s.white - s.black ≤ 64 := by
  obtain ⟨h1, h2⟩ := h
  have := tally_le s.board 'w'
  have := tally_le s.board 'b'
  omega

theorem mem_enum (ord : IterOrder) (s : State) (e : String × State)
    (h : e ∈ ord.enum s.updatePossibleStates.possibleStates) :
    ∃ rc : Int × Int, isValidMove rc.1 rc.2 s = true ∧ e = (key rc.1 rc.2, successor s rc) :=
  mem_possibleStates s e ((ord.perm _).mem_iff.1 h)

theorem enum_eq_nil (ord : IterOrder) (m : List (String × State)) (h : ord.enum m = []) :
    m = [] := by
  have := (ord.perm m).length_eq
  rw [h] at this
  exact List.length_eq_zero.1 this.symm

theorem enum_ne_nil (ord : IterOrder) (s : State) (h : legalCells s ≠ []) :
    ord.enum s.updatePossibleStates.possibleStates ≠ [] := by
  intro he
  have := (ord.perm s.updatePossibleStates.possibleStates).length_eq
  rw [he, updatePossibleStates_list] at this
  simp only [List.length_nil, List.length_map] at this
  exact h (List.length_eq_zero.1 this.symm)

/-- Without pruning: on a state whose counters are its tallies, the returned
value lies between -64 and 64. -/
theorem minimax_range (ord : IterOrder) :
    ∀ (fuel : Nat) (s : State) (node : SearchNode) (d : Int) (flag : Bool) (n : Nat),
      CountsOk s →
      -64 ≤ (minimax ord fuel s node d flag n).1 ∧ (minimax ord fuel s node d flag n).1 ≤ 64 := by
  intro fuel
  induction fuel with
  | zero => intro s node d flag n hs; exact counts_range s hs
  | succ f ih =>
    intro s node d flag n hs
    obtain ⟨e1, e2, _, _⟩ := updatePossibleStates_white s
    unfold minimax
    simp only []
    split
    · exact counts_range s hs
    · split
      · rw [e1, e2]; exact counts_range s hs
      · rename_i hne
        simp only []
        obtain ⟨kids, _, h2, h3, h4⟩ := childLoop_spec
          (fun s c k => minimax ord f s c (d - 1) (!flag) k) flag d
          (ord.enum s.updatePossibleStates.possibleStates) node
          (if flag then INT_MIN else INT_MAX) (n + 1)
        rw [h2]
        have hk : ∀ k, k ∈ kids → -64 ≤ k.heuristic ∧ k.heuristic ≤ 64 := by
          intro k hk
          obtain ⟨e, he⟩ := zip_mem_right (ord.enum s.updatePossibleStates.possibleStates)
            kids k (le_of_eq h3) hk
          obtain ⟨n2, hn2⟩ := h4 _ he
          obtain ⟨rc, _, hrc⟩ := mem_enum ord s e (List.of_mem_zip he).1
          have hc : CountsOk e.2 := by simp only [hrc]; exact successor_countsOk s rc
          simp only at hn2
          rw [hn2]
          exact ih e.2 _ _ _ n2 hc
        have hkne : kids ≠ [] := by
          intro hnil
          rw [hnil] at h3
          have := enum_eq_nil ord _ (List.length_eq_zero.1 h3.symm)
          exact hne (by rw [this]; rfl)
        obtain ⟨k, hk1, hk2⟩ := foldPick_worst flag kids hkne hk
        have : (if flag then INT_MIN else INT_MAX) = worst flag := rfl
        rw [this, ← hk2]
        exact hk k hk1

/-- With pruning: same bounds, for every window. -/
theorem minimaxAB_range (ord : IterOrder) :
    ∀ (fuel : Nat) (s : State) (node : SearchNode) (d : Int) (flag : Bool) (alpha beta : Int)
      (n : Nat),
      CountsOk s →
      -64 ≤ (minimaxAB ord fuel s node d flag alpha beta n).1 ∧
        (minimaxAB ord fuel s node d flag alpha beta n).1 ≤ 64 := by
  intro fuel
  induction fuel with
  | zero => intro s node d flag alpha beta n hs; exact counts_range s hs
  | succ f ih =>
    intro s node d flag alpha beta n hs
    obtain ⟨e1, e2, _, _⟩ := updatePossibleStates_white s
    unfold minimaxAB
    simp only []
    split
    · exact counts_range s hs
    · split
      · rw [e1, e2]; exact counts_range s hs
      · rename_i hne
        simp only []
        obtain ⟨pre, kids, h0, h00, _, h2, h3, h4⟩ := childLoopAB_spec
          (fun s c a b k => minimaxAB ord f s c (d - 1) (!flag) a b k) flag d
          (ord.enum s.updatePossibleStates.possibleStates) node
          (if flag then INT_MIN else INT_MAX) alpha beta (n + 1)
        rw [h2]
        have hk : ∀ k, k ∈ kids → -64 ≤ k.heuristic ∧ k.heuristic ≤ 64 := by
          intro k hk
          obtain ⟨e, he⟩ := zip_mem_right pre kids k (le_of_eq h3) hk
          obtain ⟨a, b, n2, hn2⟩ := h4 _ he
          obtain ⟨rc, _, hrc⟩ := mem_enum ord s e (h0.subset (List.of_mem_zip he).1)
          have hc : CountsOk e.2 := by simp only [hrc]; exact successor_countsOk s rc
          simp only at hn2
          rw [hn2]
          exact ih e.2 _ _ _ a b n2 hc
        have hkne : kids ≠ [] := by
          intro hnil
          rw [hnil] at h3
          have hp : pre = [] := List.length_eq_zero.1 h3.symm
          refine h00 ?_ hp
          intro hl
          exact hne (by rw [enum_eq_nil ord _ hl]; rfl)
        obtain ⟨k, hk1, hk2⟩ := foldPick_worst flag kids hkne hk
        have : (if flag then INT_MIN else INT_MAX) = worst flag := rfl
        rw [this, ← hk2]
        exact hk k hk1

/-! ## Pruning does not change the value -/

theorem mem_enum_fields (ord : IterOrder) (s : State) (e : String × State)
    (h : e ∈ ord.enum s.updatePossibleStates.possibleStates) :
    ∃ rc : Int × Int, isValidMove rc.1 rc.2 s = true ∧ e.1 = key rc.1 rc.2 ∧
      e.2 = successor s rc := by
  obtain ⟨rc, h1, h2⟩ := mem_enum ord s e h
  exact ⟨rc, h1, by simp only [h2], by simp only [h2]⟩

theorem foldl_max_ge (m : State → Int) :
    ∀ (l : List (String × State)) (T : Int),
      T ≤ l.foldl (fun b e => pick true b (m e.2)) T := by
  intro l
  induction l with
  | nil => intro T; exact le_refl _
  | cons e l ih =>
    intro T
    rw [List.foldl_cons]
    have := ih (pick true T (m e.2))
    simp only [pick, if_true] at this ⊢
    omega

theorem foldl_min_le (m : State → Int) :
    ∀ (l : List (String × State)) (T : Int),
      l.foldl (fun b e => pick false b (m e.2)) T ≤ T := by
  intro l
  induction l with
  | nil => intro T; exact le_refl _
  | cons e l ih =>
    intro T
    rw [List.foldl_cons]
    have := ih (pick false T (m e.2))
    simp only [pick, Bool.false_eq_true, if_false] at this ⊢
    omega

/-- The pruning loop of a maximizing node, against the full `max`. -/
theorem abFold_window_max (val : State → Int → Int → Int) (m : State → Int)
    (alpha beta : Int) (hmin : INT_MIN ≤ alpha) :
    ∀ (l : List (String × State)) (best a T : Int),
      (∀ e, e ∈ l → ∀ a2, INT_MIN ≤ a2 → a2 < beta → Window (val e.2 a2 beta) (m e.2) a2 beta) →
      a = max alpha best → a < beta → (alpha < best → T = best) → (best ≤ alpha → T ≤ best) →
      Window (abFold val true l best a beta)
        (l.foldl (fun b e => pick true b (m e.2)) T) alpha beta := by
  intro l
  induction l with
  | nil =>
    intro best a T _ ha hab h1 h2
    unfold abFold Window
    simp only [List.foldl_nil]
    refine ⟨fun h => h2 h, fun h _ => (h1 h).symm, fun h => ?_⟩
    omega
  | cons e l ih =>
    intro best a T hval ha hab h1 h2
    have hw := hval e (List.mem_cons_self _ _) a (by omega) hab
    have hT : T ≤ a := by
      by_cases hb : alpha < best
      · have := h1 hb; omega
      · have := h2 (by omega); omega
    unfold abFold
    simp only [if_true, List.foldl_cons]
    unfold Window at hw
    obtain ⟨w1, w2, w3⟩ := hw
    by_cases hbrk : beta ≤ max a (val e.2 a beta)
    · rw [if_pos hbrk]
      have hx : beta ≤ val e.2 a beta := by omega
      have hge := foldl_max_ge m l (pick true T (m e.2))
      have := w3 hx
      simp only [pick, if_true] at hge ⊢
      unfold Window
      refine ⟨fun h => ?_, fun h hh => ?_, fun _ => ?_⟩ <;> omega
    · rw [if_neg hbrk]
      have hxb : val e.2 a beta < beta := by omega
      apply ih (pick true best (val e.2 a beta)) (max a (val e.2 a beta))
        (pick true T (m e.2)) (fun e2 h2 => hval e2 (List.mem_cons_of_mem _ h2))
      · simp only [pick, if_true]; omega
      · omega
      · simp only [pick, if_true]
        intro hb
        by_cases hxa : a < val e.2 a beta
        · have := w2 hxa hxb; omega
        · have := w1 (by omega)
          by_cases hb2 : alpha < best
          · have := h1 hb2; omega
          · omega
      · simp only [pick, if_true]
        intro hb
        have := w1 (by omega)
        have := h2 (by omega)
        omega

/-- The pruning loop of a minimizing node, against the full `min`. -/
theorem abFold_window_min (val : State → Int → Int → Int) (m : State → Int)
    (alpha beta : Int) (hmax : beta ≤ INT_MAX) :
    ∀ (l : List (String × State)) (best b T : Int),
      (∀ e, e ∈ l → ∀ b2, alpha < b2 → b2 ≤ INT_MAX →
        Window (val e.2 alpha b2) (m e.2) alpha b2) →
      b = min beta best → alpha < b → (best < beta → T = best) → (beta ≤ best → best ≤ T) →
      Window (abFold val false l best alpha b)
        (l.foldl (fun b e => pick false b (m e.2)) T) alpha beta := by
  intro l
  induction l with
  | nil =>
    intro best b T _ hb hab h1 h2
    unfold abFold Window
    simp only [List.foldl_nil]
    refine ⟨fun h => ?_, fun _ h => (h1 h).symm, fun h => h2 h⟩
    omega
  | cons e l ih =>
    intro best b T hval hb hab h1 h2
    have hw := hval e (List.mem_cons_self _ _) b hab (by omega)
    have hT : b ≤ T := by
      by_cases hbb : best < beta
      · have := h1 hbb; omega
      · have := h2 (by omega); omega
    unfold abFold
    simp only [Bool.false_eq_true, if_false, List.foldl_cons]
    unfold Window at hw
    obtain ⟨w1, w2, w3⟩ := hw
    by_cases hbrk : min b (val e.2 alpha b) ≤ alpha
    · rw [if_pos hbrk]
      have hx : val e.2 alpha b ≤ alpha := by omega
      have hle := foldl_min_le m l (pick false T (m e.2))
      have := w1 hx
      simp only [pick, Bool.false_eq_true, if_false] at hle ⊢
      unfold Window
      refine ⟨fun _ => ?_, fun h hh => ?_, fun h => ?_⟩ <;> omega
    · rw [if_neg hbrk]
      have hxa : alpha < val e.2 alpha b := by omega
      apply ih (pick false best (val e.2 alpha b)) (min b (val e.2 alpha b))
        (pick false T (m e.2)) (fun e2 h2 => hval e2 (List.mem_cons_of_mem _ h2))
      · simp only [pick, Bool.false_eq_true, if_false]; omega
      · omega
      · simp only [pick, Bool.false_eq_true, if_false]
        intro hbb
        by_cases hxb : val e.2 alpha b < b
        · have := w2 hxa hxb; omega
        · have := w3 (by omega)
          by_cases hb2 : best < beta
          · have := h1 hb2; omega
          · omega
      · simp only [pick, Bool.false_eq_true, if_false]
        intro hbb
        have := w3 (by omega)
        have := h2 (by omega)
        omega

/-- Alpha-beta window property: the value of `minimax` with pruning and the
window `alpha < beta` is the value of `minimax` without pruning when it falls
inside the window, and bounds it from the same side when it falls outside. -/
theorem abValue_window (ord : IterOrder) :
    ∀ (fuel : Nat) (s : State) (d : Int) (flag : Bool) (alpha beta : Int),
      alpha < beta → INT_MIN ≤ alpha → beta ≤ INT_MAX →
      Window (abValue ord fuel s d flag alpha beta) (mmValue ord fuel s d flag) alpha beta := by
  intro fuel
  induction fuel with
  | zero =>
    intro s d flag alpha beta _ _ _
    rw [abValue_zero, mmValue_zero]
    exact ⟨fun _ => le_refl _, fun _ _ => rfl, fun _ => le_refl _⟩
  | succ f ih =>
    intro s d flag alpha beta hab hmin hmax
    rw [abValue_succ, mmValue_succ]
    by_cases hd : d = 0
    · rw [if_pos hd, if_pos hd]
      exact ⟨fun _ => le_refl _, fun _ _ => rfl, fun _ => le_refl _⟩
    · rw [if_neg hd, if_neg hd]
      by_cases he : legalCells s = []
      · rw [if_pos he, if_pos he]
        exact ⟨fun _ => le_refl _, fun _ _ => rfl, fun _ => le_refl _⟩
      · rw [if_neg he, if_neg he]
        cases flag
        · exact abFold_window_min (fun t a b => abValue ord f t (d - 1) (!false) a b)
            (fun t => mmValue ord f t (d - 1) (!false)) alpha beta hmax _ (worst false) beta
            (worst false)
            (fun e _ b2 h1 h2 => ih e.2 (d - 1) (!false) alpha b2 h1 hmin h2)
            (by unfold worst; simp only [Bool.false_eq_true, if_false]; omega) hab
            (fun _ => rfl) (fun _ => le_refl _)
        · exact abFold_window_max (fun t a b => abValue ord f t (d - 1) (!true) a b)
            (fun t => mmValue ord f t (d - 1) (!true)) alpha beta hmin _ (worst true) alpha
            (worst true)
            (fun e _ a2 h1 h2 => ih e.2 (d - 1) (!true) a2 beta h2 h1 hmax)
            (by unfold worst; simp only [if_true]; omega) hab
            (fun _ => rfl) (fun _ => le_refl _)

/-! ## What the searches write into the node -/

theorem minimax_header (ord : IterOrder) (fuel : Nat) (s : State) (node : SearchNode) (d : Int)
    (flag : Bool) (n : Nat) :
    SameHeader (minimax ord fuel s node d flag n).2.1 node ∧
    (minimax ord fuel s node d flag n).2.1.heuristic = (minimax ord fuel s node d flag n).1 := by
  cases fuel with
  | zero => exact ⟨sameHeader_refl _, rfl⟩
  | succ f =>
    unfold minimax
    simp only []
    split
    · exact ⟨sameHeader_refl _, rfl⟩
    · split
      · exact ⟨sameHeader_refl _, rfl⟩
      · simp only []
        obtain ⟨kids, h1, _, _, _⟩ := childLoop_spec
          (fun s c k => minimax ord f s c (d - 1) (!flag) k) flag d
          (ord.enum s.updatePossibleStates.possibleStates) node
          (if flag then INT_MIN else INT_MAX) (n + 1)
        refine ⟨?_, trivial⟩
        unfold SameHeader
        simp only [h1, and_self]

theorem minimaxAB_header (ord : IterOrder) (fuel : Nat) (s : State) (node : SearchNode)
    (d : Int) (flag : Bool) (alpha beta : Int) (n : Nat) :
    SameHeader (minimaxAB ord fuel s node d flag alpha beta n).2.1 node ∧
    (minimaxAB ord fuel s node d flag alpha beta n).2.1.heuristic =
      (minimaxAB ord fuel s node d flag alpha beta n).1 := by
  cases fuel with
  | zero => exact ⟨sameHeader_refl _, rfl⟩
  | succ f =>
    unfold minimaxAB
    simp only []
    split
    · exact ⟨sameHeader_refl _, rfl⟩
    · split
      · exact ⟨sameHeader_refl _, rfl⟩
      · simp only []
        obtain ⟨pre, kids, _, _, h1, _, _, _⟩ := childLoopAB_spec
          (fun s c a b k => minimaxAB ord f s c (d - 1) (!flag) a b k) flag d
          (ord.enum s.updatePossibleStates.possibleStates) node
          (if flag then INT_MIN else INT_MAX) alpha beta (n + 1)
        refine ⟨?_, trivial⟩
        unfold SameHeader
        simp only [h1, and_self]

theorem finish_header (r : SearchResult) : SameHeader (finish r) r.2.1 :=
  ⟨rfl, rfl, rfl, rfl, rfl, rfl, rfl, rfl⟩

theorem finish_heuristic (r : SearchResult) : (finish r).heuristic = r.1 := rfl

theorem finish_children (r : SearchResult) : (finish r).children = r.2.1.children := rfl

/-! ## The root of the search -/

/-- With the full window, the pruning search of a state whose counters are its
tallies returns the value of the search without pruning. -/
theorem abValue_full (ord : IterOrder) (fuel : Nat) (s : State) (d : Int) (flag : Bool)
    (hs : CountsOk s) :
    abValue ord fuel s d flag INT_MIN INT_MAX = mmValue ord fuel s d flag := by
  obtain ⟨w1, w2, w3⟩ := abValue_window ord fuel s d flag INT_MIN INT_MAX (by decide)
    (le_refl _) (le_refl _)
  have hr := minimax_range ord fuel s SearchNode.new d flag 0 hs
  have hm : mmValue ord fuel s d flag = (minimax ord fuel s SearchNode.new d flag 0).1 := rfl
  rw [← hm] at hr
  unfold INT_MIN INT_MAX at w1 w2 w3
  by_cases h1 : abValue ord fuel s d flag (-2147483648) 2147483647 ≤ -2147483648
  · have := w1 h1; omega
  · by_cases h2 : 2147483647 ≤ abValue ord fuel s d flag (-2147483648) 2147483647
    · have := w3 h2; omega
    · unfold INT_MIN INT_MAX
      exact w2 (by omega) (by omega)

/-- The call that `getBestMove` makes for each legal move of the root: the
`minimax` overload selected by the pruning switch. -/
theorem rootEval_value (ord : IterOrder) (bot : OthelloBot) (flag : Bool) (t : State)
    (c : SearchNode) (k : Nat) (ht : CountsOk t) :
    (if bot.m_alphaBetaOn then
        minimaxAB ord searchFuel t c (bot.m_depth - 1) flag INT_MIN INT_MAX k
      else minimax ord searchFuel t c (bot.m_depth - 1) flag k).1 =
      mmValue ord searchFuel t (bot.m_depth - 1) flag ∧
    SameHeader
      (if bot.m_alphaBetaOn then
        minimaxAB ord searchFuel t c (bot.m_depth - 1) flag INT_MIN INT_MAX k
      else minimax ord searchFuel t c (bot.m_depth - 1) flag k).2.1 c := by
  cases bot.m_alphaBetaOn
  · simp only [Bool.false_eq_true, if_false]
    exact ⟨minimax_value ord _ _ _ _ _ _, (minimax_header ord _ _ _ _ _ _).1⟩
  · simp only [if_true]
    exact ⟨by rw [minimaxAB_value, abValue_full ord _ _ _ _ ht],
      (minimaxAB_header ord _ _ _ _ _ _ _ _).1⟩

/-- `getBestMove` on a state without a legal move: the sentinel, and the bot is
left as it was. -/
theorem getBestMove_none (ord : IterOrder) (bot : OthelloBot) (s : State)
    (h : legalCells s = []) :
    bot.getBestMove ord s = ((-1, -1), bot, s.updatePossibleStates) := by
  unfold OthelloBot.getBestMove
  simp only []
  rw [if_pos ((possibleStates_isEmpty_iff s).2 h)]

theorem rootEval_spec (ord : IterOrder) (bot : OthelloBot) (flag : Bool) (t : State)
    (c : SearchNode) (k : Nat) (ht : CountsOk t) :
    (rootEval ord bot flag t c k).1 = mmValue ord searchFuel t (bot.m_depth - 1) (!flag) ∧
    SameHeader (rootEval ord bot flag t c k).2.1 c ∧
    -64 ≤ (rootEval ord bot flag t c k).1 ∧ (rootEval ord bot flag t c k).1 ≤ 64 := by
  have h := rootEval_value ord bot (!flag) t c k ht
  have hr := minimax_range ord searchFuel t SearchNode.new (bot.m_depth - 1) (!flag) 0 ht
  have hm : mmValue ord searchFuel t (bot.m_depth - 1) (!flag) =
      (minimax ord searchFuel t SearchNode.new (bot.m_depth - 1) (!flag) 0).1 := rfl
  unfold rootEval
  rw [h.1, hm]
  exact ⟨rfl, h.2, hr⟩

theorem getBestMove_eq (ord : IterOrder) (bot : OthelloBot) (s : State)
    (hne : legalCells s ≠ []) :
    bot.getBestMove ord s =
      ((rootRun ord bot s).2.2.1,
        { bot with
          m_searchTree :=
            { m_root := some { (rootRun ord bot s).1 with heuristic := (rootRun ord bot s).2.1 },
              m_nodeCount := (rootRun ord bot s).2.2.2 }
          m_statesExamined := (rootRun ord bot s).2.2.2 },
        s.updatePossibleStates) := by
  obtain ⟨e1, e2, e3, _⟩ := updatePossibleStates_white s
  have hemp : ¬ s.updatePossibleStates.possibleStates.isEmpty = true :=
    fun h => hne ((possibleStates_isEmpty_iff s).1 h)
  unfold OthelloBot.getBestMove
  simp only []
  rw [if_neg hemp]
  simp only [e1, e2, e3]
  rfl

/-- `getBestMove` on a state with a legal move: the bot and the state it
leaves. -/
theorem getBestMove_bot (ord : IterOrder) (bot : OthelloBot) (s : State)
    (hne : legalCells s ≠ []) :
    (bot.getBestMove ord s).2.1 =
      { bot with
        m_searchTree :=
          { m_root := some (builtRoot ord bot s), m_nodeCount := (rootRun ord bot s).2.2.2 }
        m_statesExamined := (rootRun ord bot s).2.2.2 } ∧
    (bot.getBestMove ord s).2.2 = s.updatePossibleStates ∧
    (bot.getBestMove ord s).1 = (rootRun ord bot s).2.2.1 := by
  rw [getBestMove_eq ord bot s hne]
  refine ⟨?_, ?_, ?_⟩
  · dsimp only [builtRoot]
  · dsimp only
  · dsimp only

/-- `getBestMove` on a state with a legal move: the root it builds and the move
it returns, in terms of the entries of the cache in iteration order. -/
theorem getBestMove_spec (ord : IterOrder) (bot : OthelloBot) (s : State)
    (hne : legalCells s ≠ []) :
    (builtRoot ord bot s).row = -1 ∧ (builtRoot ord bot s).col = -1 ∧
    (builtRoot ord bot s).depth = bot.m_depth ∧
    (builtRoot ord bot s).maximizing = (s.turn == 'w') ∧ (builtRoot ord bot s).turn = s.turn ∧
    (builtRoot ord bot s).whiteScore = s.white ∧ (builtRoot ord bot s).blackScore = s.black ∧
    (builtRoot ord bot s).moveSequence = "Root" ∧
    (builtRoot ord bot s).heuristic =
      (builtRoot ord bot s).children.foldl (fun b k => pick (s.turn == 'w') b k.heuristic)
        (worst (s.turn == 'w')) ∧
    (builtRoot ord bot s).children.length =
      (ord.enum s.updatePossibleStates.possibleStates).length ∧
    (∀ p, p ∈ (ord.enum s.updatePossibleStates.possibleStates).zip
        (builtRoot ord bot s).children →
      ∃ n2, p.2 = finish (rootEval ord bot (s.turn == 'w') p.1.2
        (makeChild p.1.1 p.1.2 (bot.m_depth - 1) (!(s.turn == 'w')) p.1.1) n2)) ∧
    ∃ front k back, (builtRoot ord bot s).children = front ++ k :: back ∧
      (bot.getBestMove ord s).1 = (k.row, k.col) ∧
      k.heuristic = (builtRoot ord bot s).heuristic ∧
      ∀ k2, k2 ∈ front → k2.heuristic ≠ (builtRoot ord bot s).heuristic := by
  rw [(getBestMove_bot ord bot s hne).2.2]
  obtain ⟨kids, h1, h2, h3, h4, _, h6⟩ := rootLoop_spec (rootEval ord bot (s.turn == 'w'))
    (s.turn == 'w') bot.m_depth (ord.enum s.updatePossibleStates.possibleStates)
    { SearchNode.new with
      turn := s.turn, whiteScore := s.white, blackScore := s.black,
      depth := bot.m_depth, maximizing := s.turn == 'w', moveSequence := "Root" }
    (worst (s.turn == 'w')) (-1, -1) 1
  have hR : rootLoop (rootEval ord bot (s.turn == 'w')) (s.turn == 'w') bot.m_depth
      (ord.enum s.updatePossibleStates.possibleStates)
      { SearchNode.new with
        turn := s.turn, whiteScore := s.white, blackScore := s.black,
        depth := bot.m_depth, maximizing := s.turn == 'w', moveSequence := "Root" }
      (worst (s.turn == 'w')) (-1, -1) 1 = rootRun ord bot s := rfl
  rw [hR] at h1 h2 h6
  have hch : (rootRun ord bot s).1.children = kids := by rw [h1]; rfl
  have hkne : kids ≠ [] := by
    intro hnil
    rw [hnil] at h3
    exact enum_ne_nil ord s hne (List.length_eq_zero.1 h3.symm)
  have hex : ∃ k, k ∈ kids ∧ (if (s.turn == 'w') = true then worst (s.turn == 'w') < k.heuristic
      else k.heuristic < worst (s.turn == 'w')) := by
    obtain ⟨k, hk⟩ := List.exists_mem_of_ne_nil kids hkne
    obtain ⟨e, he⟩ := zip_mem_right (ord.enum s.updatePossibleStates.possibleStates) kids k
      (le_of_eq h3) hk
    obtain ⟨n2, hn2⟩ := h4 _ he
    obtain ⟨rc, _, _, hrc⟩ := mem_enum_fields ord s e (List.of_mem_zip he).1
    have hc : CountsOk e.2 := by rw [hrc]; exact successor_countsOk s rc
    have := (rootEval_spec ord bot (s.turn == 'w') e.2
      (makeChild e.1 e.2 (bot.m_depth - 1) (!(s.turn == 'w')) e.1) n2 hc).2.2
    simp only at hn2
    rw [← finish_heuristic, ← hn2] at this
    refine ⟨k, hk, ?_⟩
    unfold worst INT_MIN INT_MAX
    cases (s.turn == 'w')
    · simp only [Bool.false_eq_true, if_false]; omega
    · simp only [if_true]; omega
  obtain ⟨front, k, back, g1, g2, g3, g4⟩ := h6 hex
  have hch2 : (builtRoot ord bot s).children = kids := hch
  have hheur : (builtRoot ord bot s).heuristic = (rootRun ord bot s).2.1 := rfl
  unfold builtRoot at hch2 hheur ⊢
  refine ⟨?_, ?_, ?_, ?_, ?_, ?_, ?_, ?_, ?_, ?_, ?_, ?_⟩
  · simp only [h1]; rfl
  · simp only [h1]; rfl
  · simp only [h1]
  · simp only [h1]
  · simp only [h1]
  · simp only [h1]
  · simp only [h1]
  · simp only [h1]
  · simp only [hch]; exact h2
  · simp only [hch]; exact h3
  · simp only [hch]; exact h4
  · exact ⟨front, k, back, by simp only [hch]; exact g1, g2, g3, g4⟩

/-- Each child of the built root belongs to a legal cell `rc`: it carries the
coordinates of `rc` and the value of the search below the successor. -/
theorem rootKid_fields (ord : IterOrder) (bot : OthelloBot) (s : State)
    (hne : legalCells s ≠ []) (p : (String × State) × SearchNode)
    (hp : p ∈ (ord.enum s.updatePossibleStates.possibleStates).zip
      (builtRoot ord bot s).children) :
    ∃ rc : Int × Int, isValidMove rc.1 rc.2 s = true ∧ p.1.1 = key rc.1 rc.2 ∧
      p.1.2 = successor s rc ∧ p.2.row = rc.1 ∧ p.2.col = rc.2 ∧
      p.2.heuristic =
        mmValue ord searchFuel (successor s rc) (bot.m_depth - 1) (!(s.turn == 'w')) ∧
      (-64 ≤ p.2.heuristic ∧ p.2.heuristic ≤ 64) ∧
      SameHeader p.2 (makeChild (key rc.1 rc.2) (successor s rc) (bot.m_depth - 1)
        (!(s.turn == 'w')) (key rc.1 rc.2)) := by
  obtain ⟨_, _, _, _, _, _, _, _, _, _, h4, _⟩ := getBestMove_spec ord bot s hne
  obtain ⟨n2, hn2⟩ := h4 p hp
  obtain ⟨rc, hv, hk, hrc⟩ := mem_enum_fields ord s p.1 (List.of_mem_zip hp).1
  have hin := ((isValidMove_iff rc.1 rc.2 s).1 hv).1
  have hc : CountsOk p.1.2 := by rw [hrc]; exact successor_countsOk s rc
  obtain ⟨r1, r2, r3⟩ := rootEval_spec ord bot (s.turn == 'w') p.1.2
    (makeChild p.1.1 p.1.2 (bot.m_depth - 1) (!(s.turn == 'w')) p.1.1) n2 hc
  have hh := sameHeader_trans _ _ _ (finish_header _) r2
  rw [← hn2] at hh
  have hheur : p.2.heuristic = mmValue ord searchFuel p.1.2 (bot.m_depth - 1)
      (!(s.turn == 'w')) := by
    rw [hn2, finish_heuristic, r1]
  refine ⟨rc, hv, hk, hrc, ?_, ?_, ?_, ?_, ?_⟩
  · rw [hh.1]
    show keyRow p.1.1 = rc.1
    rw [hk, keyRow_key _ _ hin]
  · rw [hh.2.1]
    show keyCol p.1.1 = rc.2
    rw [hk, keyCol_key _ _ hin]
  · rw [hheur, hrc]
  · rw [hn2, finish_heuristic]; exact r3
  · rw [← hk, ← hrc]; exact hh

/-- Every legal cell has its child under the built root. -/
theorem rootKid_of_legal (ord : IterOrder) (bot : OthelloBot) (s : State) (rc : Int × Int)
    (hv : isValidMove rc.1 rc.2 s = true) :
    ∃ k, k ∈ (builtRoot ord bot s).children ∧ k.row = rc.1 ∧ k.col = rc.2 ∧
      k.heuristic =
        mmValue ord searchFuel (successor s rc) (bot.m_depth - 1) (!(s.turn == 'w')) := by
  have hmem : rc ∈ legalCells s := (mem_legalCells s rc).2 hv
  have hne : legalCells s ≠ [] := List.ne_nil_of_mem hmem
  obtain ⟨_, _, _, _, _, _, _, _, _, h3, _, _⟩ := getBestMove_spec ord bot s hne
  have he : (key rc.1 rc.2, successor s rc) ∈
      ord.enum s.updatePossibleStates.possibleStates := by
    rw [(ord.perm _).mem_iff, updatePossibleStates_list]
    exact List.mem_map_of_mem _ hmem
  obtain ⟨k, hk⟩ := zip_mem_left _ (builtRoot ord bot s).children _ (le_of_eq h3.symm) he
  obtain ⟨rc2, hv2, hk2, _, f1, f2, f3, _, _⟩ := rootKid_fields ord bot s hne _ hk
  have hin2 := ((isValidMove_iff rc2.1 rc2.2 s).1 hv2).1
  have := key_inj rc.1 rc.2 rc2.1 rc2.2 hin2 hk2
  have e : rc2 = rc := by ext <;> simp [this.1, this.2]
  subst e
  exact ⟨k, (List.of_mem_zip hk).2, f1, f2, f3⟩

/-! ## C11 -/

/-- C11. For every state, every configured depth and either pruning setting,
`getBestMove` returns the sentinel `(-1, -1)` exactly when the side to move has
no legal move; so a state in which neither colour has a legal move yields
`(-1, -1)` whatever the depth. -/
theorem getBestMove_sentinel (ord : IterOrder) (bot : OthelloBot) (s : State) :
    (bot.getBestMove ord s).1 = (-1, -1) ↔ ∀ r c : Int, isValidMove r c s = false := by
  constructor
  · intro h r c
    by_contra hv
    simp only [Bool.not_eq_false] at hv
    have hmem : (r, c) ∈ legalCells s := (mem_legalCells s (r, c)).2 hv
    have hne : legalCells s ≠ [] := List.ne_nil_of_mem hmem
    obtain ⟨_, _, _, _, _, _, _, _, _, h3, _, front, k, back, g1, g2, _, _⟩ :=
      getBestMove_spec ord bot s hne
    have hk : k ∈ (builtRoot ord bot s).children := by rw [g1]; simp
    obtain ⟨e, he⟩ := zip_mem_right (ord.enum s.updatePossibleStates.possibleStates) _ k
      (le_of_eq h3) hk
    obtain ⟨rc, hv2, _, _, f1, _, _⟩ := rootKid_fields ord bot s hne _ he
    have hin := (inBoard_iff _ _).1 ((isValidMove_iff rc.1 rc.2 s).1 hv2).1
    rw [g2] at h
    simp only [Prod.mk.injEq] at h
    simp only at f1
    omega
  · intro h
    have hnil : legalCells s = [] := by
      apply List.eq_nil_iff_forall_not_mem.2
      intro rc hrc
      have := (mem_legalCells s rc).1 hrc
      rw [h rc.1 rc.2] at this
      exact Bool.noConfusion this
    rw [getBestMove_none ord bot s hnil]

/-! ## C12 -/

/-- C12. For a state with a legal move (any depth, either pruning setting), the
coordinate returned by `getBestMove` is a legal move of the state and the
coordinate of a child of the tree's root; the root's heuristic is that child's
heuristic; and it is the largest of the root children's heuristics when white
is to move and the smallest when black is to move. -/
theorem getBestMove_best (ord : IterOrder) (bot : OthelloBot) (s : State)
    (h : ∃ r c : Int, isValidMove r c s = true) :
    ∃ root, (bot.getBestMove ord s).2.1.m_searchTree.m_root = some root ∧
      isValidMove (bot.getBestMove ord s).1.1 (bot.getBestMove ord s).1.2 s = true ∧
      (∃ k, k ∈ root.children ∧ (k.row, k.col) = (bot.getBestMove ord s).1 ∧
        root.heuristic = k.heuristic) ∧
      (s.turn = 'w' → ∀ c, c ∈ root.children → c.heuristic ≤ root.heuristic) ∧
      (s.turn = 'b' → ∀ c, c ∈ root.children → root.heuristic ≤ c.heuristic) := by
  obtain ⟨r, c, hv⟩ := h
  have hmem : (r, c) ∈ legalCells s := (mem_legalCells s (r, c)).2 hv
  have hne : legalCells s ≠ [] := List.ne_nil_of_mem hmem
  obtain ⟨_, _, _, _, _, _, _, _, h2, h3, _, front, k, back, g1, g2, g3, _⟩ :=
    getBestMove_spec ord bot s hne
  have hk : k ∈ (builtRoot ord bot s).children := by rw [g1]; simp
  obtain ⟨e, he⟩ := zip_mem_right (ord.enum s.updatePossibleStates.possibleStates) _ k
    (le_of_eq h3) hk
  obtain ⟨rc, hv2, _, _, f1, f2, _⟩ := rootKid_fields ord bot s hne _ he
  have hmono := (foldPick_mono (s.turn == 'w') (builtRoot ord bot s).children
    (worst (s.turn == 'w'))).2
  rw [← h2] at hmono
  refine ⟨builtRoot ord bot s, ?_, ?_, ⟨k, hk, g2.symm, g3.symm⟩, ?_, ?_⟩
  · rw [(getBestMove_bot ord bot s hne).1]
  · rw [g2]
    simp only at f1 f2 ⊢
    rw [f1, f2]; exact hv2
  · intro ht c hc
    have := hmono c hc
    rw [ht] at this
    exact this
  · intro ht c hc
    have := hmono c hc
    rw [ht] at this
    exact this

/-- In the opening position black has the legal move `(2, 3)`, so a depth-1
bot without pruning returns a legal move. -/
theorem getBestMove_best_witness :
    (∃ r c : Int, isValidMove r c State.new = true) ∧
    isValidMove
      (OthelloBot.getBestMove IterOrder.insertion
        { m_depth := 1, m_alphaBetaOn := false,
          m_searchTree := { m_root := none, m_nodeCount := 0 }, m_statesExamined := 0 }
        State.new).1.1
      (OthelloBot.getBestMove IterOrder.insertion
        { m_depth := 1, m_alphaBetaOn := false,
          m_searchTree := { m_root := none, m_nodeCount := 0 }, m_statesExamined := 0 }
        State.new).1.2 State.new = true := by
  obtain ⟨_, _, h, _⟩ := getBestMove_best IterOrder.insertion
    { m_depth := 1, m_alphaBetaOn := false,
      m_searchTree := { m_root := none, m_nodeCount := 0 }, m_statesExamined := 0 }
    State.new ⟨2, 3, by decide⟩
  exact ⟨⟨2, 3, by decide⟩, h⟩

/-! ## The call budget -/

theorem childLoop_congr (eval eval2 : State → SearchNode → Nat → SearchResult) (flag : Bool)
    (depth : Int) :
    ∀ (l : List (String × State)) (node : SearchNode) (best : Int) (n : Nat),
      (∀ e, e ∈ l → ∀ c k, eval e.2 c k = eval2 e.2 c k) →
      childLoop eval flag depth l node best n = childLoop eval2 flag depth l node best n := by
  intro l
  induction l with
  | nil => intro node best n _; rfl
  | cons e l ih =>
    intro node best n h
    obtain ⟨key, nextState⟩ := e
    unfold childLoop
    simp only []
    rw [h (key, nextState) (List.mem_cons_self _ _)]
    exact ih _ _ _ (fun e2 h2 => h e2 (List.mem_cons_of_mem _ h2))

theorem childLoopAB_congr (eval eval2 : State → SearchNode → Int → Int → Nat → SearchResult)
    (flag : Bool) (depth : Int) :
    ∀ (l : List (String × State)) (node : SearchNode) (best alpha beta : Int) (n : Nat),
      (∀ e, e ∈ l → ∀ c a b k, eval e.2 c a b k = eval2 e.2 c a b k) →
      childLoopAB eval flag depth l node best alpha beta n =
        childLoopAB eval2 flag depth l node best alpha beta n := by
  intro l
  induction l with
  | nil => intro node best alpha beta n _; rfl
  | cons e l ih =>
    intro node best alpha beta n h
    obtain ⟨key, nextState⟩ := e
    unfold childLoopAB
    simp only []
    rw [h (key, nextState) (List.mem_cons_self _ _)]
    generalize eval2 nextState (makeChild key nextState depth (!flag)
      (node.moveSequence ++ " -> " ++ key)) alpha beta n = r
    by_cases hbrk : (if flag then beta else min beta r.1) ≤
        (if flag then max alpha r.1 else alpha)
    · rw [if_pos hbrk, if_pos hbrk]
    · rw [if_neg hbrk, if_neg hbrk]
      exact ih _ _ _ _ _ (fun e2 h2 => h e2 (List.mem_cons_of_mem _ h2))

/-- A call budget above `depthBound` is never used up: with any two such
budgets `minimax` returns the same value, node and counter. -/
theorem minimax_fuel (ord : IterOrder) :
    ∀ (fuel fuel2 : Nat) (s : State) (node : SearchNode) (d : Int) (flag : Bool) (n : Nat),
      depthBound s < fuel → depthBound s < fuel2 →
      minimax ord fuel s node d flag n = minimax ord fuel2 s node d flag n := by
  intro fuel
  induction fuel with
  | zero => intro fuel2 s node d flag n h; exact absurd h (Nat.not_lt_zero _)
  | succ f ih =>
    intro fuel2 s node d flag n h1 h2
    cases fuel2 with
    | zero => exact absurd h2 (Nat.not_lt_zero _)
    | succ f2 =>
      unfold minimax
      simp only []
      by_cases hd : d = 0
      · rw [if_pos hd, if_pos hd]
      · rw [if_neg hd, if_neg hd]
        by_cases he : s.updatePossibleStates.possibleStates.isEmpty = true
        · rw [if_pos he, if_pos he]
        · rw [if_neg he, if_neg he]
          rw [childLoop_congr (fun s c k => minimax ord f s c (d - 1) (!flag) k)
            (fun s c k => minimax ord f2 s c (d - 1) (!flag) k) flag d _ _ _ _ ?_]
          intro e hmem c k
          obtain ⟨rc, hv, _, hrc⟩ := mem_enum_fields ord s e hmem
          have hb := successor_bound s rc hv
          rw [← hrc] at hb
          exact ih f2 e.2 c (d - 1) (!flag) k (by omega) (by omega)

/-- The same for `minimax` with pruning. -/
theorem minimaxAB_fuel (ord : IterOrder) :
    ∀ (fuel fuel2 : Nat) (s : State) (node : SearchNode) (d : Int) (flag : Bool)
      (alpha beta : Int) (n : Nat),
      depthBound s < fuel → depthBound s < fuel2 →
      minimaxAB ord fuel s node d flag alpha beta n =
        minimaxAB ord fuel2 s node d flag alpha beta n := by
  intro fuel
  induction fuel with
  | zero => intro fuel2 s node d flag alpha beta n h; exact absurd h (Nat.not_lt_zero _)
  | succ f ih =>
    intro fuel2 s node d flag alpha beta n h1 h2
    cases fuel2 with
    | zero => exact absurd h2 (Nat.not_lt_zero _)
    | succ f2 =>
      unfold minimaxAB
      simp only []
      by_cases hd : d = 0
      · rw [if_pos hd, if_pos hd]
      · rw [if_neg hd, if_neg hd]
        by_cases he : s.updatePossibleStates.possibleStates.isEmpty = true
        · rw [if_pos he, if_pos he]
        · rw [if_neg he, if_neg he]
          rw [childLoopAB_congr (fun s c a b k => minimaxAB ord f s c (d - 1) (!flag) a b k)
            (fun s c a b k => minimaxAB ord f2 s c (d - 1) (!flag) a b k) flag d _ _ _ _ _ _ ?_]
          intro e hmem c a b k
          obtain ⟨rc, hv, _, hrc⟩ := mem_enum_fields ord s e hmem
          have hb := successor_bound s rc hv
          rw [← hrc] at hb
          exact ih f2 e.2 c (d - 1) (!flag) a b k (by omega) (by omega)

/-- The budget that `getBestMove` passes is above the bound of every state. -/
theorem searchFuel_enough (s : State) : depthBound s < searchFuel := by
  have := depthBound_le s
  unfold searchFuel
  omega

/-! ## The reference game value -/

theorem foldl_congr_mem {α β : Type} (f g : β → α → β) :
    ∀ (l : List α) (b : β), (∀ b2 e, e ∈ l → f b2 e = g b2 e) →
      l.foldl f b = l.foldl g b := by
  intro l
  induction l with
  | nil => intro b _; rfl
  | cons x l ih =>
    intro b h
    simp only [List.foldl_cons]
    rw [h b x (List.mem_cons_self _ _)]
    exact ih _ (fun b2 e he => h b2 e (List.mem_cons_of_mem _ he))

theorem pick_right_comm (flag : Bool) (z x y : Int) :
    pick flag (pick flag z x) y = pick flag (pick flag z y) x := by
  unfold pick
  cases flag
  · simp only [Bool.false_eq_true, if_false]; omega
  · simp only [if_true]; omega

/-- The fold of the loop, started at `INT_MIN` or `INT_MAX`, is the maximum or
the minimum of a non-empty list of values between -64 and 64. -/
theorem foldPick_extreme (flag : Bool) (vals : List Int) (hne : vals ≠ [])
    (hr : ∀ v, v ∈ vals → -64 ≤ v ∧ v ≤ 64) :
    vals.foldl (pick flag) (worst flag) = if flag then maxOf vals else minOf vals := by
  cases vals with
  | nil => exact absurd rfl hne
  | cons x xs =>
    have hx := hr x (List.mem_cons_self _ _)
    cases flag
    · simp only [Bool.false_eq_true, if_false, List.foldl_cons, minOf]
      have : pick false (worst false) x = x := by
        unfold pick worst INT_MAX
        simp only [Bool.false_eq_true, if_false]
        omega
      rw [this]
      rfl
    · simp only [if_true, List.foldl_cons, maxOf]
      have : pick true (worst true) x = x := by
        unfold pick worst INT_MIN
        simp only [if_true]
        omega
      rw [this]
      rfl

theorem gameValue_succ (d : Nat) (s : State) (flag : Bool) :
    gameValue (d + 1) s flag =
      if legalCells s = [] then s.white - s.black
      else if flag then
        maxOf ((legalCells s).map (fun rc => gameValue d (successor s rc) false))
      else
        minOf ((legalCells s).map (fun rc => gameValue d (successor s rc) true)) := rfl

/-- With a sufficient budget the value of `minimax` is the reference game
value, whatever the order in which the cache is enumerated. -/
theorem mmValue_gameValue (ord : IterOrder) :
    ∀ (fuel : Nat) (s : State) (d : Nat) (flag : Bool),
      CountsOk s → depthBound s < fuel →
      mmValue ord fuel s (d : Int) flag = gameValue d s flag := by
  intro fuel
  induction fuel with
  | zero => intro s d flag _ h; exact absurd h (Nat.not_lt_zero _)
  | succ f ih =>
    intro s d flag hs hf
    rw [mmValue_succ]
    cases d with
    | zero => rw [if_pos (by rfl)]; rfl
    | succ d2 =>
      have hd : ((d2 + 1 : Nat) : Int) ≠ 0 := by omega
      have hd1 : ((d2 + 1 : Nat) : Int) - 1 = (d2 : Int) := by omega
      rw [if_neg hd, hd1]
      by_cases he : legalCells s = []
      · rw [if_pos he]
        rw [gameValue_succ, if_pos he]
      · rw [if_neg he]
        have hsucc : ∀ rc, rc ∈ legalCells s →
            mmValue ord f (successor s rc) (d2 : Int) (!flag) =
              gameValue d2 (successor s rc) (!flag) := by
          intro rc hrc
          have hv := (mem_legalCells s rc).1 hrc
          have hb := successor_bound s rc hv
          exact ih _ d2 (!flag) (successor_countsOk s rc) (by omega)
        have hperm := ord.perm s.updatePossibleStates.possibleStates
        rw [hperm.foldl_eq' (fun x _ y _ z => pick_right_comm flag z _ _),
          updatePossibleStates_list, List.foldl_map,
          foldl_congr_mem _ (fun b rc => pick flag b (gameValue d2 (successor s rc) (!flag)))
            _ _ (fun b2 rc hrc => by simp only [hsucc rc hrc])]
        have hfold : (legalCells s).foldl
            (fun b rc => pick flag b (gameValue d2 (successor s rc) (!flag))) (worst flag) =
            ((legalCells s).map (fun rc => gameValue d2 (successor s rc) (!flag))).foldl
              (pick flag) (worst flag) := by
          rw [List.foldl_map]
        rw [hfold, foldPick_extreme flag _ (by simpa using he)]
        · rw [gameValue_succ, if_neg he]
          cases flag <;> rfl
        · intro v hv
          obtain ⟨rc, hrc, rfl⟩ := List.mem_map.1 hv
          rw [← hsucc rc hrc]
          have := minimax_range ord f (successor s rc) SearchNode.new (d2 : Int) (!flag) 0
            (successor_countsOk s rc)
          exact this

/-! ## C13 -/

/-- C13. On a state whose counters are its grid tallies, for every depth
`d >= 0` and either polarity, `minimax` without pruning (run with a call budget
above the number of moves that can still be played) returns the reference game
value `V`: the disc difference at depth 0 or without a legal move, otherwise
the maximum, or for the minimizing polarity the minimum, over the legal
successors of `V` at depth `d - 1` with the other polarity. -/
theorem minimax_gameValue (ord : IterOrder) (fuel : Nat) (s : State) (node : SearchNode)
    (d : Nat) (flag : Bool) (n : Nat) (hs : CountsOk s) (hf : depthBound s < fuel) :
    (minimax ord fuel s node (d : Int) flag n).1 = gameValue d s flag := by
  rw [minimax_value]
  exact mmValue_gameValue ord fuel s d flag hs hf

/-- The opening position, searched two plies deep with the budget of
`getBestMove`. -/
theorem minimax_gameValue_witness :
    CountsOk State.new ∧ depthBound State.new < searchFuel ∧
    (minimax IterOrder.insertion searchFuel State.new SearchNode.new ((2 : Nat) : Int) false 0).1 =
      gameValue 2 State.new false :=
  ⟨countsOk_new, searchFuel_enough State.new,
    minimax_gameValue IterOrder.insertion searchFuel State.new SearchNode.new 2 false 0
      countsOk_new (searchFuel_enough State.new)⟩

/-! ## The table of the root children -/

theorem map_eq_of_zip {α β γ : Type} (f : β → γ) (g : α → γ) :
    ∀ (l : List α) (kids : List β), kids.length = l.length →
      (∀ p, p ∈ l.zip kids → f p.2 = g p.1) → kids.map f = l.map g := by
  intro l
  induction l with
  | nil =>
    intro kids hlen _
    rw [List.length_eq_zero.1 hlen]
    rfl
  | cons a l ih =>
    intro kids hlen h
    cases kids with
    | nil => simp at hlen
    | cons k kids =>
      simp only [List.map_cons]
      rw [h (a, k) (by simp), ih kids (by simpa using hlen)
        (fun p hp => h p (by simp only [List.zip_cons_cons]; exact List.mem_cons_of_mem _ hp))]

/-- The coordinates and heuristics of the root children, read off the cache:
one child per entry, in iteration order, with the entry's coordinates and the
value of the search below the entry's state. -/
theorem rootKids_table (ord : IterOrder) (bot : OthelloBot) (s : State)
    (hne : legalCells s ≠ []) :
    (builtRoot ord bot s).children.map (fun k => ((k.row, k.col), k.heuristic)) =
      (ord.enum s.updatePossibleStates.possibleStates).map
        (fun e => ((keyRow e.1, keyCol e.1),
          mmValue ord searchFuel e.2 (bot.m_depth - 1) (!(s.turn == 'w')))) := by
  obtain ⟨_, _, _, _, _, _, _, _, _, h3, _, _⟩ := getBestMove_spec ord bot s hne
  apply map_eq_of_zip _ _ _ _ h3
  intro p hp
  obtain ⟨rc, hv, hk, hrc, f1, f2, f3, _, _⟩ := rootKid_fields ord bot s hne p hp
  have hin := ((isValidMove_iff rc.1 rc.2 s).1 hv).1
  simp only [f1, f2, f3, hk, hrc, keyRow_key _ _ hin, keyCol_key _ _ hin]

theorem find_first {α : Type} (p : α → Bool) :
    ∀ (front : List α) (t : α) (back : List α), p t = true →
      (∀ x, x ∈ front → p x = false) → (front ++ t :: back).find? p = some t := by
  intro front
  induction front with
  | nil => intro t back ht _; simp [List.find?, ht]
  | cons x front ih =>
    intro t back ht h
    simp only [List.cons_append, List.find?, h x (List.mem_cons_self _ _)]
    exact ih t back ht (fun y hy => h y (List.mem_cons_of_mem _ hy))

/-- The root's heuristic and the returned move are determined by the table of
the root children. -/
theorem getBestMove_of_table (ord : IterOrder) (bot : OthelloBot) (s : State)
    (hne : legalCells s ≠ []) :
    (builtRoot ord bot s).heuristic =
      (((builtRoot ord bot s).children.map (fun k => ((k.row, k.col), k.heuristic))).map
        Prod.snd).foldl (pick (s.turn == 'w')) (worst (s.turn == 'w')) ∧
    (((builtRoot ord bot s).children.map (fun k => ((k.row, k.col), k.heuristic))).find?
      (fun t => t.2 == (builtRoot ord bot s).heuristic)).map Prod.fst =
        some (bot.getBestMove ord s).1 := by
  obtain ⟨_, _, _, _, _, _, _, _, h2, _, _, front, k, back, g1, g2, g3, g4⟩ :=
    getBestMove_spec ord bot s hne
  constructor
  · rw [h2, List.map_map, List.foldl_map]
    rfl
  · rw [g1, List.map_append, List.map_cons,
      find_first _ _ ((k.row, k.col), k.heuristic) _ (by simp [g3])
        (fun x hx => by
          obtain ⟨k2, hk2, rfl⟩ := List.mem_map.1 hx
          simpa using g4 k2 hk2)]
    simp only [Option.map_some', g2]

/-- What `getBestMove` returns and what it writes on the root and its children
does not depend on the pruning switch: two bots of the same depth agree. -/
theorem getBestMove_depth_only (ord : IterOrder) (botA botB : OthelloBot) (s : State)
    (hd : botA.m_depth = botB.m_depth) (hne : legalCells s ≠ []) :
    (botA.getBestMove ord s).1 = (botB.getBestMove ord s).1 ∧
    (builtRoot ord botA s).heuristic = (builtRoot ord botB s).heuristic ∧
    (builtRoot ord botA s).children.map (fun k => ((k.row, k.col), k.heuristic)) =
      (builtRoot ord botB s).children.map (fun k => ((k.row, k.col), k.heuristic)) := by
  have tA := rootKids_table ord botA s hne
  have tB := rootKids_table ord botB s hne
  rw [hd] at tA
  have ht := tA.trans tB.symm
  obtain ⟨a1, a2⟩ := getBestMove_of_table ord botA s hne
  obtain ⟨b1, b2⟩ := getBestMove_of_table ord botB s hne
  have hh : (builtRoot ord botA s).heuristic = (builtRoot ord botB s).heuristic := by
    rw [a1, b1, ht]
  rw [ht, hh, b2] at a2
  exact ⟨(Option.some.inj a2).symm, hh, ht⟩

/-! ## C14 -/

/-- C14. For every state with a legal move and every depth, `getBestMove` with
alpha-beta pruning and `getBestMove` without it (the same bot before and after
`toggleAlphaBeta`) return the same coordinate, leave the same heuristic on the
root of the search tree, and the same coordinates and heuristic on each root
child. -/
theorem pruning_same_result (ord : IterOrder) (bot : OthelloBot) (s : State)
    (h : ∃ r c : Int, isValidMove r c s = true) :
    (bot.toggleAlphaBeta.getBestMove ord s).1 = (bot.getBestMove ord s).1 ∧
    ∃ rootA rootB,
      (bot.toggleAlphaBeta.getBestMove ord s).2.1.m_searchTree.m_root = some rootA ∧
      (bot.getBestMove ord s).2.1.m_searchTree.m_root = some rootB ∧
      rootA.heuristic = rootB.heuristic ∧
      rootA.children.map (fun k => ((k.row, k.col), k.heuristic)) =
        rootB.children.map (fun k => ((k.row, k.col), k.heuristic)) := by
  obtain ⟨r, c, hv⟩ := h
  have hne : legalCells s ≠ [] := List.ne_nil_of_mem ((mem_legalCells s (r, c)).2 hv)
  obtain ⟨m, hh, ht⟩ := getBestMove_depth_only ord bot.toggleAlphaBeta bot s rfl hne
  refine ⟨m, builtRoot ord bot.toggleAlphaBeta s, builtRoot ord bot s, ?_, ?_, hh, ht⟩
  · rw [(getBestMove_bot ord _ s hne).1]
  · rw [(getBestMove_bot ord _ s hne).1]

/-- The default bot (pruning off) on the opening position, where black has the
legal move `(2, 3)`. -/
theorem pruning_same_result_witness :
    (∃ r c : Int, isValidMove r c State.new = true) ∧
    (OthelloBot.new.toggleAlphaBeta.getBestMove IterOrder.insertion State.new).1 =
      (OthelloBot.new.getBestMove IterOrder.insertion State.new).1 :=
  ⟨⟨2, 3, by decide⟩,
    (pruning_same_result IterOrder.insertion OthelloBot.new State.new ⟨2, 3, by decide⟩).1⟩

/-! ## C16 -/

theorem mmValue_leaf (ord : IterOrder) (t : State) (flag : Bool) :
    mmValue ord searchFuel t 0 flag = t.white - t.black := by
  have : searchFuel = 65 + 1 := rfl
  rw [this, mmValue_succ, if_pos rfl]

/-- C16. At configured depth 1, for every state with a legal move and either
pruning setting, the move returned by `getBestMove` is a legal move whose
successor state has the largest `white - black` among all legal successors
when white is to move, and the smallest when black is to move. -/
theorem getBestMove_greedy (ord : IterOrder) (bot : OthelloBot) (s : State)
    (hd : bot.m_depth = 1) (h : ∃ r c : Int, isValidMove r c s = true) :
    isValidMove (bot.getBestMove ord s).1.1 (bot.getBestMove ord s).1.2 s = true ∧
    (s.turn = 'w' → ∀ r c : Int, isValidMove r c s = true →
      (successor s (r, c)).white - (successor s (r, c)).black ≤
        (successor s (bot.getBestMove ord s).1).white -
          (successor s (bot.getBestMove ord s).1).black) ∧
    (s.turn = 'b' → ∀ r c : Int, isValidMove r c s = true →
      (successor s (bot.getBestMove ord s).1).white -
          (successor s (bot.getBestMove ord s).1).black ≤
        (successor s (r, c)).white - (successor s (r, c)).black) := by
  obtain ⟨r0, c0, hv0⟩ := h
  have hne : legalCells s ≠ [] := List.ne_nil_of_mem ((mem_legalCells s (r0, c0)).2 hv0)
  obtain ⟨_, _, _, _, _, _, _, _, h2, h3, _, front, k, back, g1, g2, g3, _⟩ :=
    getBestMove_spec ord bot s hne
  have hk : k ∈ (builtRoot ord bot s).children := by rw [g1]; simp
  obtain ⟨e, he⟩ := zip_mem_right (ord.enum s.updatePossibleStates.possibleStates) _ k
    (le_of_eq h3) hk
  obtain ⟨rc, hv, _, _, f1, f2, f3, _, _⟩ := rootKid_fields ord bot s hne _ he
  have hd0 : bot.m_depth - 1 = 0 := by rw [hd]; rfl
  have hm : (bot.getBestMove ord s).1 = rc := by
    rw [g2]
    simp only at f1 f2
    rw [f1, f2]
  rw [hd0, mmValue_leaf] at f3
  simp only at f3
  have hmono := (foldPick_mono (s.turn == 'w') (builtRoot ord bot s).children
    (worst (s.turn == 'w'))).2
  rw [← h2, ← g3, f3] at hmono
  have hkid : ∀ r c : Int, isValidMove r c s = true →
      ∃ k2, k2 ∈ (builtRoot ord bot s).children ∧
        k2.heuristic = (successor s (r, c)).white - (successor s (r, c)).black := by
    intro r c hrc
    obtain ⟨k2, m1, _, _, m4⟩ := rootKid_of_legal ord bot s (r, c) hrc
    rw [hd0, mmValue_leaf] at m4
    exact ⟨k2, m1, m4⟩
  rw [hm]
  refine ⟨hv, ?_, ?_⟩
  · intro ht r c hrc
    obtain ⟨k2, m1, m4⟩ := hkid r c hrc
    have := hmono k2 m1
    rw [ht, m4] at this
    exact this
  · intro ht r c hrc
    obtain ⟨k2, m1, m4⟩ := hkid r c hrc
    have := hmono k2 m1
    rw [ht, m4] at this
    exact this

/-- A depth-1 bot on the opening position, where black has the legal move
`(2, 3)`. -/
theorem getBestMove_greedy_witness :
    (1 : Int) = 1 ∧ (∃ r c : Int, isValidMove r c State.new = true) ∧
    isValidMove
      (OthelloBot.getBestMove IterOrder.insertion
        { m_depth := 1, m_alphaBetaOn := true,
          m_searchTree := { m_root := none, m_nodeCount := 0 }, m_statesExamined := 0 }
        State.new).1.1
      (OthelloBot.getBestMove IterOrder.insertion
        { m_depth := 1, m_alphaBetaOn := true,
          m_searchTree := { m_root := none, m_nodeCount := 0 }, m_statesExamined := 0 }
        State.new).1.2 State.new = true :=
  ⟨rfl, ⟨2, 3, by decide⟩,
    (getBestMove_greedy IterOrder.insertion
      { m_depth := 1, m_alphaBetaOn := true,
        m_searchTree := { m_root := none, m_nodeCount := 0 }, m_statesExamined := 0 }
      State.new rfl ⟨2, 3, by decide⟩).1⟩

/-! ## The number of states examined -/

theorem childLoop_count_ge (eval : State → SearchNode → Nat → SearchResult) (flag : Bool)
    (depth : Int) :
    ∀ (l : List (String × State)) (node : SearchNode) (best : Int) (n : Nat),
      (∀ e, e ∈ l → ∀ c k, k ≤ (eval e.2 c k).2.2) →
      n ≤ (childLoop eval flag depth l node best n).2.2 := by
  intro l
  induction l with
  | nil => intro node best n _; exact Nat.le_refl _
  | cons e l ih =>
    intro node best n h
    obtain ⟨key, nextState⟩ := e
    unfold childLoop
    simp only []
    exact Nat.le_trans (h (key, nextState) (List.mem_cons_self _ _) _ n)
      (ih _ _ _ (fun e2 h2 => h e2 (List.mem_cons_of_mem _ h2)))

/-- The counter only grows during a call of `minimax`. -/
theorem minimax_count_ge (ord : IterOrder) :
    ∀ (fuel : Nat) (s : State) (node : SearchNode) (d : Int) (flag : Bool) (n : Nat),
      n ≤ (minimax ord fuel s node d flag n).2.2 := by
  intro fuel
  induction fuel with
  | zero => intro s node d flag n; exact Nat.le_refl _
  | succ f ih =>
    intro s node d flag n
    unfold minimax
    simp only []
    split
    · exact Nat.le_succ _
    · split
      · exact Nat.le_succ _
      · simp only []
        exact Nat.le_trans (Nat.le_succ n)
          (childLoop_count_ge _ flag d _ _ _ _ (fun e _ c k => ih e.2 c (d - 1) (!flag) k))

/-- The pruning loop examines at most as many states as the full loop, when
each of its calls does. -/
theorem childLoopAB_count_le (evalAB : State → SearchNode → Int → Int → Nat → SearchResult)
    (evalMM : State → SearchNode → Nat → SearchResult) (flag : Bool) (depth depth2 : Int) :
    ∀ (l : List (String × State)) (node node2 : SearchNode) (best best2 alpha beta : Int)
      (n n2 : Nat),
      (∀ e, e ∈ l → ∀ c c2 a b k k2, k ≤ k2 →
        (evalAB e.2 c a b k).2.2 ≤ (evalMM e.2 c2 k2).2.2) →
      (∀ e, e ∈ l → ∀ c k, k ≤ (evalMM e.2 c k).2.2) →
      n ≤ n2 →
      (childLoopAB evalAB flag depth l node best alpha beta n).2.2 ≤
        (childLoop evalMM flag depth2 l node2 best2 n2).2.2 := by
  intro l
  induction l with
  | nil => intro node node2 best best2 alpha beta n n2 _ _ hn; exact hn
  | cons e l ih =>
    intro node node2 best best2 alpha beta n n2 h hm hn
    obtain ⟨key, nextState⟩ := e
    unfold childLoopAB childLoop
    simp only []
    have hstep := h (key, nextState) (List.mem_cons_self _ _)
      (makeChild key nextState depth (!flag) (node.moveSequence ++ " -> " ++ key))
      (makeChild key nextState depth2 (!flag) (node2.moveSequence ++ " -> " ++ key))
      alpha beta n n2 hn
    simp only at hstep
    generalize evalAB nextState (makeChild key nextState depth (!flag)
      (node.moveSequence ++ " -> " ++ key)) alpha beta n = r at hstep ⊢
    generalize evalMM nextState (makeChild key nextState depth2 (!flag)
      (node2.moveSequence ++ " -> " ++ key)) n2 = r2 at hstep ⊢
    by_cases hbrk : (if flag then beta else min beta r.1) ≤
        (if flag then max alpha r.1 else alpha)
    · rw [if_pos hbrk]
      exact Nat.le_trans hstep
        (childLoop_count_ge evalMM flag depth2 l _ _ _
          (fun e2 h2 => hm e2 (List.mem_cons_of_mem _ h2)))
    · rw [if_neg hbrk]
      exact ih _ _ _ _ _ _ _ _ (fun e2 h2 => h e2 (List.mem_cons_of_mem _ h2))
        (fun e2 h2 => hm e2 (List.mem_cons_of_mem _ h2)) hstep

/-- A call of `minimax` with pruning examines at most as many states as the
call without pruning on the same state, depth and polarity. -/
theorem minimaxAB_count_le (ord : IterOrder) :
    ∀ (fuel : Nat) (s : State) (node node2 : SearchNode) (d : Int) (flag : Bool)
      (alpha beta : Int) (n n2 : Nat), n ≤ n2 →
      (minimaxAB ord fuel s node d flag alpha beta n).2.2 ≤
        (minimax ord fuel s node2 d flag n2).2.2 := by
  intro fuel
  induction fuel with
  | zero => intro s node node2 d flag alpha beta n n2 hn; exact hn
  | succ f ih =>
    intro s node node2 d flag alpha beta n n2 hn
    unfold minimaxAB minimax
    simp only []
    by_cases hd : d = 0
    · rw [if_pos hd, if_pos hd]
      exact Nat.succ_le_succ hn
    · rw [if_neg hd, if_neg hd]
      by_cases he : s.updatePossibleStates.possibleStates.isEmpty = true
      · rw [if_pos he, if_pos he]
        exact Nat.succ_le_succ hn
      · rw [if_neg he, if_neg he]
        exact childLoopAB_count_le _ _ flag d d _ _ _ _ _ _ _ _ _
          (fun e _ c c2 a b k k2 hk => ih e.2 c c2 (d - 1) (!flag) a b k k2 hk)
          (fun e _ c k => minimax_count_ge ord f e.2 c (d - 1) (!flag) k)
          (Nat.succ_le_succ hn)

/-- The loop of `getBestMove` examines at most as many states with one
evaluation as with another that examines at least as many on every entry. -/
theorem rootLoop_count_le (evalA evalB : State → SearchNode → Nat → SearchResult)
    (flag : Bool) (m_depth m_depth2 : Int) :
    ∀ (l : List (String × State)) (root root2 : SearchNode) (bv bv2 : Int)
      (bm bm2 : Int × Int) (n n2 : Nat),
      (∀ e, e ∈ l → ∀ c c2 k k2, k ≤ k2 → (evalA e.2 c k).2.2 ≤ (evalB e.2 c2 k2).2.2) →
      n ≤ n2 →
      (rootLoop evalA flag m_depth l root bv bm n).2.2.2 ≤
        (rootLoop evalB flag m_depth2 l root2 bv2 bm2 n2).2.2.2 := by
  intro l
  induction l with
  | nil => intro root root2 bv bv2 bm bm2 n n2 _ hn; exact hn
  | cons e l ih =>
    intro root root2 bv bv2 bm bm2 n n2 h hn
    obtain ⟨key, nextState⟩ := e
    unfold rootLoop
    simp only []
    have hstep := h (key, nextState) (List.mem_cons_self _ _)
      (makeChild key nextState (m_depth - 1) (!flag) key)
      (makeChild key nextState (m_depth2 - 1) (!flag) key) n n2 hn
    simp only at hstep
    have hrest : ∀ e2, e2 ∈ l → ∀ c c2 k k2, k ≤ k2 →
        (evalA e2.2 c k).2.2 ≤ (evalB e2.2 c2 k2).2.2 :=
      fun e2 h2 => h e2 (List.mem_cons_of_mem _ h2)
    split <;> split <;> exact ih _ _ _ _ _ _ _ _ hrest hstep

/-! ## C15 -/

/-- C15. For every state with a legal move and every depth, the number of
states examined that `getBestMove` leaves in the bot (`getTreeSize`) and in the
search tree (`SearchTree::getSize`) with alpha-beta pruning switched on is at
most the number it leaves with pruning switched off (`bot` has pruning off,
`bot.toggleAlphaBeta` is the same bot with pruning on). -/
theorem pruning_count_le (ord : IterOrder) (bot : OthelloBot) (s : State)
    (hoff : bot.m_alphaBetaOn = false) (h : ∃ r c : Int, isValidMove r c s = true) :
    (bot.toggleAlphaBeta.getBestMove ord s).2.1.m_statesExamined ≤
      (bot.getBestMove ord s).2.1.m_statesExamined ∧
    (bot.toggleAlphaBeta.getBestMove ord s).2.1.m_searchTree.m_nodeCount ≤
      (bot.getBestMove ord s).2.1.m_searchTree.m_nodeCount := by
  obtain ⟨r, c, hv⟩ := h
  have hne : legalCells s ≠ [] := List.ne_nil_of_mem ((mem_legalCells s (r, c)).2 hv)
  have hon : bot.toggleAlphaBeta.m_alphaBetaOn = true := by
    unfold OthelloBot.toggleAlphaBeta
    simp only [hoff, Bool.not_false]
  have hle : (rootRun ord bot.toggleAlphaBeta s).2.2.2 ≤ (rootRun ord bot s).2.2.2 := by
    unfold rootRun
    apply rootLoop_count_le
    · intro e _ c c2 k k2 hk
      unfold rootEval
      rw [if_pos hon, hoff]
      simp only [Bool.false_eq_true, if_false]
      exact minimaxAB_count_le ord _ _ _ _ _ _ _ _ _ _ hk
    · exact Nat.le_refl _
  rw [(getBestMove_bot ord _ s hne).1, (getBestMove_bot ord _ s hne).1]
  exact ⟨hle, hle⟩

/-- The default bot (pruning off) on the opening position, where black has the
legal move `(2, 3)`. -/
theorem pruning_count_le_witness :
    OthelloBot.new.m_alphaBetaOn = false ∧
    (∃ r c : Int, isValidMove r c State.new = true) ∧
    (OthelloBot.new.toggleAlphaBeta.getBestMove IterOrder.insertion State.new).2.1.m_statesExamined ≤
      (OthelloBot.new.getBestMove IterOrder.insertion State.new).2.1.m_statesExamined :=
  ⟨rfl, ⟨2, 3, by decide⟩,
    (pruning_count_le IterOrder.insertion OthelloBot.new State.new rfl ⟨2, 3, by decide⟩).1⟩

/-! ## The shape of the search tree -/

theorem finish_eq (r : SearchResult) (h : r.2.1.heuristic = r.1) : finish r = r.2.1 := by
  obtain ⟨v, nd, n⟩ := r
  cases nd
  simp only at h
  simp only [finish, h]

theorem childOf_of_header (flag : Bool) (key : String) (st : State) (depth : Int)
    (ms : String) (c : SearchNode) (h : SameHeader c (makeChild key st depth (!flag) ms)) :
    ChildOf flag (key, st) c := by
  obtain ⟨h1, h2, _, h4, h5, h6, h7, _⟩ := h
  exact ⟨h1, h2, h5, h6, h7, h4⟩

theorem explored_of_kids (ord : IterOrder) (pruning : Bool) (s : State) (flag : Bool)
    (k : SearchNode) (pre : List (String × State)) (kids : List SearchNode)
    (hpre : pre <+: ord.enum s.updatePossibleStates.possibleStates) (hne : pre ≠ [])
    (hfull : pruning = false → pre = ord.enum s.updatePossibleStates.possibleStates)
    (hk : k.children = kids) (hlen : kids.length = pre.length)
    (hkid : ∀ p, p ∈ pre.zip kids → ChildOf flag p.1 p.2 ∧ Explored ord pruning p.1.2 (!flag) p.2)
    (hh : k.heuristic = kids.foldl (fun b c => pick flag b c.heuristic) (worst flag)) :
    Explored ord pruning s flag k := by
  subst hk
  exact Explored.inner s flag k pre hpre hne hfull hlen (fun p hp => (hkid p hp).1)
    (fun p hp => (hkid p hp).2) hh

/-- The subtree that `minimax` without pruning leaves in a fresh node. -/
theorem minimax_explored (ord : IterOrder) :
    ∀ (fuel : Nat) (s : State) (node : SearchNode) (d : Int) (flag : Bool) (n : Nat),
      node.children = [] → Explored ord false s flag (minimax ord fuel s node d flag n).2.1 := by
  intro fuel
  induction fuel with
  | zero =>
    intro s node d flag n hch
    exact Explored.leaf _ _ _ hch rfl
  | succ f ih =>
    intro s node d flag n hch
    obtain ⟨e1, e2, _, _⟩ := updatePossibleStates_white s
    unfold minimax
    simp only []
    by_cases hd : d = 0
    · rw [if_pos hd]
      exact Explored.leaf _ _ _ hch rfl
    · rw [if_neg hd]
      by_cases he : s.updatePossibleStates.possibleStates.isEmpty = true
      · rw [if_pos he]
        exact Explored.leaf _ _ _ hch (by show _ = s.white - s.black; rw [← e1, ← e2])
      · rw [if_neg he]
        obtain ⟨kids, h1, h2, h3, h4⟩ := childLoop_spec
          (fun s c k => minimax ord f s c (d - 1) (!flag) k) flag d
          (ord.enum s.updatePossibleStates.possibleStates) node
          (if flag then INT_MIN else INT_MAX) (n + 1)
        generalize childLoop (fun s c k => minimax ord f s c (d - 1) (!flag) k) flag d
          (ord.enum s.updatePossibleStates.possibleStates) node
          (if flag then INT_MIN else INT_MAX) (n + 1) = r at h1 h2 ⊢
        have hne : ord.enum s.updatePossibleStates.possibleStates ≠ [] := by
          intro hnil
          have := enum_eq_nil ord _ hnil
          exact he (by rw [this]; rfl)
        apply explored_of_kids ord false s flag _ _ kids (List.prefix_refl _) hne (fun _ => rfl)
          (by show r.2.1.children = kids; rw [h1]; show node.children ++ kids = kids;
              rw [hch]; rfl) h3 ?_ (by show r.1 = _; rw [h2]; rfl)
        intro p hp
        obtain ⟨n2, hn2⟩ := h4 p hp
        have hhd := minimax_header ord f p.1.2
          (makeChild p.1.1 p.1.2 d (!flag) (node.moveSequence ++ " -> " ++ p.1.1))
          (d - 1) (!flag) n2
        have hex := ih p.1.2
          (makeChild p.1.1 p.1.2 d (!flag) (node.moveSequence ++ " -> " ++ p.1.1))
          (d - 1) (!flag) n2 rfl
        rw [finish_eq _ hhd.2] at hn2
        rw [hn2]
        exact ⟨childOf_of_header flag p.1.1 p.1.2 d _ _ hhd.1, hex⟩

/-- The subtree that `minimax` with pruning leaves in a fresh node. -/
theorem minimaxAB_explored (ord : IterOrder) :
    ∀ (fuel : Nat) (s : State) (node : SearchNode) (d : Int) (flag : Bool) (alpha beta : Int)
      (n : Nat),
      node.children = [] →
      Explored ord true s flag (minimaxAB ord fuel s node d flag alpha beta n).2.1 := by
  intro fuel
  induction fuel with
  | zero =>
    intro s node d flag alpha beta n hch
    exact Explored.leaf _ _ _ hch rfl
  | succ f ih =>
    intro s node d flag alpha beta n hch
    obtain ⟨e1, e2, _, _⟩ := updatePossibleStates_white s
    unfold minimaxAB
    simp only []
    by_cases hd : d = 0
    · rw [if_pos hd]
      exact Explored.leaf _ _ _ hch rfl
    · rw [if_neg hd]
      by_cases he : s.updatePossibleStates.possibleStates.isEmpty = true
      · rw [if_pos he]
        exact Explored.leaf _ _ _ hch (by show _ = s.white - s.black; rw [← e1, ← e2])
      · rw [if_neg he]
        obtain ⟨pre, kids, p1, p2, h1, h2, h3, h4⟩ := childLoopAB_spec
          (fun s c a b k => minimaxAB ord f s c (d - 1) (!flag) a b k) flag d
          (ord.enum s.updatePossibleStates.possibleStates) node
          (if flag then INT_MIN else INT_MAX) alpha beta (n + 1)
        generalize childLoopAB (fun s c a b k => minimaxAB ord f s c (d - 1) (!flag) a b k)
          flag d (ord.enum s.updatePossibleStates.possibleStates) node
          (if flag then INT_MIN else INT_MAX) alpha beta (n + 1) = r at h1 h2 ⊢
        have hne : ord.enum s.updatePossibleStates.possibleStates ≠ [] := by
          intro hnil
          have := enum_eq_nil ord _ hnil
          exact he (by rw [this]; rfl)
        apply explored_of_kids ord true s flag _ pre kids p1 (p2 hne)
          (fun h => Bool.noConfusion h)
          (by show r.2.1.children = kids; rw [h1]; show node.children ++ kids = kids;
              rw [hch]; rfl) h3 ?_ (by show r.1 = _; rw [h2]; rfl)
        intro p hp
        obtain ⟨a, b, n2, hn2⟩ := h4 p hp
        have hhd := minimaxAB_header ord f p.1.2
          (makeChild p.1.1 p.1.2 d (!flag) (node.moveSequence ++ " -> " ++ p.1.1))
          (d - 1) (!flag) a b n2
        have hex := ih p.1.2
          (makeChild p.1.1 p.1.2 d (!flag) (node.moveSequence ++ " -> " ++ p.1.1))
          (d - 1) (!flag) a b n2 rfl
        rw [finish_eq _ hhd.2] at hn2
        rw [hn2]
        exact ⟨childOf_of_header flag p.1.1 p.1.2 d _ _ hhd.1, hex⟩

/-- The subtree under each root child. -/
theorem rootEval_explored (ord : IterOrder) (bot : OthelloBot) (flag : Bool) (t : State)
    (c : SearchNode) (k : Nat) (hc : c.children = []) :
    Explored ord bot.m_alphaBetaOn t (!flag) (rootEval ord bot flag t c k).2.1 ∧
    SameHeader (rootEval ord bot flag t c k).2.1 c ∧
    (rootEval ord bot flag t c k).2.1.heuristic = (rootEval ord bot flag t c k).1 := by
  unfold rootEval
  cases hb : bot.m_alphaBetaOn
  · simp only [Bool.false_eq_true, if_false]
    exact ⟨minimax_explored ord _ _ _ _ _ _ hc, minimax_header ord _ _ _ _ _ _⟩
  · simp only [if_true]
    exact ⟨minimaxAB_explored ord _ _ _ _ _ _ _ _ hc, minimaxAB_header ord _ _ _ _ _ _ _ _⟩

/-- The tree that `getBestMove` builds for a state with a legal move: the
root has one child per entry of the cache, with or without pruning. -/
theorem root_explored (ord : IterOrder) (bot : OthelloBot) (s : State)
    (hne : legalCells s ≠ []) :
    Explored ord bot.m_alphaBetaOn s (s.turn == 'w') (builtRoot ord bot s) ∧
    NodeFor (builtRoot ord bot s) s (s.turn == 'w') := by
  obtain ⟨_, _, _, g4, g5, g6, g7, _, h2, h3, h4, _⟩ := getBestMove_spec ord bot s hne
  refine ⟨?_, g5, g6, g7, g4⟩
  apply explored_of_kids ord _ s _ _ _ (builtRoot ord bot s).children (List.prefix_refl _)
    (enum_ne_nil ord s hne) (fun _ => rfl) rfl h3 ?_ h2
  intro p hp
  obtain ⟨n2, hn2⟩ := h4 p hp
  obtain ⟨x1, x2, x3⟩ := rootEval_explored ord bot (s.turn == 'w') p.1.2
    (makeChild p.1.1 p.1.2 (bot.m_depth - 1) (!(s.turn == 'w')) p.1.1) n2 rfl
  rw [finish_eq _ x3] at hn2
  rw [hn2]
  exact ⟨childOf_of_header _ p.1.1 p.1.2 _ _ _ x2, x1⟩

/-- A child of an explored node belongs to a legal cell of the node's state:
it carries the cell's coordinates and the successor's turn and counters, has
the opposite polarity, and is explored in turn. -/
theorem explored_child (ord : IterOrder) (pruning : Bool) (t : State) (fl : Bool)
    (n c : SearchNode) (h : Explored ord pruning t fl n) (hc : c ∈ n.children) :
    ∃ rc : Int × Int, isValidMove rc.1 rc.2 t = true ∧ c.row = rc.1 ∧ c.col = rc.2 ∧
      NodeFor c (successor t rc) (!fl) ∧ Explored ord pruning (successor t rc) (!fl) c := by
  cases h with
  | leaf _ _ _ h1 _ => rw [h1] at hc; exact absurd hc (List.not_mem_nil _)
  | inner _ _ _ pre h1 h2 h3 h4 h5 h6 h7 =>
    obtain ⟨e, he⟩ := zip_mem_right pre n.children c (le_of_eq h4) hc
    obtain ⟨c1, c2, c3, c4, c5, c6⟩ := h5 _ he
    have hex := h6 _ he
    obtain ⟨rc, hv, hk, hrc⟩ := mem_enum_fields ord t e (h1.subset (List.of_mem_zip he).1)
    have hin := ((isValidMove_iff rc.1 rc.2 t).1 hv).1
    simp only at c1 c2 c3 c4 c5 c6 hex
    rw [hrc] at c3 c4 c5 hex
    rw [hk] at c1 c2
    rw [keyRow_key _ _ hin] at c1
    rw [keyCol_key _ _ hin] at c2
    exact ⟨rc, hv, c1, c2, ⟨c3, c4, c5, c6⟩, hex⟩

/-- The heuristic of an explored node of a state whose counters are its
tallies lies between -64 and 64. -/
theorem explored_range (ord : IterOrder) (pruning : Bool) (t : State) (fl : Bool)
    (n : SearchNode) (h : Explored ord pruning t fl n) :
    CountsOk t → -64 ≤ n.heuristic ∧ n.heuristic ≤ 64 := by
  induction h with
  | leaf s flag k _ h2 => intro hs; rw [h2]; exact counts_range s hs
  | inner s flag k pre h1 h2 _ h4 _ _ h7 ih =>
    intro _
    have hk : ∀ c, c ∈ k.children → -64 ≤ c.heuristic ∧ c.heuristic ≤ 64 := by
      intro c hc
      obtain ⟨e, he⟩ := zip_mem_right pre k.children c (le_of_eq h4) hc
      obtain ⟨rc, _, _, hrc⟩ := mem_enum_fields ord s e (h1.subset (List.of_mem_zip he).1)
      exact ih _ he (by simp only [hrc]; exact successor_countsOk s rc)
    have hne : k.children ≠ [] := by
      intro hnil
      rw [hnil] at h4
      exact h2 (List.length_eq_zero.1 h4.symm)
    obtain ⟨c, hc1, hc2⟩ := foldPick_worst flag k.children hne hk
    rw [h7, ← hc2]
    exact hk c hc1

/-- Every node of an explored tree is explored, for its own state and
polarity; an invariant `G` of the root's state and polarity that legal moves
preserve holds at every node. -/
theorem explored_stateOf (ord : IterOrder) (pruning : Bool) (s : State) (flag : Bool)
    (root : SearchNode) (G : State → Bool → Prop)
    (hG : ∀ t fl (rc : Int × Int), G t fl → isValidMove rc.1 rc.2 t = true →
      G (successor t rc) (!fl))
    (h : Explored ord pruning s flag root) (hn : NodeFor root s flag) (h0 : G s flag) :
    ∀ n t, StateOf root s n t →
      ∃ fl, Explored ord pruning t fl n ∧ NodeFor n t fl ∧ G t fl := by
  intro n t hst
  induction hst with
  | root => exact ⟨flag, h, hn, h0⟩
  | child n c t _ hc ih =>
    obtain ⟨fl, i1, _, i3⟩ := ih
    obtain ⟨rc, hv, c1, c2, c3, c4⟩ := explored_child ord pruning t fl n c i1 hc
    have e : (c.row, c.col) = rc := by rw [c1, c2]
    rw [e]
    exact ⟨!fl, c4, c3, hG t fl rc i3 hv⟩

theorem inTree_stateOf (root : SearchNode) (s : State) (n : SearchNode) (h : InTree root n) :
    ∃ t, StateOf root s n t := by
  induction h with
  | root => exact ⟨s, StateOf.root⟩
  | child n c _ hc ih =>
    obtain ⟨t, ht⟩ := ih
    exact ⟨_, StateOf.child n c t ht hc⟩

/-! ## C19 -/

/-- C19. For every input state whose turn is `'b'` or `'w'` (and that has a
legal move, so that a tree is built), every node of the tree built by
`getBestMove`, with or without pruning, has turn `'b'` or `'w'`, has
`maximizing` true exactly when its turn is `'w'`, and every child's turn is
the opposite of its parent's turn. -/
theorem tree_polarity (ord : IterOrder) (bot : OthelloBot) (s : State)
    (hturn : s.turn = 'b' ∨ s.turn = 'w') (h : ∃ r c : Int, isValidMove r c s = true) :
    ∃ root, (bot.getBestMove ord s).2.1.m_searchTree.m_root = some root ∧
      ∀ n, InTree root n →
        (n.turn = 'b' ∨ n.turn = 'w') ∧ (n.maximizing = true ↔ n.turn = 'w') ∧
        ∀ c, c ∈ n.children → (n.turn = 'w' → c.turn = 'b') ∧ (n.turn = 'b' → c.turn = 'w') := by
  obtain ⟨r0, c0, hv0⟩ := h
  have hne : legalCells s ≠ [] := List.ne_nil_of_mem ((mem_legalCells s (r0, c0)).2 hv0)
  obtain ⟨hex, hnf⟩ := root_explored ord bot s hne
  refine ⟨builtRoot ord bot s, by rw [(getBestMove_bot ord bot s hne).1], ?_⟩
  intro n hn
  obtain ⟨t, ht⟩ := inTree_stateOf (builtRoot ord bot s) s n hn
  have hG : ∀ t fl (rc : Int × Int),
      ((t.turn = 'b' ∨ t.turn = 'w') ∧ fl = (t.turn == 'w')) →
      isValidMove rc.1 rc.2 t = true →
      (((successor t rc).turn = 'b' ∨ (successor t rc).turn = 'w') ∧
        (!fl) = ((successor t rc).turn == 'w')) := by
    intro t fl rc hg _
    obtain ⟨_, f2, _⟩ := successor_fields t rc
    rw [f2, hg.2]
    unfold opponentOf
    rcases hg.1 with e | e <;> rw [e] <;> decide
  obtain ⟨fl, x1, x2, x3, x4⟩ := explored_stateOf ord _ s _ _
    (fun t fl => (t.turn = 'b' ∨ t.turn = 'w') ∧ fl = (t.turn == 'w')) hG hex hnf
    ⟨hturn, rfl⟩ n t ht
  obtain ⟨y1, _, _, y4⟩ := x2
  refine ⟨by rw [y1]; exact x3, ?_, ?_⟩
  · rw [y4, x4, y1]
    simp
  · intro c hc
    obtain ⟨rc, _, _, _, z, _⟩ := explored_child ord _ t fl n c x1 hc
    obtain ⟨_, f2, _⟩ := successor_fields t rc
    rw [y1, z.1, f2]
    unfold opponentOf
    constructor
    · intro e; rw [e]; decide
    · intro e; rw [e]; decide

/-- The default bot on the opening position: black is to move and has the
legal move `(2, 3)`; the root is a minimizing node. -/
theorem tree_polarity_witness :
    (State.new.turn = 'b' ∨ State.new.turn = 'w') ∧
    (∃ r c : Int, isValidMove r c State.new = true) ∧
    ∃ root, (OthelloBot.new.getBestMove IterOrder.insertion State.new).2.1.m_searchTree.m_root =
        some root ∧ (root.maximizing = true ↔ root.turn = 'w') := by
  obtain ⟨root, h1, h2⟩ := tree_polarity IterOrder.insertion OthelloBot.new State.new
    (Or.inl rfl) ⟨2, 3, by decide⟩
  exact ⟨Or.inl rfl, ⟨2, 3, by decide⟩, root, h1, (h2 root InTree.root).2.1⟩

/-! ## C20 -/

/-- C20. After `getBestMove` on a state with a legal move (either pruning
setting, any depth), every node of the tree satisfies: if it has no children
its heuristic is its `whiteScore - blackScore`; if it has children its
heuristic is the maximum of its children's heuristics when it is a maximizing
node and the minimum when it is a minimizing node. -/
theorem tree_heuristics (ord : IterOrder) (bot : OthelloBot) (s : State)
    (h : ∃ r c : Int, isValidMove r c s = true) :
    ∃ root, (bot.getBestMove ord s).2.1.m_searchTree.m_root = some root ∧
      ∀ n, InTree root n →
        (n.children = [] → n.heuristic = n.whiteScore - n.blackScore) ∧
        (n.children ≠ [] →
          n.heuristic =
            if n.maximizing then maxOf (n.children.map (fun c => c.heuristic))
            else minOf (n.children.map (fun c => c.heuristic))) := by
  obtain ⟨r0, c0, hv0⟩ := h
  have hne : legalCells s ≠ [] := List.ne_nil_of_mem ((mem_legalCells s (r0, c0)).2 hv0)
  obtain ⟨hex, hnf⟩ := root_explored ord bot s hne
  refine ⟨builtRoot ord bot s, by rw [(getBestMove_bot ord bot s hne).1], ?_⟩
  intro n hn
  obtain ⟨t, ht⟩ := inTree_stateOf (builtRoot ord bot s) s n hn
  obtain ⟨fl, x1, x2, _⟩ := explored_stateOf ord _ s _ _ (fun _ _ => True)
    (fun _ _ _ _ _ => trivial) hex hnf trivial n t ht
  obtain ⟨_, y2, y3, y4⟩ := x2
  have hkids : ∀ v, v ∈ n.children.map (fun c => c.heuristic) → -64 ≤ v ∧ v ≤ 64 := by
    intro v hv
    obtain ⟨c, hc, rfl⟩ := List.mem_map.1 hv
    obtain ⟨rc, _, _, _, _, z⟩ := explored_child ord _ t fl n c x1 hc
    exact explored_range ord _ _ _ c z (successor_countsOk t rc)
  cases x1 with
  | leaf _ _ _ h1 h2 =>
    exact ⟨fun _ => by rw [h2, y2, y3], fun hc => absurd h1 hc⟩
  | inner _ _ _ pre _ h2 _ h4 _ _ h7 =>
    constructor
    · intro hc
      rw [hc] at h4
      exact absurd (List.length_eq_zero.1 h4.symm) h2
    · intro hc
      have hfold : n.children.foldl (fun b c => pick fl b c.heuristic) (worst fl) =
          (n.children.map (fun c => c.heuristic)).foldl (pick fl) (worst fl) := by
        rw [List.foldl_map]
      rw [h7, hfold, foldPick_extreme fl _ (by simpa using hc) hkids, y4]

/-- The default bot on the opening position, where black has the legal move
`(2, 3)`: the root has children, so it is not valued as a leaf. -/
theorem tree_heuristics_witness :
    (∃ r c : Int, isValidMove r c State.new = true) ∧
    ∃ root, (OthelloBot.new.getBestMove IterOrder.insertion State.new).2.1.m_searchTree.m_root =
        some root ∧
      (root.children = [] → root.heuristic = root.whiteScore - root.blackScore) := by
  obtain ⟨root, h1, h2⟩ := tree_heuristics IterOrder.insertion OthelloBot.new State.new
    ⟨2, 3, by decide⟩
  exact ⟨⟨2, 3, by decide⟩, root, h1, (h2 root InTree.root).1⟩

/-! ## The order of the children -/

theorem insertion_enum (m : List (String × State)) : IterOrder.insertion.enum m = m := rfl

set_option maxRecDepth 100000 in
theorem cells_rowMajor : RowMajor cells := by decide

theorem legalCells_rowMajor (s : State) : RowMajor (legalCells s) :=
  List.Pairwise.sublist (List.filter_sublist _) cells_rowMajor

/-- Reading the keys of the cache back gives the legal cells, in the order of
the scan. -/
theorem cache_coords (s : State) :
    s.updatePossibleStates.possibleStates.map (fun e => (keyRow e.1, keyCol e.1)) =
      legalCells s := by
  rw [updatePossibleStates_list, List.map_map]
  have : ∀ rc, rc ∈ legalCells s →
      ((fun e : String × State => (keyRow e.1, keyCol e.1)) ∘
        (fun rc : Int × Int => (key rc.1 rc.2, successor s rc))) rc = id rc := by
    intro rc hrc
    have hin := ((isValidMove_iff rc.1 rc.2 s).1 ((mem_legalCells s rc).1 hrc)).1
    simp only [Function.comp, keyRow_key _ _ hin, keyCol_key _ _ hin, id]
  rw [List.map_congr_left this, List.map_id]

theorem find_map_decomp {α β : Type} (g : α → β) (p : β → Bool) :
    ∀ (l : List α) (b : β), (l.map g).find? p = some b →
      ∃ front e back, l = front ++ e :: back ∧ g e = b ∧ p (g e) = true ∧
        ∀ x, x ∈ front → p (g x) = false := by
  intro l
  induction l with
  | nil => intro b h; simp at h
  | cons a l ih =>
    intro b h
    by_cases hp : p (g a) = true
    · simp only [List.map_cons, List.find?, hp] at h
      exact ⟨[], a, l, rfl, Option.some.inj h, hp, fun x hx => absurd hx (List.not_mem_nil _)⟩
    · have hpf : p (g a) = false := by simpa using hp
      simp only [List.map_cons, List.find?, hpf] at h
      obtain ⟨front, e, back, h1, h2, h3, h4⟩ := ih b h
      refine ⟨a :: front, e, back, by rw [h1]; rfl, h2, h3, ?_⟩
      intro x hx
      rcases List.mem_cons.1 hx with e1 | e1
      · rw [e1]; exact hpf
      · exact h4 x e1

/-- The children of an explored node of a search without pruning: none, or
one per entry of the cache of the node's state, in iteration order, each with
the coordinates of its entry. -/
theorem explored_children (ord : IterOrder) (t : State) (fl : Bool) (n : SearchNode)
    (h : Explored ord false t fl n) :
    n.children = [] ∨
    n.children.map (fun k => (k.row, k.col)) =
      (ord.enum t.updatePossibleStates.possibleStates).map (fun e => (keyRow e.1, keyCol e.1)) := by
  cases h with
  | leaf _ _ _ h1 _ => exact Or.inl h1
  | inner _ _ _ pre _ _ h3 h4 h5 _ _ =>
    right
    rw [← h3 rfl]
    apply map_eq_of_zip _ _ _ _ h4
    intro p hp
    obtain ⟨c1, c2, _⟩ := h5 p hp
    rw [c1, c2]

/-! ## C17 -/

set_option maxRecDepth 1000000 in
set_option maxHeartbeats 4000000 in
/-- C17, counterexample. A bot of depth 1 on the opening position, when the
cache is iterated most-recent-first: the four legal moves `(2, 3)`, `(3, 2)`,
`(4, 5)`, `(5, 4)` all have the backed-up value -3, which is the root's, and
`getBestMove` returns `(5, 4)`, not the row-major first `(2, 3)`. -/
theorem tie_break_counterexample :
    ((OthelloBot.ofDepth 1).getBestMove IterOrder.reversed State.new).1 = (5, 4) ∧
    ((OthelloBot.ofDepth 1).getBestMove IterOrder.reversed State.new).2.1.m_searchTree.m_root.map
        (fun root => (root.heuristic,
          root.children.map (fun k => ((k.row, k.col), k.heuristic)))) =
      some (-3, [((5, 4), -3), ((4, 5), -3), ((3, 2), -3), ((2, 3), -3)]) ∧
    rowMajorLt (2, 3) (5, 4) := by
  decide

/-- C17, amended. For every state with a legal move, among the legal moves
that attain the best backed-up value (the root's heuristic) `getBestMove`
returns the one whose entry comes first in the order in which its loop visits
the cache `possibleStates`; when the cache is visited in the order of
insertion, this is the first of them in row-major order. -/
theorem tie_break_first (ord : IterOrder) (bot : OthelloBot) (s : State)
    (h : ∃ r c : Int, isValidMove r c s = true) :
    ∃ root, (bot.getBestMove ord s).2.1.m_searchTree.m_root = some root ∧
      (∃ front e back,
        ord.enum s.updatePossibleStates.possibleStates = front ++ e :: back ∧
        (bot.getBestMove ord s).1 = (keyRow e.1, keyCol e.1) ∧
        mmValue ord searchFuel e.2 (bot.m_depth - 1) (!(s.turn == 'w')) = root.heuristic ∧
        ∀ e2, e2 ∈ front →
          mmValue ord searchFuel e2.2 (bot.m_depth - 1) (!(s.turn == 'w')) ≠ root.heuristic) ∧
      (ord.enum s.updatePossibleStates.possibleStates = s.updatePossibleStates.possibleStates →
        mmValue ord searchFuel (successor s (bot.getBestMove ord s).1) (bot.m_depth - 1)
          (!(s.turn == 'w')) = root.heuristic ∧
        ∀ rc : Int × Int, isValidMove rc.1 rc.2 s = true →
          mmValue ord searchFuel (successor s rc) (bot.m_depth - 1) (!(s.turn == 'w')) =
            root.heuristic →
          ¬ rowMajorLt rc (bot.getBestMove ord s).1) := by
  obtain ⟨r0, c0, hv0⟩ := h
  have hne : legalCells s ≠ [] := List.ne_nil_of_mem ((mem_legalCells s (r0, c0)).2 hv0)
  obtain ⟨_, t2⟩ := getBestMove_of_table ord bot s hne
  rw [rootKids_table ord bot s hne] at t2
  obtain ⟨b, hb1, hb2⟩ := Option.map_eq_some'.1 t2
  refine ⟨builtRoot ord bot s, by rw [(getBestMove_bot ord bot s hne).1], ?_, ?_⟩
  · obtain ⟨front, e, back, d1, d2, d3, d4⟩ := find_map_decomp _ _ _ _ hb1
    refine ⟨front, e, back, d1, ?_, ?_, ?_⟩
    · rw [← hb2, ← d2]
    · simpa using d3
    · intro e2 he2
      simpa using d4 e2 he2
  · intro hins
    rw [hins, updatePossibleStates_list, List.map_map] at hb1
    obtain ⟨front, rc, back, d1, d2, d3, d4⟩ := find_map_decomp _ _ _ _ hb1
    have hmem : rc ∈ legalCells s := by rw [d1]; simp
    have hin := ((isValidMove_iff rc.1 rc.2 s).1 ((mem_legalCells s rc).1 hmem)).1
    have hm : (bot.getBestMove ord s).1 = rc := by
      rw [← hb2, ← d2]
      simp only [Function.comp, keyRow_key _ _ hin, keyCol_key _ _ hin]
    rw [hm]
    simp only [Function.comp] at d3 d4
    refine ⟨eq_of_beq d3, ?_⟩
    intro rc2 hv2 hval hlt
    have hmem2 : rc2 ∈ legalCells s := (mem_legalCells s rc2).2 hv2
    have hsorted := legalCells_rowMajor s
    rw [d1] at hmem2 hsorted
    unfold RowMajor at hsorted
    rw [List.pairwise_append] at hsorted
    obtain ⟨_, hs2, _⟩ := hsorted
    rcases List.mem_append.1 hmem2 with m1 | m1
    · exact ne_of_beq_false (d4 rc2 m1) hval
    · rcases List.mem_cons.1 m1 with m2 | m2
      · rw [m2] at hlt
        unfold rowMajorLt at hlt
        omega
      · have := (List.pairwise_cons.1 hs2).1 rc2 m2
        unfold rowMajorLt at hlt this
        omega

/-- The default bot on the opening position, where black has the legal move
`(2, 3)`. -/
theorem tie_break_first_witness :
    (∃ r c : Int, isValidMove r c State.new = true) ∧
    ∃ root, (OthelloBot.new.getBestMove IterOrder.insertion State.new).2.1.m_searchTree.m_root =
        some root ∧
      ∀ rc : Int × Int, isValidMove rc.1 rc.2 State.new = true →
        mmValue IterOrder.insertion searchFuel (successor State.new rc)
            (OthelloBot.new.m_depth - 1) (!(State.new.turn == 'w')) = root.heuristic →
        ¬ rowMajorLt rc (OthelloBot.new.getBestMove IterOrder.insertion State.new).1 := by
  obtain ⟨root, h1, _, h3⟩ := tie_break_first IterOrder.insertion OthelloBot.new State.new
    ⟨2, 3, by decide⟩
  exact ⟨⟨2, 3, by decide⟩, root, h1, (h3 (insertion_enum _)).2⟩

/-! ## C18 -/

set_option maxRecDepth 1000000 in
set_option maxHeartbeats 4000000 in
/-- C18, counterexample. A bot of depth 1 without pruning on the opening
position, when the cache is iterated most-recent-first: the children of the
root are `(5, 4)`, `(4, 5)`, `(3, 2)`, `(2, 3)` in this order, which is not
row-major. -/
theorem children_order_counterexample :
    (OthelloBot.ofDepth 1).m_alphaBetaOn = false ∧
    ((OthelloBot.ofDepth 1).getBestMove IterOrder.reversed State.new).2.1.m_searchTree.m_root.map
        (fun root => root.children.map (fun k => (k.row, k.col))) =
      some [(5, 4), (4, 5), (3, 2), (2, 3)] ∧
    ¬ RowMajor [(5, 4), (4, 5), (3, 2), (2, 3)] := by
  decide

/-- C18, amended. In the search tree built by `getBestMove` without pruning,
every node either has no children or has one child per entry of the cache
`possibleStates` of the node's state, in the order in which the loop visits
the cache, each with the coordinates of its entry; at a node whose cache is
visited in the order of insertion the children are in row-major order of
their coordinates. -/
theorem children_order (ord : IterOrder) (bot : OthelloBot) (s : State)
    (hoff : bot.m_alphaBetaOn = false) (h : ∃ r c : Int, isValidMove r c s = true) :
    ∃ root, (bot.getBestMove ord s).2.1.m_searchTree.m_root = some root ∧
      ∀ n t, StateOf root s n t →
        (n.children = [] ∨
          n.children.map (fun k => (k.row, k.col)) =
            (ord.enum t.updatePossibleStates.possibleStates).map
              (fun e => (keyRow e.1, keyCol e.1))) ∧
        (ord.enum t.updatePossibleStates.possibleStates =
            t.updatePossibleStates.possibleStates →
          RowMajor (n.children.map (fun k => (k.row, k.col)))) := by
  obtain ⟨r0, c0, hv0⟩ := h
  have hne : legalCells s ≠ [] := List.ne_nil_of_mem ((mem_legalCells s (r0, c0)).2 hv0)
  obtain ⟨hex, hnf⟩ := root_explored ord bot s hne
  rw [hoff] at hex
  refine ⟨builtRoot ord bot s, by rw [(getBestMove_bot ord bot s hne).1], ?_⟩
  intro n t ht
  obtain ⟨fl, x1, _, _⟩ := explored_stateOf ord _ s _ _ (fun _ _ => True)
    (fun _ _ _ _ _ => trivial) hex hnf trivial n t ht
  have hch := explored_children ord t fl n x1
  refine ⟨hch, ?_⟩
  intro hins
  rcases hch with e | e
  · rw [e]; exact List.Pairwise.nil
  · rw [e, hins, cache_coords]
    exact legalCells_rowMajor t

/-- The default bot (pruning off) on the opening position, where black has the
legal move `(2, 3)`: under insertion order the root's children are in
row-major order. -/
theorem children_order_witness :
    OthelloBot.new.m_alphaBetaOn = false ∧
    (∃ r c : Int, isValidMove r c State.new = true) ∧
    ∃ root, (OthelloBot.new.getBestMove IterOrder.insertion State.new).2.1.m_searchTree.m_root =
        some root ∧ RowMajor (root.children.map (fun k => (k.row, k.col))) := by
  obtain ⟨root, h1, h2⟩ := children_order IterOrder.insertion OthelloBot.new State.new rfl
    ⟨2, 3, by decide⟩
  exact ⟨rfl, ⟨2, 3, by decide⟩, root, h1, (h2 root State.new StateOf.root).2 (insertion_enum _)⟩

/-! ## C21 -/

/-- The heuristic of an explored node that has children lies between -64 and
64, whatever the counters of its state. -/
theorem explored_inner_range (ord : IterOrder) (pruning : Bool) (t : State) (fl : Bool)
    (n : SearchNode) (h : Explored ord pruning t fl n) (hne : n.children ≠ []) :
    -64 ≤ n.heuristic ∧ n.heuristic ≤ 64 := by
  have hk : ∀ c, c ∈ n.children → -64 ≤ c.heuristic ∧ c.heuristic ≤ 64 := by
    intro c hc
    obtain ⟨rc, _, _, _, _, z⟩ := explored_child ord pruning t fl n c h hc
    exact explored_range ord pruning _ _ c z (successor_countsOk t rc)
  cases h with
  | leaf _ _ _ h1 _ => exact absurd h1 hne
  | inner _ _ _ pre _ _ _ _ _ _ h7 =>
    obtain ⟨c, hc1, hc2⟩ := foldPick_worst fl n.children hne hk
    rw [h7, ← hc2]
    exact hk c hc1

/-- C21. The initialisation sentinels `INT_MIN` and `INT_MAX` never appear as
a result: for every state with a legal move, every depth and either pruning
setting, the heuristic of every node of the built tree, the root included,
lies between -64 and 64; and so does every value returned by either `minimax`
overload on a state whose counters are its tallies, as every state is on which
`getBestMove` calls them. -/
theorem heuristics_in_range (ord : IterOrder) (bot : OthelloBot) (s : State)
    (h : ∃ r c : Int, isValidMove r c s = true) :
    (∃ root, (bot.getBestMove ord s).2.1.m_searchTree.m_root = some root ∧
      ∀ n, InTree root n → -64 ≤ n.heuristic ∧ n.heuristic ≤ 64) ∧
    (∀ (fuel : Nat) (t : State) (node : SearchNode) (d : Int) (flag : Bool) (n : Nat),
      CountsOk t →
      -64 ≤ (minimax ord fuel t node d flag n).1 ∧ (minimax ord fuel t node d flag n).1 ≤ 64) ∧
    (∀ (fuel : Nat) (t : State) (node : SearchNode) (d : Int) (flag : Bool)
      (alpha beta : Int) (n : Nat), CountsOk t →
      -64 ≤ (minimaxAB ord fuel t node d flag alpha beta n).1 ∧
        (minimaxAB ord fuel t node d flag alpha beta n).1 ≤ 64) ∧
    ∀ rc : Int × Int, isValidMove rc.1 rc.2 s = true → CountsOk (successor s rc) := by
  obtain ⟨r0, c0, hv0⟩ := h
  have hne : legalCells s ≠ [] := List.ne_nil_of_mem ((mem_legalCells s (r0, c0)).2 hv0)
  obtain ⟨hex, hnf⟩ := root_explored ord bot s hne
  refine ⟨⟨builtRoot ord bot s, by rw [(getBestMove_bot ord bot s hne).1], ?_⟩,
    fun fuel t node d flag n ht => minimax_range ord fuel t node d flag n ht,
    fun fuel t node d flag alpha beta n ht =>
      minimaxAB_range ord fuel t node d flag alpha beta n ht,
    fun rc _ => successor_countsOk s rc⟩
  intro n hn
  induction hn with
  | root =>
    apply explored_inner_range ord _ s _ _ hex
    obtain ⟨_, _, _, _, _, _, _, _, _, h3, _, _⟩ := getBestMove_spec ord bot s hne
    intro hnil
    rw [hnil] at h3
    exact enum_ne_nil ord s hne (List.length_eq_zero.1 h3.symm)
  | child p c hp hc _ =>
    obtain ⟨t, ht⟩ := inTree_stateOf (builtRoot ord bot s) s p hp
    obtain ⟨fl, x1, _, _⟩ := explored_stateOf ord _ s _ _ (fun _ _ => True)
      (fun _ _ _ _ _ => trivial) hex hnf trivial p t ht
    obtain ⟨rc, _, _, _, _, z⟩ := explored_child ord _ t fl p c x1 hc
    exact explored_range ord _ _ _ c z (successor_countsOk t rc)

/-- The default bot on the opening position, where black has the legal move
`(2, 3)`: the root's heuristic is between -64 and 64. -/
theorem heuristics_in_range_witness :
    (∃ r c : Int, isValidMove r c State.new = true) ∧
    ∃ root, (OthelloBot.new.getBestMove IterOrder.insertion State.new).2.1.m_searchTree.m_root =
        some root ∧ -64 ≤ root.heuristic ∧ root.heuristic ≤ 64 := by
  obtain ⟨⟨root, h1, h2⟩, _⟩ := heuristics_in_range IterOrder.insertion OthelloBot.new State.new
    ⟨2, 3, by decide⟩
  exact ⟨⟨2, 3, by decide⟩, root, h1, h2 root InTree.root⟩

/-! ## C23 -/

/-- What `getBestMove` leaves in the bot depends on the bot only through its
depth and its pruning switch. -/
theorem getBestMove_fresh (ord : IterOrder) (bot prev : OthelloBot) (s : State)
    (hd : prev.m_depth = bot.m_depth) (hp : prev.m_alphaBetaOn = bot.m_alphaBetaOn)
    (hne : legalCells s ≠ []) :
    (prev.getBestMove ord s).2.1 = (bot.getBestMove ord s).2.1 := by
  have hrun : rootRun ord prev s = rootRun ord bot s := by
    unfold rootRun rootEval
    rw [hd, hp]
  rw [(getBestMove_bot ord prev s hne).1, (getBestMove_bot ord bot s hne).1]
  unfold builtRoot
  rw [hrun, hd, hp]

set_option maxRecDepth 1000000 in
set_option maxHeartbeats 4000000 in
/-- C23, counterexample. A bot of depth 1 is first asked for a move on the
opening position (black to move) and then on a position in which white is to
move and has no legal move: the second call returns `(-1, -1)` and the bot
still holds the tree of the first call, whose root records the turn `'b'`,
and the count 5 of the first call. -/
theorem stale_tree_counterexample :
    blackBoard.turn = 'w' ∧
    (OthelloBot.getBestMove IterOrder.insertion
      ((OthelloBot.ofDepth 1).getBestMove IterOrder.insertion State.new).2.1 blackBoard).1 =
        (-1, -1) ∧
    (OthelloBot.getBestMove IterOrder.insertion
      ((OthelloBot.ofDepth 1).getBestMove IterOrder.insertion State.new).2.1
        blackBoard).2.1.m_searchTree.m_root.map (fun root => root.turn) = some 'b' ∧
    (OthelloBot.getBestMove IterOrder.insertion
      ((OthelloBot.ofDepth 1).getBestMove IterOrder.insertion State.new).2.1
        blackBoard).2.1.m_searchTree.m_nodeCount = 5 := by
  decide

/-- C23, amended. After every call `getBestMove(state)` on a state with a legal
move, whatever earlier calls left in the bot (`prev` is the bot with any other
tree and count), the bot's search tree is the one built for this call: its
root records this state's turn and the configured depth, the stored size is
this call's count of states examined, and the bot is the same as after the
call on any other bot of the same depth and pruning switch.  On a state
without a legal move `getBestMove` returns before it touches the tree: the bot
is left as it was. -/
theorem tree_rebuilt (ord : IterOrder) (bot prev : OthelloBot) (s : State)
    (hd : prev.m_depth = bot.m_depth) (hp : prev.m_alphaBetaOn = bot.m_alphaBetaOn)
    (h : ∃ r c : Int, isValidMove r c s = true) :
    (∃ root, (prev.getBestMove ord s).2.1.m_searchTree.m_root = some root ∧
      root.turn = s.turn ∧ root.depth = prev.m_depth ∧ root.moveSequence = "Root") ∧
    (prev.getBestMove ord s).2.1.m_searchTree.m_nodeCount =
      (prev.getBestMove ord s).2.1.m_statesExamined ∧
    (prev.getBestMove ord s).2.1 = (bot.getBestMove ord s).2.1 ∧
    ∀ t : State, (∀ r c : Int, isValidMove r c t = false) →
      (prev.getBestMove ord t).2.1 = prev := by
  obtain ⟨r0, c0, hv0⟩ := h
  have hne : legalCells s ≠ [] := List.ne_nil_of_mem ((mem_legalCells s (r0, c0)).2 hv0)
  obtain ⟨_, _, g3, _, g5, _, _, g8, _⟩ := getBestMove_spec ord prev s hne
  refine ⟨⟨builtRoot ord prev s, by rw [(getBestMove_bot ord prev s hne).1], g5, g3, g8⟩,
    by rw [(getBestMove_bot ord prev s hne).1], getBestMove_fresh ord bot prev s hd hp hne, ?_⟩
  intro t ht
  have hnil : legalCells t = [] := by
    apply List.eq_nil_iff_forall_not_mem.2
    intro rc hrc
    have := (mem_legalCells t rc).1 hrc
    rw [ht rc.1 rc.2] at this
    exact Bool.noConfusion this
  rw [getBestMove_none ord prev t hnil]

/-- The default bot, and the same bot holding some earlier tree and count, on
the opening position, where black has the legal move `(2, 3)`. -/
theorem tree_rebuilt_witness :
    (∃ r c : Int, isValidMove r c State.new = true) ∧
    (OthelloBot.getBestMove IterOrder.insertion
      { m_depth := 4, m_alphaBetaOn := false,
        m_searchTree := { m_root := some SearchNode.new, m_nodeCount := 7 },
        m_statesExamined := 7 } State.new).2.1 =
      (OthelloBot.new.getBestMove IterOrder.insertion State.new).2.1 :=
  ⟨⟨2, 3, by decide⟩,
    (tree_rebuilt IterOrder.insertion OthelloBot.new
      { m_depth := 4, m_alphaBetaOn := false,
        m_searchTree := { m_root := some SearchNode.new, m_nodeCount := 7 },
        m_statesExamined := 7 } State.new rfl rfl ⟨2, 3, by decide⟩).2.2.1⟩

/-! ## C28 -/

/-- With a budget above `depthBound`, no call is reached with an empty
budget. -/
theorem budget_enough (ord : IterOrder) :
    ∀ (fuel : Nat) (s : State) (d : Int), depthBound s < fuel →
      budgetReached ord fuel s d = false := by
  intro fuel
  induction fuel with
  | zero => intro s d h; exact absurd h (Nat.not_lt_zero _)
  | succ f ih =>
    intro s d h
    unfold budgetReached
    by_cases hd : d = 0
    · rw [if_pos hd]
    · rw [if_neg hd]
      by_cases he : s.updatePossibleStates.possibleStates.isEmpty = true
      · rw [if_pos he]
      · rw [if_neg he]
        apply List.any_eq_false.2
        intro e hmem
        obtain ⟨rc, hv, _, hrc⟩ := mem_enum_fields ord s e hmem
        have hb := successor_bound s rc hv
        rw [← hrc] at hb
        rw [ih e.2 (d - 1) (by omega)]
        exact Bool.false_ne_true

/-- A state without a legal move is valued as a leaf by both overloads, without
a recursive call. -/
theorem minimax_no_move (ord : IterOrder) (fuel : Nat) (s : State) (node : SearchNode)
    (d : Int) (flag : Bool) (alpha beta : Int) (n : Nat) (h : legalCells s = []) :
    minimax ord (fuel + 1) s node d flag n =
      (s.white - s.black, { node with heuristic := s.white - s.black }, n + 1) ∧
    minimaxAB ord (fuel + 1) s node d flag alpha beta n =
      (s.white - s.black, { node with heuristic := s.white - s.black }, n + 1) := by
  obtain ⟨e1, e2, _, _⟩ := updatePossibleStates_white s
  have he := (possibleStates_isEmpty_iff s).2 h
  unfold minimax minimaxAB
  simp only []
  by_cases hd : d = 0
  · rw [if_pos hd, if_pos hd]
    exact ⟨rfl, rfl⟩
  · rw [if_neg hd, if_neg hd, if_pos he, if_pos he, e1, e2]
    exact ⟨rfl, rfl⟩

/-- C28. `getBestMove` and both `minimax` overloads terminate for every state
and every integer depth, also depth 0 and the negative depths for which the
`depth == 0` cutoff is never reached: every recursive call is made on a legal
successor, whose bound `depthBound` (the number of empty cells, for a state
whose turn is a colour) is strictly smaller, so no chain of nested calls is
longer than the bound; a call budget above the bound is never used up, every
such budget gives the same result, and the budget of `getBestMove` is one.  A
state without a legal move is valued as a leaf without a recursive call. -/
theorem search_terminates (ord : IterOrder) (s : State) (d : Int) (flag : Bool) :
    depthBound s < searchFuel ∧
    (s.turn ≠ EMPTY → depthBound s = tally s.board EMPTY) ∧
    (∀ rc : Int × Int, isValidMove rc.1 rc.2 s = true →
      depthBound (successor s rc) < depthBound s ∧
      (s.turn ≠ EMPTY →
        tally (successor s rc).board EMPTY < tally s.board EMPTY)) ∧
    (∀ fuel, depthBound s < fuel → budgetReached ord fuel s d = false) ∧
    (∀ fuel fuel2 node n, depthBound s < fuel → depthBound s < fuel2 →
      minimax ord fuel s node d flag n = minimax ord fuel2 s node d flag n) ∧
    (∀ fuel fuel2 node alpha beta n, depthBound s < fuel → depthBound s < fuel2 →
      minimaxAB ord fuel s node d flag alpha beta n =
        minimaxAB ord fuel2 s node d flag alpha beta n) ∧
    ((∀ r c : Int, isValidMove r c s = false) → ∀ fuel node alpha beta n,
      minimax ord (fuel + 1) s node d flag n =
        (s.white - s.black, { node with heuristic := s.white - s.black }, n + 1) ∧
      minimaxAB ord (fuel + 1) s node d flag alpha beta n =
        (s.white - s.black, { node with heuristic := s.white - s.black }, n + 1)) := by
  refine ⟨searchFuel_enough s, ?_, ?_, fun fuel hf => budget_enough ord fuel s d hf,
    fun fuel fuel2 node n h1 h2 => minimax_fuel ord fuel fuel2 s node d flag n h1 h2,
    fun fuel fuel2 node alpha beta n h1 h2 =>
      minimaxAB_fuel ord fuel fuel2 s node d flag alpha beta n h1 h2, ?_⟩
  · intro ht
    unfold depthBound
    rw [if_neg ht]
  · intro rc hv
    refine ⟨successor_bound s rc hv, fun ht => ?_⟩
    have := tally_resolve_empty s rc.1 rc.2 hv ht
    rw [(successor_fields s rc).1]
    omega
  · intro h fuel node alpha beta n
    apply minimax_no_move
    apply List.eq_nil_iff_forall_not_mem.2
    intro rc hrc
    have := (mem_legalCells s rc).1 hrc
    rw [h rc.1 rc.2] at this
    exact Bool.noConfusion this

/-! ## C29 -/

theorem foldl_set_get (v : Char) :
    ∀ (l : List (Int × Int)) (g : Grid) (r c : Int),
      (l.foldl (fun b rc => b.set rc.1 rc.2 v) g).get r c =
        if inBoard r c = true ∧ (r, c) ∈ l then v else g.get r c := by
  intro l
  induction l with
  | nil => intro g r c; simp
  | cons x l ih =>
    intro g r c
    obtain ⟨a, b⟩ := x
    rw [List.foldl_cons, ih, get_set]
    simp only [List.mem_cons, Prod.mk.injEq]
    split_ifs <;> first | rfl | (exfalso; tauto)

/-- What `clear` writes does not depend on the grid it overwrites. -/
theorem clear_board (s t : State) : s.clear.board = t.clear.board := by
  funext i j
  rw [← get_coe s.clear.board i j, ← get_coe t.clear.board i j]
  have hin := inBoard_coe i j
  have hmem : ((i.val : Int), (j.val : Int)) ∈ cells := (mem_cells_iff _).2 hin
  simp only [State.clear, get_set, foldl_set_get, hin, hmem, and_self, if_true, true_and]

/-- The assignments of `clear`: the opening grid and the turn; the counters
and the cache are not assigned. -/
theorem clear_fields (s : State) :
    s.clear.board = State.new.board ∧ s.clear.turn = 'b' ∧ s.clear.white = s.white ∧
    s.clear.black = s.black ∧ s.clear.possibleStates = s.possibleStates :=
  ⟨clear_board s _, rfl, rfl, rfl, rfl⟩

set_option maxRecDepth 1000000 in
set_option maxHeartbeats 4000000 in
/-- C29. `clear` on the state after black's opening move `(2, 3)`, which has
`white = 1` and `black = 4`: the grid is the opening grid and the turn is
`'b'`, but the counters are still 1 and 4, not 2 and 2. -/
theorem clear_midgame :
    (State.new.updatePossibleStates.place 2 3).white = 1 ∧
    (State.new.updatePossibleStates.place 2 3).black = 4 ∧
    (State.new.updatePossibleStates.place 2 3).clear.board = State.new.board ∧
    (State.new.updatePossibleStates.place 2 3).clear.turn = 'b' ∧
    (State.new.updatePossibleStates.place 2 3).clear.white = 1 ∧
    (State.new.updatePossibleStates.place 2 3).clear.black = 4 :=
  ⟨by decide, by decide, clear_board _ _, rfl, by decide, by decide⟩

/-! ## C30 -/

/-- The children that a call of `minimax` with the depth `d` appends carry the
depth `d` of the call, not `d - 1`; there is one when the call has a legal
move to look at. -/
theorem minimax_kids_depth (ord : IterOrder) (fuel : Nat) (s : State) (node : SearchNode)
    (d : Int) (flag : Bool) (n : Nat) (hch : node.children = []) :
    (∀ c, c ∈ (minimax ord fuel s node d flag n).2.1.children → c.depth = d) ∧
    (d ≠ 0 → legalCells s ≠ [] → 0 < fuel →
      (minimax ord fuel s node d flag n).2.1.children ≠ []) := by
  cases fuel with
  | zero =>
    exact ⟨fun c hc => by
      have : (minimax ord 0 s node d flag n).2.1.children = node.children := rfl
      rw [this, hch] at hc
      exact absurd hc (List.not_mem_nil _), fun _ _ h => absurd h (Nat.lt_irrefl _)⟩
  | succ f =>
    unfold minimax
    simp only []
    by_cases hd : d = 0
    · rw [if_pos hd]
      exact ⟨fun c hc => by
        have hc2 : c ∈ node.children := hc
        rw [hch] at hc2
        exact absurd hc2 (List.not_mem_nil _), fun h => absurd hd h⟩
    · rw [if_neg hd]
      by_cases he : s.updatePossibleStates.possibleStates.isEmpty = true
      · rw [if_pos he]
        exact ⟨fun c hc => by
          have hc2 : c ∈ node.children := hc
          rw [hch] at hc2
          exact absurd hc2 (List.not_mem_nil _),
          fun _ h => absurd ((possibleStates_isEmpty_iff s).1 he) h⟩
      · rw [if_neg he]
        obtain ⟨kids, h1, _, h3, h4⟩ := childLoop_spec
          (fun s c k => minimax ord f s c (d - 1) (!flag) k) flag d
          (ord.enum s.updatePossibleStates.possibleStates) node
          (if flag then INT_MIN else INT_MAX) (n + 1)
        generalize childLoop (fun s c k => minimax ord f s c (d - 1) (!flag) k) flag d
          (ord.enum s.updatePossibleStates.possibleStates) node
          (if flag then INT_MIN else INT_MAX) (n + 1) = r at h1 ⊢
        have hk : r.2.1.children = kids := by
          rw [h1]; show node.children ++ kids = kids; rw [hch]; rfl
        constructor
        · intro c hc
          have hc2 : c ∈ kids := by rw [← hk]; exact hc
          obtain ⟨e, hmem⟩ := zip_mem_right _ kids c (le_of_eq h3) hc2
          obtain ⟨n2, hn2⟩ := h4 _ hmem
          have hh := sameHeader_trans _ _ _ (finish_header _)
            (minimax_header ord f e.2
              (makeChild e.1 e.2 d (!flag) (node.moveSequence ++ " -> " ++ e.1))
              (d - 1) (!flag) n2).1
          simp only at hn2
          rw [← hn2] at hh
          exact hh.2.2.1
        · intro _ hne _
          show r.2.1.children ≠ []
          rw [hk]
          intro hnil
          rw [hnil] at h3
          exact enum_ne_nil ord s hne (List.length_eq_zero.1 h3.symm)

/-- The same for `minimax` with pruning. -/
theorem minimaxAB_kids_depth (ord : IterOrder) (fuel : Nat) (s : State) (node : SearchNode)
    (d : Int) (flag : Bool) (alpha beta : Int) (n : Nat) (hch : node.children = []) :
    (∀ c, c ∈ (minimaxAB ord fuel s node d flag alpha beta n).2.1.children → c.depth = d) ∧
    (d ≠ 0 → legalCells s ≠ [] → 0 < fuel →
      (minimaxAB ord fuel s node d flag alpha beta n).2.1.children ≠ []) := by
  cases fuel with
  | zero =>
    exact ⟨fun c hc => by
      have : (minimaxAB ord 0 s node d flag alpha beta n).2.1.children = node.children := rfl
      rw [this, hch] at hc
      exact absurd hc (List.not_mem_nil _), fun _ _ h => absurd h (Nat.lt_irrefl _)⟩
  | succ f =>
    unfold minimaxAB
    simp only []
    by_cases hd : d = 0
    · rw [if_pos hd]
      exact ⟨fun c hc => by
        have hc2 : c ∈ node.children := hc
        rw [hch] at hc2
        exact absurd hc2 (List.not_mem_nil _), fun h => absurd hd h⟩
    · rw [if_neg hd]
      by_cases he : s.updatePossibleStates.possibleStates.isEmpty = true
      · rw [if_pos he]
        exact ⟨fun c hc => by
          have hc2 : c ∈ node.children := hc
          rw [hch] at hc2
          exact absurd hc2 (List.not_mem_nil _),
          fun _ h => absurd ((possibleStates_isEmpty_iff s).1 he) h⟩
      · rw [if_neg he]
        obtain ⟨pre, kids, _, p2, h1, _, h3, h4⟩ := childLoopAB_spec
          (fun s c a b k => minimaxAB ord f s c (d - 1) (!flag) a b k) flag d
          (ord.enum s.updatePossibleStates.possibleStates) node
          (if flag then INT_MIN else INT_MAX) alpha beta (n + 1)
        generalize childLoopAB (fun s c a b k => minimaxAB ord f s c (d - 1) (!flag) a b k)
          flag d (ord.enum s.updatePossibleStates.possibleStates) node
          (if flag then INT_MIN else INT_MAX) alpha beta (n + 1) = r at h1 ⊢
        have hk : r.2.1.children = kids := by
          rw [h1]; show node.children ++ kids = kids; rw [hch]; rfl
        constructor
        · intro c hc
          have hc2 : c ∈ kids := by rw [← hk]; exact hc
          obtain ⟨e, hmem⟩ := zip_mem_right pre kids c (le_of_eq h3) hc2
          obtain ⟨a, b, n2, hn2⟩ := h4 _ hmem
          have hh := sameHeader_trans _ _ _ (finish_header _)
            (minimaxAB_header ord f e.2
              (makeChild e.1 e.2 d (!flag) (node.moveSequence ++ " -> " ++ e.1))
              (d - 1) (!flag) a b n2).1
          simp only at hn2
          rw [← hn2] at hh
          exact hh.2.2.1
        · intro _ hne _
          show r.2.1.children ≠ []
          rw [hk]
          intro hnil
          rw [hnil] at h3
          exact p2 (enum_ne_nil ord s hne) (List.length_eq_zero.1 h3.symm)

/-- The depth fields two levels down: every child of the root carries
`m_depth - 1`, and so does every child of a child of the root. -/
theorem rootKid_depths (ord : IterOrder) (bot : OthelloBot) (s : State)
    (hne : legalCells s ≠ []) (p : (String × State) × SearchNode)
    (hp : p ∈ (ord.enum s.updatePossibleStates.possibleStates).zip
      (builtRoot ord bot s).children) :
    p.2.depth = bot.m_depth - 1 ∧
    (∀ c, c ∈ p.2.children → c.depth = bot.m_depth - 1) ∧
    (bot.m_depth - 1 ≠ 0 → legalCells p.1.2 ≠ [] → p.2.children ≠ []) := by
  obtain ⟨_, _, _, _, _, _, _, _, _, _, h4, _⟩ := getBestMove_spec ord bot s hne
  obtain ⟨n2, hn2⟩ := h4 p hp
  obtain ⟨_, _, _, _, _, _, _, _, hh⟩ := rootKid_fields ord bot s hne p hp
  refine ⟨hh.2.2.1, ?_⟩
  rw [hn2, finish_children]
  unfold rootEval
  cases bot.m_alphaBetaOn
  · simp only [Bool.false_eq_true, if_false]
    obtain ⟨k1, k2⟩ := minimax_kids_depth ord searchFuel p.1.2
      (makeChild p.1.1 p.1.2 (bot.m_depth - 1) (!(s.turn == 'w')) p.1.1) (bot.m_depth - 1)
      (!(s.turn == 'w')) n2 rfl
    exact ⟨k1, fun a b => k2 a b (by decide)⟩
  · simp only [if_true]
    obtain ⟨k1, k2⟩ := minimaxAB_kids_depth ord searchFuel p.1.2
      (makeChild p.1.1 p.1.2 (bot.m_depth - 1) (!(s.turn == 'w')) p.1.1) (bot.m_depth - 1)
      (!(s.turn == 'w')) INT_MIN INT_MAX n2 rfl
    exact ⟨k1, fun a b => k2 a b (by decide)⟩

set_option maxRecDepth 100000 in
/-- C30. A bot of depth 2 on the opening position: the root carries the depth
2, its child for the move `(2, 3)` carries 1, and that child has a child, which
carries 1 as well, not 0: `minimax` writes its own `depth` on the children it
creates, where `getBestMove` writes `m_depth - 1`. -/
theorem depth_field_grandchild :
    ∃ root n c,
      ((OthelloBot.ofDepth 2).getBestMove IterOrder.insertion State.new).2.1.m_searchTree.m_root =
        some root ∧
      root.depth = 2 ∧ n ∈ root.children ∧ (n.row, n.col) = (2, 3) ∧ n.depth = 1 ∧
      c ∈ n.children ∧ c.depth = 1 := by
  have hv : isValidMove 2 3 State.new = true := by decide
  have hv2 : isValidMove 2 2 (successor State.new (2, 3)) = true := by decide
  have hne : legalCells State.new ≠ [] :=
    List.ne_nil_of_mem ((mem_legalCells State.new (2, 3)).2 hv)
  have hne2 : legalCells (successor State.new (2, 3)) ≠ [] :=
    List.ne_nil_of_mem ((mem_legalCells (successor State.new (2, 3)) (2, 2)).2 hv2)
  obtain ⟨_, _, g3, _, _, _, _, _, _, h3, _, _⟩ :=
    getBestMove_spec IterOrder.insertion (OthelloBot.ofDepth 2) State.new hne
  have he : (key 2 3, successor State.new (2, 3)) ∈
      IterOrder.insertion.enum State.new.updatePossibleStates.possibleStates := by
    rw [insertion_enum, updatePossibleStates_list]
    exact List.mem_map_of_mem (fun rc : Int × Int => (key rc.1 rc.2, successor State.new rc))
      ((mem_legalCells State.new (2, 3)).2 hv)
  obtain ⟨k, hk⟩ := zip_mem_left _
    (builtRoot IterOrder.insertion (OthelloBot.ofDepth 2) State.new).children _
    (le_of_eq h3.symm) he
  obtain ⟨rc, hvr, hkey, _, f1, f2, _⟩ :=
    rootKid_fields IterOrder.insertion (OthelloBot.ofDepth 2) State.new hne _ hk
  have hin := ((isValidMove_iff rc.1 rc.2 State.new).1 hvr).1
  have hrc := key_inj 2 3 rc.1 rc.2 hin hkey
  obtain ⟨d1, d2, d3⟩ :=
    rootKid_depths IterOrder.insertion (OthelloBot.ofDepth 2) State.new hne _ hk
  have hd : (OthelloBot.ofDepth 2).m_depth - 1 = 1 := rfl
  rw [hd] at d1 d2 d3
  obtain ⟨c, hc⟩ := List.exists_mem_of_ne_nil _ (d3 (by decide) hne2)
  refine ⟨builtRoot IterOrder.insertion (OthelloBot.ofDepth 2) State.new, k, c,
    by rw [(getBestMove_bot IterOrder.insertion (OthelloBot.ofDepth 2) State.new hne).1],
    g3, (List.of_mem_zip hk).2, ?_, d1, hc, d2 c hc⟩
  simp only at f1 f2
  rw [f1, f2, ← hrc.1, ← hrc.2]

/-! ## The search tree (`inc/SearchTree.hpp`) -/

/-- Induction over search trees: a property that holds for a node whenever it
holds for its children holds for every node. -/
theorem SearchNode.induct (P : SearchNode → Prop)
    (h : ∀ n : SearchNode, (∀ c, c ∈ n.children → P c) → P n) : ∀ n, P n := by
  have key : ∀ k : Nat, ∀ n : SearchNode, sizeOf n ≤ k → P n := by
    intro k
    induction k with
    | zero =>
      intro n hn
      cases n
      simp only [SearchNode.mk.sizeOf_spec] at hn
      omega
    | succ k ih =>
      intro n hn
      apply h
      intro c hc
      apply ih
      have h1 := List.sizeOf_lt_of_mem hc
      cases n
      simp only [SearchNode.mk.sizeOf_spec] at hn
      simp only at h1
      omega
  exact fun n => key (sizeOf n) n (Nat.le_refl _)

theorem countNodes_eq (n : SearchNode) : countNodes n = countNodesLoop n.children 1 := by
  cases n; rfl

theorem traverseHelper_eq {σ : Type} (visitor : σ → SearchNode → σ) (n : SearchNode) (st : σ) :
    traverseHelper visitor n st = traverseLoop visitor n.children (visitor st n) := by
  cases n; rfl

theorem findPath_eq (n : SearchNode) (targetRow targetCol : Int) (path : List SearchNode) :
    findPath n targetRow targetCol path =
      if n.row = targetRow ∧ n.col = targetCol then (true, path ++ [n])
      else if (findPathLoop n.children targetRow targetCol (path ++ [n])).1 then
        (true, (findPathLoop n.children targetRow targetCol (path ++ [n])).2)
      else (false, (findPathLoop n.children targetRow targetCol (path ++ [n])).2.dropLast) := by
  cases n; rfl

theorem calculateMaxDepth_eq (n : SearchNode) (currentDepth : Int) :
    calculateMaxDepth n currentDepth =
      calculateMaxDepthLoop n.children currentDepth currentDepth := by
  cases n; rfl

theorem preorder_eq (n : SearchNode) : preorder n = n :: preorderAll n.children := by
  cases n; rfl

theorem positions_eq (n : SearchNode) : positions n = [] :: positionsFrom n.children 0 := by
  cases n; rfl

/-! ## Pre-order -/

theorem mem_preorderAll (m : SearchNode) :
    ∀ l : List SearchNode, m ∈ preorderAll l ↔ ∃ c, c ∈ l ∧ m ∈ preorder c := by
  intro l
  induction l with
  | nil => simp [preorderAll]
  | cons c l ih =>
    rw [preorderAll, List.mem_append, ih]
    constructor
    · rintro (h | ⟨c2, h1, h2⟩)
      · exact ⟨c, List.mem_cons_self _ _, h⟩
      · exact ⟨c2, List.mem_cons_of_mem _ h1, h2⟩
    · rintro ⟨c2, h1, h2⟩
      rcases List.mem_cons.1 h1 with e | e
      · left; rw [← e]; exact h2
      · right; exact ⟨c2, e, h2⟩

theorem inTree_trans (a b c : SearchNode) (h1 : InTree a b) (h2 : InTree b c) : InTree a c := by
  induction h2 with
  | root => exact h1
  | child n m _ hm ih => exact InTree.child n m ih hm

/-- The nodes in the pre-order list are the nodes reachable from the root by
child links. -/
theorem mem_preorder (n m : SearchNode) : m ∈ preorder n ↔ InTree n m := by
  constructor
  · revert m
    apply SearchNode.induct (fun n => ∀ m, m ∈ preorder n → InTree n m)
    intro n ih m hm
    rw [preorder_eq] at hm
    rcases List.mem_cons.1 hm with e | e
    · rw [e]; exact InTree.root
    · obtain ⟨c, hc, hmc⟩ := (mem_preorderAll m _).1 e
      exact inTree_trans n c m (InTree.child n c InTree.root hc) (ih c hc m hmc)
  · intro h
    induction h with
    | root => rw [preorder_eq]; exact List.mem_cons_self _ _
    | child p c _ hc ih =>
      have key : ∀ a, ∀ b, b ∈ preorder a → ∀ x, x ∈ b.children → x ∈ preorder a := by
        apply SearchNode.induct (fun a => ∀ b, b ∈ preorder a → ∀ x, x ∈ b.children →
          x ∈ preorder a)
        intro a iha b hb x hx
        rw [preorder_eq] at hb ⊢
        rcases List.mem_cons.1 hb with e | e
        · subst e
          apply List.mem_cons_of_mem
          apply (mem_preorderAll x _).2
          refine ⟨x, hx, ?_⟩
          rw [preorder_eq]; exact List.mem_cons_self _ _
        · obtain ⟨c2, hc2, hb2⟩ := (mem_preorderAll b _).1 e
          apply List.mem_cons_of_mem
          exact (mem_preorderAll x _).2 ⟨c2, hc2, iha c2 hc2 b hb2 x hx⟩
      exact key n p ih c hc

theorem traverseLoop_spec {σ : Type} (visitor : σ → SearchNode → σ) :
    ∀ (l : List SearchNode) (st : σ),
      (∀ c, c ∈ l → ∀ st, traverseHelper visitor c st = (preorder c).foldl visitor st) →
      traverseLoop visitor l st = (preorderAll l).foldl visitor st := by
  intro l
  induction l with
  | nil => intro st _; rfl
  | cons c l ih =>
    intro st h
    rw [traverseLoop, preorderAll, List.foldl_append, h c (List.mem_cons_self _ _)]
    exact ih _ (fun c2 h2 => h c2 (List.mem_cons_of_mem _ h2))

/-- `traverseHelper` calls the visitor on the nodes of the pre-order list, in
its order. -/
theorem traverseHelper_spec {σ : Type} (visitor : σ → SearchNode → σ) :
    ∀ (n : SearchNode) (st : σ), traverseHelper visitor n st = (preorder n).foldl visitor st := by
  apply SearchNode.induct (fun n => ∀ st, traverseHelper visitor n st =
    (preorder n).foldl visitor st)
  intro n ih st
  rw [traverseHelper_eq, preorder_eq, List.foldl_cons]
  exact traverseLoop_spec visitor _ _ ih

/-! ## Positions -/

theorem positionsFrom_head :
    ∀ (l : List SearchNode) (j : Nat) (x : List Nat), x ∈ positionsFrom l j →
      ∃ i q, x = i :: q ∧ j ≤ i := by
  intro l
  induction l with
  | nil => intro j x hx; simp [positionsFrom] at hx
  | cons c l ih =>
    intro j x hx
    rw [positionsFrom, List.mem_append] at hx
    rcases hx with h | h
    · obtain ⟨q, _, rfl⟩ := List.mem_map.1 h
      exact ⟨j, q, rfl, Nat.le_refl _⟩
    · obtain ⟨i, q, e, hi⟩ := ih (j + 1) x h
      exact ⟨i, q, e, by omega⟩

theorem mem_positionsFrom :
    ∀ (l : List SearchNode) (j i : Nat) (q : List Nat),
      (i :: q) ∈ positionsFrom l j ↔ ∃ c, j ≤ i ∧ l[i - j]? = some c ∧ q ∈ positions c := by
  intro l
  induction l with
  | nil => intro j i q; simp [positionsFrom]
  | cons c l ih =>
    intro j i q
    rw [positionsFrom, List.mem_append, ih]
    constructor
    · rintro (h | ⟨c2, h1, h2, h3⟩)
      · obtain ⟨q2, hq2, e⟩ := List.mem_map.1 h
        simp only [List.cons.injEq] at e
        obtain ⟨e1, e2⟩ := e
        subst e1; subst e2
        exact ⟨c, Nat.le_refl _, by simp, hq2⟩
      · refine ⟨c2, by omega, ?_, h3⟩
        have : i - j = (i - (j + 1)) + 1 := by omega
        rw [this, List.getElem?_cons_succ]
        exact h2
    · rintro ⟨c2, h1, h2, h3⟩
      by_cases hij : i = j
      · subst hij
        left
        simp only [Nat.sub_self, List.getElem?_cons_zero, Option.some.injEq] at h2
        subst h2
        exact List.mem_map.2 ⟨q, h3, rfl⟩
      · right
        have : i - j = (i - (j + 1)) + 1 := by omega
        rw [this, List.getElem?_cons_succ] at h2
        exact ⟨c2, by omega, h2, h3⟩

/-- The positions of a node are exactly the positions at which there is a
node. -/
theorem mem_positions : ∀ (n : SearchNode) (p : List Nat),
    p ∈ positions n ↔ (nodeAt n p).isSome = true := by
  apply SearchNode.induct (fun n => ∀ p, p ∈ positions n ↔ (nodeAt n p).isSome = true)
  intro n ih p
  rw [positions_eq]
  cases p with
  | nil => simp [nodeAt]
  | cons i q =>
    rw [List.mem_cons, mem_positionsFrom]
    simp only [Nat.sub_zero, Nat.zero_le, true_and, nodeAt]
    constructor
    · rintro (h | ⟨c, h1, h2⟩)
      · exact absurd h (List.cons_ne_nil _ _)
      · have hc : c ∈ n.children := List.getElem?_mem h1
        rw [h1]
        exact (ih c hc q).1 h2
    · intro h
      right
      cases hc : n.children[i]? with
      | none => rw [hc] at h; exact absurd h (by simp)
      | some c =>
        rw [hc] at h
        exact ⟨c, rfl, (ih c (List.getElem?_mem hc) q).2 h⟩

theorem pathLt_cons (i : Nat) (p q : List Nat) : pathLt (i :: p) (i :: q) ↔ pathLt p q := by
  simp [pathLt]

theorem pathLt_irrefl : ∀ p : List Nat, ¬ pathLt p p := by
  intro p
  induction p with
  | nil => exact fun h => h
  | cons i p ih => rw [pathLt_cons]; exact ih

theorem positionsFrom_sorted :
    ∀ (l : List SearchNode) (j : Nat), (∀ c, c ∈ l → (positions c).Pairwise pathLt) →
      (positionsFrom l j).Pairwise pathLt := by
  intro l
  induction l with
  | nil => intro j _; exact List.Pairwise.nil
  | cons c l ih =>
    intro j h
    rw [positionsFrom, List.pairwise_append]
    refine ⟨?_, ih (j + 1) (fun c2 h2 => h c2 (List.mem_cons_of_mem _ h2)), ?_⟩
    · rw [List.pairwise_map]
      exact (h c (List.mem_cons_self _ _)).imp (fun hpq => (pathLt_cons j _ _).2 hpq)
    · intro x hx y hy
      obtain ⟨q, _, rfl⟩ := List.mem_map.1 hx
      obtain ⟨i, q2, rfl, hi⟩ := positionsFrom_head l (j + 1) y hy
      exact Or.inl (by omega)

/-- The positions of a node are listed in increasing order: a node before the
nodes under it, the subtree of a child before that of a later child. -/
theorem positions_sorted : ∀ n : SearchNode, (positions n).Pairwise pathLt := by
  apply SearchNode.induct (fun n => (positions n).Pairwise pathLt)
  intro n ih
  rw [positions_eq, List.pairwise_cons]
  refine ⟨?_, positionsFrom_sorted _ 0 ih⟩
  intro x hx
  obtain ⟨i, q, rfl, _⟩ := positionsFrom_head _ 0 x hx
  exact trivial

theorem filterMap_positionsFrom (n : SearchNode) :
    ∀ (l : List SearchNode) (i : Nat), n.children.drop i = l →
      (∀ c, c ∈ l → (positions c).filterMap (nodeAt c) = preorder c) →
      (positionsFrom l i).filterMap (nodeAt n) = preorderAll l := by
  intro l
  induction l with
  | nil => intro i _ _; rfl
  | cons c l ih =>
    intro i hdrop h
    have hget : n.children[i]? = some c := by
      have := List.getElem?_drop n.children i 0
      rw [hdrop] at this
      simpa using this.symm
    have hdrop2 : n.children.drop (i + 1) = l := by
      have : (n.children.drop i).drop 1 = l := by rw [hdrop]; rfl
      rw [List.drop_drop] at this
      rw [← this]
    rw [positionsFrom, List.filterMap_append, preorderAll,
      ih (i + 1) hdrop2 (fun c2 h2 => h c2 (List.mem_cons_of_mem _ h2)),
      ← h c (List.mem_cons_self _ _), List.filterMap_map]
    congr 1
    apply List.filterMap_congr
    intro p _
    simp only [Function.comp, nodeAt, hget]

/-- The pre-order list holds the node of each position once, in the order of
the positions. -/
theorem preorder_positions : ∀ n : SearchNode,
    (positions n).filterMap (nodeAt n) = preorder n := by
  apply SearchNode.induct (fun n => (positions n).filterMap (nodeAt n) = preorder n)
  intro n ih
  rw [positions_eq, preorder_eq, List.filterMap_cons]
  simp only [nodeAt]
  rw [filterMap_positionsFrom n n.children 0 rfl ih]

/-! ## C26 -/

theorem pathLt_append (p : List Nat) : ∀ q : List Nat, q ≠ [] → pathLt p (p ++ q) := by
  induction p with
  | nil =>
    intro q hq
    cases q with
    | nil => exact absurd rfl hq
    | cons _ _ => exact trivial
  | cons i p ih => intro q hq; exact Or.inr ⟨rfl, ih q hq⟩

theorem pathLt_branch (p : List Nat) (i j : Nat) (q r : List Nat) (h : i < j) :
    pathLt (p ++ i :: q) (p ++ j :: r) := by
  induction p with
  | nil => exact Or.inl h
  | cons k p ih => exact Or.inr ⟨rfl, ih⟩

/-- C26. `SearchTree::traverse` calls the visitor on the nodes in pre-order:
nothing is visited when the root is null; otherwise the visitor is called on
the nodes of the pre-order list, in its order.  That list holds the nodes
reachable from the root; it holds the node of every position of the tree
exactly once (the positions are listed without repetition), in increasing
order of the positions, in which a node comes before every node under it and
the subtree of a child before the subtree of every later child. -/
theorem traverse_preorder {σ : Type} (visitor : σ → SearchNode → σ) (st : σ)
    (root : SearchNode) (count : Nat) :
    SearchTree.traverse { m_root := none, m_nodeCount := count } visitor st = st ∧
    SearchTree.traverse { m_root := some root, m_nodeCount := count } visitor st =
      (preorder root).foldl visitor st ∧
    (∀ n, n ∈ preorder root ↔ InTree root n) ∧
    preorder root = (positions root).filterMap (nodeAt root) ∧
    (∀ p, p ∈ positions root ↔ (nodeAt root p).isSome = true) ∧
    (positions root).Nodup ∧ (positions root).Pairwise pathLt ∧
    (∀ p q : List Nat, q ≠ [] → pathLt p (p ++ q)) ∧
    (∀ (p : List Nat) (i j : Nat) (q r : List Nat), i < j →
      pathLt (p ++ i :: q) (p ++ j :: r)) := by
  refine ⟨rfl, traverseHelper_spec visitor root st, fun n => mem_preorder root n,
    (preorder_positions root).symm, mem_positions root, ?_, positions_sorted root,
    pathLt_append, pathLt_branch⟩
  have hne : (positions root).Pairwise (fun a b => a ≠ b) :=
    (positions_sorted root).imp
      (fun {a b} (h : pathLt a b) (e : a = b) => pathLt_irrefl b (e ▸ h))
  exact hne

/-! ## C25 -/

theorem calculateMaxDepthLoop_spec :
    ∀ (l : List SearchNode) (cur m0 : Int),
      (∀ c, c ∈ l → ∀ cur2 : Int,
        (∃ (k : Nat) (leaf : SearchNode), PathLen c k leaf ∧ leaf.children = [] ∧
          calculateMaxDepth c cur2 = cur2 + k) ∧
        (∀ (k : Nat) (m : SearchNode), PathLen c k m → cur2 + k ≤ calculateMaxDepth c cur2)) →
      m0 ≤ calculateMaxDepthLoop l cur m0 ∧
      (calculateMaxDepthLoop l cur m0 = m0 ∨
        ∃ c, c ∈ l ∧ ∃ (k : Nat) (leaf : SearchNode), PathLen c k leaf ∧ leaf.children = [] ∧
          calculateMaxDepthLoop l cur m0 = cur + 1 + k) ∧
      (∀ c, c ∈ l → ∀ (k : Nat) (m : SearchNode), PathLen c k m →
        cur + 1 + k ≤ calculateMaxDepthLoop l cur m0) := by
  intro l
  induction l with
  | nil =>
    intro cur m0 _
    exact ⟨Int.le_refl _, Or.inl rfl, fun c hc => absurd hc (List.not_mem_nil _)⟩
  | cons c l ih =>
    intro cur m0 h
    obtain ⟨⟨k0, leaf0, a1, a2, a3⟩, hb⟩ := h c (List.mem_cons_self _ _) (cur + 1)
    obtain ⟨i1, i2, i3⟩ := ih cur (max m0 (calculateMaxDepth c (cur + 1)))
      (fun c2 h2 => h c2 (List.mem_cons_of_mem _ h2))
    rw [calculateMaxDepthLoop]
    refine ⟨by omega, ?_, ?_⟩
    · rcases i2 with e | ⟨c2, hc2, k, leaf, b1, b2, b3⟩
      · by_cases hm : calculateMaxDepth c (cur + 1) ≤ m0
        · left; rw [e]; omega
        · right
          refine ⟨c, List.mem_cons_self _ _, k0, leaf0, a1, a2, ?_⟩
          rw [e, ← a3]; omega
      · right
        exact ⟨c2, List.mem_cons_of_mem _ hc2, k, leaf, b1, b2, b3⟩
    · intro c2 hc2 k m hp
      rcases List.mem_cons.1 hc2 with e | e
      · subst e
        have := hb k m hp
        omega
      · exact i3 c2 e k m hp

/-- `calculateMaxDepth(node, currentDepth)` is `currentDepth` plus the number of
edges of a longest path from the node down to a leaf. -/
theorem calculateMaxDepth_spec : ∀ (n : SearchNode) (cur : Int),
    (∃ (k : Nat) (leaf : SearchNode), PathLen n k leaf ∧ leaf.children = [] ∧
      calculateMaxDepth n cur = cur + k) ∧
    (∀ (k : Nat) (m : SearchNode), PathLen n k m → cur + k ≤ calculateMaxDepth n cur) := by
  apply SearchNode.induct (fun n => ∀ cur : Int,
    (∃ (k : Nat) (leaf : SearchNode), PathLen n k leaf ∧ leaf.children = [] ∧
      calculateMaxDepth n cur = cur + k) ∧
    (∀ (k : Nat) (m : SearchNode), PathLen n k m → cur + k ≤ calculateMaxDepth n cur))
  intro n ih cur
  obtain ⟨i1, i2, i3⟩ := calculateMaxDepthLoop_spec n.children cur cur ih
  rw [calculateMaxDepth_eq]
  have hup : ∀ (k : Nat) (m : SearchNode), PathLen n k m →
      cur + k ≤ calculateMaxDepthLoop n.children cur cur := by
    intro k m hp
    cases hp with
    | stay => simpa using i1
    | step _ c _ k2 hc hp2 =>
      have := i3 c hc k2 m hp2
      push_cast
      omega
  refine ⟨?_, hup⟩
  rcases i2 with e | ⟨c, hc, k, leaf, b1, b2, b3⟩
  · cases hch : n.children with
    | nil => exact ⟨0, n, PathLen.stay n, hch, by simp [calculateMaxDepthLoop]⟩
    | cons c l =>
      exfalso
      have hc : c ∈ n.children := by rw [hch]; exact List.mem_cons_self _ _
      obtain ⟨⟨k, leaf, a1, _, _⟩, _⟩ := ih c hc (cur + 1)
      have := hup (k + 1) leaf (PathLen.step n c leaf k hc a1)
      rw [e] at this
      push_cast at this
      omega
  · exact ⟨k + 1, leaf, PathLen.step n c leaf k hc b1, b2, by rw [b3]; push_cast; omega⟩

/-- C25. `SearchTree::getMaxDepth` returns the number of edges on a longest
path from the root to a leaf: some leaf is that many edges below the root and
no node is more; it returns 0 for a null root and for a root without
children. -/
theorem getMaxDepth_spec (root : SearchNode) (count : Nat) :
    SearchTree.getMaxDepth { m_root := none, m_nodeCount := count } = 0 ∧
    (root.children = [] →
      SearchTree.getMaxDepth { m_root := some root, m_nodeCount := count } = 0) ∧
    (∃ (k : Nat) (leaf : SearchNode), PathLen root k leaf ∧ leaf.children = [] ∧
      SearchTree.getMaxDepth { m_root := some root, m_nodeCount := count } = (k : Int)) ∧
    (∀ (k : Nat) (m : SearchNode), PathLen root k m →
      (k : Int) ≤ SearchTree.getMaxDepth { m_root := some root, m_nodeCount := count }) := by
  obtain ⟨⟨k, leaf, a1, a2, a3⟩, hb⟩ := calculateMaxDepth_spec root 0
  refine ⟨rfl, ?_, ⟨k, leaf, a1, a2, by
    show calculateMaxDepth root 0 = (k : Int)
    rw [a3]; omega⟩, ?_⟩
  · intro hch
    show calculateMaxDepth root 0 = 0
    rw [calculateMaxDepth_eq, hch]
    rfl
  · intro k2 m hp
    have := hb k2 m hp
    show (k2 : Int) ≤ calculateMaxDepth root 0
    omega

/-! ## C24 -/

theorem findPathLoop_spec (targetRow targetCol : Int) :
    ∀ (l : List SearchNode) (path : List SearchNode),
      (∀ c, c ∈ l → ∀ path2 : List SearchNode,
        ((∀ m, m ∈ preorder c → ¬ (m.row = targetRow ∧ m.col = targetCol)) ∧
          findPath c targetRow targetCol path2 = (false, path2)) ∨
        (∃ p last, findPath c targetRow targetCol path2 = (true, path2 ++ c :: p) ∧
          List.Chain (fun a b => b ∈ a.children) c p ∧ (c :: p).getLast? = some last ∧
          (last.row = targetRow ∧ last.col = targetCol) ∧
          (preorder c).find? (fun m => decide (m.row = targetRow ∧ m.col = targetCol)) =
            some last)) →
      ((∀ m, m ∈ preorderAll l → ¬ (m.row = targetRow ∧ m.col = targetCol)) ∧
        findPathLoop l targetRow targetCol path = (false, path)) ∨
      (∃ c p last, c ∈ l ∧ findPathLoop l targetRow targetCol path = (true, path ++ c :: p) ∧
        List.Chain (fun a b => b ∈ a.children) c p ∧ (c :: p).getLast? = some last ∧
        (last.row = targetRow ∧ last.col = targetCol) ∧
        (preorderAll l).find? (fun m => decide (m.row = targetRow ∧ m.col = targetCol)) =
          some last) := by
  intro l
  induction l with
  | nil =>
    intro path _
    exact Or.inl ⟨fun m hm => absurd hm (List.not_mem_nil _), rfl⟩
  | cons c l ih =>
    intro path h
    rw [findPathLoop, preorderAll]
    rcases h c (List.mem_cons_self _ _) path with ⟨a1, a2⟩ | ⟨p, last, a1, a2, a3, a4, a5⟩
    · rw [a2]
      simp only [Bool.false_eq_true, if_false]
      have hnone : (preorder c).find?
          (fun m => decide (m.row = targetRow ∧ m.col = targetCol)) = none := by
        apply List.find?_eq_none.2
        intro m hm
        simpa using a1 m hm
      rcases ih path (fun c2 h2 => h c2 (List.mem_cons_of_mem _ h2)) with
        ⟨b1, b2⟩ | ⟨c2, p, last, b0, b1, b2, b3, b4, b5⟩
      · left
        refine ⟨?_, b2⟩
        intro m hm
        rcases List.mem_append.1 hm with e | e
        · exact a1 m e
        · exact b1 m e
      · right
        refine ⟨c2, p, last, List.mem_cons_of_mem _ b0, b1, b2, b3, b4, ?_⟩
        rw [List.find?_append, hnone, b5]
        rfl
    · right
      rw [a1]
      simp only [if_true]
      refine ⟨c, p, last, List.mem_cons_self _ _, rfl, a2, a3, a4, ?_⟩
      rw [List.find?_append, a5]
      rfl

/-- `findPath` on a node: either no node under it has the target coordinate,
and `path` is left as it was; or the path from the node to the first node in
pre-order that has the coordinate is appended to `path`. -/
theorem findPath_spec (targetRow targetCol : Int) :
    ∀ (n : SearchNode) (path : List SearchNode),
      ((∀ m, m ∈ preorder n → ¬ (m.row = targetRow ∧ m.col = targetCol)) ∧
        findPath n targetRow targetCol path = (false, path)) ∨
      (∃ p last, findPath n targetRow targetCol path = (true, path ++ n :: p) ∧
        List.Chain (fun a b => b ∈ a.children) n p ∧ (n :: p).getLast? = some last ∧
        (last.row = targetRow ∧ last.col = targetCol) ∧
        (preorder n).find? (fun m => decide (m.row = targetRow ∧ m.col = targetCol)) =
          some last) := by
  apply SearchNode.induct (fun n => ∀ path : List SearchNode,
      ((∀ m, m ∈ preorder n → ¬ (m.row = targetRow ∧ m.col = targetCol)) ∧
        findPath n targetRow targetCol path = (false, path)) ∨
      (∃ p last, findPath n targetRow targetCol path = (true, path ++ n :: p) ∧
        List.Chain (fun a b => b ∈ a.children) n p ∧ (n :: p).getLast? = some last ∧
        (last.row = targetRow ∧ last.col = targetCol) ∧
        (preorder n).find? (fun m => decide (m.row = targetRow ∧ m.col = targetCol)) =
          some last))
  intro n ih path
  rw [findPath_eq, preorder_eq]
  by_cases hit : n.row = targetRow ∧ n.col = targetCol
  · right
    rw [if_pos hit]
    refine ⟨[], n, rfl, List.Chain.nil, rfl, hit, ?_⟩
    simp [List.find?, hit]
  · rw [if_neg hit]
    have hn : decide (n.row = targetRow ∧ n.col = targetCol) = false := by simpa using hit
    rcases findPathLoop_spec targetRow targetCol n.children (path ++ [n]) ih with
      ⟨b1, b2⟩ | ⟨c, p, last, b0, b1, b2, b3, b4, b5⟩
    · left
      rw [b2]
      simp only [Bool.false_eq_true, if_false, List.dropLast_concat]
      refine ⟨?_, trivial⟩
      intro m hm
      rcases List.mem_cons.1 hm with e | e
      · rw [e]; exact hit
      · exact b1 m e
    · right
      rw [b1]
      simp only [if_true]
      refine ⟨c :: p, last, by simp, List.Chain.cons b0 b2, ?_, b4, ?_⟩
      · rw [← b3]; rfl
      · simp only [List.find?, hn]
        exact b5

/-- C24. `SearchTree::getPath` returns the empty sequence for a null root, and
for a tree it returns the empty sequence if and only if no node of the tree
has the target coordinate; otherwise it returns a sequence whose first element
is the root, in which each element is a child of the element before it, and
whose last element has the target coordinate and is the first node with that
coordinate in pre-order. -/
theorem getPath_spec (root : SearchNode) (count : Nat) (targetRow targetCol : Int) :
    SearchTree.getPath { m_root := none, m_nodeCount := count } targetRow targetCol = [] ∧
    (SearchTree.getPath { m_root := some root, m_nodeCount := count } targetRow targetCol = [] ↔
      ∀ n, InTree root n → ¬ (n.row = targetRow ∧ n.col = targetCol)) ∧
    (SearchTree.getPath { m_root := some root, m_nodeCount := count } targetRow targetCol ≠ [] →
      ∃ p last,
        SearchTree.getPath { m_root := some root, m_nodeCount := count } targetRow targetCol =
          root :: p ∧
        List.Chain (fun a b => b ∈ a.children) root p ∧ (root :: p).getLast? = some last ∧
        (last.row = targetRow ∧ last.col = targetCol) ∧
        (preorder root).find? (fun m => decide (m.row = targetRow ∧ m.col = targetCol)) =
          some last) := by
  have hget : SearchTree.getPath { m_root := some root, m_nodeCount := count } targetRow
      targetCol = (findPath root targetRow targetCol []).2 := rfl
  rw [hget]
  rcases findPath_spec targetRow targetCol root [] with ⟨a1, a2⟩ | ⟨p, last, a1, a2, a3, a4, a5⟩
  · rw [a2]
    refine ⟨rfl, ⟨fun _ n hn => a1 n ((mem_preorder root n).2 hn), fun _ => rfl⟩,
      fun h => absurd rfl h⟩
  · rw [a1]
    refine ⟨rfl, ⟨fun h => absurd h (by simp), fun h => ?_⟩,
      fun _ => ⟨p, last, by simp, a2, a3, a4, a5⟩⟩
    exfalso
    have hmem := List.mem_of_find?_eq_some a5
    exact h last ((mem_preorder root last).1 hmem) a4

/-! ## C22 -/

theorem countNodesLoop_eq : ∀ (l : List SearchNode) (k : Nat),
    countNodesLoop l k = k + (l.map countNodes).sum := by
  intro l
  induction l with
  | nil => intro k; simp [countNodesLoop]
  | cons c l ih =>
    intro k
    rw [countNodesLoop, ih]
    simp only [List.map_cons, List.sum_cons]
    omega

theorem countNodes_children (n : SearchNode) :
    countNodes n = 1 + (n.children.map countNodes).sum := by
  rw [countNodes_eq, countNodesLoop_eq]

theorem countNodes_finish (r : SearchResult) : countNodes (finish r) = countNodes r.2.1 := by
  rw [countNodes_children, countNodes_children]
  rfl

theorem preorderAll_length : ∀ l : List SearchNode,
    (∀ c, c ∈ l → (preorder c).length = countNodes c) →
    (preorderAll l).length = (l.map countNodes).sum := by
  intro l
  induction l with
  | nil => intro _; rfl
  | cons c l ih =>
    intro h
    rw [preorderAll, List.length_append, h c (List.mem_cons_self _ _),
      ih (fun c2 h2 => h c2 (List.mem_cons_of_mem _ h2))]
    simp only [List.map_cons, List.sum_cons]

/-- The pre-order list has one entry per node counted by `countNodes`. -/
theorem preorder_length : ∀ n : SearchNode, (preorder n).length = countNodes n := by
  apply SearchNode.induct (fun n => (preorder n).length = countNodes n)
  intro n ih
  rw [preorder_eq, countNodes_children, List.length_cons, preorderAll_length _ ih]
  omega

theorem filterMap_length_of_isSome {α β : Type} (f : α → Option β) :
    ∀ l : List α, (∀ x, x ∈ l → (f x).isSome = true) → (l.filterMap f).length = l.length := by
  intro l
  induction l with
  | nil => intro _; rfl
  | cons a l ih =>
    intro h
    have ha := h a (List.mem_cons_self _ _)
    cases hf : f a with
    | none => rw [hf] at ha; exact absurd ha (by simp)
    | some b =>
      rw [List.filterMap_cons, hf]
      simp only [List.length_cons]
      rw [ih (fun x hx => h x (List.mem_cons_of_mem _ hx))]

/-- The number of positions of a tree is its number of nodes. -/
theorem positions_length (n : SearchNode) : (positions n).length = countNodes n := by
  rw [← preorder_length, ← preorder_positions]
  exact (filterMap_length_of_isSome _ _ (fun p hp => (mem_positions n p).1 hp)).symm

/-! ## The count of states examined is the size of the tree -/

theorem sum_map_append_one (l : List SearchNode) (c : SearchNode) :
    ((l ++ [c]).map countNodes).sum = (l.map countNodes).sum + countNodes c := by
  simp

/-- The loop without pruning adds to the counter the sizes of the children it
appends, when each call does. -/
theorem childLoop_count (eval : State → SearchNode → Nat → SearchResult) (flag : Bool)
    (depth : Int) :
    ∀ (l : List (String × State)) (node : SearchNode) (best : Int) (n : Nat),
      (∀ e, e ∈ l → ∀ c k, c.children = [] →
        (eval e.2 c k).2.2 = k + countNodes (eval e.2 c k).2.1) →
      (childLoop eval flag depth l node best n).2.2 + (node.children.map countNodes).sum =
        n + ((childLoop eval flag depth l node best n).2.1.children.map countNodes).sum := by
  intro l
  induction l with
  | nil => intro node best n _; rfl
  | cons e l ih =>
    intro node best n h
    obtain ⟨key, nextState⟩ := e
    unfold childLoop
    simp only []
    have hstep := h (key, nextState) (List.mem_cons_self _ _)
      (makeChild key nextState depth (!flag) (node.moveSequence ++ " -> " ++ key)) n rfl
    simp only at hstep
    generalize eval nextState (makeChild key nextState depth (!flag)
      (node.moveSequence ++ " -> " ++ key)) n = r at hstep ⊢
    have hrec := ih { node with children := node.children ++ [finish r] }
      (if flag then max best r.1 else min best r.1) r.2.2
      (fun e2 h2 => h e2 (List.mem_cons_of_mem _ h2))
    have hsum : (({ node with children := node.children ++ [finish r] } :
        SearchNode).children.map countNodes).sum =
        (node.children.map countNodes).sum + countNodes r.2.1 := by
      rw [← countNodes_finish]
      exact sum_map_append_one _ _
    rw [hsum] at hrec
    have hgoal : childLoop eval flag depth l
        { node with children := node.children ++ [{ r.2.1 with heuristic := r.1 }] }
        (if flag then max best r.1 else min best r.1) r.2.2 =
        childLoop eval flag depth l { node with children := node.children ++ [finish r] }
        (if flag then max best r.1 else min best r.1) r.2.2 := rfl
    rw [hgoal]
    omega

/-- The same for the loop with pruning: the children after a cut are neither
appended nor counted. -/
theorem childLoopAB_count (eval : State → SearchNode → Int → Int → Nat → SearchResult)
    (flag : Bool) (depth : Int) :
    ∀ (l : List (String × State)) (node : SearchNode) (best alpha beta : Int) (n : Nat),
      (∀ e, e ∈ l → ∀ c a b k, c.children = [] →
        (eval e.2 c a b k).2.2 = k + countNodes (eval e.2 c a b k).2.1) →
      (childLoopAB eval flag depth l node best alpha beta n).2.2 +
          (node.children.map countNodes).sum =
        n + ((childLoopAB eval flag depth l node best alpha beta n).2.1.children.map
          countNodes).sum := by
  intro l
  induction l with
  | nil => intro node best alpha beta n _; rfl
  | cons e l ih =>
    intro node best alpha beta n h
    obtain ⟨key, nextState⟩ := e
    unfold childLoopAB
    simp only []
    have hstep := h (key, nextState) (List.mem_cons_self _ _)
      (makeChild key nextState depth (!flag) (node.moveSequence ++ " -> " ++ key))
      alpha beta n rfl
    simp only at hstep
    generalize eval nextState (makeChild key nextState depth (!flag)
      (node.moveSequence ++ " -> " ++ key)) alpha beta n = r at hstep ⊢
    have hsum : (({ node with children := node.children ++ [finish r] } :
        SearchNode).children.map countNodes).sum =
        (node.children.map countNodes).sum + countNodes r.2.1 := by
      rw [← countNodes_finish]
      exact sum_map_append_one _ _
    by_cases hbrk : (if flag then beta else min beta r.1) ≤
        (if flag then max alpha r.1 else alpha)
    · rw [if_pos hbrk]
      have hgoal : (({ node with children := node.children ++ [{ r.2.1 with heuristic := r.1 }] } :
          SearchNode).children.map countNodes).sum =
          (node.children.map countNodes).sum + countNodes r.2.1 := hsum
      simp only []
      rw [hgoal]
      omega
    · rw [if_neg hbrk]
      have hrec := ih { node with children := node.children ++ [finish r] }
        (if flag then max best r.1 else min best r.1)
        (if flag then max alpha r.1 else alpha) (if flag then beta else min beta r.1) r.2.2
        (fun e2 h2 => h e2 (List.mem_cons_of_mem _ h2))
      rw [hsum] at hrec
      have hgoal : childLoopAB eval flag depth l
          { node with children := node.children ++ [{ r.2.1 with heuristic := r.1 }] }
          (if flag then max best r.1 else min best r.1)
          (if flag then max alpha r.1 else alpha) (if flag then beta else min beta r.1) r.2.2 =
          childLoopAB eval flag depth l { node with children := node.children ++ [finish r] }
          (if flag then max best r.1 else min best r.1)
          (if flag then max alpha r.1 else alpha) (if flag then beta else min beta r.1)
          r.2.2 := rfl
      rw [hgoal]
      omega

/-- The same for the loop of `getBestMove`. -/
theorem rootLoop_count (eval : State → SearchNode → Nat → SearchResult) (flag : Bool)
    (m_depth : Int) :
    ∀ (l : List (String × State)) (root : SearchNode) (bv : Int) (bm : Int × Int) (n : Nat),
      (∀ e, e ∈ l → ∀ c k, c.children = [] →
        (eval e.2 c k).2.2 = k + countNodes (eval e.2 c k).2.1) →
      (rootLoop eval flag m_depth l root bv bm n).2.2.2 + (root.children.map countNodes).sum =
        n + ((rootLoop eval flag m_depth l root bv bm n).1.children.map countNodes).sum := by
  intro l
  induction l with
  | nil => intro root bv bm n _; rfl
  | cons e l ih =>
    intro root bv bm n h
    obtain ⟨key, nextState⟩ := e
    unfold rootLoop
    simp only []
    have hstep := h (key, nextState) (List.mem_cons_self _ _)
      (makeChild key nextState (m_depth - 1) (!flag) key) n rfl
    simp only at hstep
    generalize eval nextState (makeChild key nextState (m_depth - 1) (!flag) key) n = r
      at hstep ⊢
    have hsum : (({ root with children := root.children ++ [finish r] } :
        SearchNode).children.map countNodes).sum =
        (root.children.map countNodes).sum + countNodes r.2.1 := by
      rw [← countNodes_finish]
      exact sum_map_append_one _ _
    have hrest : ∀ e2, e2 ∈ l → ∀ c k, c.children = [] →
        (eval e2.2 c k).2.2 = k + countNodes (eval e2.2 c k).2.1 :=
      fun e2 h2 => h e2 (List.mem_cons_of_mem _ h2)
    split
    · have hrec := ih { root with children := root.children ++ [finish r] } r.1
        ((finish r).row, (finish r).col) r.2.2 hrest
      rw [hsum] at hrec
      have hgoal : rootLoop eval flag m_depth l
          { root with children := root.children ++ [{ r.2.1 with heuristic := r.1 }] } r.1
          (r.2.1.row, r.2.1.col) r.2.2 =
          rootLoop eval flag m_depth l { root with children := root.children ++ [finish r] }
            r.1 ((finish r).row, (finish r).col) r.2.2 := rfl
      rw [hgoal]
      omega
    · have hrec := ih { root with children := root.children ++ [finish r] } bv bm r.2.2 hrest
      rw [hsum] at hrec
      have hgoal : rootLoop eval flag m_depth l
          { root with children := root.children ++ [{ r.2.1 with heuristic := r.1 }] } bv bm
          r.2.2 =
          rootLoop eval flag m_depth l { root with children := root.children ++ [finish r] }
            bv bm r.2.2 := rfl
      rw [hgoal]
      omega

theorem countNodes_heuristic (n : SearchNode) (v : Int) :
    countNodes { n with heuristic := v } = countNodes n := by
  rw [countNodes_children, countNodes_children]

/-- With a sufficient budget, a call of `minimax` on a fresh node adds to the
counter the number of nodes of the subtree it leaves in the node. -/
theorem minimax_count (ord : IterOrder) :
    ∀ (fuel : Nat) (s : State) (node : SearchNode) (d : Int) (flag : Bool) (n : Nat),
      depthBound s < fuel → node.children = [] →
      (minimax ord fuel s node d flag n).2.2 =
        n + countNodes (minimax ord fuel s node d flag n).2.1 := by
  intro fuel
  induction fuel with
  | zero => intro s node d flag n h; exact absurd h (Nat.not_lt_zero _)
  | succ f ih =>
    intro s node d flag n hf hch
    have hleaf : ∀ v : Int, n + 1 = n + countNodes { node with heuristic := v } := by
      intro v
      rw [countNodes_heuristic, countNodes_children, hch]
      rfl
    unfold minimax
    simp only []
    by_cases hd : d = 0
    · rw [if_pos hd]
      exact hleaf _
    · rw [if_neg hd]
      by_cases he : s.updatePossibleStates.possibleStates.isEmpty = true
      · rw [if_pos he]
        exact hleaf _
      · rw [if_neg he]
        have hloop := childLoop_count (fun s c k => minimax ord f s c (d - 1) (!flag) k) flag d
          (ord.enum s.updatePossibleStates.possibleStates) node
          (if flag then INT_MIN else INT_MAX) (n + 1)
          (fun e hmem c k hc => by
            obtain ⟨rc, hv, _, hrc⟩ := mem_enum_fields ord s e hmem
            have hb := successor_bound s rc hv
            rw [← hrc] at hb
            exact ih e.2 c (d - 1) (!flag) k (by omega) hc)
        generalize childLoop (fun s c k => minimax ord f s c (d - 1) (!flag) k) flag d
          (ord.enum s.updatePossibleStates.possibleStates) node
          (if flag then INT_MIN else INT_MAX) (n + 1) = r at hloop ⊢
        rw [hch] at hloop
        simp only [List.map_nil, List.sum_nil, Nat.add_zero] at hloop
        show r.2.2 = n + countNodes { r.2.1 with heuristic := r.1 }
        rw [countNodes_heuristic, countNodes_children, hloop]
        omega

/-- The same for `minimax` with pruning. -/
theorem minimaxAB_count (ord : IterOrder) :
    ∀ (fuel : Nat) (s : State) (node : SearchNode) (d : Int) (flag : Bool) (alpha beta : Int)
      (n : Nat),
      depthBound s < fuel → node.children = [] →
      (minimaxAB ord fuel s node d flag alpha beta n).2.2 =
        n + countNodes (minimaxAB ord fuel s node d flag alpha beta n).2.1 := by
  intro fuel
  induction fuel with
  | zero => intro s node d flag alpha beta n h; exact absurd h (Nat.not_lt_zero _)
  | succ f ih =>
    intro s node d flag alpha beta n hf hch
    have hleaf : ∀ v : Int, n + 1 = n + countNodes { node with heuristic := v } := by
      intro v
      rw [countNodes_heuristic, countNodes_children, hch]
      rfl
    unfold minimaxAB
    simp only []
    by_cases hd : d = 0
    · rw [if_pos hd]
      exact hleaf _
    · rw [if_neg hd]
      by_cases he : s.updatePossibleStates.possibleStates.isEmpty = true
      · rw [if_pos he]
        exact hleaf _
      · rw [if_neg he]
        have hloop := childLoopAB_count
          (fun s c a b k => minimaxAB ord f s c (d - 1) (!flag) a b k) flag d
          (ord.enum s.updatePossibleStates.possibleStates) node
          (if flag then INT_MIN else INT_MAX) alpha beta (n + 1)
          (fun e hmem c a b k hc => by
            obtain ⟨rc, hv, _, hrc⟩ := mem_enum_fields ord s e hmem
            have hb := successor_bound s rc hv
            rw [← hrc] at hb
            exact ih e.2 c (d - 1) (!flag) a b k (by omega) hc)
        generalize childLoopAB (fun s c a b k => minimaxAB ord f s c (d - 1) (!flag) a b k)
          flag d (ord.enum s.updatePossibleStates.possibleStates) node
          (if flag then INT_MIN else INT_MAX) alpha beta (n + 1) = r at hloop ⊢
        rw [hch] at hloop
        simp only [List.map_nil, List.sum_nil, Nat.add_zero] at hloop
        show r.2.2 = n + countNodes { r.2.1 with heuristic := r.1 }
        rw [countNodes_heuristic, countNodes_children, hloop]
        omega

/-- The count that `getBestMove` records is the number of nodes of the tree it
builds. -/
theorem rootRun_count (ord : IterOrder) (bot : OthelloBot) (s : State) :
    (rootRun ord bot s).2.2.2 = countNodes (builtRoot ord bot s) := by
  have h := rootLoop_count (rootEval ord bot (s.turn == 'w')) (s.turn == 'w') bot.m_depth
    (ord.enum s.updatePossibleStates.possibleStates)
    { SearchNode.new with
      turn := s.turn, whiteScore := s.white, blackScore := s.black,
      depth := bot.m_depth, maximizing := s.turn == 'w', moveSequence := "Root" }
    (worst (s.turn == 'w')) (-1, -1) 1
    (fun e _ c k hc => by
      unfold rootEval
      cases bot.m_alphaBetaOn
      · simp only [Bool.false_eq_true, if_false]
        exact minimax_count ord _ _ _ _ _ _ (searchFuel_enough e.2) hc
      · simp only [if_true]
        exact minimaxAB_count ord _ _ _ _ _ _ _ _ (searchFuel_enough e.2) hc)
  have hR : rootLoop (rootEval ord bot (s.turn == 'w')) (s.turn == 'w') bot.m_depth
      (ord.enum s.updatePossibleStates.possibleStates)
      { SearchNode.new with
        turn := s.turn, whiteScore := s.white, blackScore := s.black,
        depth := bot.m_depth, maximizing := s.turn == 'w', moveSequence := "Root" }
      (worst (s.turn == 'w')) (-1, -1) 1 = rootRun ord bot s := rfl
  rw [hR] at h
  have h0 : (({ SearchNode.new with
      turn := s.turn, whiteScore := s.white, blackScore := s.black,
      depth := bot.m_depth, maximizing := s.turn == 'w', moveSequence := "Root" } :
      SearchNode).children.map countNodes).sum = 0 := rfl
  rw [h0] at h
  unfold builtRoot
  rw [countNodes_heuristic, countNodes_children]
  omega

/-! ## C22 -/

/-- C22. After `getBestMove` on a state with a legal move (either pruning
setting), the recorded count, `OthelloBot::getTreeSize` and
`SearchTree::getSize`, is the number of nodes of the tree under the root (the
number of its positions, which `countNodes` counts), and it is the number of
times `SearchTree::traverse` calls its visitor.  Children cut off by pruning
are not created, so they are neither in the tree nor in the count. -/
theorem count_is_tree_size (ord : IterOrder) (bot : OthelloBot) (s : State)
    (h : ∃ r c : Int, isValidMove r c s = true) :
    ∃ root, (bot.getBestMove ord s).2.1.m_searchTree.m_root = some root ∧
      (bot.getBestMove ord s).2.1.getTreeSize = (positions root).length ∧
      (bot.getBestMove ord s).2.1.m_searchTree.getSize = (positions root).length ∧
      (positions root).length = countNodes root ∧
      (bot.getBestMove ord s).2.1.m_searchTree.traverse (fun (k : Nat) _ => k + 1) 0 =
        (positions root).length := by
  obtain ⟨r0, c0, hv0⟩ := h
  have hne : legalCells s ≠ [] := List.ne_nil_of_mem ((mem_legalCells s (r0, c0)).2 hv0)
  have hb := (getBestMove_bot ord bot s hne).1
  have hc := rootRun_count ord bot s
  have hlen : ∀ (l : List SearchNode) (k : Nat),
      l.foldl (fun (k : Nat) _ => k + 1) k = k + l.length := by
    intro l
    induction l with
    | nil => intro k; rfl
    | cons a l ih => intro k; rw [List.foldl_cons, ih, List.length_cons]; omega
  refine ⟨builtRoot ord bot s, by rw [hb], ?_, ?_, positions_length _, ?_⟩
  · rw [hb, positions_length]; exact hc
  · rw [hb, positions_length]; exact hc
  · rw [hb]
    show traverseHelper (fun (k : Nat) _ => k + 1) (builtRoot ord bot s) 0 = _
    rw [traverseHelper_spec, hlen, preorder_length, positions_length]
    omega

/-- The default bot on the opening position, where black has the legal move
`(2, 3)`. -/
theorem count_is_tree_size_witness :
    (∃ r c : Int, isValidMove r c State.new = true) ∧
    ∃ root, (OthelloBot.new.getBestMove IterOrder.insertion State.new).2.1.m_searchTree.m_root =
        some root ∧
      (OthelloBot.new.getBestMove IterOrder.insertion State.new).2.1.getTreeSize =
        (positions root).length := by
  obtain ⟨root, h1, h2, _⟩ := count_is_tree_size IterOrder.insertion OthelloBot.new State.new
    ⟨2, 3, by decide⟩
  exact ⟨⟨2, 3, by decide⟩, root, h1, h2⟩

/-! ## Array bounds -/

theorem read_eq (g : Grid) (r c : Int) (h : inBoard r c = true) :
    g.read r c = some (g.get r c) := by
  unfold Grid.read
  rw [if_pos h]

theorem write_eq (g : Grid) (r c : Int) (v : Char) (h : inBoard r c = true) :
    g.write r c v = some (g.set r c v) := by
  unfold Grid.write
  rw [if_pos h]

theorem andRead_eq (cond : Bool) (g : Grid) (r c : Int) (test : Char → Bool)
    (h : cond = true → inBoard r c = true) :
    andRead cond g r c test = some (cond && test (g.get r c)) := by
  unfold andRead
  cases cond
  · rfl
  · rw [if_pos rfl, read_eq g r c (h rfl)]
    rfl

/-- A ray loop whose bounds test, together with what is known of the walk
(`Inv`), keeps the cell on the board reads no cell outside it, and `Inv` holds
where the loop stops. -/
theorem rayLoopChecked_eq (guard : Int → Int → Bool) (g : Grid) (opp : Char) (dr dc : Int)
    (Inv : Int → Int → Prop)
    (hstep : ∀ r c, Inv r c → guard r c = true → inBoard r c = true ∧ Inv (r + dr) (c + dc)) :
    ∀ (fuel : Nat) (r c : Int) (h : Bool), Inv r c →
      rayLoopChecked guard g opp dr dc fuel r c h = some (rayLoop guard g opp dr dc fuel r c h) ∧
      Inv (rayLoop guard g opp dr dc fuel r c h).1 (rayLoop guard g opp dr dc fuel r c h).2.1 := by
  intro fuel
  induction fuel with
  | zero => intro r c h hi; exact ⟨rfl, hi⟩
  | succ f ih =>
    intro r c h hi
    unfold rayLoopChecked rayLoop
    rw [andRead_eq _ g r c _ (fun hg => (hstep r c hi hg).1)]
    simp only [Option.bind]
    by_cases hb : (guard r c && g.get r c == opp) = true
    · rw [if_pos hb, if_pos hb]
      have hg : guard r c = true := by
        cases hgc : guard r c
        · rw [hgc] at hb; exact absurd hb (by simp)
        · rfl
      exact ih _ _ true (hstep r c hi hg).2
    · rw [if_neg hb, if_neg hb]
      exact ⟨rfl, hi⟩

theorem collectLoopChecked_eq (g : Grid) (opp : Char) (dr dc : Int) :
    ∀ (fuel : Nat) (r c : Int) (toFlip : List (Int × Int)),
      (∀ p, p ∈ toFlip → inBoard p.1 p.2 = true) →
      collectLoopChecked g opp dr dc fuel r c toFlip =
        some (collectLoop g opp dr dc fuel r c toFlip) ∧
      ∀ p, p ∈ (collectLoop g opp dr dc fuel r c toFlip).2.2 → inBoard p.1 p.2 = true := by
  intro fuel
  induction fuel with
  | zero => intro r c toFlip h; exact ⟨rfl, h⟩
  | succ f ih =>
    intro r c toFlip h
    unfold collectLoopChecked collectLoop
    rw [andRead_eq _ g r c _ (fun hg => hg)]
    simp only [Option.bind]
    by_cases hb : (inBoard r c && g.get r c == opp) = true
    · rw [if_pos hb, if_pos hb]
      have hg : inBoard r c = true := by
        cases hgc : inBoard r c
        · rw [hgc] at hb; exact absurd hb (by simp)
        · rfl
      apply ih
      intro p hp
      rcases List.mem_append.1 hp with e | e
      · exact h p e
      · rw [List.mem_singleton.1 e]; exact hg
    · rw [if_neg hb, if_neg hb]
      exact ⟨rfl, h⟩

theorem flipAllChecked_eq (cur : Char) :
    ∀ (toFlip : List (Int × Int)) (g : Grid), (∀ p, p ∈ toFlip → inBoard p.1 p.2 = true) →
      flipAllChecked g toFlip cur = some (flipAll g toFlip cur) := by
  intro toFlip
  induction toFlip with
  | nil => intro g _; rfl
  | cons p rest ih =>
    intro g h
    unfold flipAllChecked flipAll
    rw [write_eq g p.1 p.2 cur (h p (List.mem_cons_self _ _))]
    simp only [Option.bind, List.foldl_cons]
    exact ih _ (fun q hq => h q (List.mem_cons_of_mem _ hq))

theorem and_true_left (a b : Bool) (h : (a && b) = true) : a = true ∧ b = true := by
  cases a <;> cases b <;> simp at h ⊢

theorem checkVerticalChecked_eq (row col : Int) (s : State) (hin : inBoard row col = true) :
    checkVerticalChecked row col s = some (checkVertical row col s) := by
  obtain ⟨h0, h8, c0, c8⟩ := (inBoard_iff row col).1 hin
  have hup := rayLoopChecked_eq (fun r _ => decide (r ≥ 0)) s.board (opponentOf s.turn) (-1) 0
    (fun r c => r < 8 ∧ c = col)
    (fun r c hi hg => by
      have hr : 0 ≤ r := of_decide_eq_true hg
      exact ⟨(inBoard_iff r c).2 ⟨hr, hi.1, by rw [hi.2]; exact c0, by rw [hi.2]; exact c8⟩,
        by omega, by rw [hi.2]; omega⟩)
    8 (row - 1) col false ⟨by omega, rfl⟩
  have hdown := rayLoopChecked_eq (fun r _ => decide (r < 8)) s.board (opponentOf s.turn) 1 0
    (fun r c => 0 ≤ r ∧ c = col)
    (fun r c hi hg => by
      have hr : r < 8 := of_decide_eq_true hg
      exact ⟨(inBoard_iff r c).2 ⟨hi.1, hr, by rw [hi.2]; exact c0, by rw [hi.2]; exact c8⟩,
        by omega, by rw [hi.2]; omega⟩)
    8 (row + 1) col false ⟨by omega, rfl⟩
  unfold checkVerticalChecked checkVertical
  rw [read_eq _ _ _ hin]
  simp only [Option.bind]
  by_cases hne : s.board.get row col ≠ EMPTY
  · rw [if_pos hne, if_pos hne]
  · rw [if_neg hne, if_neg hne]
    rw [hup.1]
    simp only [Option.bind]
    rw [andRead_eq _ _ _ _ _ (fun hc => by
      obtain ⟨_, h2⟩ := and_true_left _ _ hc
      exact (inBoard_iff _ _).2 ⟨of_decide_eq_true h2, hup.2.1, c0, c8⟩)]
    simp only [Option.bind]
    rw [hdown.1]
    simp only [Option.bind]
    rw [andRead_eq _ _ _ _ _ (fun hc => by
      obtain ⟨_, h2⟩ := and_true_left _ _ hc
      exact (inBoard_iff _ _).2 ⟨hdown.2.1, of_decide_eq_true h2, c0, c8⟩)]

theorem checkHorizontalChecked_eq (row col : Int) (s : State) (hin : inBoard row col = true) :
    checkHorizontalChecked row col s = some (checkHorizontal row col s) := by
  obtain ⟨h0, h8, c0, c8⟩ := (inBoard_iff row col).1 hin
  have hl := rayLoopChecked_eq (fun _ c => decide (c ≥ 0)) s.board (opponentOf s.turn) 0 (-1)
    (fun r c => c < 8 ∧ r = row)
    (fun r c hi hg => by
      have hc : 0 ≤ c := of_decide_eq_true hg
      exact ⟨(inBoard_iff r c).2 ⟨by rw [hi.2]; exact h0, by rw [hi.2]; exact h8, hc, hi.1⟩,
        by omega, by rw [hi.2]; omega⟩)
    8 row (col - 1) false ⟨by omega, rfl⟩
  have hr := rayLoopChecked_eq (fun _ c => decide (c < 8)) s.board (opponentOf s.turn) 0 1
    (fun r c => 0 ≤ c ∧ r = row)
    (fun r c hi hg => by
      have hc : c < 8 := of_decide_eq_true hg
      exact ⟨(inBoard_iff r c).2 ⟨by rw [hi.2]; exact h0, by rw [hi.2]; exact h8, hi.1, hc⟩,
        by omega, by rw [hi.2]; omega⟩)
    8 row (col + 1) false ⟨by omega, rfl⟩
  unfold checkHorizontalChecked checkHorizontal
  rw [read_eq _ _ _ hin]
  simp only [Option.bind]
  by_cases hne : s.board.get row col ≠ EMPTY
  · rw [if_pos hne, if_pos hne]
  · rw [if_neg hne, if_neg hne]
    rw [hl.1]
    simp only [Option.bind]
    rw [andRead_eq _ _ _ _ _ (fun hc => by
      obtain ⟨_, h2⟩ := and_true_left _ _ hc
      exact (inBoard_iff _ _).2 ⟨h0, h8, of_decide_eq_true h2, hl.2.1⟩)]
    simp only [Option.bind]
    rw [hr.1]
    simp only [Option.bind]
    rw [andRead_eq _ _ _ _ _ (fun hc => by
      obtain ⟨_, h2⟩ := and_true_left _ _ hc
      exact (inBoard_iff _ _).2 ⟨h0, h8, hr.2.1, of_decide_eq_true h2⟩)]

theorem diagonalLoopChecked_eq (row col : Int) (g : Grid) (cur opp : Char) :
    ∀ ds : List (Int × Int),
      diagonalLoopChecked row col g cur opp ds =
        some (ds.any (fun d =>
          (rayLoop inBoard g opp d.1 d.2 8 (row + d.1) (col + d.2) false).2.2 &&
          inBoard (rayLoop inBoard g opp d.1 d.2 8 (row + d.1) (col + d.2) false).1
            (rayLoop inBoard g opp d.1 d.2 8 (row + d.1) (col + d.2) false).2.1 &&
          g.get (rayLoop inBoard g opp d.1 d.2 8 (row + d.1) (col + d.2) false).1
            (rayLoop inBoard g opp d.1 d.2 8 (row + d.1) (col + d.2) false).2.1 == cur)) := by
  intro ds
  induction ds with
  | nil => rfl
  | cons d ds ih =>
    have hray := rayLoopChecked_eq inBoard g opp d.1 d.2 (fun _ _ => True)
      (fun r c _ hg => ⟨hg, trivial⟩) 8 (row + d.1) (col + d.2) false trivial
    unfold diagonalLoopChecked
    rw [hray.1]
    simp only [Option.bind]
    rw [andRead_eq _ _ _ _ _ (fun hc => (and_true_left _ _ hc).2)]
    simp only [Option.bind, List.any_cons]
    rw [ih]
    generalize ((rayLoop inBoard g opp d.1 d.2 8 (row + d.1) (col + d.2) false).2.2 &&
      inBoard (rayLoop inBoard g opp d.1 d.2 8 (row + d.1) (col + d.2) false).1
        (rayLoop inBoard g opp d.1 d.2 8 (row + d.1) (col + d.2) false).2.1 &&
      g.get (rayLoop inBoard g opp d.1 d.2 8 (row + d.1) (col + d.2) false).1
        (rayLoop inBoard g opp d.1 d.2 8 (row + d.1) (col + d.2) false).2.1 == cur) = b
    cases b <;> rfl

theorem checkDiagonalChecked_eq (row col : Int) (s : State) (hin : inBoard row col = true) :
    checkDiagonalChecked row col s = some (checkDiagonal row col s) := by
  unfold checkDiagonalChecked checkDiagonal
  rw [read_eq _ _ _ hin]
  simp only [Option.bind]
  by_cases hne : s.board.get row col ≠ EMPTY
  · rw [if_pos hne, if_pos hne]
  · rw [if_neg hne, if_neg hne]
    exact diagonalLoopChecked_eq row col s.board s.turn (opponentOf s.turn) diagonalDirections

/-- `isValidMove` reads no cell outside the board, for every pair of
integers. -/
theorem isValidMoveChecked_eq (row col : Int) (s : State) :
    isValidMoveChecked row col s = some (isValidMove row col s) := by
  unfold isValidMoveChecked isValidMove
  by_cases hb : row < 0 ∨ row ≥ 8 ∨ col < 0 ∨ col ≥ 8
  · rw [if_pos hb, if_pos hb]
  · rw [if_neg hb, if_neg hb]
    have hin : inBoard row col = true := (inBoard_iff row col).2 (by omega)
    rw [read_eq _ _ _ hin]
    simp only [Option.bind]
    by_cases hne : s.board.get row col ≠ EMPTY
    · rw [if_pos hne, if_pos hne]
    · rw [if_neg hne, if_neg hne, checkVerticalChecked_eq row col s hin,
        checkHorizontalChecked_eq row col s hin, checkDiagonalChecked_eq row col s hin]
      simp only [Option.bind]
      cases checkVertical row col s <;> cases checkHorizontal row col s <;> rfl

theorem resolveDirChecked_eq (row col : Int) (cur opp : Char) (g : Grid) (d : Int × Int) :
    resolveDirChecked row col cur opp g d = some (resolveDir row col cur opp g d) := by
  have hc := collectLoopChecked_eq g opp d.1 d.2 8 (row + d.1) (col + d.2) []
    (fun p hp => absurd hp (List.not_mem_nil _))
  unfold resolveDirChecked resolveDir
  rw [hc.1]
  simp only [Option.bind]
  rw [andRead_eq _ _ _ _ _ (fun h => (and_true_left _ _ h).2)]
  simp only [Option.bind]
  by_cases hb : (!(collectLoop g opp d.1 d.2 8 (row + d.1) (col + d.2) []).2.2.isEmpty &&
      inBoard (collectLoop g opp d.1 d.2 8 (row + d.1) (col + d.2) []).1
        (collectLoop g opp d.1 d.2 8 (row + d.1) (col + d.2) []).2.1 &&
      g.get (collectLoop g opp d.1 d.2 8 (row + d.1) (col + d.2) []).1
        (collectLoop g opp d.1 d.2 8 (row + d.1) (col + d.2) []).2.1 == cur) = true
  · rw [if_pos hb, if_pos hb]
    exact flipAllChecked_eq cur _ g hc.2
  · rw [if_neg hb, if_neg hb]

theorem resolveLoopChecked_eq (row col : Int) (cur opp : Char) :
    ∀ (ds : List (Int × Int)) (g : Grid),
      resolveLoopChecked row col cur opp g ds = some (ds.foldl (resolveDir row col cur opp) g) := by
  intro ds
  induction ds with
  | nil => intro g; rfl
  | cons d ds ih =>
    intro g
    unfold resolveLoopChecked
    rw [resolveDirChecked_eq]
    simp only [Option.bind, List.foldl_cons]
    exact ih _

/-- `resolve` reads and writes no cell outside the board, for every pair of
integers. -/
theorem resolveChecked_eq (row col : Int) (s : State) :
    resolveChecked row col s = some (resolve row col s) := by
  unfold resolveChecked resolve
  rw [isValidMoveChecked_eq]
  simp only [Option.bind]
  by_cases hv : isValidMove row col s = true
  · have hin := ((isValidMove_iff row col s).1 hv).1
    rw [hv]
    simp only [Bool.not_true, Bool.false_eq_true, if_false]
    rw [write_eq _ _ _ _ hin]
    simp only [Option.bind]
    rw [resolveLoopChecked_eq]
  · have hf : isValidMove row col s = false := by simpa using hv
    rw [hf]
    rfl

/-! ## C27 -/

/-- C27. For every state and every pair of integers `(row, col)`, negative and
`>= 8` values included, `isValidMove` and `resolve` read and write no grid cell
whose row or column index is outside `0..7`: run with every array access
checked, they never meet an access outside the array and return what the
unchecked functions return; coordinates outside the board are answered with
`false` and the unchanged state. -/
theorem bounds_respected (s : State) (row col : Int) :
    isValidMoveChecked row col s = some (isValidMove row col s) ∧
    resolveChecked row col s = some (resolve row col s) ∧
    (inBoard row col = false → isValidMove row col s = false ∧ resolve row col s = s) := by
  refine ⟨isValidMoveChecked_eq row col s, resolveChecked_eq row col s, ?_⟩
  intro hout
  have hf : isValidMove row col s = false := by
    cases hv : isValidMove row col s
    · rfl
    · rw [((isValidMove_iff row col s).1 hv).1] at hout
      exact absurd hout (by simp)
  exact ⟨hf, resolve_of_illegal s row col hf⟩

/-! ## The children that a call creates -/

/-- Every child that `minimax` leaves in a fresh node is the node of a
recursive call for an entry of the cache. -/
theorem minimax_kids (ord : IterOrder) (fuel : Nat) (s : State) (node : SearchNode) (d : Int)
    (flag : Bool) (n : Nat) (hch : node.children = []) :
    ∀ c, c ∈ (minimax ord fuel s node d flag n).2.1.children →
      d ≠ 0 ∧ ∃ f e n2, fuel = f + 1 ∧ e ∈ ord.enum s.updatePossibleStates.possibleStates ∧
        c = (minimax ord f e.2
          (makeChild e.1 e.2 d (!flag) (node.moveSequence ++ " -> " ++ e.1))
          (d - 1) (!flag) n2).2.1 := by
  intro c hc
  have hno : ∀ v : Int, c ∈ ({ node with heuristic := v } : SearchNode).children → False := by
    intro v h
    have h2 : c ∈ node.children := h
    rw [hch] at h2
    exact absurd h2 (List.not_mem_nil _)
  cases fuel with
  | zero => exact absurd hc (fun h => hno _ h)
  | succ f =>
    unfold minimax at hc
    simp only [] at hc
    by_cases hd : d = 0
    · rw [if_pos hd] at hc
      exact absurd hc (fun h => hno _ h)
    · rw [if_neg hd] at hc
      by_cases he : s.updatePossibleStates.possibleStates.isEmpty = true
      · rw [if_pos he] at hc
        exact absurd hc (fun h => hno _ h)
      · rw [if_neg he] at hc
        obtain ⟨kids, h1, _, h3, h4⟩ := childLoop_spec
          (fun s c k => minimax ord f s c (d - 1) (!flag) k) flag d
          (ord.enum s.updatePossibleStates.possibleStates) node
          (if flag then INT_MIN else INT_MAX) (n + 1)
        generalize childLoop (fun s c k => minimax ord f s c (d - 1) (!flag) k) flag d
          (ord.enum s.updatePossibleStates.possibleStates) node
          (if flag then INT_MIN else INT_MAX) (n + 1) = r at h1 hc
        have hk : r.2.1.children = kids := by
          rw [h1]; show node.children ++ kids = kids; rw [hch]; rfl
        have hc2 : c ∈ kids := by rw [← hk]; exact hc
        obtain ⟨e, hmem⟩ := zip_mem_right _ kids c (le_of_eq h3) hc2
        obtain ⟨n2, hn2⟩ := h4 _ hmem
        have hhd := minimax_header ord f e.2
          (makeChild e.1 e.2 d (!flag) (node.moveSequence ++ " -> " ++ e.1)) (d - 1) (!flag) n2
        simp only at hn2
        rw [finish_eq _ hhd.2] at hn2
        exact ⟨hd, f, e, n2, rfl, (List.of_mem_zip hmem).1, hn2⟩

/-- The same for `minimax` with pruning. -/
theorem minimaxAB_kids (ord : IterOrder) (fuel : Nat) (s : State) (node : SearchNode) (d : Int)
    (flag : Bool) (alpha beta : Int) (n : Nat) (hch : node.children = []) :
    ∀ c, c ∈ (minimaxAB ord fuel s node d flag alpha beta n).2.1.children →
      d ≠ 0 ∧ ∃ f e a b n2, fuel = f + 1 ∧
        e ∈ ord.enum s.updatePossibleStates.possibleStates ∧
        c = (minimaxAB ord f e.2
          (makeChild e.1 e.2 d (!flag) (node.moveSequence ++ " -> " ++ e.1))
          (d - 1) (!flag) a b n2).2.1 := by
  intro c hc
  have hno : ∀ v : Int, c ∈ ({ node with heuristic := v } : SearchNode).children → False := by
    intro v h
    have h2 : c ∈ node.children := h
    rw [hch] at h2
    exact absurd h2 (List.not_mem_nil _)
  cases fuel with
  | zero => exact absurd hc (fun h => hno _ h)
  | succ f =>
    unfold minimaxAB at hc
    simp only [] at hc
    by_cases hd : d = 0
    · rw [if_pos hd] at hc
      exact absurd hc (fun h => hno _ h)
    · rw [if_neg hd] at hc
      by_cases he : s.updatePossibleStates.possibleStates.isEmpty = true
      · rw [if_pos he] at hc
        exact absurd hc (fun h => hno _ h)
      · rw [if_neg he] at hc
        obtain ⟨pre, kids, p1, _, h1, _, h3, h4⟩ := childLoopAB_spec
          (fun s c a b k => minimaxAB ord f s c (d - 1) (!flag) a b k) flag d
          (ord.enum s.updatePossibleStates.possibleStates) node
          (if flag then INT_MIN else INT_MAX) alpha beta (n + 1)
        generalize childLoopAB (fun s c a b k => minimaxAB ord f s c (d - 1) (!flag) a b k)
          flag d (ord.enum s.updatePossibleStates.possibleStates) node
          (if flag then INT_MIN else INT_MAX) alpha beta (n + 1) = r at h1 hc
        have hk : r.2.1.children = kids := by
          rw [h1]; show node.children ++ kids = kids; rw [hch]; rfl
        have hc2 : c ∈ kids := by rw [← hk]; exact hc
        obtain ⟨e, hmem⟩ := zip_mem_right pre kids c (le_of_eq h3) hc2
        obtain ⟨a, b, n2, hn2⟩ := h4 _ hmem
        have hhd := minimaxAB_header ord f e.2
          (makeChild e.1 e.2 d (!flag) (node.moveSequence ++ " -> " ++ e.1)) (d - 1) (!flag)
          a b n2
        simp only at hn2
        rw [finish_eq _ hhd.2] at hn2
        exact ⟨hd, f, e, a, b, n2, rfl, p1.subset (List.of_mem_zip hmem).1, hn2⟩

/-- Every child of the root that `getBestMove` builds is the node of the call
of `minimax` for an entry of the cache. -/
theorem root_kids (ord : IterOrder) (bot : OthelloBot) (s : State) (hne : legalCells s ≠ []) :
    ∀ c, c ∈ (builtRoot ord bot s).children →
      ∃ e n2, e ∈ ord.enum s.updatePossibleStates.possibleStates ∧
        c = (rootEval ord bot (s.turn == 'w') e.2
          (makeChild e.1 e.2 (bot.m_depth - 1) (!(s.turn == 'w')) e.1) n2).2.1 := by
  intro c hc
  obtain ⟨_, _, _, _, _, _, _, _, _, h3, h4, _⟩ := getBestMove_spec ord bot s hne
  obtain ⟨e, hmem⟩ := zip_mem_right (ord.enum s.updatePossibleStates.possibleStates) _ c
    (le_of_eq h3) hc
  obtain ⟨n2, hn2⟩ := h4 _ hmem
  obtain ⟨_, _, x3⟩ := rootEval_explored ord bot (s.turn == 'w') e.2
    (makeChild e.1 e.2 (bot.m_depth - 1) (!(s.turn == 'w')) e.1) n2 rfl
  simp only at hn2
  rw [finish_eq _ x3] at hn2
  exact ⟨e, n2, (List.of_mem_zip hmem).1, hn2⟩

/-! ## C31 -/

/-- C31. In the tree built by `getBestMove`, the root has `(row, col) =
(-1, -1)`; every other node carries the coordinates of a legal move of its
parent's position, and its position is the one that move leads to: the grid
is the grid `resolve` returns for the move, and `whiteScore` and `blackScore`
are the numbers of white and black discs on that grid.  (`StateOf` gives each
node the position obtained by playing the moves on the way from the root.) -/
theorem node_records_move (ord : IterOrder) (bot : OthelloBot) (s : State)
    (h : ∃ r c : Int, isValidMove r c s = true) :
    ∃ root, (bot.getBestMove ord s).2.1.m_searchTree.m_root = some root ∧
      (root.row, root.col) = (-1, -1) ∧
      ∀ n t c, StateOf root s n t → c ∈ n.children →
        isValidMove c.row c.col t = true ∧
        (successor t (c.row, c.col)).board = (resolve c.row c.col t).board ∧
        c.whiteScore = (tally (successor t (c.row, c.col)).board 'w' : Nat) ∧
        c.blackScore = (tally (successor t (c.row, c.col)).board 'b' : Nat) := by
  obtain ⟨r0, c0, hv0⟩ := h
  have hne : legalCells s ≠ [] := List.ne_nil_of_mem ((mem_legalCells s (r0, c0)).2 hv0)
  obtain ⟨hex, hnf⟩ := root_explored ord bot s hne
  obtain ⟨g1, g2, _⟩ := getBestMove_spec ord bot s hne
  refine ⟨builtRoot ord bot s, by rw [(getBestMove_bot ord bot s hne).1], by rw [g1, g2], ?_⟩
  intro n t c ht hc
  obtain ⟨fl, x1, _, _⟩ := explored_stateOf ord _ s _ _ (fun _ _ => True)
    (fun _ _ _ _ _ => trivial) hex hnf trivial n t ht
  obtain ⟨rc, hv, c1, c2, ⟨_, y2, y3, _⟩, _⟩ := explored_child ord _ t fl n c x1 hc
  have e : (c.row, c.col) = rc := by rw [c1, c2]
  obtain ⟨f1, _, f3, f4, _⟩ := successor_fields t rc
  rw [e, c1, c2]
  exact ⟨hv, f1, by rw [y2, f3], by rw [y3, f4]⟩

/-- The default bot on the opening position, where black has the legal move
`(2, 3)`. -/
theorem node_records_move_witness :
    (∃ r c : Int, isValidMove r c State.new = true) ∧
    ∃ root, (OthelloBot.new.getBestMove IterOrder.insertion State.new).2.1.m_searchTree.m_root =
        some root ∧ (root.row, root.col) = (-1, -1) := by
  obtain ⟨root, h1, h2, _⟩ := node_records_move IterOrder.insertion OthelloBot.new State.new
    ⟨2, 3, by decide⟩
  exact ⟨⟨2, 3, by decide⟩, root, h1, h2⟩

/-! ## C32 -/

/-- The key of a cache entry is the key of the coordinates read back from
it. -/
theorem entry_key (ord : IterOrder) (s : State) (e : String × State)
    (h : e ∈ ord.enum s.updatePossibleStates.possibleStates) :
    e.1 = key (keyRow e.1) (keyCol e.1) := by
  obtain ⟨rc, hv, hk, _⟩ := mem_enum_fields ord s e h
  have hin := ((isValidMove_iff rc.1 rc.2 s).1 hv).1
  rw [hk, keyRow_key _ _ hin, keyCol_key _ _ hin]

theorem minimax_trails (ord : IterOrder) :
    ∀ (fuel : Nat) (s : State) (node : SearchNode) (d : Int) (flag : Bool) (n : Nat),
      node.children = [] → Trails (minimax ord fuel s node d flag n).2.1 := by
  intro fuel
  induction fuel with
  | zero =>
    intro s node d flag n hch
    apply Trails.mk <;> intro c hc <;>
      exact absurd (minimax_kids ord 0 s node d flag n hch c hc).2
        (fun ⟨f, _, _, h, _⟩ => Nat.succ_ne_zero f h.symm)
  | succ f ih =>
    intro s node d flag n hch
    have hR := (minimax_header ord (f + 1) s node d flag n).1
    apply Trails.mk
    · intro c hc
      obtain ⟨_, f2, e, n2, hf, he, hcq⟩ := minimax_kids ord (f + 1) s node d flag n hch c hc
      have hh := (minimax_header ord f2 e.2
        (makeChild e.1 e.2 d (!flag) (node.moveSequence ++ " -> " ++ e.1)) (d - 1) (!flag) n2).1
      rw [← hcq] at hh
      rw [hh.2.2.2.2.2.2.2, hR.2.2.2.2.2.2.2, hh.1, hh.2.1]
      show node.moveSequence ++ " -> " ++ e.1 =
        node.moveSequence ++ " -> " ++ key (keyRow e.1) (keyCol e.1)
      rw [← entry_key ord s e he]
    · intro c hc
      obtain ⟨_, f2, e, n2, hf, _, hcq⟩ := minimax_kids ord (f + 1) s node d flag n hch c hc
      have : f2 = f := by omega
      subst this
      rw [hcq]
      exact ih _ _ _ _ _ rfl

theorem minimaxAB_trails (ord : IterOrder) :
    ∀ (fuel : Nat) (s : State) (node : SearchNode) (d : Int) (flag : Bool) (alpha beta : Int)
      (n : Nat),
      node.children = [] → Trails (minimaxAB ord fuel s node d flag alpha beta n).2.1 := by
  intro fuel
  induction fuel with
  | zero =>
    intro s node d flag alpha beta n hch
    apply Trails.mk <;> intro c hc <;>
      exact absurd (minimaxAB_kids ord 0 s node d flag alpha beta n hch c hc).2
        (fun ⟨f, _, _, _, _, h, _⟩ => Nat.succ_ne_zero f h.symm)
  | succ f ih =>
    intro s node d flag alpha beta n hch
    have hR := (minimaxAB_header ord (f + 1) s node d flag alpha beta n).1
    apply Trails.mk
    · intro c hc
      obtain ⟨_, f2, e, a, b, n2, hf, he, hcq⟩ :=
        minimaxAB_kids ord (f + 1) s node d flag alpha beta n hch c hc
      have hh := (minimaxAB_header ord f2 e.2
        (makeChild e.1 e.2 d (!flag) (node.moveSequence ++ " -> " ++ e.1)) (d - 1) (!flag)
        a b n2).1
      rw [← hcq] at hh
      rw [hh.2.2.2.2.2.2.2, hR.2.2.2.2.2.2.2, hh.1, hh.2.1]
      show node.moveSequence ++ " -> " ++ e.1 =
        node.moveSequence ++ " -> " ++ key (keyRow e.1) (keyCol e.1)
      rw [← entry_key ord s e he]
    · intro c hc
      obtain ⟨_, f2, e, a, b, n2, hf, _, hcq⟩ :=
        minimaxAB_kids ord (f + 1) s node d flag alpha beta n hch c hc
      have : f2 = f := by omega
      subst this
      rw [hcq]
      exact ih _ _ _ _ _ _ _ rfl

/-- The children of the root: each carries its own key as `moveSequence`, and
the trails below it continue it. -/
theorem root_trails (ord : IterOrder) (bot : OthelloBot) (s : State) (hne : legalCells s ≠ []) :
    ∀ c, c ∈ (builtRoot ord bot s).children →
      c.moveSequence = key c.row c.col ∧ Trails c := by
  intro c hc
  obtain ⟨e, n2, he, hcq⟩ := root_kids ord bot s hne c hc
  obtain ⟨_, x2, _⟩ := rootEval_explored ord bot (s.turn == 'w') e.2
    (makeChild e.1 e.2 (bot.m_depth - 1) (!(s.turn == 'w')) e.1) n2 rfl
  rw [← hcq] at x2
  constructor
  · rw [x2.2.2.2.2.2.2.2, x2.1, x2.2.1]
    show e.1 = key (keyRow e.1) (keyCol e.1)
    exact entry_key ord s e he
  · rw [hcq]
    unfold rootEval
    cases bot.m_alphaBetaOn
    · simp only [Bool.false_eq_true, if_false]
      exact minimax_trails ord _ _ _ _ _ _ rfl
    · simp only [if_true]
      exact minimaxAB_trails ord _ _ _ _ _ _ _ _ rfl

theorem joinKeys_append (l : List String) (x : String) (h : l ≠ []) :
    joinKeys (l ++ [x]) = joinKeys l ++ " -> " ++ x := by
  cases l with
  | nil => exact absurd rfl h
  | cons k rest =>
    show (rest ++ [x]).foldl (fun acc k2 => acc ++ " -> " ++ k2) k = _
    rw [List.foldl_append]
    rfl

/-- C32. In the tree built by `getBestMove`, the root's `moveSequence` is
`"Root"` and every other node's `moveSequence` is the trail of the moves from
the root to that node: the keys `row:col` of the moves on its path, in order,
joined by `" -> "`; so a child of the root has just its own key and a deeper
node has its parent's `moveSequence` followed by `" -> "` and its own key. -/
theorem move_trails (ord : IterOrder) (bot : OthelloBot) (s : State)
    (h : ∃ r c : Int, isValidMove r c s = true) :
    ∃ root, (bot.getBestMove ord s).2.1.m_searchTree.m_root = some root ∧
      root.moveSequence = "Root" ∧
      (∀ n p, MovesTo root n p → p ≠ [] →
        n.moveSequence = joinKeys (p.map (fun rc => key rc.1 rc.2))) ∧
      (∀ c, c ∈ root.children → c.moveSequence = key c.row c.col) ∧
      (∀ n p c, MovesTo root n p → p ≠ [] → c ∈ n.children →
        c.moveSequence = n.moveSequence ++ " -> " ++ key c.row c.col) := by
  obtain ⟨r0, c0, hv0⟩ := h
  have hne : legalCells s ≠ [] := List.ne_nil_of_mem ((mem_legalCells s (r0, c0)).2 hv0)
  obtain ⟨_, _, _, _, _, _, _, g8, _⟩ := getBestMove_spec ord bot s hne
  have hroot := root_trails ord bot s hne
  have key0 : ∀ n p, MovesTo (builtRoot ord bot s) n p →
      (p = [] → n = builtRoot ord bot s) ∧
      (p ≠ [] → Trails n ∧ n.moveSequence = joinKeys (p.map (fun rc => key rc.1 rc.2))) := by
    intro n p hm
    induction hm with
    | root => exact ⟨fun _ => rfl, fun hp => absurd rfl hp⟩
    | child n c p _ hc ih =>
      refine ⟨fun hp => absurd hp (by simp), fun _ => ?_⟩
      by_cases hp : p = []
      · have hn := ih.1 hp
        rw [hn] at hc
        obtain ⟨m1, m2⟩ := hroot c hc
        refine ⟨m2, ?_⟩
        rw [hp, m1]
        rfl
      · obtain ⟨t1, t2⟩ := ih.2 hp
        cases t1 with
        | mk _ q1 q2 =>
          refine ⟨q2 c hc, ?_⟩
          have hmap : (p ++ [(c.row, c.col)]).map (fun rc => key rc.1 rc.2) =
              p.map (fun rc => key rc.1 rc.2) ++ [key c.row c.col] := by
            rw [List.map_append]; rfl
          have hne2 : p.map (fun rc => key rc.1 rc.2) ≠ [] := by
            intro h0
            exact hp (List.map_eq_nil_iff.1 h0)
          rw [q1 c hc, t2, hmap, joinKeys_append _ _ hne2]
  refine ⟨builtRoot ord bot s, by rw [(getBestMove_bot ord bot s hne).1], g8,
    fun n p hm hp => ((key0 n p hm).2 hp).2, fun c hc => (hroot c hc).1, ?_⟩
  intro n p c hm hp hc
  obtain ⟨t1, _⟩ := (key0 n p hm).2 hp
  cases t1 with
  | mk _ q1 _ => exact q1 c hc

/-- The default bot on the opening position, where black has the legal move
`(2, 3)`. -/
theorem move_trails_witness :
    (∃ r c : Int, isValidMove r c State.new = true) ∧
    ∃ root, (OthelloBot.new.getBestMove IterOrder.insertion State.new).2.1.m_searchTree.m_root =
        some root ∧ root.moveSequence = "Root" := by
  obtain ⟨root, h1, h2, _⟩ := move_trails IterOrder.insertion OthelloBot.new State.new
    ⟨2, 3, by decide⟩
  exact ⟨⟨2, 3, by decide⟩, root, h1, h2⟩

/-! ## C33 -/

theorem no_move_of_legalCells_nil (s : State) (h : legalCells s = []) :
    ∀ r c : Int, isValidMove r c s = false := by
  intro r c
  cases hv : isValidMove r c s
  · rfl
  · have := (mem_legalCells s (r, c)).2 hv
    rw [h] at this
    exact absurd this (List.not_mem_nil _)

theorem legalCells_nil_of_no_move (s : State) (h : ∀ r c : Int, isValidMove r c s = false) :
    legalCells s = [] := by
  apply List.eq_nil_iff_forall_not_mem.2
  intro rc hrc
  have := (mem_legalCells s rc).1 hrc
  rw [h rc.1 rc.2] at this
  exact Bool.noConfusion this

/-- After `updatePossibleStates` the cache has no entry under the key of a
cell that is not a legal move. -/
theorem find_illegal (s : State) (row col : Int) (h : isValidMove row col s = false) :
    mapFind s.updatePossibleStates.possibleStates (key row col) = none := by
  obtain ⟨_, _, hnone⟩ := updatePossibleStates_find s
  apply hnone
  intro r c hv e
  have hin := ((isValidMove_iff r c s).1 hv).1
  obtain ⟨e1, e2⟩ := key_inj row col r c hin e.symm
  rw [e1, e2, hv] at h
  exact Bool.noConfusion h

/-- After `updatePossibleStates`, `place` on a cell that is not a legal move
finds no entry and leaves the state as it is. -/
theorem place_illegal (s : State) (row col : Int) (h : isValidMove row col s = false) :
    s.updatePossibleStates.place row col = s.updatePossibleStates := by
  unfold State.place
  rw [find_illegal s row col h]

/-- C33. No forced pass: for every state in which the side to move has no legal
move but the other colour has at least one, `isGameOver` returns false,
`getBestMove` returns `(-1, -1)`, `place(row, col)` leaves the state unchanged
for every coordinate after `updatePossibleStates`, and none of these
operations changes the turn. -/
theorem no_forced_pass (ord : IterOrder) (bot : OthelloBot) (s : State)
    (hnone : ∀ r c : Int, isValidMove r c s = false)
    (hother : ∃ r c : Int, isValidMove r c { s with turn := opponentOf s.turn } = true) :
    (isGameOver s).1 = false ∧ (isGameOver s).2.turn = s.turn ∧
    (bot.getBestMove ord s).1 = (-1, -1) ∧ (bot.getBestMove ord s).2.2.turn = s.turn ∧
    s.updatePossibleStates.turn = s.turn ∧
    ∀ row col : Int,
      s.updatePossibleStates.place row col = s.updatePossibleStates ∧
      (s.updatePossibleStates.place row col).turn = s.turn := by
  obtain ⟨⟨e1, e2, _, _⟩, _, _⟩ := updatePossibleStates_find s
  have hnil := legalCells_nil_of_no_move s hnone
  have hemp := (updatePossibleStates_isEmpty s).2 hnone
  refine ⟨?_, by rw [isGameOver_state, e2], by rw [getBestMove_none ord bot s hnil],
    by rw [getBestMove_none ord bot s hnil]; exact e2, e2,
    fun row col => ⟨place_illegal s row col (hnone row col),
      by rw [place_illegal s row col (hnone row col), e2]⟩⟩
  have hcongr : ∀ r c : Int,
      isValidMove r c { s.updatePossibleStates with
        turn := if s.updatePossibleStates.turn = 'b' then 'w' else 'b' } =
      isValidMove r c { s with turn := opponentOf s.turn } := by
    intro r c
    apply isValidMove_congr
    · simp only [e1]
    · simp only [e2, opponentOf]
  unfold isGameOver
  simp only [hemp, Bool.not_true, Bool.false_eq_true, if_false]
  cases hc : ({ s.updatePossibleStates with
      turn := if s.updatePossibleStates.turn = 'b' then 'w'
        else 'b' } : State).updatePossibleStates.possibleStates.isEmpty
  · rfl
  · exfalso
    obtain ⟨r, c, hv⟩ := hother
    have hall := (updatePossibleStates_isEmpty _).1 hc r c
    rw [hcongr, hv] at hall
    exact Bool.noConfusion hall

set_option maxRecDepth 100000 in
/-- White is to move in `passPosition` and has no legal move; black could play
`(0, 2)`. -/
theorem no_forced_pass_witness :
    (∀ r c : Int, isValidMove r c passPosition = false) ∧
    (∃ r c : Int,
      isValidMove r c { passPosition with turn := opponentOf passPosition.turn } = true) ∧
    (isGameOver passPosition).1 = false ∧
    (OthelloBot.new.getBestMove IterOrder.insertion passPosition).1 = (-1, -1) :=
  ⟨no_move_of_legalCells_nil passPosition (by decide), ⟨0, 2, by decide⟩,
    (no_forced_pass IterOrder.insertion OthelloBot.new passPosition
      (no_move_of_legalCells_nil passPosition (by decide)) ⟨0, 2, by decide⟩).1,
    (no_forced_pass IterOrder.insertion OthelloBot.new passPosition
      (no_move_of_legalCells_nil passPosition (by decide)) ⟨0, 2, by decide⟩).2.2.1⟩

/-! ## C34 -/

/-- C34. `State::place(row, col)` replaces the state by the cached successor
stored under the key `row:col` if that key is in `possibleStates` and otherwise
leaves the whole state unchanged.  Immediately after `updatePossibleStates`,
`place` changes the state if and only if `isValidMove(row, col)` holds, and in
that case the new grid is the grid of `resolve`, the turn is flipped, the
counts are the tallies of the new grid and the new state's `possibleStates` is
empty. -/
theorem place_spec (s : State) (row col : Int) :
    (mapContains s.possibleStates (key row col) = false → s.place row col = s) ∧
    (mapContains s.possibleStates (key row col) = true →
      ∃ v, mapFind s.possibleStates (key row col) = some v ∧ s.place row col = v) ∧
    (s.updatePossibleStates.place row col ≠ s.updatePossibleStates ↔
      isValidMove row col s = true) ∧
    (isValidMove row col s = true →
      (s.updatePossibleStates.place row col).board = (resolve row col s).board ∧
      (s.updatePossibleStates.place row col).turn = (if s.turn = 'b' then 'w' else 'b') ∧
      (s.updatePossibleStates.place row col).turn ≠ s.turn ∧
      (s.updatePossibleStates.place row col).white =
        (tally (s.updatePossibleStates.place row col).board 'w' : Nat) ∧
      (s.updatePossibleStates.place row col).black =
        (tally (s.updatePossibleStates.place row col).board 'b' : Nat) ∧
      (s.updatePossibleStates.place row col).possibleStates = []) := by
  obtain ⟨⟨_, e2, _, _⟩, hfind, _⟩ := updatePossibleStates_find s
  have hplace : isValidMove row col s = true →
      s.updatePossibleStates.place row col = successor s (row, col) := by
    intro hv
    unfold State.place
    rw [hfind row col hv]
  refine ⟨?_, ?_, ?_, ?_⟩
  · intro h
    have hnone : mapFind s.possibleStates (key row col) = none := by
      cases hf : mapFind s.possibleStates (key row col) with
      | none => rfl
      | some v =>
        have := (mapContains_iff s.possibleStates (key row col)).2 ⟨v, hf⟩
        rw [h] at this
        exact Bool.noConfusion this
    unfold State.place
    rw [hnone]
  · intro h
    obtain ⟨v, hv⟩ := (mapContains_iff s.possibleStates (key row col)).1 h
    refine ⟨v, hv, ?_⟩
    unfold State.place
    rw [hv]
  · constructor
    · intro hne
      cases hv : isValidMove row col s
      · exact absurd (place_illegal s row col hv) hne
      · rfl
    · intro hv heq
      have ht : (s.updatePossibleStates.place row col).turn = s.updatePossibleStates.turn := by
        rw [heq]
      rw [hplace hv, (successor_fields s (row, col)).2.1, e2] at ht
      exact opponentOf_ne s.turn ht
  · intro hv
    obtain ⟨f1, f2, f3, f4, f5⟩ := successor_fields s (row, col)
    rw [hplace hv]
    refine ⟨f1, f2, ?_, f3, f4, ?_⟩
    · rw [f2]; exact opponentOf_ne s.turn
    · rw [f5]; exact resolve_possibleStates s row col hv

/-! ## C39 -/

theorem line_bound (s : State) (k : Nat) (h : Line s k) : k ≤ depthBound s := by
  induction h with
  | done s => exact Nat.zero_le _
  | move s t rc k hv ht _ ih =>
    have := successor_bound s rc hv
    rw [← ht] at this
    omega

/-- A cell that a legal move flips held an opponent disc. -/
theorem flipped_opp (s : State) (row col : Int) (h : isValidMove row col s = true) (r c : Int)
    (hf : ∃ d, d ∈ directions ∧
      FlippedAlong s.board s.turn (opponentOf s.turn) row col d r c) :
    s.board.get r c = opponentOf s.turn :=
  onCapturedRun_opp _ _ _ _ _ _ _
    ((onCapturedRun_iff _ _ _ _ _ _ _ ((isValidMove_iff row col s).1 h).1
      (opponentOf_ne _).symm).2 hf)

/-- C39. Discs are never removed: for every state whose turn is a colour (not
the empty marker) and every legal move, every cell that is non-empty in the
input grid is non-empty in the grid returned by `resolve`; a cell is empty
before and non-empty after exactly when it is the played cell; the number of
empty cells decreases by exactly one; and no line of play from the position
has more moves than the position has empty cells. -/
theorem discs_never_removed (s : State) (row col : Int) (h : isValidMove row col s = true)
    (hturn : s.turn ≠ EMPTY) :
    (∀ r c : Int, s.board.get r c ≠ EMPTY → (resolve row col s).board.get r c ≠ EMPTY) ∧
    (∀ r c : Int,
      (s.board.get r c = EMPTY ∧ (resolve row col s).board.get r c ≠ EMPTY) ↔
        (r = row ∧ c = col)) ∧
    tally (resolve row col s).board EMPTY + 1 = tally s.board EMPTY ∧
    (∀ k, Line s k → k ≤ tally s.board EMPTY) ∧
    (∀ k, Line (successor s (row, col)) k → k + 1 ≤ tally s.board EMPTY) := by
  have hv := (isValidMove_iff row col s).1 h
  have hbound : depthBound s = tally s.board EMPTY := by
    unfold depthBound
    rw [if_neg hturn]
  refine ⟨?_, ?_, tally_resolve_empty s row col h hturn, ?_, ?_⟩
  · intro r c hne
    rw [resolve_board_get s row col h]
    split_ifs
    · exact hturn
    · exact hturn
    · exact hne
  · intro r c
    rw [resolve_board_get s row col h]
    constructor
    · rintro ⟨he, hne⟩
      by_contra hrc
      rw [if_neg hrc] at hne
      by_cases hf : ∃ d, d ∈ directions ∧
          FlippedAlong s.board s.turn (opponentOf s.turn) row col d r c
      · have := flipped_opp s row col h r c hf
        rw [he] at this
        exact opponentOf_ne_empty _ this.symm
      · rw [if_neg hf] at hne
        exact hne he
    · rintro ⟨rfl, rfl⟩
      refine ⟨hv.2.1, ?_⟩
      rw [if_pos ⟨rfl, rfl⟩]
      exact hturn
  · intro k hk
    have := line_bound s k hk
    omega
  · intro k hk
    have := line_bound _ k hk
    have := successor_bound s (row, col) h
    omega

set_option maxRecDepth 100000 in
/-- In the opening position black plays `(2, 3)`: the 60 empty cells become 59,
and the one-move line of play is within the bound. -/
theorem discs_never_removed_witness :
    isValidMove 2 3 State.new = true ∧ State.new.turn ≠ EMPTY ∧
    tally State.new.board EMPTY = 60 ∧
    tally (resolve 2 3 State.new).board EMPTY + 1 = tally State.new.board EMPTY ∧
    Line State.new 1 :=
  ⟨by decide, by decide, by decide,
    (discs_never_removed State.new 2 3 (by decide) (by decide)).2.2.1,
    Line.move State.new _ (2, 3) 0 (by decide) rfl (Line.done _)⟩

/-! ## C40 -/

/-- The successor of a legal move depends only on the grid and the turn of the
state, not on its counters or its cache. -/
theorem successor_congr (s t : State) (rc : Int × Int) (hb : t.board = s.board)
    (ht : t.turn = s.turn) (hv : isValidMove rc.1 rc.2 s = true) :
    successor t rc = successor s rc := by
  have hv2 : isValidMove rc.1 rc.2 t = true := by
    rw [isValidMove_congr rc.1 rc.2 s t hb ht]; exact hv
  unfold successor
  rw [updateScore_eq, updateScore_eq]
  unfold resolve
  rw [hv, hv2]
  simp only [Bool.not_true, Bool.false_eq_true, if_false, hb, ht]

theorem legalCells_congr (s t : State) (hb : t.board = s.board) (ht : t.turn = s.turn) :
    legalCells t = legalCells s := by
  unfold legalCells
  apply List.filter_congr
  intro rc _
  rw [isValidMove_congr rc.1 rc.2 s t hb ht]

/-- The cache computed by `updatePossibleStates` depends only on the grid and
the turn. -/
theorem cache_congr (s t : State) (hb : t.board = s.board) (ht : t.turn = s.turn) :
    t.updatePossibleStates.possibleStates = s.updatePossibleStates.possibleStates := by
  rw [updatePossibleStates_list, updatePossibleStates_list, legalCells_congr s t hb ht]
  apply List.map_congr_left
  intro rc hrc
  rw [successor_congr s t rc hb ht ((mem_legalCells s rc).1 hrc)]

theorem state_ext (a b : State) (h1 : a.board = b.board) (h2 : a.turn = b.turn)
    (h3 : a.white = b.white) (h4 : a.black = b.black)
    (h5 : a.possibleStates = b.possibleStates) : a = b := by
  cases a; cases b
  simp only [State.mk.injEq]
  exact ⟨h1, h2, h3, h4, h5⟩

/-- C40. `State::updatePossibleStates` and `Board::isGameOver` change nothing
but the cache: after either call the grid, the turn and the white/black counts
are as before, and `possibleStates` holds the legal-move set of the state's own
turn (a key `row:col` is in it exactly when the cell is a legal move, and it
maps to the successor of that move); calling `updatePossibleStates` twice in a
row gives the same as calling it once. -/
theorem cache_only (s : State) :
    (s.updatePossibleStates.board = s.board ∧ s.updatePossibleStates.turn = s.turn ∧
      s.updatePossibleStates.white = s.white ∧ s.updatePossibleStates.black = s.black) ∧
    ((isGameOver s).2.board = s.board ∧ (isGameOver s).2.turn = s.turn ∧
      (isGameOver s).2.white = s.white ∧ (isGameOver s).2.black = s.black) ∧
    (s.updatePossibleStates.possibleStates =
      (legalCells s).map (fun rc => (key rc.1 rc.2, successor s rc))) ∧
    ((isGameOver s).2.possibleStates =
      (legalCells s).map (fun rc => (key rc.1 rc.2, successor s rc))) ∧
    (∀ rc : Int × Int, rc ∈ legalCells s ↔ isValidMove rc.1 rc.2 s = true) ∧
    (∀ row col : Int,
      mapContains s.updatePossibleStates.possibleStates (key row col) = true ↔
        isValidMove row col s = true) ∧
    (∀ row col : Int, isValidMove row col s = true →
      mapFind s.updatePossibleStates.possibleStates (key row col) =
        some (successor s (row, col))) ∧
    s.updatePossibleStates.updatePossibleStates.possibleStates =
      s.updatePossibleStates.possibleStates ∧
    s.updatePossibleStates.updatePossibleStates = s.updatePossibleStates := by
  obtain ⟨⟨e1, e2, e3, e4⟩, hfind, _⟩ := updatePossibleStates_find s
  obtain ⟨⟨g1, g2, g3, g4⟩, _, _⟩ := updatePossibleStates_find s.updatePossibleStates
  have hcache := cache_congr s s.updatePossibleStates e1 e2
  refine ⟨⟨e1, e2, e3, e4⟩, ?_, updatePossibleStates_list s, ?_, mem_legalCells s, ?_, hfind,
    hcache, state_ext _ _ g1 g2 g3 g4 hcache⟩
  · rw [isGameOver_state]
    exact ⟨e1, e2, e3, e4⟩
  · rw [isGameOver_state]
    exact updatePossibleStates_list s
  · intro row col
    rw [mapContains_iff]
    constructor
    · rintro ⟨v, hv⟩
      cases hval : isValidMove row col s
      · rw [find_illegal s row col hval] at hv
        exact Option.noConfusion hv
      · rfl
    · intro hv
      exact ⟨_, hfind row col hv⟩

/-! ## C35 -/

/-- When every call made by the loop of `getBestMove` adds one to the counter,
the loop adds the number of entries it visits. -/
theorem rootLoop_steps (eval : State → SearchNode → Nat → SearchResult) (flag : Bool)
    (m_depth : Int) :
    ∀ (l : List (String × State)) (root : SearchNode) (bv : Int) (bm : Int × Int) (n : Nat),
      (∀ e, e ∈ l → ∀ c k, (eval e.2 c k).2.2 = k + 1) →
      (rootLoop eval flag m_depth l root bv bm n).2.2.2 = n + l.length := by
  intro l
  induction l with
  | nil => intro root bv bm n _; rfl
  | cons e l ih =>
    intro root bv bm n h
    obtain ⟨key, nextState⟩ := e
    unfold rootLoop
    simp only []
    have hstep := h (key, nextState) (List.mem_cons_self _ _)
      (makeChild key nextState (m_depth - 1) (!flag) key) n
    simp only at hstep
    generalize eval nextState (makeChild key nextState (m_depth - 1) (!flag) key) n = r
      at hstep ⊢
    have hrest : ∀ e2, e2 ∈ l → ∀ c k, (eval e2.2 c k).2.2 = k + 1 :=
      fun e2 h2 => h e2 (List.mem_cons_of_mem _ h2)
    rw [List.length_cons]
    split
    · rw [ih _ _ _ _ hrest, hstep]; omega
    · rw [ih _ _ _ _ hrest, hstep]; omega

theorem minimax_leaf_count (ord : IterOrder) (f : Nat) (s : State) (node : SearchNode)
    (flag : Bool) (n : Nat) : (minimax ord (f + 1) s node 0 flag n).2.2 = n + 1 := by
  unfold minimax
  simp only [if_true]

theorem minimaxAB_leaf_count (ord : IterOrder) (f : Nat) (s : State) (node : SearchNode)
    (flag : Bool) (alpha beta : Int) (n : Nat) :
    (minimaxAB ord (f + 1) s node 0 flag alpha beta n).2.2 = n + 1 := by
  unfold minimaxAB
  simp only [if_true]

/-- At depth 1 the loop of `getBestMove` counts the root and one node for each
legal move. -/
theorem depth_one_run (ord : IterOrder) (bot : OthelloBot) (s : State)
    (hd : bot.m_depth = 1) : (rootRun ord bot s).2.2.2 = 1 + (legalCells s).length := by
  have hlen : (ord.enum s.updatePossibleStates.possibleStates).length =
      (legalCells s).length := by
    rw [(ord.perm _).length_eq, updatePossibleStates_list, List.length_map]
  unfold rootRun
  rw [rootLoop_steps _ _ _ _ _ _ _ _ (fun e _ c k => by
    unfold rootEval
    have hz : bot.m_depth - 1 = 0 := by rw [hd]; rfl
    have hf : searchFuel = 65 + 1 := rfl
    rw [hz, hf]
    cases bot.m_alphaBetaOn
    · simp only [Bool.false_eq_true, if_false]
      exact minimax_leaf_count ord 65 _ _ _ _
    · simp only [if_true]
      exact minimaxAB_leaf_count ord 65 _ _ _ _ _ _), hlen]

/-- C35. At configured depth 1, for every state with a legal move, the
visited-node count after `getBestMove` (`getTreeSize`, and `getSize` of the
tree) is the same with and without alpha-beta pruning (`bot` and
`bot.toggleAlphaBeta`), and equals 1 plus the number of legal moves of the
state. -/
theorem depth_one_count (ord : IterOrder) (bot : OthelloBot) (s : State)
    (hd : bot.m_depth = 1) (h : ∃ r c : Int, isValidMove r c s = true) :
    (bot.getBestMove ord s).2.1.getTreeSize = 1 + (legalCells s).length ∧
    (bot.toggleAlphaBeta.getBestMove ord s).2.1.getTreeSize = 1 + (legalCells s).length ∧
    (bot.getBestMove ord s).2.1.m_searchTree.getSize = 1 + (legalCells s).length ∧
    (bot.toggleAlphaBeta.getBestMove ord s).2.1.m_searchTree.getSize =
      1 + (legalCells s).length ∧
    (bot.toggleAlphaBeta.getBestMove ord s).2.1.getTreeSize =
      (bot.getBestMove ord s).2.1.getTreeSize ∧
    (∀ rc : Int × Int, rc ∈ legalCells s ↔ isValidMove rc.1 rc.2 s = true) ∧
    (legalCells s).Nodup := by
  obtain ⟨r, c, hv⟩ := h
  have hne : legalCells s ≠ [] := List.ne_nil_of_mem ((mem_legalCells s (r, c)).2 hv)
  have h1 := depth_one_run ord bot s hd
  have h2 := depth_one_run ord bot.toggleAlphaBeta s hd
  have g1 := (getBestMove_bot ord bot s hne).1
  have g2 := (getBestMove_bot ord bot.toggleAlphaBeta s hne).1
  refine ⟨?_, ?_, ?_, ?_, ?_, mem_legalCells s, cells_nodup.filter _⟩
  · rw [g1]; exact h1
  · rw [g2]; exact h2
  · rw [g1]; exact h1
  · rw [g2]; exact h2
  · rw [g1, g2]
    exact h2.trans h1.symm

set_option maxRecDepth 100000 in
/-- A bot of depth 1 on the opening position, where black has the legal move
`(2, 3)`. -/
theorem depth_one_count_witness :
    (OthelloBot.ofDepth 1).m_depth = 1 ∧ (∃ r c : Int, isValidMove r c State.new = true) ∧
    ((OthelloBot.ofDepth 1).getBestMove IterOrder.insertion State.new).2.1.getTreeSize =
      1 + (legalCells State.new).length := by
  obtain ⟨h1, _⟩ := depth_one_count IterOrder.insertion (OthelloBot.ofDepth 1) State.new rfl
    ⟨2, 3, by decide⟩
  exact ⟨rfl, ⟨2, 3, by decide⟩, h1⟩

/-! ## C37 -/

theorem pathLen_cases (n : SearchNode) (j : Nat) (m : SearchNode) (h : PathLen n j m) :
    (j = 0 ∧ m = n) ∨ ∃ c j2, c ∈ n.children ∧ j = j2 + 1 ∧ PathLen c j2 m := by
  cases h with
  | stay => exact Or.inl ⟨rfl, rfl⟩
  | step _ c _ k hc hp => exact Or.inr ⟨c, k, hc, rfl, hp⟩

/-- Below a node that `minimax` has searched to depth `k` no node is more than
`k` edges down. -/
theorem minimax_paths (ord : IterOrder) :
    ∀ (k fuel : Nat) (s : State) (node : SearchNode) (flag : Bool) (n : Nat),
      node.children = [] →
      ∀ j m, PathLen (minimax ord fuel s node (k : Int) flag n).2.1 j m → j ≤ k := by
  intro k
  induction k with
  | zero =>
    intro fuel s node flag n hch j m hp
    rcases pathLen_cases _ _ _ hp with ⟨hj, _⟩ | ⟨c, j2, hc, _, _⟩
    · omega
    · exact absurd rfl (minimax_kids ord fuel s node _ flag n hch c hc).1
  | succ k ih =>
    intro fuel s node flag n hch j m hp
    rcases pathLen_cases _ _ _ hp with ⟨hj, _⟩ | ⟨c, j2, hc, hj, hp2⟩
    · omega
    · obtain ⟨_, f, e, n2, _, _, hceq⟩ := minimax_kids ord fuel s node _ flag n hch c hc
      have hk : ((k + 1 : Nat) : Int) - 1 = (k : Int) := by push_cast; omega
      rw [hk] at hceq
      rw [hceq] at hp2
      have := ih f e.2 _ (!flag) n2 rfl j2 m hp2
      omega

theorem minimaxAB_paths (ord : IterOrder) :
    ∀ (k fuel : Nat) (s : State) (node : SearchNode) (flag : Bool) (alpha beta : Int) (n : Nat),
      node.children = [] →
      ∀ j m, PathLen (minimaxAB ord fuel s node (k : Int) flag alpha beta n).2.1 j m →
        j ≤ k := by
  intro k
  induction k with
  | zero =>
    intro fuel s node flag alpha beta n hch j m hp
    rcases pathLen_cases _ _ _ hp with ⟨hj, _⟩ | ⟨c, j2, hc, _, _⟩
    · omega
    · exact absurd rfl (minimaxAB_kids ord fuel s node _ flag alpha beta n hch c hc).1
  | succ k ih =>
    intro fuel s node flag alpha beta n hch j m hp
    rcases pathLen_cases _ _ _ hp with ⟨hj, _⟩ | ⟨c, j2, hc, hj, hp2⟩
    · omega
    · obtain ⟨_, f, e, a, b, n2, _, _, hceq⟩ :=
        minimaxAB_kids ord fuel s node _ flag alpha beta n hch c hc
      have hk : ((k + 1 : Nat) : Int) - 1 = (k : Int) := by push_cast; omega
      rw [hk] at hceq
      rw [hceq] at hp2
      have := ih f e.2 _ (!flag) a b n2 rfl j2 m hp2
      omega

/-- Below the root that `getBestMove` builds with the depth `d ≥ 1` no node is
more than `d` edges down. -/
theorem root_paths (ord : IterOrder) (bot : OthelloBot) (s : State) (d : Nat)
    (hd : bot.m_depth = (d : Int)) (h1 : 1 ≤ d) (hne : legalCells s ≠ []) :
    ∀ j m, PathLen (builtRoot ord bot s) j m → j ≤ d := by
  intro j m hp
  rcases pathLen_cases _ _ _ hp with ⟨hj, _⟩ | ⟨c, j2, hc, hj, hp2⟩
  · omega
  · obtain ⟨e, n2, _, hceq⟩ := root_kids ord bot s hne c hc
    have hk : bot.m_depth - 1 = ((d - 1 : Nat) : Int) := by rw [hd]; omega
    unfold rootEval at hceq
    rw [hk] at hceq
    rw [hceq] at hp2
    cases hab : bot.m_alphaBetaOn
    · rw [hab] at hp2
      simp only [Bool.false_eq_true, if_false] at hp2
      have := minimax_paths ord (d - 1) _ _ _ _ _ rfl j2 m hp2
      omega
    · rw [hab] at hp2
      simp only [if_true] at hp2
      have := minimaxAB_paths ord (d - 1) _ _ _ _ _ _ _ rfl j2 m hp2
      omega

/-- C37. For every state with a legal move and every configured depth
`d ≥ 1` (either pruning setting), the tree built by `getBestMove` satisfies
`getMaxDepth() ≤ d` and `getMaxDepth() ≥ 1`; no node is more than `d` edges
below the root, and a node `d` edges below the root has no children. -/
theorem tree_depth_bound (ord : IterOrder) (bot : OthelloBot) (s : State) (d : Nat)
    (hd : bot.m_depth = (d : Int)) (h1 : 1 ≤ d) (h : ∃ r c : Int, isValidMove r c s = true) :
    ∃ root, (bot.getBestMove ord s).2.1.m_searchTree.m_root = some root ∧
      (bot.getBestMove ord s).2.1.m_searchTree.getMaxDepth ≤ (d : Int) ∧
      1 ≤ (bot.getBestMove ord s).2.1.m_searchTree.getMaxDepth ∧
      (∀ (j : Nat) (m : SearchNode), PathLen root j m → j ≤ d) ∧
      (∀ m : SearchNode, PathLen root d m → m.children = []) := by
  obtain ⟨r, c, hv⟩ := h
  have hne : legalCells s ≠ [] := List.ne_nil_of_mem ((mem_legalCells s (r, c)).2 hv)
  have hb := (getBestMove_bot ord bot s hne).1
  have hpaths := root_paths ord bot s d hd h1 hne
  obtain ⟨⟨k, leaf, a1, _, a3⟩, hlow⟩ := calculateMaxDepth_spec (builtRoot ord bot s) 0
  obtain ⟨_, _, _, _, _, _, _, _, _, h3, _, _⟩ := getBestMove_spec ord bot s hne
  have hkid : ∃ c, c ∈ (builtRoot ord bot s).children := by
    cases hch : (builtRoot ord bot s).children with
    | nil =>
      rw [hch] at h3
      exact absurd (List.length_eq_zero.1 h3.symm) (enum_ne_nil ord s hne)
    | cons c rest => exact ⟨c, List.mem_cons_self _ _⟩
  obtain ⟨kid, hkid⟩ := hkid
  have hmax : (bot.getBestMove ord s).2.1.m_searchTree.getMaxDepth =
      calculateMaxDepth (builtRoot ord bot s) 0 := by
    rw [hb]; rfl
  refine ⟨builtRoot ord bot s, by rw [hb], ?_, ?_, hpaths, ?_⟩
  · rw [hmax, a3]
    have := hpaths k leaf a1
    omega
  · rw [hmax]
    have := hlow 1 kid (PathLen.step _ kid kid 0 hkid (PathLen.stay kid))
    omega
  · intro m hp
    cases hch : m.children with
    | nil => rfl
    | cons c rest =>
      exfalso
      have hc : c ∈ m.children := by rw [hch]; exact List.mem_cons_self _ _
      have hlong : PathLen (builtRoot ord bot s) (d + 1) c := by
        have happ : ∀ (a : SearchNode) (j : Nat) (b : SearchNode), PathLen a j b →
            ∀ x, x ∈ b.children → PathLen a (j + 1) x := by
          intro a j b hab
          induction hab with
          | stay n => intro x hx; exact PathLen.step n x x 0 hx (PathLen.stay x)
          | step n c2 m2 k2 hc2 _ ih => intro x hx; exact PathLen.step n c2 x (k2 + 1) hc2 (ih x hx)
        exact happ _ _ _ hp c hc
      have := hpaths (d + 1) c hlong
      omega

/-- The default bot (depth 4) on the opening position, where black has the
legal move `(2, 3)`. -/
theorem tree_depth_bound_witness :
    OthelloBot.new.m_depth = ((4 : Nat) : Int) ∧ 1 ≤ 4 ∧
    (∃ r c : Int, isValidMove r c State.new = true) ∧
    (OthelloBot.new.getBestMove IterOrder.insertion State.new).2.1.m_searchTree.getMaxDepth ≤
      ((4 : Nat) : Int) ∧
    1 ≤ (OthelloBot.new.getBestMove IterOrder.insertion State.new).2.1.m_searchTree.getMaxDepth := by
  obtain ⟨_, _, h2, h3, _⟩ := tree_depth_bound IterOrder.insertion OthelloBot.new State.new 4
    rfl (by decide) ⟨2, 3, by decide⟩
  exact ⟨rfl, by decide, ⟨2, 3, by decide⟩, h2, h3⟩

/-! ## C36 -/

/-- The pruning loop of a maximizing node, against the full `max`, for any
window. -/
theorem abFold_max_any (val : State → Int → Int → Int) (m : State → Int) (alpha beta : Int) :
    ∀ (l : List (String × State)) (best a T : Int),
      (∀ e, e ∈ l → ∀ a2, a2 < beta → Window (val e.2 a2 beta) (m e.2) a2 beta) →
      alpha ≤ a → a ≤ max alpha best → a < beta →
      (alpha < best → T = best) → (best ≤ alpha → T ≤ best) →
      Window (abFold val true l best a beta)
        (l.foldl (fun b e => pick true b (m e.2)) T) alpha beta := by
  intro l
  induction l with
  | nil =>
    intro best a T _ ha1 ha2 hab h1 h2
    unfold abFold Window
    simp only [List.foldl_nil]
    refine ⟨fun h => h2 h, fun h _ => (h1 h).symm, fun h => ?_⟩
    have := h1 (by omega)
    omega
  | cons e l ih =>
    intro best a T hval ha1 ha2 hab h1 h2
    have hw := hval e (List.mem_cons_self _ _) a hab
    unfold abFold
    simp only [if_true, List.foldl_cons]
    unfold Window at hw
    obtain ⟨w1, w2, w3⟩ := hw
    by_cases hbrk : beta ≤ max a (val e.2 a beta)
    · rw [if_pos hbrk]
      have hx : beta ≤ val e.2 a beta := by omega
      have hge := foldl_max_ge m l (pick true T (m e.2))
      have := w3 hx
      simp only [pick, if_true] at hge ⊢
      unfold Window
      by_cases hb : alpha < best
      · have := h1 hb
        refine ⟨fun h => ?_, fun h hh => ?_, fun _ => ?_⟩ <;> omega
      · have := h2 (by omega)
        refine ⟨fun h => ?_, fun h hh => ?_, fun _ => ?_⟩ <;> omega
    · rw [if_neg hbrk]
      have hxb : val e.2 a beta < beta := by omega
      apply ih (pick true best (val e.2 a beta)) (max a (val e.2 a beta))
        (pick true T (m e.2)) (fun e2 h2 => hval e2 (List.mem_cons_of_mem _ h2))
      · omega
      · simp only [pick, if_true]; omega
      · omega
      · simp only [pick, if_true]
        intro hb
        by_cases hxa : a < val e.2 a beta
        · have := w2 hxa hxb
          by_cases hb2 : alpha < best
          · have := h1 hb2; omega
          · have := h2 (by omega); omega
        · have := w1 (by omega)
          by_cases hb2 : alpha < best
          · have := h1 hb2; omega
          · omega
      · simp only [pick, if_true]
        intro hb
        have := h2 (by omega)
        by_cases hxa : a < val e.2 a beta
        · have := w2 hxa hxb; omega
        · have := w1 (by omega); omega

/-- The pruning loop of a minimizing node, against the full `min`, for any
window. -/
theorem abFold_min_any (val : State → Int → Int → Int) (m : State → Int) (alpha beta : Int) :
    ∀ (l : List (String × State)) (best b T : Int),
      (∀ e, e ∈ l → ∀ b2, alpha < b2 → Window (val e.2 alpha b2) (m e.2) alpha b2) →
      b ≤ beta → min beta best ≤ b → alpha < b →
      (best < beta → T = best) → (beta ≤ best → best ≤ T) →
      Window (abFold val false l best alpha b)
        (l.foldl (fun b e => pick false b (m e.2)) T) alpha beta := by
  intro l
  induction l with
  | nil =>
    intro best b T _ hb1 hb2 hab h1 h2
    unfold abFold Window
    simp only [List.foldl_nil]
    refine ⟨fun h => ?_, fun _ h => (h1 h).symm, fun h => h2 h⟩
    have := h1 (by omega)
    omega
  | cons e l ih =>
    intro best b T hval hb1 hb2 hab h1 h2
    have hw := hval e (List.mem_cons_self _ _) b hab
    unfold abFold
    simp only [Bool.false_eq_true, if_false, List.foldl_cons]
    unfold Window at hw
    obtain ⟨w1, w2, w3⟩ := hw
    by_cases hbrk : min b (val e.2 alpha b) ≤ alpha
    · rw [if_pos hbrk]
      have hx : val e.2 alpha b ≤ alpha := by omega
      have hle := foldl_min_le m l (pick false T (m e.2))
      have := w1 hx
      simp only [pick, Bool.false_eq_true, if_false] at hle ⊢
      unfold Window
      by_cases hb : best < beta
      · have := h1 hb
        refine ⟨fun _ => ?_, fun h hh => ?_, fun h => ?_⟩ <;> omega
      · have := h2 (by omega)
        refine ⟨fun _ => ?_, fun h hh => ?_, fun h => ?_⟩ <;> omega
    · rw [if_neg hbrk]
      have hxa : alpha < val e.2 alpha b := by omega
      apply ih (pick false best (val e.2 alpha b)) (min b (val e.2 alpha b))
        (pick false T (m e.2)) (fun e2 h2 => hval e2 (List.mem_cons_of_mem _ h2))
      · omega
      · simp only [pick, Bool.false_eq_true, if_false]; omega
      · omega
      · simp only [pick, Bool.false_eq_true, if_false]
        intro hbb
        by_cases hxb : val e.2 alpha b < b
        · have := w2 hxa hxb
          by_cases hb2 : best < beta
          · have := h1 hb2; omega
          · have := h2 (by omega); omega
        · have := w3 (by omega)
          by_cases hb2 : best < beta
          · have := h1 hb2; omega
          · omega
      · simp only [pick, Bool.false_eq_true, if_false]
        intro hbb
        have := h2 (by omega)
        by_cases hxb : val e.2 alpha b < b
        · have := w2 hxa hxb; omega
        · have := w3 (by omega); omega

/-- Alpha-beta window property for every window `alpha < beta`. -/
theorem abValue_window_any (ord : IterOrder) :
    ∀ (fuel : Nat) (s : State) (d : Int) (flag : Bool) (alpha beta : Int),
      alpha < beta →
      Window (abValue ord fuel s d flag alpha beta) (mmValue ord fuel s d flag) alpha beta := by
  intro fuel
  induction fuel with
  | zero =>
    intro s d flag alpha beta _
    rw [abValue_zero, mmValue_zero]
    exact ⟨fun _ => le_refl _, fun _ _ => rfl, fun _ => le_refl _⟩
  | succ f ih =>
    intro s d flag alpha beta hab
    rw [abValue_succ, mmValue_succ]
    by_cases hd : d = 0
    · rw [if_pos hd, if_pos hd]
      exact ⟨fun _ => le_refl _, fun _ _ => rfl, fun _ => le_refl _⟩
    · rw [if_neg hd, if_neg hd]
      by_cases he : legalCells s = []
      · rw [if_pos he, if_pos he]
        exact ⟨fun _ => le_refl _, fun _ _ => rfl, fun _ => le_refl _⟩
      · rw [if_neg he, if_neg he]
        cases flag
        · exact abFold_min_any (fun t a b => abValue ord f t (d - 1) (!false) a b)
            (fun t => mmValue ord f t (d - 1) (!false)) alpha beta _ (worst false) beta
            (worst false)
            (fun e _ b2 h1 => ih e.2 (d - 1) (!false) alpha b2 h1)
            (le_refl _) (min_le_left _ _) hab (fun _ => rfl) (fun _ => le_refl _)
        · exact abFold_max_any (fun t a b => abValue ord f t (d - 1) (!true) a b)
            (fun t => mmValue ord f t (d - 1) (!true)) alpha beta _ (worst true) alpha
            (worst true)
            (fun e _ a2 h1 => ih e.2 (d - 1) (!true) a2 beta h1)
            (le_refl _) (le_max_left _ _) hab (fun _ => rfl) (fun _ => le_refl _)

/-- The pruning loop started with `alpha < beta` calls `eval` only with windows
`a < b`: an `eval2` that agrees with `eval` on those windows gives the same
run. -/
theorem childLoopAB_windows (eval eval2 : State → SearchNode → Int → Int → Nat → SearchResult)
    (flag : Bool) (depth : Int)
    (h : ∀ t c a b k, a < b → eval2 t c a b k = eval t c a b k) :
    ∀ (l : List (String × State)) (node : SearchNode) (best alpha beta : Int) (n : Nat),
      alpha < beta →
      childLoopAB eval2 flag depth l node best alpha beta n =
        childLoopAB eval flag depth l node best alpha beta n := by
  intro l
  induction l with
  | nil => intro node best alpha beta n _; rfl
  | cons e l ih =>
    intro node best alpha beta n hab
    obtain ⟨key, nextState⟩ := e
    unfold childLoopAB
    simp only []
    rw [h _ _ _ _ _ hab]
    generalize eval nextState (makeChild key nextState depth (!flag)
      (node.moveSequence ++ " -> " ++ key)) alpha beta n = r
    by_cases hbrk : (if flag then beta else min beta r.1) ≤
        (if flag then max alpha r.1 else alpha)
    · rw [if_pos hbrk, if_pos hbrk]
    · rw [if_neg hbrk, if_neg hbrk]
      exact ih _ _ _ _ _ (by omega)

/-- C36. Alpha-beta window property: for every state, depth, polarity flag and
integers `alpha < beta`, let `v` be the value returned by the pruning `minimax`
and `m` the value returned by the non-pruning `minimax` on the same state,
depth and flag (with the same call budget, whatever node and counter they are
given).  Then `v = m` whenever `alpha < v < beta`; `m ≤ v` whenever
`v ≤ alpha`; and `m ≥ v` whenever `v ≥ beta`.  Every recursive call made by
the pruning `minimax` is itself made with `alpha < beta`: the call is the
depth-0 or no-move leaf, or the loop run with any `eval2` that agrees with the
recursive call on the windows `a < b`. -/
theorem window_property (ord : IterOrder) (fuel : Nat) (s : State) (d : Int) (flag : Bool)
    (alpha beta : Int) (hab : alpha < beta) :
    (∀ (node node2 : SearchNode) (n n2 : Nat),
      (alpha < (minimaxAB ord fuel s node d flag alpha beta n).1 →
        (minimaxAB ord fuel s node d flag alpha beta n).1 < beta →
        (minimaxAB ord fuel s node d flag alpha beta n).1 =
          (minimax ord fuel s node2 d flag n2).1) ∧
      ((minimaxAB ord fuel s node d flag alpha beta n).1 ≤ alpha →
        (minimax ord fuel s node2 d flag n2).1 ≤
          (minimaxAB ord fuel s node d flag alpha beta n).1) ∧
      (beta ≤ (minimaxAB ord fuel s node d flag alpha beta n).1 →
        (minimaxAB ord fuel s node d flag alpha beta n).1 ≤
          (minimax ord fuel s node2 d flag n2).1)) ∧
    (∀ (eval2 : State → SearchNode → Int → Int → Nat → SearchResult) (node : SearchNode)
        (n : Nat),
      (∀ t c a b k, a < b → eval2 t c a b k = minimaxAB ord fuel t c (d - 1) (!flag) a b k) →
      minimaxAB ord (fuel + 1) s node d flag alpha beta n =
        if d = 0 then
          (s.white - s.black, { node with heuristic := s.white - s.black }, n + 1)
        else if s.updatePossibleStates.possibleStates.isEmpty then
          (s.updatePossibleStates.white - s.updatePossibleStates.black,
            { node with
              heuristic := s.updatePossibleStates.white - s.updatePossibleStates.black },
            n + 1)
        else
          ((childLoopAB eval2 flag d (ord.enum s.updatePossibleStates.possibleStates) node
              (if flag then INT_MIN else INT_MAX) alpha beta (n + 1)).1,
            { (childLoopAB eval2 flag d (ord.enum s.updatePossibleStates.possibleStates) node
                (if flag then INT_MIN else INT_MAX) alpha beta (n + 1)).2.1 with
              heuristic :=
                (childLoopAB eval2 flag d (ord.enum s.updatePossibleStates.possibleStates) node
                  (if flag then INT_MIN else INT_MAX) alpha beta (n + 1)).1 },
            (childLoopAB eval2 flag d (ord.enum s.updatePossibleStates.possibleStates) node
              (if flag then INT_MIN else INT_MAX) alpha beta (n + 1)).2.2)) := by
  constructor
  · intro node node2 n n2
    rw [minimaxAB_value, minimax_value]
    obtain ⟨w1, w2, w3⟩ := abValue_window_any ord fuel s d flag alpha beta hab
    exact ⟨w2, w1, w3⟩
  · intro eval2 node n h
    rw [childLoopAB_windows _ eval2 flag d h _ _ _ _ _ _ hab]
    unfold minimaxAB
    simp only []

/-- The opening position searched with the window `(-1, 1)` to depth 2. -/
theorem window_property_witness :
    (-1 : Int) < 1 ∧
    ((minimaxAB IterOrder.insertion searchFuel State.new SearchNode.new 2 false (-1) 1 0).1 ≤
        -1 →
      (minimax IterOrder.insertion searchFuel State.new SearchNode.new 2 false 0).1 ≤
        (minimaxAB IterOrder.insertion searchFuel State.new SearchNode.new 2 false (-1) 1 0).1) :=
  ⟨by decide,
    ((window_property IterOrder.insertion searchFuel State.new 2 false (-1) 1 (by decide)).1
      SearchNode.new SearchNode.new 0 0).2.1⟩

/-! ## C38 -/

theorem node_children_nil (root : SearchNode) :
    ({ root with children := root.children ++ [] } : SearchNode) = root := by
  cases root
  simp only [List.append_nil]

/-- The loop of `getBestMove` reads nothing from the root node: the value, the
move and the counter it returns, and the children it appends, are the same for
any two roots. -/
theorem rootLoop_root (eval : State → SearchNode → Nat → SearchResult) (flag : Bool)
    (m_depth : Int) :
    ∀ (l : List (String × State)) (root root2 : SearchNode) (bv : Int) (bm : Int × Int)
      (n : Nat),
      (rootLoop eval flag m_depth l root bv bm n).2 =
        (rootLoop eval flag m_depth l root2 bv bm n).2 ∧
      ∃ kids : List SearchNode,
        (rootLoop eval flag m_depth l root bv bm n).1 =
          { root with children := root.children ++ kids } ∧
        (rootLoop eval flag m_depth l root2 bv bm n).1 =
          { root2 with children := root2.children ++ kids } := by
  intro l
  induction l with
  | nil =>
    intro root root2 bv bm n
    exact ⟨rfl, [], (node_children_nil root).symm, (node_children_nil root2).symm⟩
  | cons e l ih =>
    intro root root2 bv bm n
    obtain ⟨key, nextState⟩ := e
    unfold rootLoop
    simp only []
    generalize eval nextState (makeChild key nextState (m_depth - 1) (!flag) key) n = r
    by_cases hc : ((flag && decide (r.1 > bv)) || (!flag && decide (r.1 < bv))) = true
    · rw [if_pos hc, if_pos hc]
      obtain ⟨i1, kids, i2, i3⟩ := ih
        { root with children := root.children ++ [{ r.2.1 with heuristic := r.1 }] }
        { root2 with children := root2.children ++ [{ r.2.1 with heuristic := r.1 }] }
        r.1 (r.2.1.row, r.2.1.col) r.2.2
      refine ⟨i1, { r.2.1 with heuristic := r.1 } :: kids, ?_, ?_⟩
      · rw [i2]; simp only [List.append_assoc, List.singleton_append]
      · rw [i3]; simp only [List.append_assoc, List.singleton_append]
    · rw [if_neg hc, if_neg hc]
      obtain ⟨i1, kids, i2, i3⟩ := ih
        { root with children := root.children ++ [{ r.2.1 with heuristic := r.1 }] }
        { root2 with children := root2.children ++ [{ r.2.1 with heuristic := r.1 }] }
        bv bm r.2.2
      refine ⟨i1, { r.2.1 with heuristic := r.1 } :: kids, ?_, ?_⟩
      · rw [i2]; simp only [List.append_assoc, List.singleton_append]
      · rw [i3]; simp only [List.append_assoc, List.singleton_append]

/-- The run of the loop of `getBestMove` depends only on the grid and the turn
of the state, up to the counters copied into the root node. -/
theorem rootRun_congr (ord : IterOrder) (bot : OthelloBot) (s t : State)
    (hb : t.board = s.board) (ht : t.turn = s.turn) :
    (rootRun ord bot t).2 = (rootRun ord bot s).2 ∧
    (rootRun ord bot t).1.children = (rootRun ord bot s).1.children := by
  unfold rootRun
  rw [cache_congr s t hb ht, ht]
  obtain ⟨i1, kids, i2, i3⟩ := rootLoop_root (rootEval ord bot (s.turn == 'w'))
    (s.turn == 'w') bot.m_depth (ord.enum s.updatePossibleStates.possibleStates)
    { SearchNode.new with
      turn := s.turn, whiteScore := t.white, blackScore := t.black,
      depth := bot.m_depth, maximizing := s.turn == 'w', moveSequence := "Root" }
    { SearchNode.new with
      turn := s.turn, whiteScore := s.white, blackScore := s.black,
      depth := bot.m_depth, maximizing := s.turn == 'w', moveSequence := "Root" }
    (worst (s.turn == 'w')) (-1, -1) 1
  refine ⟨i1, ?_⟩
  rw [i2, i3]

/-! ## C38 -/

/-- The value of `minimax` without pruning does not depend on the order in
which the cache is visited. -/
theorem mmValue_order (ord ord2 : IterOrder) :
    ∀ (fuel : Nat) (s : State) (d : Int) (flag : Bool),
      mmValue ord fuel s d flag = mmValue ord2 fuel s d flag := by
  intro fuel
  induction fuel with
  | zero => intro s d flag; rw [mmValue_zero, mmValue_zero]
  | succ f ih =>
    intro s d flag
    rw [mmValue_succ, mmValue_succ]
    by_cases hd : d = 0
    · rw [if_pos hd, if_pos hd]
    · rw [if_neg hd, if_neg hd]
      by_cases he : legalCells s = []
      · rw [if_pos he, if_pos he]
      · rw [if_neg he, if_neg he]
        rw [(ord.perm _).foldl_eq' (fun x _ y _ z => pick_right_comm flag z _ _),
          (ord2.perm _).foldl_eq' (fun x _ y _ z => pick_right_comm flag z _ _)]
        exact foldl_congr_mem _ _ _ _ (fun b2 e _ => by rw [ih e.2 (d - 1) (!flag)])

/-- The heuristic of the root that `getBestMove` builds, as the fold of the
loop over the values of the cached successors. -/
theorem rootHeuristic_eq (ord : IterOrder) (bot : OthelloBot) (s : State)
    (hne : legalCells s ≠ []) :
    (builtRoot ord bot s).heuristic =
      (ord.enum s.updatePossibleStates.possibleStates).foldl
        (fun b e => pick (s.turn == 'w') b
          (mmValue ord searchFuel e.2 (bot.m_depth - 1) (!(s.turn == 'w'))))
        (worst (s.turn == 'w')) := by
  rw [(getBestMove_of_table ord bot s hne).1, rootKids_table ord bot s hne, List.map_map,
    List.foldl_map]
  rfl

/-- The heuristic of the root depends neither on the visiting order nor on
anything of the state but its grid and its turn. -/
theorem rootHeuristic_order (ord ord2 : IterOrder) (bot : OthelloBot) (s t : State)
    (hb : t.board = s.board) (ht : t.turn = s.turn) (hne : legalCells s ≠ []) :
    (builtRoot ord2 bot t).heuristic = (builtRoot ord bot s).heuristic := by
  have hne2 : legalCells t ≠ [] := by rw [legalCells_congr s t hb ht]; exact hne
  rw [rootHeuristic_eq ord2 bot t hne2, rootHeuristic_eq ord bot s hne, cache_congr s t hb ht,
    ht, (ord.perm _).foldl_eq' (fun x _ y _ z => pick_right_comm (s.turn == 'w') z _ _),
    (ord2.perm _).foldl_eq' (fun x _ y _ z => pick_right_comm (s.turn == 'w') z _ _)]
  exact foldl_congr_mem _ _ _ _ (fun b2 e _ => by
    rw [mmValue_order ord2 ord searchFuel e.2 (bot.m_depth - 1) (!(s.turn == 'w'))])

/-- The move that `getBestMove` returns is a legal move whose value is the
heuristic of the root. -/
theorem getBestMove_value (ord : IterOrder) (bot : OthelloBot) (s : State)
    (hne : legalCells s ≠ []) :
    isValidMove (bot.getBestMove ord s).1.1 (bot.getBestMove ord s).1.2 s = true ∧
    mmValue ord searchFuel (successor s (bot.getBestMove ord s).1) (bot.m_depth - 1)
      (!(s.turn == 'w')) = (builtRoot ord bot s).heuristic := by
  obtain ⟨_, _, _, _, _, _, _, _, _, h3, _, front, k, back, g1, g2, g3, _⟩ :=
    getBestMove_spec ord bot s hne
  have hk : k ∈ (builtRoot ord bot s).children := by
    rw [g1]; exact List.mem_append_right _ (List.mem_cons_self _ _)
  obtain ⟨e, hmem⟩ := zip_mem_right (ord.enum s.updatePossibleStates.possibleStates) _ k
    (le_of_eq h3) hk
  obtain ⟨rc, hv, _, _, f1, f2, f3, _⟩ := rootKid_fields ord bot s hne (e, k) hmem
  have hrc : (bot.getBestMove ord s).1 = rc := by
    rw [g2]
    simp only at f1 f2
    rw [f1, f2]
  rw [hrc, ← g3]
  exact ⟨hv, f3.symm⟩

set_option maxRecDepth 1000000 in
set_option maxHeartbeats 4000000 in
/-- C38, counterexample. `tiePosition` and `tieStale` have the same grid and
the same turn.  The map of the first is fresh (13 buckets) and is visited in
the order `0:2`, `0:5`, `0:0`; the map of the second held sixteen entries (29
buckets, kept by `clear()`) and is visited in the order `0:5`, `0:2`, `0:0`.
The three legal moves all have the value -3, the first visited is kept, and a
bot of depth 1 returns `(0, 2)` for the first state and `(0, 5)` for the
second. -/
theorem decision_inputs_counterexample :
    tiePosition.board = tieStale.board ∧ tiePosition.turn = tieStale.turn ∧
    bucketsAfter tiePosition.possibleStates = 13 ∧ bucketsAfter tieStale.possibleStates = 29 ∧
    ((OthelloBot.ofDepth 1).getBestMove (bucketOrder (bucketsAfter tiePosition.possibleStates))
      tiePosition).1 = (0, 2) ∧
    ((OthelloBot.ofDepth 1).getBestMove (bucketOrder (bucketsAfter tieStale.possibleStates))
      tieStale).1 = (0, 5) ∧
    ((OthelloBot.ofDepth 1).getBestMove (bucketOrder (bucketsAfter tiePosition.possibleStates))
      tiePosition).2.1.m_searchTree.m_root.map
        (fun root => (root.heuristic,
          root.children.map (fun k => ((k.row, k.col), k.heuristic)))) =
      some (-3, [((0, 2), -3), ((0, 5), -3), ((0, 0), -3)]) ∧
    ((OthelloBot.ofDepth 1).getBestMove (bucketOrder (bucketsAfter tieStale.possibleStates))
      tieStale).2.1.m_searchTree.m_root.map
        (fun root => (root.heuristic,
          root.children.map (fun k => ((k.row, k.col), k.heuristic)))) =
      some (-3, [((0, 5), -3), ((0, 2), -3), ((0, 0), -3)]) := by
  decide

/-- C38, amended. For any two states with equal grid and equal turn but
arbitrary white/black counts and arbitrary cached `possibleStates`, and the
same depth and pruning setting: when the cache is visited in the same order
`ord` in both calls, `getBestMove` returns the same coordinate and leaves the
same root heuristic, the same root children and the same visited-node count
(also for two bots `bot`, `bot2` of the same depth and pruning flag, when the
states have a legal move).  When the cache is visited in two different orders
`ord` and `ord2`, the root heuristic is still the same, and the two returned
coordinates are both `(-1, -1)` or both legal moves whose value is that root
heuristic: they can differ only between moves that tie for the best value. -/
theorem decision_same_order (ord ord2 : IterOrder) (bot bot2 : OthelloBot) (s1 s2 : State)
    (hb : s1.board = s2.board) (ht : s1.turn = s2.turn)
    (hd : bot2.m_depth = bot.m_depth) (hp : bot2.m_alphaBetaOn = bot.m_alphaBetaOn) :
    ((bot.getBestMove ord s1).1 = (bot.getBestMove ord s2).1 ∧
      (bot.getBestMove ord s1).2.1.m_searchTree.m_root.map (fun r => r.heuristic) =
        (bot.getBestMove ord s2).2.1.m_searchTree.m_root.map (fun r => r.heuristic) ∧
      (bot.getBestMove ord s1).2.1.m_searchTree.m_root.map (fun r => r.children) =
        (bot.getBestMove ord s2).2.1.m_searchTree.m_root.map (fun r => r.children) ∧
      (bot.getBestMove ord s1).2.1.getTreeSize = (bot.getBestMove ord s2).2.1.getTreeSize ∧
      (bot.getBestMove ord s1).2.1.m_searchTree.getSize =
        (bot.getBestMove ord s2).2.1.m_searchTree.getSize) ∧
    (bot.getBestMove ord s1).1 = (bot2.getBestMove ord s2).1 ∧
    ((∃ r c : Int, isValidMove r c s1 = true) →
      (bot.getBestMove ord s1).2.1.m_searchTree.m_root.map (fun r => r.heuristic) =
        (bot2.getBestMove ord s2).2.1.m_searchTree.m_root.map (fun r => r.heuristic) ∧
      (bot.getBestMove ord s1).2.1.m_searchTree.m_root.map (fun r => r.children) =
        (bot2.getBestMove ord s2).2.1.m_searchTree.m_root.map (fun r => r.children) ∧
      (bot.getBestMove ord s1).2.1.getTreeSize = (bot2.getBestMove ord s2).2.1.getTreeSize ∧
      (bot.getBestMove ord s1).2.1.m_searchTree.getSize =
        (bot2.getBestMove ord s2).2.1.m_searchTree.getSize) ∧
    (bot.getBestMove ord s1).2.1.m_searchTree.m_root.map (fun r => r.heuristic) =
      (bot.getBestMove ord2 s2).2.1.m_searchTree.m_root.map (fun r => r.heuristic) ∧
    ((∀ r c : Int, isValidMove r c s1 = false) →
      (bot.getBestMove ord s1).1 = (-1, -1) ∧ (bot.getBestMove ord2 s2).1 = (-1, -1)) ∧
    ((∃ r c : Int, isValidMove r c s1 = true) →
      ∃ root, (bot.getBestMove ord s1).2.1.m_searchTree.m_root = some root ∧
        isValidMove (bot.getBestMove ord s1).1.1 (bot.getBestMove ord s1).1.2 s1 = true ∧
        isValidMove (bot.getBestMove ord2 s2).1.1 (bot.getBestMove ord2 s2).1.2 s1 = true ∧
        mmValue ord searchFuel (successor s1 (bot.getBestMove ord s1).1) (bot.m_depth - 1)
          (!(s1.turn == 'w')) = root.heuristic ∧
        mmValue ord searchFuel (successor s1 (bot.getBestMove ord2 s2).1) (bot.m_depth - 1)
          (!(s1.turn == 'w')) = root.heuristic) := by
  have hl := legalCells_congr s2 s1 hb ht
  have hrun : rootRun ord bot2 s2 = rootRun ord bot s2 := by
    unfold rootRun rootEval
    rw [hd, hp]
  by_cases hne : legalCells s2 = []
  · have hne1 : legalCells s1 = [] := hl.trans hne
    have hfalse : (∃ r c : Int, isValidMove r c s1 = true) → False := by
      rintro ⟨r, c, hv⟩
      have := (mem_legalCells s1 (r, c)).2 hv
      rw [hne1] at this
      exact absurd this (List.not_mem_nil _)
    rw [getBestMove_none ord bot s1 hne1, getBestMove_none ord bot s2 hne,
      getBestMove_none ord bot2 s2 hne, getBestMove_none ord2 bot s2 hne]
    exact ⟨⟨rfl, rfl, rfl, rfl, rfl⟩, rfl, fun h => absurd h hfalse, rfl,
      fun _ => ⟨rfl, rfl⟩, fun h => absurd h hfalse⟩
  · have hne1 : legalCells s1 ≠ [] := by rw [hl]; exact hne
    have hnomove : (∀ r c : Int, isValidMove r c s1 = false) → False := by
      intro h
      obtain ⟨rc, hrc⟩ := List.exists_mem_of_ne_nil _ hne1
      have := (mem_legalCells s1 rc).1 hrc
      rw [h rc.1 rc.2] at this
      exact Bool.noConfusion this
    obtain ⟨r1, r2⟩ := rootRun_congr ord bot s2 s1 hb ht
    obtain ⟨a1, _, a3⟩ := getBestMove_bot ord bot s1 hne1
    obtain ⟨b1, _, b3⟩ := getBestMove_bot ord bot s2 hne
    obtain ⟨c1, _, c3⟩ := getBestMove_bot ord bot2 s2 hne
    obtain ⟨d1, _, _⟩ := getBestMove_bot ord2 bot s2 hne
    have hh := rootHeuristic_order ord2 ord bot s2 s1 hb ht hne
    obtain ⟨v1, v2⟩ := getBestMove_value ord bot s1 hne1
    obtain ⟨w1, w2⟩ := getBestMove_value ord2 bot s2 hne
    have hsucc : successor s2 (bot.getBestMove ord2 s2).1 =
        successor s1 (bot.getBestMove ord2 s2).1 :=
      (successor_congr s2 s1 _ hb ht w1).symm
    refine ⟨?_, ?_, ?_, ?_, fun h => absurd h hnomove, fun _ => ⟨builtRoot ord bot s1, ?_,
      v1, ?_, v2, ?_⟩⟩
    · rw [a1, b1, a3, b3]
      unfold builtRoot OthelloBot.getTreeSize SearchTree.getSize
      refine ⟨?_, ?_, ?_, ?_, ?_⟩ <;> simp only [Option.map_some', r1, r2]
    · rw [a3, c3, hrun, r1]
    · intro _
      rw [a1, c1]
      unfold builtRoot OthelloBot.getTreeSize SearchTree.getSize
      rw [hrun]
      refine ⟨?_, ?_, ?_, ?_⟩ <;> simp only [Option.map_some', r1, r2]
    · rw [a1, d1]
      simp only [Option.map_some', hh]
    · rw [a1]
    · rw [isValidMove_congr _ _ s2 s1 hb ht]; exact w1
    · rw [← hsucc, mmValue_order ord ord2, ht, w2, hh]

/-- The two states of the counterexample, visited in the two orders of the
counterexample, by a bot of depth 1: the root heuristic is the same. -/
theorem decision_same_order_witness :
    tiePosition.board = tieStale.board ∧ tiePosition.turn = tieStale.turn ∧
    ((OthelloBot.ofDepth 1).getBestMove (bucketOrder 13)
      tiePosition).2.1.m_searchTree.m_root.map (fun r => r.heuristic) =
    ((OthelloBot.ofDepth 1).getBestMove (bucketOrder 29)
      tieStale).2.1.m_searchTree.m_root.map (fun r => r.heuristic) :=
  ⟨rfl, rfl,
    (decision_same_order (bucketOrder 13) (bucketOrder 29) (OthelloBot.ofDepth 1)
      (OthelloBot.ofDepth 1) tiePosition tieStale rfl rfl rfl rfl).2.2.2.1⟩

end Board
